import Mathlib

/-!
Red-black tree engine of `ft` (stl_tree.h): a shallow embedding

The C++ code manipulates `Rb_tree_node_base` cells through raw pointers.  The
embedding keeps that shape: a memory gives every address the four members of its
cell, address `0` is the null pointer, and every function that dereferences a
pointer returns `none` when that pointer is null (undefined behaviour in C++).
Loops carry a fuel argument and return `none` when it runs out.
-/

namespace ft

/-! ## Data model (stl_tree.h, lines 31-70) -/

/-- The colour tag of a node: `enum Rb_tree_color`. -/
inductive Rb_tree_color where
  | S_red
  | S_black
  deriving DecidableEq, Repr

open Rb_tree_color

/-- A pointer to a node; `0` is the null pointer. -/
abbrev Base_ptr := Nat

/-- The cell `struct Rb_tree_node_base`. -/
structure Rb_tree_node_base where
  M_color : Rb_tree_color
  M_parent : Base_ptr
  M_left : Base_ptr
  M_right : Base_ptr
  deriving DecidableEq, Repr

/-- The memory, stored member by member: `m.M_left x` is the value of `x->M_left`, and
so on for the other three members of `Rb_tree_node_base`. -/
structure Mem where
  M_color : Base_ptr → Rb_tree_color
  M_parent : Base_ptr → Base_ptr
  M_left : Base_ptr → Base_ptr
  M_right : Base_ptr → Base_ptr

/-- The cell stored at address `x`. -/
def Mem.cell (m : Mem) (x : Base_ptr) : Rb_tree_node_base :=
  ⟨m.M_color x, m.M_parent x, m.M_left x, m.M_right x⟩

/-- Change a map at one address. -/
def upd {α : Type} (f : Base_ptr → α) (a : Base_ptr) (v : α) : Base_ptr → α :=
  fun b => if b = a then v else f b

/-- The memory after the store `x->M_color = c`. -/
def Mem.setColor (m : Mem) (x : Base_ptr) (c : Rb_tree_color) : Mem :=
  ⟨upd m.M_color x c, m.M_parent, m.M_left, m.M_right⟩

/-- The memory after the store `x->M_parent = v`. -/
def Mem.setParent (m : Mem) (x : Base_ptr) (v : Base_ptr) : Mem :=
  ⟨m.M_color, upd m.M_parent x v, m.M_left, m.M_right⟩

/-- The memory after the store `x->M_left = v`. -/
def Mem.setLeft (m : Mem) (x : Base_ptr) (v : Base_ptr) : Mem :=
  ⟨m.M_color, m.M_parent, upd m.M_left x v, m.M_right⟩

/-- The memory after the store `x->M_right = v`. -/
def Mem.setRight (m : Mem) (x : Base_ptr) (v : Base_ptr) : Mem :=
  ⟨m.M_color, m.M_parent, m.M_left, upd m.M_right x v⟩

/-- Read `x->M_color`; fails on the null pointer. -/
def get_color (m : Mem) (x : Base_ptr) : Option Rb_tree_color :=
  if x = 0 then none else some (m.M_color x)

/-- Read `x->M_parent`; fails on the null pointer. -/
def get_parent (m : Mem) (x : Base_ptr) : Option Base_ptr :=
  if x = 0 then none else some (m.M_parent x)

/-- Read `x->M_left`; fails on the null pointer. -/
def get_left (m : Mem) (x : Base_ptr) : Option Base_ptr :=
  if x = 0 then none else some (m.M_left x)

/-- Read `x->M_right`; fails on the null pointer. -/
def get_right (m : Mem) (x : Base_ptr) : Option Base_ptr :=
  if x = 0 then none else some (m.M_right x)

/-- Assignment `x->M_color = c`; fails on the null pointer. -/
def set_color (m : Mem) (x : Base_ptr) (c : Rb_tree_color) : Option Mem :=
  if x = 0 then none else some (m.setColor x c)

/-- Assignment `x->M_parent = v`; fails on the null pointer. -/
def set_parent (m : Mem) (x : Base_ptr) (v : Base_ptr) : Option Mem :=
  if x = 0 then none else some (m.setParent x v)

/-- Assignment `x->M_left = v`; fails on the null pointer. -/
def set_left (m : Mem) (x : Base_ptr) (v : Base_ptr) : Option Mem :=
  if x = 0 then none else some (m.setLeft x v)

/-- Assignment `x->M_right = v`; fails on the null pointer. -/
def set_right (m : Mem) (x : Base_ptr) (v : Base_ptr) : Option Mem :=
  if x = 0 then none else some (m.setRight x v)

/-- The loop of `S_minimum`: `while (x->M_left != 0) x = x->M_left; return x;`. -/
def S_minimum : Nat → Mem → Base_ptr → Option Base_ptr
  | 0, _, _ => none
  | fuel + 1, m, x => do
    let l ← get_left m x
    if l ≠ 0 then S_minimum fuel m l else some x

/-- The loop of `S_maximum`: `while (x->M_right != 0) x = x->M_right; return x;`. -/
def S_maximum : Nat → Mem → Base_ptr → Option Base_ptr
  | 0, _, _ => none
  | fuel + 1, m, x => do
    let r ← get_right m x
    if r ≠ 0 then S_maximum fuel m r else some x

/-! ## Traversal (stl_tree.h, lines 79-138) -/

/-- The ascent of `Rb_tree_increment`:
`while (x == y->M_right) { x = y; y = y->M_parent; }`, returning the final `(x, y)`. -/
def increment_climb : Nat → Mem → Base_ptr → Base_ptr → Option (Base_ptr × Base_ptr)
  | 0, _, _, _ => none
  | fuel + 1, m, x, y => do
    let yr ← get_right m y
    if x = yr then
      let yp ← get_parent m y
      increment_climb fuel m y yp
    else some (x, y)

/-- The function `Rb_tree_increment(x)`. -/
def Rb_tree_increment (fuel : Nat) (m : Mem) (x : Base_ptr) : Option Base_ptr := do
  let r ← get_right m x
  if r ≠ 0 then
    S_minimum fuel m r
  else
    let y ← get_parent m x
    let (x1, y1) ← increment_climb fuel m x y
    let x1r ← get_right m x1
    if x1r ≠ y1 then some y1 else some x1

/-- The ascent of `Rb_tree_decrement`:
`while (x == y->M_left) { x = y; y = y->M_parent; }`, returning the final `(x, y)`. -/
def decrement_climb : Nat → Mem → Base_ptr → Base_ptr → Option (Base_ptr × Base_ptr)
  | 0, _, _, _ => none
  | fuel + 1, m, x, y => do
    let yl ← get_left m y
    if x = yl then
      let yp ← get_parent m y
      decrement_climb fuel m y yp
    else some (x, y)

/-- The function `Rb_tree_decrement(x)`.  The first test is evaluated left to right
with short circuit, as `&&` does. -/
def Rb_tree_decrement (fuel : Nat) (m : Mem) (x : Base_ptr) : Option Base_ptr := do
  let c ← get_color m x
  let isHeader ←
    if c = S_red then do
      let xp ← get_parent m x
      let xpp ← get_parent m xp
      some (decide (xpp = x))
    else some false
  if isHeader then
    get_right m x
  else
    let l ← get_left m x
    if l ≠ 0 then
      S_maximum fuel m l
    else
      let y ← get_parent m x
      let (_, y1) ← decrement_climb fuel m x y
      some y1

/-! ## Rotations (stl_tree.h, lines 303-343)

The parameter `Rb_tree_node_base*& root` is in every call the field
`header.M_parent`; it is passed as the address `header` of the cell that holds it. -/

/-- The function `Rb_tree_rotate_left(x, root)` with `root` aliasing `header->M_parent`. -/
def Rb_tree_rotate_left (x header : Base_ptr) (m : Mem) : Option Mem := do
  let y ← get_right m x
  let yl ← get_left m y
  let m ← set_right m x yl
  let yl ← get_left m y
  let m ← if yl ≠ 0 then set_parent m yl x else some m
  let xp ← get_parent m x
  let m ← set_parent m y xp
  let root ← get_parent m header
  let m ←
    if x = root then set_parent m header y
    else do
      let xp ← get_parent m x
      let xpl ← get_left m xp
      if x = xpl then set_left m xp y else set_right m xp y
  let m ← set_left m y x
  set_parent m x y

/-- The function `Rb_tree_rotate_right(x, root)` with `root` aliasing `header->M_parent`. -/
def Rb_tree_rotate_right (x header : Base_ptr) (m : Mem) : Option Mem := do
  let y ← get_left m x
  let yr ← get_right m y
  let m ← set_left m x yr
  let yr ← get_right m y
  let m ← if yr ≠ 0 then set_parent m yr x else some m
  let xp ← get_parent m x
  let m ← set_parent m y xp
  let root ← get_parent m header
  let m ←
    if x = root then set_parent m header y
    else do
      let xp ← get_parent m x
      let xpr ← get_right m xp
      if x = xpr then set_right m xp y else set_left m xp y
  let m ← set_right m y x
  set_parent m x y

/-! ## Insertion (stl_tree.h, lines 345-436) -/

/-- The test `y && y->M_color == S_red`. -/
def is_red (m : Mem) (y : Base_ptr) : Bool :=
  if y = 0 then false else decide ((m.M_color y) = S_red)

/-- One pass through the body of the rebalancing loop of
`Rb_tree_insert_and_rebalance`; returns the new `x` and the new memory. -/
def insert_rebalance_body (x header : Base_ptr) (m : Mem) : Option (Base_ptr × Mem) := do
  let xp ← get_parent m x
  let xpp ← get_parent m xp
  let xppl ← get_left m xpp
  if xp = xppl then
    let y ← get_right m xpp
    if is_red m y then
      let xp ← get_parent m x
      let m ← set_color m xp S_black
      let m ← set_color m y S_black
      let m ← set_color m xpp S_red
      some (xpp, m)
    else
      let xp ← get_parent m x
      let xpr ← get_right m xp
      let (x, m) ←
        if x = xpr then do
          let m ← Rb_tree_rotate_left xp header m
          some (xp, m)
        else some (x, m)
      let xp ← get_parent m x
      let m ← set_color m xp S_black
      let m ← set_color m xpp S_red
      let m ← Rb_tree_rotate_right xpp header m
      some (x, m)
  else
    let y ← get_left m xpp
    if is_red m y then
      let xp ← get_parent m x
      let m ← set_color m xp S_black
      let m ← set_color m y S_black
      let m ← set_color m xpp S_red
      some (xpp, m)
    else
      let xp ← get_parent m x
      let xpl ← get_left m xp
      let (x, m) ←
        if x = xpl then do
          let m ← Rb_tree_rotate_right xp header m
          some (xp, m)
        else some (x, m)
      let xp ← get_parent m x
      let m ← set_color m xp S_black
      let m ← set_color m xpp S_red
      let m ← Rb_tree_rotate_left xpp header m
      some (x, m)

/-- The rebalancing loop `while (x != root && x->M_parent->M_color == S_red)`. -/
def insert_rebalance_loop : Nat → Base_ptr → Base_ptr → Mem → Option Mem
  | 0, _, _, _ => none
  | fuel + 1, x, header, m => do
    let root ← get_parent m header
    if x = root then some m
    else
      let xp ← get_parent m x
      let c ← get_color m xp
      if c = S_red then
        let (x1, m1) ← insert_rebalance_body x header m
        insert_rebalance_loop fuel x1 header m1
      else some m

/-- The linking part of `Rb_tree_insert_and_rebalance` (lines 353-381): initialise the
new node and hang it under `p`, maintaining root, leftmost and rightmost. -/
def insert_link (insert_left : Bool) (x p header : Base_ptr) (m : Mem) : Option Mem := do
  let m ← set_parent m x p
  let m ← set_left m x 0
  let m ← set_right m x 0
  let m ← set_color m x S_red
  if insert_left then
    let m ← set_left m p x
    if p = header then
      let m ← set_parent m header x
      set_right m header x
    else
      let hl ← get_left m header
      if p = hl then set_left m header x else some m
  else
    let m ← set_right m p x
    let hr ← get_right m header
    if p = hr then set_right m header x else some m

/-- The function `Rb_tree_insert_and_rebalance(insert_left, x, p, header)`. -/
def Rb_tree_insert_and_rebalance (fuel : Nat) (insert_left : Bool)
    (x p header : Base_ptr) (m : Mem) : Option Mem := do
  let m ← insert_link insert_left x p header m
  let m ← insert_rebalance_loop fuel x header m
  let root ← get_parent m header
  set_color m root S_black

/-! ## Erasure (stl_tree.h, lines 438-611) -/

/-- The test `p == 0 || p->M_color == S_black`. -/
def black_or_null (m : Mem) (p : Base_ptr) : Bool :=
  if p = 0 then true else decide ((m.M_color p) = S_black)

/-- Lines 445-463 of `Rb_tree_rebalance_for_erase`: choose the node `y` that is spliced
out of its position (`z` itself, or the successor of `z` when `z` has two children)
and its only possible child `x`.  The inner loop is the loop of `S_minimum`. -/
def erase_select (fuel : Nat) (z : Base_ptr) (m : Mem) : Option (Base_ptr × Base_ptr) := do
  let zl ← get_left m z
  if zl = 0 then
    let zr ← get_right m z
    some (z, zr)
  else
    let zr ← get_right m z
    if zr = 0 then
      let zl ← get_left m z
      some (z, zl)
    else
      let y ← S_minimum fuel m zr
      let yr ← get_right m y
      some (y, yr)

/-- The statement `if (root == z) root = v; else if (z->M_parent->M_left == z)
z->M_parent->M_left = v; else z->M_parent->M_right = v;` (lines 481-486, 499-507). -/
def erase_replace_child (z v header : Base_ptr) (m : Mem) : Option Mem := do
  let root ← get_parent m header
  if root = z then set_parent m header v
  else
    let zp ← get_parent m z
    let zpl ← get_left m zp
    if zpl = z then set_left m zp v else set_right m zp v

/-- Lines 467-489, the branch `y != z`: relink the successor `y` in place of `z` and
swap their colours.  Returns `x_parent` and the memory. -/
def erase_relink (z y x header : Base_ptr) (m : Mem) : Option (Base_ptr × Mem) := do
  let zl ← get_left m z
  let m ← set_parent m zl y
  let zl ← get_left m z
  let m ← set_left m y zl
  let zr ← get_right m z
  let (x_parent, m) ←
    if y ≠ zr then do
      let x_parent ← get_parent m y
      let m ←
        if x ≠ 0 then do
          let yp ← get_parent m y
          set_parent m x yp
        else some m
      let yp ← get_parent m y
      let m ← set_left m yp x
      let zr ← get_right m z
      let m ← set_right m y zr
      let zr ← get_right m z
      let m ← set_parent m zr y
      some (x_parent, m)
    else some (y, m)
  let m ← erase_replace_child z y header m
  let zp ← get_parent m z
  let m ← set_parent m y zp
  let yc ← get_color m y
  let zc ← get_color m z
  let m ← set_color m y zc
  let m ← set_color m z yc
  some (x_parent, m)

/-- Lines 509-515: `if (leftmost == z) ...`. -/
def erase_fix_leftmost (fuel : Nat) (z x header : Base_ptr) (m : Mem) : Option Mem := do
  let leftmost ← get_left m header
  if leftmost = z then
    let zr ← get_right m z
    if zr = 0 then
      let zp ← get_parent m z
      set_left m header zp
    else
      let mn ← S_minimum fuel m x
      set_left m header mn
  else some m

/-- Lines 517-523: `if (rightmost == z) ...`. -/
def erase_fix_rightmost (fuel : Nat) (z x header : Base_ptr) (m : Mem) : Option Mem := do
  let rightmost ← get_right m header
  if rightmost = z then
    let zl ← get_left m z
    if zl = 0 then
      let zp ← get_parent m z
      set_right m header zp
    else
      let mx ← S_maximum fuel m x
      set_right m header mx
  else some m

/-- Lines 494-523, the branch `y == z`: splice `z` out, putting its child `x` in its
place, and maintain leftmost and rightmost.  Returns `x_parent` and the memory. -/
def erase_splice (fuel : Nat) (z x header : Base_ptr) (m : Mem) :
    Option (Base_ptr × Mem) := do
  let x_parent ← get_parent m z
  let m ←
    if x ≠ 0 then do
      let yp ← get_parent m z
      set_parent m x yp
    else some m
  let m ← erase_replace_child z x header m
  let m ← erase_fix_leftmost fuel z x header m
  let m ← erase_fix_rightmost fuel z x header m
  some (x_parent, m)

/-- The relinking part of `Rb_tree_rebalance_for_erase` (lines 445-524).  Returns the
locals `(y, x, x_parent)` as they stand at line 526, and the memory. -/
def erase_unlink (fuel : Nat) (z header : Base_ptr) (m : Mem) :
    Option (Base_ptr × Base_ptr × Base_ptr × Mem) := do
  let (y, x) ← erase_select fuel z m
  if y ≠ z then
    let (x_parent, m) ← erase_relink z y x header m
    some (z, x, x_parent, m)
  else
    let (x_parent, m) ← erase_splice fuel z x header m
    some (y, x, x_parent, m)

/-- Case 1 of the erase loop when `x` is the left child (lines 533-539); returns the
new sibling `w` and the memory. -/
def erase_case1_left (w x_parent header : Base_ptr) (m : Mem) : Option (Base_ptr × Mem) := do
  let wc ← get_color m w
  if wc = S_red then
    let m ← set_color m w S_black
    let m ← set_color m x_parent S_red
    let m ← Rb_tree_rotate_left x_parent header m
    let w ← get_right m x_parent
    some (w, m)
  else some (w, m)

/-- Case 1 of the erase loop when `x` is the right child (lines 572-578). -/
def erase_case1_right (w x_parent header : Base_ptr) (m : Mem) : Option (Base_ptr × Mem) := do
  let wc ← get_color m w
  if wc = S_red then
    let m ← set_color m w S_black
    let m ← set_color m x_parent S_red
    let m ← Rb_tree_rotate_right x_parent header m
    let w ← get_left m x_parent
    some (w, m)
  else some (w, m)

/-- Case 2 of the erase loop (lines 546-548 and 585-587): `w->M_color = S_red;
x = x_parent; x_parent = x->M_parent->M_parent`, as the source has it. -/
def erase_case2 (w x_parent : Base_ptr) (m : Mem) : Option (Base_ptr × Base_ptr × Mem) := do
  let m ← set_color m w S_red
  let x := x_parent
  let xp ← get_parent m x
  let xpp ← get_parent m xp
  some (x, xpp, m)

/-- Cases 3 and 4 of the erase loop when `x` is the left child (lines 552-565). -/
def erase_case34_left (w x_parent header : Base_ptr) (m : Mem) : Option Mem := do
  let wr ← get_right m w
  let (w, m) ←
    if black_or_null m wr then do
      let wl ← get_left m w
      let m ← set_color m wl S_black
      let m ← set_color m w S_red
      let m ← Rb_tree_rotate_right w header m
      let w ← get_right m x_parent
      some (w, m)
    else some (w, m)
  let xpc ← get_color m x_parent
  let m ← set_color m w xpc
  let m ← set_color m x_parent S_black
  let wr ← get_right m w
  let m ← if wr ≠ 0 then set_color m wr S_black else some m
  Rb_tree_rotate_left x_parent header m

/-- Cases 3 and 4 of the erase loop when `x` is the right child (lines 591-604). -/
def erase_case34_right (w x_parent header : Base_ptr) (m : Mem) : Option Mem := do
  let wl ← get_left m w
  let (w, m) ←
    if black_or_null m wl then do
      let wr ← get_right m w
      let m ← set_color m wr S_black
      let m ← set_color m w S_red
      let m ← Rb_tree_rotate_left w header m
      let w ← get_left m x_parent
      some (w, m)
    else some (w, m)
  let xpc ← get_color m x_parent
  let m ← set_color m w xpc
  let m ← set_color m x_parent S_black
  let wl ← get_left m w
  let m ← if wl ≠ 0 then set_color m wl S_black else some m
  Rb_tree_rotate_right x_parent header m

/-- One pass through the body of the rebalancing loop of `Rb_tree_rebalance_for_erase`
(lines 530-606).  The flag is `true` when the pass ends in `break`. -/
def erase_rebalance_body (x x_parent header : Base_ptr) (m : Mem) :
    Option (Bool × Base_ptr × Base_ptr × Mem) := do
  let xpl ← get_left m x_parent
  if x = xpl then
    let w ← get_right m x_parent
    let (w, m) ← erase_case1_left w x_parent header m
    let wl ← get_left m w
    let wr ← get_right m w
    if black_or_null m wl && black_or_null m wr then
      let (x, x_parent, m) ← erase_case2 w x_parent m
      some (false, x, x_parent, m)
    else
      let m ← erase_case34_left w x_parent header m
      some (true, x, x_parent, m)
  else
    let w ← get_left m x_parent
    let (w, m) ← erase_case1_right w x_parent header m
    let wr ← get_right m w
    let wl ← get_left m w
    if black_or_null m wr && black_or_null m wl then
      let (x, x_parent, m) ← erase_case2 w x_parent m
      some (false, x, x_parent, m)
    else
      let m ← erase_case34_right w x_parent header m
      some (true, x, x_parent, m)

/-- The loop `while (x != root && (x == 0 || x->M_color == S_black))` of
`Rb_tree_rebalance_for_erase`; returns the final `x` and the memory. -/
def erase_rebalance_loop : Nat → Base_ptr → Base_ptr → Base_ptr → Mem →
    Option (Base_ptr × Mem)
  | 0, _, _, _, _ => none
  | fuel + 1, x, x_parent, header, m => do
    let root ← get_parent m header
    if x ≠ root ∧ black_or_null m x = true then
      let (brk, x1, xp1, m1) ← erase_rebalance_body x x_parent header m
      if brk then some (x1, m1) else erase_rebalance_loop fuel x1 xp1 header m1
    else some (x, m)

/-- The function `Rb_tree_rebalance_for_erase(z, header)`; returns the pointer the C++
function returns together with the memory it leaves. -/
def Rb_tree_rebalance_for_erase (fuel : Nat) (z header : Base_ptr) (m : Mem) :
    Option (Base_ptr × Mem) := do
  let (y, x, x_parent, m) ← erase_unlink fuel z header m
  let yc ← get_color m y
  if yc ≠ S_red then
    let (x, m) ← erase_rebalance_loop fuel x x_parent header m
    let m ← if x ≠ 0 then set_color m x S_black else some m
    some (y, m)
  else some (y, m)

/-! ## The abstract shape of a memory: binary trees of addresses -/

/-- A binary tree whose nodes carry an address and a colour. -/
inductive Tree where
  | nil
  | node (c : Rb_tree_color) (l : Tree) (a : Base_ptr) (r : Tree)
  deriving DecidableEq, Repr

namespace Tree

/-- The in-order sequence of the addresses of a tree. -/
def inorder : Tree → List Base_ptr
  | nil => []
  | node _ l a r => inorder l ++ a :: inorder r

/-- The colour of the root; an absent tree counts as black. -/
def rootColor : Tree → Rb_tree_color
  | nil => S_black
  | node c _ _ _ => c

/-- No red node has a red child. -/
def noRedRed : Tree → Prop
  | nil => True
  | node c l _ r =>
    (c = S_red → l.rootColor = S_black ∧ r.rootColor = S_black) ∧ l.noRedRed ∧ r.noRedRed

/-- The number of black nodes on the leftmost path down to an absent link. -/
def blackHeight : Tree → Nat
  | nil => 0
  | node c l _ _ => (if c = S_black then 1 else 0) + l.blackHeight

/-- Every path from any node down to an absent link passes the same number of black
nodes: at each node both subtrees have the same black height. -/
def balanced : Tree → Prop
  | nil => True
  | node _ l _ r => l.blackHeight = r.blackHeight ∧ l.balanced ∧ r.balanced

instance decNoRedRed : (t : Tree) → Decidable t.noRedRed
  | nil => isTrue trivial
  | node c l _ r =>
    have := decNoRedRed l
    have := decNoRedRed r
    inferInstanceAs (Decidable ((c = S_red → l.rootColor = S_black ∧ r.rootColor = S_black)
      ∧ l.noRedRed ∧ r.noRedRed))

instance decBalanced : (t : Tree) → Decidable t.balanced
  | nil => isTrue trivial
  | node _ l _ r =>
    have := decBalanced l
    have := decBalanced r
    inferInstanceAs (Decidable (l.blackHeight = r.blackHeight ∧ l.balanced ∧ r.balanced))

/-- The three red-black invariants: the root is black, no red node has a red child,
and the black count is uniform. -/
def IsRB (t : Tree) : Prop :=
  t.rootColor = S_black ∧ t.noRedRed ∧ t.balanced

instance decIsRB (t : Tree) : Decidable t.IsRB :=
  inferInstanceAs (Decidable (_ ∧ _ ∧ _))

end Tree

open Tree

/-- The memory `m` holds the tree `t` at address `p` below the parent `par`: every
node's cell has the colour of the tree, its parent link points to the node above, and
its child links point to the roots of its subtrees (`0` for an absent subtree). -/
def Rep (m : Mem) : Tree → Base_ptr → Base_ptr → Prop
  | Tree.nil, p, _ => p = 0
  | Tree.node c l a r, p, par =>
    p = a ∧ a ≠ 0 ∧ (m.M_color a) = c ∧ (m.M_parent a) = par ∧
      Rep m l (m.M_left a) a ∧ Rep m r (m.M_right a) a

instance decRep (m : Mem) : (t : Tree) → (p par : Base_ptr) → Decidable (Rep m t p par)
  | Tree.nil, p, _ => inferInstanceAs (Decidable (p = 0))
  | Tree.node c l a r, p, par =>
    have := decRep m l (m.M_left a) a
    have := decRep m r (m.M_right a) a
    inferInstanceAs (Decidable (p = a ∧ a ≠ 0 ∧ (m.M_color a) = c ∧ (m.M_parent a) = par ∧
      Rep m l (m.M_left a) a ∧ Rep m r (m.M_right a) a))

/-- The tree `t` hangs below the header `h`: the header's parent link is the root, the
root's parent link is the header, all links are consistent, and no address occurs
twice (so the links are acyclic). -/
def Linked (m : Mem) (h : Base_ptr) (t : Tree) : Prop :=
  h ≠ 0 ∧ Rep m t (m.M_parent h) h ∧ (h :: t.inorder).Nodup

instance decLinked (m : Mem) (h : Base_ptr) (t : Tree) : Decidable (Linked m h t) :=
  inferInstanceAs (Decidable (_ ∧ _ ∧ _))

/-- Read the tree below address `p` off the memory, going at most `fuel` levels down. -/
def readTree : Nat → Mem → Base_ptr → Option Tree
  | 0, _, _ => none
  | fuel + 1, m, p =>
    if p = 0 then some Tree.nil
    else do
      let l ← readTree fuel m (m.M_left p)
      let r ← readTree fuel m (m.M_right p)
      some (Tree.node (m.M_color p) l p r)

/-! ## Contexts: a tree with one subtree cut out -/

/-- The path from a hole up to the root, innermost frame first.  `inL c a r up` says the
hole is the left child of node `a` (colour `c`, right subtree `r`); `inR c l a up` says
it is the right child of `a` (left subtree `l`); `top` says the hole is the root. -/
inductive Ctx where
  | top
  | inL (c : Rb_tree_color) (a : Base_ptr) (r : Tree) (up : Ctx)
  | inR (c : Rb_tree_color) (l : Tree) (a : Base_ptr) (up : Ctx)
  deriving DecidableEq, Repr

namespace Ctx

/-- Fill the hole of a context with a tree. -/
def plug : Ctx → Tree → Tree
  | top, t => t
  | inL c a r up, t => up.plug (Tree.node c t a r)
  | inR c l a up, t => up.plug (Tree.node c l a t)

/-- The addresses of a context that come before the hole in in-order. -/
def before : Ctx → List Base_ptr
  | top => []
  | inL _ _ _ up => up.before
  | inR _ l a up => up.before ++ (l.inorder ++ [a])

/-- The addresses of a context that come after the hole in in-order. -/
def after : Ctx → List Base_ptr
  | top => []
  | inL _ a r up => (a :: r.inorder) ++ up.after
  | inR _ _ _ up => up.after

/-- The number of frames of a context. -/
def depth : Ctx → Nat
  | top => 0
  | inL _ _ _ up => up.depth + 1
  | inR _ _ _ up => up.depth + 1

/-- The colour of the node right above the hole; above the root sits the header,
which is red. -/
def color : Ctx → Rb_tree_color
  | top => S_red
  | inL c _ _ _ => c
  | inR c _ _ _ => c

end Ctx

/-- The memory `m` holds the context `C` above a hole whose pointer is `x` and whose
parent is `par`, under the header `h`. -/
def RepCtx (m : Mem) (h : Base_ptr) : Ctx → Base_ptr → Base_ptr → Prop
  | Ctx.top, x, par => par = h ∧ (m.M_parent h) = x
  | Ctx.inL c a r up, x, par =>
    par = a ∧ a ≠ 0 ∧ (m.M_color a) = c ∧ (m.M_left a) = x ∧
      Rep m r (m.M_right a) a ∧ RepCtx m h up a (m.M_parent a)
  | Ctx.inR c l a up, x, par =>
    par = a ∧ a ≠ 0 ∧ (m.M_color a) = c ∧ (m.M_right a) = x ∧
      Rep m l (m.M_left a) a ∧ RepCtx m h up a (m.M_parent a)

/-- The memory holds the tree `C.plug s` under the header `h`, and the subtree `s` sits
at pointer `x` below the parent `par`. -/
def Focus (m : Mem) (h : Base_ptr) (C : Ctx) (s : Tree) (x par : Base_ptr) : Prop :=
  h ≠ 0 ∧ RepCtx m h C x par ∧ Rep m s x par ∧
    (h :: (C.before ++ s.inorder ++ C.after)).Nodup

/-! ## The red-black invariants of a context -/

/-- The invariants of a context whose hole takes a subtree of black height `n`: every
sibling subtree is well coloured and balanced with the black height its position
requires, and a red frame has a black sibling and a black node above it (so a red
frame is never the root). -/
def CtxOK : Ctx → Nat → Prop
  | Ctx.top, _ => True
  | Ctx.inL c _ r up, n =>
    r.noRedRed ∧ r.balanced ∧ r.blackHeight = n ∧
      (c = S_red → r.rootColor = S_black ∧ up.color = S_black) ∧
      CtxOK up ((if c = S_black then 1 else 0) + n)
  | Ctx.inR c l _ up, n =>
    l.noRedRed ∧ l.balanced ∧ l.blackHeight = n ∧
      (c = S_red → l.rootColor = S_black ∧ up.color = S_black) ∧
      CtxOK up ((if c = S_black then 1 else 0) + n)

/-- The tree with its root coloured black. -/
def Tree.blacken : Tree → Tree
  | Tree.nil => Tree.nil
  | Tree.node _ l a r => Tree.node S_black l a r

/-! ## The insertion loop on contexts

What one pass of the rebalancing loop of `Rb_tree_insert_and_rebalance` does to the
shape of the tree, read off the code: `s` is the subtree at `x`, the first frame of
the context is `x->M_parent`, the second is `xpp`. -/

/-- One pass of the insertion loop, on the shape. -/
def insStep : Ctx → Tree → Ctx × Tree
  | Ctx.inL _ p sib (Ctx.inL _ g (Tree.node S_red ul u ur) U), s =>
    (U, Tree.node S_red (Tree.node S_black s p sib) g (Tree.node S_black ul u ur))
  | Ctx.inR _ sib p (Ctx.inL _ g (Tree.node S_red ul u ur) U), s =>
    (U, Tree.node S_red (Tree.node S_black sib p s) g (Tree.node S_black ul u ur))
  | Ctx.inL _ p sib (Ctx.inL _ g unc U), s =>
    (Ctx.inL S_black p (Tree.node S_red sib g unc) U, s)
  | Ctx.inR cp sib p (Ctx.inL _ g unc U), Tree.node _ l x r =>
    (Ctx.inL S_black x (Tree.node S_red r g unc) U, Tree.node cp sib p l)
  | Ctx.inR _ sib p (Ctx.inR _ (Tree.node S_red ul u ur) g U), s =>
    (U, Tree.node S_red (Tree.node S_black ul u ur) g (Tree.node S_black sib p s))
  | Ctx.inL _ p sib (Ctx.inR _ (Tree.node S_red ul u ur) g U), s =>
    (U, Tree.node S_red (Tree.node S_black ul u ur) g (Tree.node S_black s p sib))
  | Ctx.inR _ sib p (Ctx.inR _ unc g U), s =>
    (Ctx.inR S_black (Tree.node S_red unc g sib) p U, s)
  | Ctx.inL cp p sib (Ctx.inR _ unc g U), Tree.node _ l x r =>
    (Ctx.inR S_black (Tree.node S_red unc g l) x U, Tree.node cp r p sib)
  | C, s => (C, s)

/-- The loop invariant of the insertion loop on shapes: the subtree at `x` has a red
root and is well coloured and balanced, and the context accepts its black height.  The
only invariant that may fail is that the red root has a red parent. -/
def InsInv (C : Ctx) (s : Tree) : Prop :=
  s.rootColor = S_red ∧ s ≠ Tree.nil ∧ CtxOK C s.blackHeight ∧ s.noRedRed ∧ s.balanced

/-! ## Preconditions and expected results of the insertion -/

/-- A valid attach position: a node `p` of the tree whose left slot is empty when
`insert_left` is true, or whose right slot is empty when it is false; or the header,
with `insert_left` true, when the tree is empty. -/
def AttachPos (m : Mem) (h : Base_ptr) (t : Tree) (insert_left : Bool) (p : Base_ptr) : Prop :=
  (p ∈ t.inorder ∧ (if insert_left = true then m.M_left p = 0 else m.M_right p = 0)) ∨
    (p = h ∧ insert_left = true ∧ t = Tree.nil)

/-- A fresh node: not null, not the header, not a node of the tree. -/
def Fresh (h : Base_ptr) (t : Tree) (x : Base_ptr) : Prop :=
  x ≠ 0 ∧ x ≠ h ∧ x ∉ t.inorder

/-- The list with `x` put immediately before the first occurrence of `p`. -/
def insertBefore (x p : Base_ptr) : List Base_ptr → List Base_ptr
  | [] => []
  | a :: rest => if a = p then x :: a :: rest else a :: insertBefore x p rest

/-- The list with `x` put immediately after the first occurrence of `p`. -/
def insertAfter (x p : Base_ptr) : List Base_ptr → List Base_ptr
  | [] => []
  | a :: rest => if a = p then a :: x :: rest else a :: insertAfter x p rest

/-- The in-order sequence expected after attaching `x` at `p`: `x` alone when `p` is
the header, otherwise `x` right before `p` (left attach) or right after `p`. -/
def attached (insert_left : Bool) (x p h : Base_ptr) (L : List Base_ptr) : List Base_ptr :=
  if p = h then [x]
  else if insert_left = true then insertBefore x p L else insertAfter x p L

/-- The header caches are correct for the in-order sequence `L`: `header.M_left` is its
first and `header.M_right` its last element, and both are the header when `L` is
empty. -/
def CachesOK (m : Mem) (h : Base_ptr) (L : List Base_ptr) : Prop :=
  m.M_left h = L.head?.getD h ∧ m.M_right h = L.getLast?.getD h

/-- The address of the root of a tree; `0` for the empty tree. -/
def Tree.rootPtr : Tree → Base_ptr
  | Tree.nil => 0
  | Tree.node _ _ a _ => a

/-! ## Concrete memories -/

/-- The memory given by a finite table of cells; every other address holds a red cell
with null links. -/
def Mem.ofList (cells : List (Base_ptr × Rb_tree_node_base)) : Mem :=
  ⟨fun p => ((cells.lookup p).map Rb_tree_node_base.M_color).getD S_red,
   fun p => ((cells.lookup p).map Rb_tree_node_base.M_parent).getD 0,
   fun p => ((cells.lookup p).map Rb_tree_node_base.M_left).getD 0,
   fun p => ((cells.lookup p).map Rb_tree_node_base.M_right).getD 0⟩

/-- Header at address 100 over the tree 10(black) with red children 5 and 15. -/
def memThree : Mem :=
  Mem.ofList [(100, ⟨S_red, 10, 5, 15⟩), (10, ⟨S_black, 100, 5, 15⟩),
    (5, ⟨S_red, 10, 0, 0⟩), (15, ⟨S_red, 10, 0, 0⟩)]

/-- The tree held by `memThree`. -/
def treeThree : Tree :=
  Tree.node S_black (Tree.node S_red Tree.nil 5 Tree.nil) 10 (Tree.node S_red Tree.nil 15 Tree.nil)

/-- Header at address 100 over the tree left by inserting the keys 10, 5, 15, 3 (each
node at the address equal to its key): 10(black) over 5(black, left child 3 red) and
15(black). -/
def memFour : Mem :=
  Mem.ofList [(100, ⟨S_red, 10, 3, 15⟩), (10, ⟨S_black, 100, 5, 15⟩),
    (5, ⟨S_black, 10, 3, 0⟩), (15, ⟨S_black, 10, 0, 0⟩), (3, ⟨S_red, 5, 0, 0⟩)]

/-- The tree held by `memFour`. -/
def treeFour : Tree :=
  Tree.node S_black (Tree.node S_black (Tree.node S_red Tree.nil 3 Tree.nil) 5 Tree.nil) 10
    (Tree.node S_black Tree.nil 15 Tree.nil)

/-- Header at address 100 over the tree left by inserting the keys 10, 5, 15, 3, 7:
10(black) over 5(black, red children 3 and 7) and 15(black). -/
def memFive : Mem :=
  Mem.ofList [(100, ⟨S_red, 10, 3, 15⟩), (10, ⟨S_black, 100, 5, 15⟩),
    (5, ⟨S_black, 10, 3, 7⟩), (15, ⟨S_black, 10, 0, 0⟩), (3, ⟨S_red, 5, 0, 0⟩),
    (7, ⟨S_red, 5, 0, 0⟩)]

/-- The tree held by `memFive`. -/
def treeFive : Tree :=
  Tree.node S_black
    (Tree.node S_black (Tree.node S_red Tree.nil 3 Tree.nil) 5 (Tree.node S_red Tree.nil 7 Tree.nil))
    10 (Tree.node S_black Tree.nil 15 Tree.nil)

/-! ## Walking with an iterator -/

/-- The nodes visited by starting at `x` and applying the step `f` exactly `n` times:
`x`, `f x`, ..., `f^n x`. -/
def walk (f : Base_ptr → Option Base_ptr) : Nat → Base_ptr → Option (List Base_ptr)
  | 0, x => some [x]
  | n + 1, x => do
    let y ← f x
    let rest ← walk f n y
    some (x :: rest)

/-! ## Trees built by insertion on which the erasure goes wrong

Each memory below is the state left by `Rb_tree_insert_and_rebalance` after the keys
listed were inserted one by one at their search positions into an empty tree with the
header at address 100; the node of key `k` is at address `k`. -/

/-- After inserting 10, 9, 8, 7, 6, 5, 4, 2, 1, 3. -/
def memA : Mem :=
  Mem.ofList [(100, ⟨S_red, 7, 1, 10⟩), (1, ⟨S_black, 2, 0, 0⟩), (2, ⟨S_red, 5, 1, 4⟩),
    (3, ⟨S_red, 4, 0, 0⟩), (4, ⟨S_black, 2, 3, 0⟩), (5, ⟨S_black, 7, 2, 6⟩),
    (6, ⟨S_black, 5, 0, 0⟩), (7, ⟨S_black, 100, 5, 9⟩), (8, ⟨S_black, 9, 0, 0⟩),
    (9, ⟨S_black, 7, 8, 10⟩), (10, ⟨S_black, 9, 0, 0⟩)]

/-- The tree held by `memA`. -/
def treeA : Tree :=
  Tree.node S_black
    (Tree.node S_black
      (Tree.node S_red (Tree.node S_black Tree.nil 1 Tree.nil) 2
        (Tree.node S_black (Tree.node S_red Tree.nil 3 Tree.nil) 4 Tree.nil))
      5 (Tree.node S_black Tree.nil 6 Tree.nil))
    7
    (Tree.node S_black (Tree.node S_black Tree.nil 8 Tree.nil) 9
      (Tree.node S_black Tree.nil 10 Tree.nil))

/-- The shape that `Rb_tree_rebalance_for_erase(7)` leaves from `memA`: node 1 is red
below the red node 2, and node 10 is red below the black node 9 whose left slot is
empty. -/
def treeA_erased : Tree :=
  Tree.node S_black
    (Tree.node S_black
      (Tree.node S_red (Tree.node S_red Tree.nil 1 Tree.nil) 2
        (Tree.node S_black (Tree.node S_red Tree.nil 3 Tree.nil) 4 Tree.nil))
      5 (Tree.node S_black Tree.nil 6 Tree.nil))
    8
    (Tree.node S_black Tree.nil 9 (Tree.node S_red Tree.nil 10 Tree.nil))

/-- After inserting 1, 2, 3, 4, 5, 6, 7, 8, 9, 10 in ascending order. -/
def memB : Mem :=
  Mem.ofList [(100, ⟨S_red, 4, 1, 10⟩), (1, ⟨S_black, 2, 0, 0⟩), (2, ⟨S_black, 4, 1, 3⟩),
    (3, ⟨S_black, 2, 0, 0⟩), (4, ⟨S_black, 100, 2, 6⟩), (5, ⟨S_black, 6, 0, 0⟩),
    (6, ⟨S_black, 4, 5, 8⟩), (7, ⟨S_black, 8, 0, 0⟩), (8, ⟨S_red, 6, 7, 9⟩),
    (9, ⟨S_black, 8, 0, 10⟩), (10, ⟨S_red, 9, 0, 0⟩)]

/-- The tree held by `memB`. -/
def treeB : Tree :=
  Tree.node S_black
    (Tree.node S_black (Tree.node S_black Tree.nil 1 Tree.nil) 2
      (Tree.node S_black Tree.nil 3 Tree.nil))
    4
    (Tree.node S_black (Tree.node S_black Tree.nil 5 Tree.nil) 6
      (Tree.node S_red (Tree.node S_black Tree.nil 7 Tree.nil) 8
        (Tree.node S_black Tree.nil 9 (Tree.node S_red Tree.nil 10 Tree.nil))))

/-- After inserting 10, 9, 8, 7, 6, 5, 4, 3, 1, 2. -/
def memC : Mem :=
  Mem.ofList [(100, ⟨S_red, 7, 1, 10⟩), (1, ⟨S_black, 3, 0, 2⟩), (2, ⟨S_red, 1, 0, 0⟩),
    (3, ⟨S_red, 5, 1, 4⟩), (4, ⟨S_black, 3, 0, 0⟩), (5, ⟨S_black, 7, 3, 6⟩),
    (6, ⟨S_black, 5, 0, 0⟩), (7, ⟨S_black, 100, 5, 9⟩), (8, ⟨S_black, 9, 0, 0⟩),
    (9, ⟨S_black, 7, 8, 10⟩), (10, ⟨S_black, 9, 0, 0⟩)]

/-- The tree held by `memC`. -/
def treeC : Tree :=
  Tree.node S_black
    (Tree.node S_black
      (Tree.node S_red (Tree.node S_black Tree.nil 1 (Tree.node S_red Tree.nil 2 Tree.nil)) 3
        (Tree.node S_black Tree.nil 4 Tree.nil))
      5 (Tree.node S_black Tree.nil 6 Tree.nil))
    7
    (Tree.node S_black (Tree.node S_black Tree.nil 8 Tree.nil) 9
      (Tree.node S_black Tree.nil 10 Tree.nil))

/-- After inserting 10, 2, 1, 4, 3, 6, 5, 8, 7, 9. -/
def memD : Mem :=
  Mem.ofList [(100, ⟨S_red, 4, 1, 10⟩), (1, ⟨S_black, 2, 0, 0⟩), (2, ⟨S_black, 4, 1, 3⟩),
    (3, ⟨S_black, 2, 0, 0⟩), (4, ⟨S_black, 100, 2, 6⟩), (5, ⟨S_black, 6, 0, 0⟩),
    (6, ⟨S_black, 4, 5, 8⟩), (7, ⟨S_black, 8, 0, 0⟩), (8, ⟨S_red, 6, 7, 10⟩),
    (9, ⟨S_red, 10, 0, 0⟩), (10, ⟨S_black, 8, 9, 0⟩)]

/-- The tree held by `memD`. -/
def treeD : Tree :=
  Tree.node S_black
    (Tree.node S_black (Tree.node S_black Tree.nil 1 Tree.nil) 2
      (Tree.node S_black Tree.nil 3 Tree.nil))
    4
    (Tree.node S_black (Tree.node S_black Tree.nil 5 Tree.nil) 6
      (Tree.node S_red (Tree.node S_black Tree.nil 7 Tree.nil) 8
        (Tree.node S_black (Tree.node S_red Tree.nil 9 Tree.nil) 10 Tree.nil)))

/-- The header of an empty tree, as the constructor of `Rb_tree_impl` leaves it
(lines 639-642): red, no root, both caches pointing to the header itself. -/
def memEmpty (h : Base_ptr) : Mem :=
  Mem.ofList [(h, ⟨S_red, 0, h, h⟩)]

/-- The descent of a key to its attach position: the flag `insert_left` and the
parent `p`.  Keys are addresses, compared as numbers. -/
def searchPos : Nat → Mem → Base_ptr → Base_ptr → Base_ptr → Bool → Option (Bool × Base_ptr)
  | 0, _, _, _, _, _ => none
  | fuel + 1, m, k, cur, par, left =>
    if cur = 0 then some (left, par)
    else if k < cur then searchPos fuel m k (m.M_left cur) cur true
    else searchPos fuel m k (m.M_right cur) cur false

/-- Insert the node at address `k` at its search position. -/
def insertKey (fuel : Nat) (h : Base_ptr) (m : Mem) (k : Base_ptr) : Option Mem := do
  let (left, p) ← searchPos fuel m k (m.M_parent h) h true
  Rb_tree_insert_and_rebalance fuel left k p h m

/-- Insert the listed keys one by one into the empty tree with header `h`. -/
def insertKeys (fuel : Nat) (h : Base_ptr) (ks : List Base_ptr) : Option Mem :=
  ks.foldl (fun om k => om.bind fun m => insertKey fuel h m k) (some (memEmpty h))

/-- The cells at the listed addresses. -/
def Mem.cells (m : Mem) (ps : List Base_ptr) : List Rb_tree_node_base :=
  ps.map m.cell

/-- The memories `m` and `m1` hold the same cell at address `a`. -/
def SameCell (m m1 : Mem) (a : Base_ptr) : Prop :=
  m1.M_color a = m.M_color a ∧ m1.M_parent a = m.M_parent a ∧
    m1.M_left a = m.M_left a ∧ m1.M_right a = m.M_right a

/-! ## Where the insertion leaves the new node -/

/-- Some node of the tree has address `x`, and its colour and subtrees satisfy `P`. -/
def Tree.nodeAt (x : Base_ptr) (P : Rb_tree_color → Tree → Tree → Prop) : Tree → Prop
  | Tree.nil => False
  | Tree.node c l a r => (a = x ∧ P c l r) ∨ Tree.nodeAt x P l ∨ Tree.nodeAt x P r

/-- A red node without children. -/
def IsRedLeaf (c : Rb_tree_color) (l r : Tree) : Prop :=
  c = S_red ∧ l = Tree.nil ∧ r = Tree.nil

/-- The two shapes in which the insertion loop leaves the new node below the root: a
red node without children, or a black node with two red children without children. -/
def IsNewShape (c : Rb_tree_color) (l r : Tree) : Prop :=
  IsRedLeaf c l r ∨ (c = S_black ∧ ∃ a b, l = Tree.node S_red Tree.nil a Tree.nil ∧
    r = Tree.node S_red Tree.nil b Tree.nil)

/-- Where the insertion loop holds the new node `x`: as a red leaf inside the subtree
at the loop pointer, or, once the parent of the loop pointer is black, in one of the
two final shapes somewhere in the tree. -/
def InsTrack (x : Base_ptr) (C : Ctx) (s : Tree) : Prop :=
  Tree.nodeAt x IsRedLeaf s ∨ (C.color = S_black ∧ Tree.nodeAt x IsNewShape (C.plug s))

/-! ## More concrete trees -/

/-- After inserting 10, 9, 8, 7, 6, 5, 4, 3, 2, 1 in descending order. -/
def memE : Mem :=
  Mem.ofList [(100, ⟨S_red, 7, 1, 10⟩), (1, ⟨S_red, 2, 0, 0⟩), (2, ⟨S_black, 3, 1, 0⟩),
    (3, ⟨S_red, 5, 2, 4⟩), (4, ⟨S_black, 3, 0, 0⟩), (5, ⟨S_black, 7, 3, 6⟩),
    (6, ⟨S_black, 5, 0, 0⟩), (7, ⟨S_black, 100, 5, 9⟩), (8, ⟨S_black, 9, 0, 0⟩),
    (9, ⟨S_black, 7, 8, 10⟩), (10, ⟨S_black, 9, 0, 0⟩)]

/-- The tree held by `memE`. -/
def treeE : Tree :=
  Tree.node S_black
    (Tree.node S_black
      (Tree.node S_red (Tree.node S_black (Tree.node S_red Tree.nil 1 Tree.nil) 2 Tree.nil) 3
        (Tree.node S_black Tree.nil 4 Tree.nil))
      5 (Tree.node S_black Tree.nil 6 Tree.nil))
    7
    (Tree.node S_black (Tree.node S_black Tree.nil 8 Tree.nil) 9
      (Tree.node S_black Tree.nil 10 Tree.nil))

/-- The test of the first branch of `Rb_tree_decrement` (line 113):
`x->M_color == S_red && x->M_parent->M_parent == x`, evaluated with short circuit. -/
def decrement_first_branch (m : Mem) (x : Base_ptr) : Option Bool := do
  let c ← get_color m x
  if c = S_red then do
    let xp ← get_parent m x
    let xpp ← get_parent m xp
    some (decide (xpp = x))
  else some false

/-! ## Compile-time type classification (cpp_type_traits.h)

A class template with an `enum { value = ... }` and a `typedef ... type` becomes a
function from types to a record of the two members; a specialization becomes a case
of that function, the primary template its default case. -/

/-- The types the templates are instantiated with: the fundamental types, classes,
pointers and `const`-qualified types. -/
inductive CppType where
  | void
  | bool
  | char
  | signed_char
  | unsigned_char
  | wchar_t
  | char16_t
  | short
  | unsigned_short
  | int
  | unsigned_int
  | long
  | unsigned_long
  | long_long
  | unsigned_long_long
  | float
  | double
  | long_double
  | class_type (name : Nat)
  | pointer (pointee : CppType)
  | const_qualified (T : CppType)
  deriving DecidableEq, Repr

/-- The tags `struct __true_type { }` and `struct __false_type { }`. -/
inductive TruthTag where
  | __true_type
  | __false_type
  deriving DecidableEq, Repr

/-- The two members of a trait class: the enumerator `value` and the typedef `type`. -/
structure Trait where
  value : Nat
  type : TruthTag
  deriving DecidableEq, Repr

/-- The template `truth_type<bool>`: its member `type`. -/
def truth_type (b : Bool) : TruthTag :=
  if b then TruthTag.__true_type else TruthTag.__false_type

/-- The template `traitor<Sp, Tp>`: `value = bool(Sp::value) || bool(Tp::value)` and
`type = truth_type<value>::type`. -/
def traitor (Sp Tp : Trait) : Trait :=
  let value : Bool := decide (Sp.value ≠ 0) || decide (Tp.value ≠ 0)
  ⟨if value then 1 else 0, truth_type value⟩

/-- The template `is_integer<Tp>` with its twelve specializations (lines 51-144). -/
def is_integer : CppType → Trait
  | CppType.bool => ⟨1, TruthTag.__true_type⟩
  | CppType.char => ⟨1, TruthTag.__true_type⟩
  | CppType.signed_char => ⟨1, TruthTag.__true_type⟩
  | CppType.unsigned_char => ⟨1, TruthTag.__true_type⟩
  | CppType.short => ⟨1, TruthTag.__true_type⟩
  | CppType.unsigned_short => ⟨1, TruthTag.__true_type⟩
  | CppType.int => ⟨1, TruthTag.__true_type⟩
  | CppType.unsigned_int => ⟨1, TruthTag.__true_type⟩
  | CppType.long => ⟨1, TruthTag.__true_type⟩
  | CppType.unsigned_long => ⟨1, TruthTag.__true_type⟩
  | CppType.long_long => ⟨1, TruthTag.__true_type⟩
  | CppType.unsigned_long_long => ⟨1, TruthTag.__true_type⟩
  | _ => ⟨0, TruthTag.__false_type⟩

/-- The template `is_floating<Tp>` with its three specializations (lines 149-175). -/
def is_floating : CppType → Trait
  | CppType.float => ⟨1, TruthTag.__true_type⟩
  | CppType.double => ⟨1, TruthTag.__true_type⟩
  | CppType.long_double => ⟨1, TruthTag.__true_type⟩
  | _ => ⟨0, TruthTag.__false_type⟩

/-- The template `is_pointer<Tp>` with its partial specialization for `Tp*`
(lines 181-193). -/
def is_pointer : CppType → Trait
  | CppType.pointer _ => ⟨1, TruthTag.__true_type⟩
  | _ => ⟨0, TruthTag.__false_type⟩

/-- The template `is_arithmetic<Tp>`, derived from
`traitor<is_integer<Tp>, is_floating<Tp> >`. -/
def is_arithmetic (T : CppType) : Trait :=
  traitor (is_integer T) (is_floating T)

/-- The template `is_scalar<Tp>`, derived from
`traitor<is_arithmetic<Tp>, is_pointer<Tp> >`. -/
def is_scalar (T : CppType) : Trait :=
  traitor (is_arithmetic T) (is_pointer T)

/-- The types the test `is_integral_test_` instantiates the predicate with
(is_integral.cpp, lines 8-22), in the order of the test. -/
def is_integral_test_types : List CppType :=
  [CppType.float, CppType.int, CppType.bool, CppType.char, CppType.signed_char,
    CppType.unsigned_char, CppType.wchar_t, CppType.char16_t, CppType.short,
    CppType.unsigned_short, CppType.unsigned_int, CppType.long, CppType.unsigned_long,
    CppType.long_long, CppType.unsigned_long_long]

/-- The answer of the standard `is_integral` that the test compares with, on the types
of the test: false for `float`, true for every integer, boolean and character type,
`wchar_t` and `char16_t` included. -/
def std_is_integral : CppType → Bool
  | CppType.float => false
  | CppType.int => true
  | CppType.bool => true
  | CppType.char => true
  | CppType.signed_char => true
  | CppType.unsigned_char => true
  | CppType.wchar_t => true
  | CppType.char16_t => true
  | CppType.short => true
  | CppType.unsigned_short => true
  | CppType.unsigned_int => true
  | CppType.long => true
  | CppType.unsigned_long => true
  | CppType.long_long => true
  | CppType.unsigned_long_long => true
  | _ => false

/-! ## Iterator operations (stl_iterator_base_funcs.h)

An iterator type is given by its operations `++i`, `--i` and `i += n`; the counter is
of the signed `difference_type`, modelled as an integer (the loops below move it
towards zero, it never overflows). -/

/-- The operations of an iterator type on positions of type `α`. -/
structure IterOps (α : Type) where
  inc : α → α
  dec : α → α
  add : α → Int → α

/-- The iterator category tags. -/
inductive iterator_tag where
  | input_iterator_tag
  | bidirectional_iterator_tag
  | random_access_iterator_tag
  deriving DecidableEq, Repr

/-- The loop `while (n--) ++i;`: the test reads `n`, then `n` is decremented. -/
def advance_forward {α : Type} (ops : IterOps α) : Nat → α → Int → Option α
  | 0, _, _ => none
  | fuel + 1, i, n => if n ≠ 0 then advance_forward ops fuel (ops.inc i) (n - 1) else some i

/-- The loop `while (n++) --i;`: the test reads `n`, then `n` is incremented. -/
def advance_backward {α : Type} (ops : IterOps α) : Nat → α → Int → Option α
  | 0, _, _ => none
  | fuel + 1, i, n => if n ≠ 0 then advance_backward ops fuel (ops.dec i) (n + 1) else some i

/-- The overload `__advance(i, n, std::input_iterator_tag)` (lines 39-45). -/
def __advance_input {α : Type} (ops : IterOps α) (fuel : Nat) (i : α) (n : Int) : Option α :=
  advance_forward ops fuel i n

/-- The overload `__advance(i, n, std::bidirectional_iterator_tag)` (lines 47-57). -/
def __advance_bidirectional {α : Type} (ops : IterOps α) (fuel : Nat) (i : α) (n : Int) :
    Option α :=
  if n > 0 then advance_forward ops fuel i n else advance_backward ops fuel i n

/-- The overload `__advance(i, n, std::random_access_iterator_tag)` (lines 59-69);
`constant_p` is the value of `__builtin_constant_p(n)`. -/
def __advance_random_access {α : Type} (ops : IterOps α) (constant_p : Bool) (i : α)
    (n : Int) : Option α :=
  if constant_p ∧ n = 1 then some (ops.inc i)
  else if constant_p ∧ n = -1 then some (ops.dec i)
  else some (ops.add i n)

/-- The function `advance(i, n)` (lines 83-89): dispatch on the category of `i`. -/
def advance {α : Type} (ops : IterOps α) (cat : iterator_tag) (constant_p : Bool)
    (fuel : Nat) (i : α) (n : Int) : Option α :=
  match cat with
  | iterator_tag.input_iterator_tag => __advance_input ops fuel i n
  | iterator_tag.bidirectional_iterator_tag => __advance_bidirectional ops fuel i n
  | iterator_tag.random_access_iterator_tag => __advance_random_access ops constant_p i n

/-- Positions that are integers: `++i` adds one, `--i` subtracts one. -/
def intOps : IterOps Int :=
  ⟨fun i => i + 1, fun i => i - 1, fun i n => i + n⟩

/-! ## The leftmost node of a subtree -/

/-- The colour of the leftmost node of a tree (black for the empty tree). -/
def Tree.minColor : Tree → Rb_tree_color
  | Tree.nil => S_black
  | Tree.node c l _ _ => if l = Tree.nil then c else Tree.minColor l

/-- The leftmost node of the tree is `y`, and it has no children. -/
def Tree.minLeaf (y : Base_ptr) : Tree → Prop
  | Tree.nil => False
  | Tree.node _ l a r => if l = Tree.nil then a = y ∧ r = Tree.nil else Tree.minLeaf y l

/-- The tree without its leftmost node, whose right subtree takes its place. -/
def Tree.removeMin : Tree → Tree
  | Tree.nil => Tree.nil
  | Tree.node c l a r => if l = Tree.nil then r else Tree.node c (Tree.removeMin l) a r

/-! ## The distance between two iterators (stl_iterator_base_funcs.h, lines 8-20)

The counter `n` is of the signed `difference_type`, modelled as an integer: it only
counts the increments made, and the result is a value of that type. -/

/-- The loop `while (first != last) { ++first; ++n; }` followed by `return n;`. -/
def distance_loop {α : Type} [DecidableEq α] (ops : IterOps α) :
    Nat → α → α → Int → Option Int
  | 0, _, _, _ => none
  | fuel + 1, first, last, n =>
    if first ≠ last then distance_loop ops fuel (ops.inc first) last (n + 1) else some n

/-- The overload `__distance(first, last, std::input_iterator_tag)` (lines 8-20): the
counter starts at `0`. -/
def __distance_input {α : Type} [DecidableEq α] (ops : IterOps α) (fuel : Nat)
    (first last : α) : Option Int :=
  distance_loop ops fuel first last 0

/-- Positions on a ring of three places: `++i` goes from 0 to 1, from 1 to 2 and from 2
back to 0. -/
def ringOps : IterOps Nat :=
  ⟨fun i => (i + 1) % 3, fun i => (i + 2) % 3, fun i n => ((i + n) % 3).toNat⟩

/-! ## The passes of the insertion loop, one by one -/

/-- The states `(x, memory)` in which the body of the rebalancing loop of
`Rb_tree_insert_and_rebalance` is entered, in order: the control flow is that of
`insert_rebalance_loop`, and each time the loop test succeeds the state is recorded. -/
def insert_rebalance_trace : Nat → Base_ptr → Base_ptr → Mem →
    Option (List (Base_ptr × Mem))
  | 0, _, _, _ => none
  | fuel + 1, x, header, m => do
    let root ← get_parent m header
    if x = root then some []
    else
      let xp ← get_parent m x
      let c ← get_color m xp
      if c = S_red then
        let (x1, m1) ← insert_rebalance_body x header m
        let rest ← insert_rebalance_trace fuel x1 header m1
        some ((x, m) :: rest)
      else some []

/-- The rotation calls made by one pass of the body of the rebalancing loop, in order:
each entry tells whether the call is `Rb_tree_rotate_left` (otherwise it is
`Rb_tree_rotate_right`), the node passed to it and the memory at the call.  The
control flow is that of `insert_rebalance_body`. -/
def insert_rebalance_rotations (x header : Base_ptr) (m : Mem) :
    Option (List (Bool × Base_ptr × Mem)) := do
  let xp ← get_parent m x
  let xpp ← get_parent m xp
  let xppl ← get_left m xpp
  if xp = xppl then
    let y ← get_right m xpp
    if is_red m y then
      let xp ← get_parent m x
      let m ← set_color m xp S_black
      let m ← set_color m y S_black
      let _ ← set_color m xpp S_red
      some []
    else
      let xp ← get_parent m x
      let xpr ← get_right m xp
      let (x, m, calls) ←
        if x = xpr then do
          let m1 ← Rb_tree_rotate_left xp header m
          some (xp, m1, [(true, xp, m)])
        else some (x, m, [])
      let xp ← get_parent m x
      let m ← set_color m xp S_black
      let m ← set_color m xpp S_red
      let _ ← Rb_tree_rotate_right xpp header m
      some (calls ++ [(false, xpp, m)])
  else
    let y ← get_left m xpp
    if is_red m y then
      let xp ← get_parent m x
      let m ← set_color m xp S_black
      let m ← set_color m y S_black
      let _ ← set_color m xpp S_red
      some []
    else
      let xp ← get_parent m x
      let xpl ← get_left m xp
      let (x, m, calls) ←
        if x = xpl then do
          let m1 ← Rb_tree_rotate_right xp header m
          some (xp, m1, [(false, xp, m)])
        else some (x, m, [])
      let xp ← get_parent m x
      let m ← set_color m xp S_black
      let m ← set_color m xpp S_red
      let _ ← Rb_tree_rotate_left xpp header m
      some (calls ++ [(true, xpp, m)])

/-- The rotation call `c` is made on a real node that has the child it rotates around:
a right child for `Rb_tree_rotate_left`, a left child for `Rb_tree_rotate_right`. -/
def RotationHasChild (c : Bool × Base_ptr × Mem) : Prop :=
  c.2.1 ≠ 0 ∧ (if c.1 = true then c.2.2.M_right c.2.1 ≠ 0 else c.2.2.M_left c.2.1 ≠ 0)

/-! ## Basic facts about memories and representations -/

@[simp] theorem upd_same {α : Type} (f : Base_ptr → α) (a : Base_ptr) (v : α) :
    upd f a v a = v := by
  simp [upd]

@[simp] theorem upd_other {α : Type} (f : Base_ptr → α) {a b : Base_ptr} (v : α)
    (hne : b ≠ a) : upd f a v b = f b := by
  simp [upd, hne]

@[simp] theorem upd_other2 {α : Type} (f : Base_ptr → α) {a b : Base_ptr} (v : α)
    (hne : a ≠ b) : upd f a v b = f b := by
  simp [upd, Ne.symm hne]

@[simp] theorem Mem.setColor_M_color (m : Mem) (x : Base_ptr) (v : Rb_tree_color) :
    (m.setColor x v).M_color = upd m.M_color x v := rfl

@[simp] theorem Mem.setColor_M_parent (m : Mem) (x : Base_ptr) (v : Rb_tree_color) :
    (m.setColor x v).M_parent = m.M_parent := rfl

@[simp] theorem Mem.setColor_M_left (m : Mem) (x : Base_ptr) (v : Rb_tree_color) :
    (m.setColor x v).M_left = m.M_left := rfl

@[simp] theorem Mem.setColor_M_right (m : Mem) (x : Base_ptr) (v : Rb_tree_color) :
    (m.setColor x v).M_right = m.M_right := rfl

@[simp] theorem Mem.setParent_M_color (m : Mem) (x : Base_ptr) (v : Base_ptr) :
    (m.setParent x v).M_color = m.M_color := rfl

@[simp] theorem Mem.setParent_M_parent (m : Mem) (x : Base_ptr) (v : Base_ptr) :
    (m.setParent x v).M_parent = upd m.M_parent x v := rfl

@[simp] theorem Mem.setParent_M_left (m : Mem) (x : Base_ptr) (v : Base_ptr) :
    (m.setParent x v).M_left = m.M_left := rfl

@[simp] theorem Mem.setParent_M_right (m : Mem) (x : Base_ptr) (v : Base_ptr) :
    (m.setParent x v).M_right = m.M_right := rfl

@[simp] theorem Mem.setLeft_M_color (m : Mem) (x : Base_ptr) (v : Base_ptr) :
    (m.setLeft x v).M_color = m.M_color := rfl

@[simp] theorem Mem.setLeft_M_parent (m : Mem) (x : Base_ptr) (v : Base_ptr) :
    (m.setLeft x v).M_parent = m.M_parent := rfl

@[simp] theorem Mem.setLeft_M_left (m : Mem) (x : Base_ptr) (v : Base_ptr) :
    (m.setLeft x v).M_left = upd m.M_left x v := rfl

@[simp] theorem Mem.setLeft_M_right (m : Mem) (x : Base_ptr) (v : Base_ptr) :
    (m.setLeft x v).M_right = m.M_right := rfl

@[simp] theorem Mem.setRight_M_color (m : Mem) (x : Base_ptr) (v : Base_ptr) :
    (m.setRight x v).M_color = m.M_color := rfl

@[simp] theorem Mem.setRight_M_parent (m : Mem) (x : Base_ptr) (v : Base_ptr) :
    (m.setRight x v).M_parent = m.M_parent := rfl

@[simp] theorem Mem.setRight_M_left (m : Mem) (x : Base_ptr) (v : Base_ptr) :
    (m.setRight x v).M_left = m.M_left := rfl

@[simp] theorem Mem.setRight_M_right (m : Mem) (x : Base_ptr) (v : Base_ptr) :
    (m.setRight x v).M_right = upd m.M_right x v := rfl

theorem Rep_congr {m m1 : Mem} : ∀ {t : Tree} {p par : Base_ptr},
    (∀ a ∈ t.inorder, SameCell m m1 a) → Rep m t p par → Rep m1 t p par
  | Tree.nil, _, _, _, hr => hr
  | Tree.node c l a r, p, par, hag, hr => by
    obtain ⟨h1, h2, h3, h4, h5, h6⟩ := hr
    obtain ⟨e1, e2, e3, e4⟩ := hag a (by simp [Tree.inorder])
    refine ⟨h1, h2, by rw [e1]; exact h3, by rw [e2]; exact h4, ?_, ?_⟩
    · rw [e3]
      exact Rep_congr (fun b hb => hag b (by simp [Tree.inorder, hb])) h5
    · rw [e4]
      exact Rep_congr (fun b hb => hag b (by simp [Tree.inorder, hb])) h6

theorem RepCtx_congr {m m1 : Mem} {h : Base_ptr} : ∀ {C : Ctx} {x par : Base_ptr},
    (∀ a ∈ C.before ++ C.after, SameCell m m1 a) → m1.M_parent h = m.M_parent h →
    RepCtx m h C x par → RepCtx m1 h C x par
  | Ctx.top, _, _, _, hh, hr => ⟨hr.1, hh.trans hr.2⟩
  | Ctx.inL c a r up, x, par, hag, hh, hr => by
    obtain ⟨h1, h2, h3, h4, h5, h6⟩ := hr
    obtain ⟨e1, e2, e3, e4⟩ := hag a (by simp [Ctx.after])
    refine ⟨h1, h2, by rw [e1]; exact h3, by rw [e3]; exact h4, ?_, ?_⟩
    · rw [e4]
      exact Rep_congr (fun b hb => hag b (by simp [Ctx.after, hb])) h5
    · rw [e2]
      refine RepCtx_congr (fun b hb => hag b ?_) hh h6
      simp only [List.mem_append] at hb
      rcases hb with hb | hb <;> simp [Ctx.before, Ctx.after, hb]
  | Ctx.inR c l a up, x, par, hag, hh, hr => by
    obtain ⟨h1, h2, h3, h4, h5, h6⟩ := hr
    obtain ⟨e1, e2, e3, e4⟩ := hag a (by simp [Ctx.before])
    refine ⟨h1, h2, by rw [e1]; exact h3, by rw [e4]; exact h4, ?_, ?_⟩
    · rw [e3]
      exact Rep_congr (fun b hb => hag b (by simp [Ctx.before, hb])) h5
    · rw [e2]
      refine RepCtx_congr (fun b hb => hag b ?_) hh h6
      simp only [List.mem_append] at hb
      rcases hb with hb | hb <;> simp [Ctx.before, Ctx.after, hb]

theorem sameCell_setColor (m : Mem) {a b : Base_ptr} (c : Rb_tree_color) (hne : b ≠ a) :
    SameCell m (m.setColor a c) b ∧ SameCell (m.setColor a c) m b := by
  simp [SameCell, hne]

theorem sameCell_setParent (m : Mem) {a b : Base_ptr} (v : Base_ptr) (hne : b ≠ a) :
    SameCell m (m.setParent a v) b ∧ SameCell (m.setParent a v) m b := by
  simp [SameCell, hne]

theorem sameCell_setLeft (m : Mem) {a b : Base_ptr} (v : Base_ptr) (hne : b ≠ a) :
    SameCell m (m.setLeft a v) b ∧ SameCell (m.setLeft a v) m b := by
  simp [SameCell, hne]

theorem sameCell_setRight (m : Mem) {a b : Base_ptr} (v : Base_ptr) (hne : b ≠ a) :
    SameCell m (m.setRight a v) b ∧ SameCell (m.setRight a v) m b := by
  simp [SameCell, hne]

theorem ne_of_mem_of_notMem {a b : Base_ptr} {l : List Base_ptr} (hb : b ∈ l) (ha : a ∉ l) :
    b ≠ a := fun e => ha (e ▸ hb)

@[simp] theorem Rep_setColor {m : Mem} {t : Tree} {p par a : Base_ptr} {c : Rb_tree_color}
    (ha : a ∉ t.inorder) : Rep (m.setColor a c) t p par ↔ Rep m t p par :=
  ⟨Rep_congr fun _ hb => (sameCell_setColor m c (ne_of_mem_of_notMem hb ha)).2,
   Rep_congr fun _ hb => (sameCell_setColor m c (ne_of_mem_of_notMem hb ha)).1⟩

@[simp] theorem Rep_setParent {m : Mem} {t : Tree} {p par a v : Base_ptr}
    (ha : a ∉ t.inorder) : Rep (m.setParent a v) t p par ↔ Rep m t p par :=
  ⟨Rep_congr fun _ hb => (sameCell_setParent m v (ne_of_mem_of_notMem hb ha)).2,
   Rep_congr fun _ hb => (sameCell_setParent m v (ne_of_mem_of_notMem hb ha)).1⟩

@[simp] theorem Rep_setLeft {m : Mem} {t : Tree} {p par a v : Base_ptr}
    (ha : a ∉ t.inorder) : Rep (m.setLeft a v) t p par ↔ Rep m t p par :=
  ⟨Rep_congr fun _ hb => (sameCell_setLeft m v (ne_of_mem_of_notMem hb ha)).2,
   Rep_congr fun _ hb => (sameCell_setLeft m v (ne_of_mem_of_notMem hb ha)).1⟩

@[simp] theorem Rep_setRight {m : Mem} {t : Tree} {p par a v : Base_ptr}
    (ha : a ∉ t.inorder) : Rep (m.setRight a v) t p par ↔ Rep m t p par :=
  ⟨Rep_congr fun _ hb => (sameCell_setRight m v (ne_of_mem_of_notMem hb ha)).2,
   Rep_congr fun _ hb => (sameCell_setRight m v (ne_of_mem_of_notMem hb ha)).1⟩

theorem ne_of_mem_ctx {a b : Base_ptr} {C : Ctx} (hb : b ∈ C.before ++ C.after)
    (h1 : a ∉ C.before) (h2 : a ∉ C.after) : b ≠ a := by
  intro e
  subst e
  simp only [List.mem_append] at hb
  rcases hb with hb | hb
  · exact h1 hb
  · exact h2 hb

@[simp] theorem RepCtx_setColor {m : Mem} {h : Base_ptr} {C : Ctx} {x par a : Base_ptr}
    {c : Rb_tree_color} (h1 : a ∉ C.before) (h2 : a ∉ C.after) :
    RepCtx (m.setColor a c) h C x par ↔ RepCtx m h C x par :=
  ⟨RepCtx_congr (fun _ hb => (sameCell_setColor m c (ne_of_mem_ctx hb h1 h2)).2) rfl,
   RepCtx_congr (fun _ hb => (sameCell_setColor m c (ne_of_mem_ctx hb h1 h2)).1) rfl⟩

@[simp] theorem RepCtx_setLeft {m : Mem} {h : Base_ptr} {C : Ctx} {x par a v : Base_ptr}
    (h1 : a ∉ C.before) (h2 : a ∉ C.after) :
    RepCtx (m.setLeft a v) h C x par ↔ RepCtx m h C x par :=
  ⟨RepCtx_congr (fun _ hb => (sameCell_setLeft m v (ne_of_mem_ctx hb h1 h2)).2) rfl,
   RepCtx_congr (fun _ hb => (sameCell_setLeft m v (ne_of_mem_ctx hb h1 h2)).1) rfl⟩

@[simp] theorem RepCtx_setRight {m : Mem} {h : Base_ptr} {C : Ctx} {x par a v : Base_ptr}
    (h1 : a ∉ C.before) (h2 : a ∉ C.after) :
    RepCtx (m.setRight a v) h C x par ↔ RepCtx m h C x par :=
  ⟨RepCtx_congr (fun _ hb => (sameCell_setRight m v (ne_of_mem_ctx hb h1 h2)).2) rfl,
   RepCtx_congr (fun _ hb => (sameCell_setRight m v (ne_of_mem_ctx hb h1 h2)).1) rfl⟩

@[simp] theorem RepCtx_setParent {m : Mem} {h : Base_ptr} {C : Ctx} {x par a v : Base_ptr}
    (h1 : a ∉ C.before) (h2 : a ∉ C.after) (hh : h ≠ a) :
    RepCtx (m.setParent a v) h C x par ↔ RepCtx m h C x par :=
  ⟨RepCtx_congr (fun _ hb => (sameCell_setParent m v (ne_of_mem_ctx hb h1 h2)).2)
      (by simp [hh]),
   RepCtx_congr (fun _ hb => (sameCell_setParent m v (ne_of_mem_ctx hb h1 h2)).1)
      (by simp [hh])⟩

theorem inorder_plug : ∀ (C : Ctx) (s : Tree),
    (C.plug s).inorder = C.before ++ s.inorder ++ C.after
  | Ctx.top, s => by simp [Ctx.plug, Ctx.before, Ctx.after]
  | Ctx.inL c a r up, s => by
    simp [Ctx.plug, Ctx.before, Ctx.after, inorder_plug up, Tree.inorder]
  | Ctx.inR c l a up, s => by
    simp [Ctx.plug, Ctx.before, Ctx.after, inorder_plug up, Tree.inorder]

/-! ## Pointers of represented trees and contexts -/

theorem Rep_ptr {m : Mem} : ∀ {t : Tree} {p par : Base_ptr}, Rep m t p par →
    (p = 0 ∧ t = Tree.nil) ∨ (p ≠ 0 ∧ p ∈ t.inorder)
  | Tree.nil, _, _, hr => Or.inl ⟨hr, rfl⟩
  | Tree.node _ _ _ _, _, _, hr => Or.inr ⟨hr.1 ▸ hr.2.1, by simp [hr.1, Tree.inorder]⟩

theorem RepCtx_root {m : Mem} {h : Base_ptr} : ∀ {C : Ctx} {x par : Base_ptr},
    RepCtx m h C x par → C ≠ Ctx.top → m.M_parent h ∈ C.before ++ C.after
  | Ctx.top, _, _, _, hne => absurd rfl hne
  | Ctx.inL c a r up, x, par, hr, _ => by
    obtain ⟨h1, h2, h3, h4, h5, h6⟩ := hr
    by_cases hup : up = Ctx.top
    · subst hup
      simp [RepCtx] at h6
      simp [Ctx.before, Ctx.after, h6.2]
    · have := RepCtx_root h6 hup
      simp only [List.mem_append] at this
      rcases this with h7 | h7 <;> simp [Ctx.before, Ctx.after, h7]
  | Ctx.inR c l a up, x, par, hr, _ => by
    obtain ⟨h1, h2, h3, h4, h5, h6⟩ := hr
    by_cases hup : up = Ctx.top
    · subst hup
      simp [RepCtx] at h6
      simp [Ctx.before, Ctx.after, h6.2]
    · have := RepCtx_root h6 hup
      simp only [List.mem_append] at this
      rcases this with h7 | h7 <;> simp [Ctx.before, Ctx.after, h7]

theorem RepCtx_root_ne {m : Mem} {h : Base_ptr} {C : Ctx} {x par z : Base_ptr}
    (hc : RepCtx m h C x par) (hC : C ≠ Ctx.top) (h1 : z ∉ C.before) (h2 : z ∉ C.after) :
    z ≠ m.M_parent h := by
  intro e
  have := RepCtx_root hc hC
  rw [← e] at this
  simp only [List.mem_append] at this
  rcases this with h3 | h3
  · exact h1 h3
  · exact h2 h3

theorem Rep_ptr_ne {m : Mem} {t : Tree} {p par z : Base_ptr} (hr : Rep m t p par)
    (hz : z ≠ 0) (hm : z ∉ t.inorder) : z ≠ p := by
  rcases Rep_ptr hr with ⟨e, -⟩ | ⟨-, e⟩
  · rw [e]
    exact hz
  · exact fun e1 => hm (e1 ▸ e)

/-! ## The rotations on a focused subtree -/

set_option maxHeartbeats 1000000 in
theorem rotate_left_spec {m : Mem} {h : Base_ptr} {U : Ctx} {cx cy : Rb_tree_color}
    {A B C : Tree} {x y par : Base_ptr}
    (hf : Focus m h U (Tree.node cx A x (Tree.node cy B y C)) x par) :
    ∃ m1, Rb_tree_rotate_left x h m = some m1 ∧
      Focus m1 h U (Tree.node cy (Tree.node cx A x B) y C) y par ∧
      m1.M_left h = m.M_left h ∧ m1.M_right h = m.M_right h ∧
      m1.M_color h = m.M_color h := by
  obtain ⟨hh, hc, hr, hnd⟩ := hf
  simp only [Rep] at hr
  obtain ⟨-, hx0, hxc, hxp, hA, hxr, hy0, hyc, hyp, hB, hC⟩ := hr
  cases U with
  | top =>
    obtain ⟨rfl, hroot⟩ := hc
    cases B with
    | nil =>
      simp only [Rep] at hB
      simp [Ctx.before, Ctx.after, Tree.inorder, List.nodup_append, List.nodup_cons] at hnd
      simp [Rb_tree_rotate_left, Rb_tree_rotate_right, get_right, get_left, get_parent, set_right,
        set_parent, set_left, Focus, Rep, RepCtx, Ctx.before, Ctx.after, Tree.inorder,
        List.nodup_append, List.nodup_cons, *]
      try tauto
    | node cb Bl b Br =>
      simp only [Rep] at hB
      simp [Ctx.before, Ctx.after, Tree.inorder, List.nodup_append, List.nodup_cons] at hnd
      simp [Rb_tree_rotate_left, Rb_tree_rotate_right, get_right, get_left, get_parent, set_right,
        set_parent, set_left, Focus, Rep, RepCtx, Ctx.before, Ctx.after, Tree.inorder,
        List.nodup_append, List.nodup_cons, *]
      try tauto
  | inL c a r up =>
    simp [Ctx.before, Ctx.after, Tree.inorder, List.nodup_append, List.nodup_cons] at hnd
    have hroot : x ≠ m.M_parent h :=
      RepCtx_root_ne hc (by simp) (by simp [Ctx.before, hnd]) (by simp [Ctx.after]; tauto)
    simp only [RepCtx] at hc
    have hsib : x ≠ m.M_right a := Rep_ptr_ne hc.2.2.2.2.1 hx0 (by tauto)
    cases B with
    | nil =>
      simp only [Rep] at hB
      simp [Ctx.before, Ctx.after, Tree.inorder, List.nodup_append, List.nodup_cons] at hnd
      simp [Rb_tree_rotate_left, Rb_tree_rotate_right, get_right, get_left, get_parent, set_right,
        set_parent, set_left, Focus, Rep, RepCtx, Ctx.before, Ctx.after, Tree.inorder,
        List.nodup_append, List.nodup_cons, *]
      try tauto
    | node cb Bl b Br =>
      simp only [Rep] at hB
      simp [Ctx.before, Ctx.after, Tree.inorder, List.nodup_append, List.nodup_cons] at hnd
      simp [Rb_tree_rotate_left, Rb_tree_rotate_right, get_right, get_left, get_parent, set_right,
        set_parent, set_left, Focus, Rep, RepCtx, Ctx.before, Ctx.after, Tree.inorder,
        List.nodup_append, List.nodup_cons, *]
      try tauto
  | inR c l a up =>
    simp [Ctx.before, Ctx.after, Tree.inorder, List.nodup_append, List.nodup_cons] at hnd
    have hroot : x ≠ m.M_parent h :=
      RepCtx_root_ne hc (by simp) (by simp [Ctx.before]; tauto) (by simp [Ctx.after, hnd])
    simp only [RepCtx] at hc
    have hsib : x ≠ m.M_left a := Rep_ptr_ne hc.2.2.2.2.1 hx0 (by tauto)
    cases B with
    | nil =>
      simp only [Rep] at hB
      simp [Ctx.before, Ctx.after, Tree.inorder, List.nodup_append, List.nodup_cons] at hnd
      simp [Rb_tree_rotate_left, Rb_tree_rotate_right, get_right, get_left, get_parent, set_right,
        set_parent, set_left, Focus, Rep, RepCtx, Ctx.before, Ctx.after, Tree.inorder,
        List.nodup_append, List.nodup_cons, *]
      try tauto
    | node cb Bl b Br =>
      simp only [Rep] at hB
      simp [Ctx.before, Ctx.after, Tree.inorder, List.nodup_append, List.nodup_cons] at hnd
      simp [Rb_tree_rotate_left, Rb_tree_rotate_right, get_right, get_left, get_parent, set_right,
        set_parent, set_left, Focus, Rep, RepCtx, Ctx.before, Ctx.after, Tree.inorder,
        List.nodup_append, List.nodup_cons, *]
      try tauto

set_option maxHeartbeats 1000000 in
theorem rotate_right_spec {m : Mem} {h : Base_ptr} {U : Ctx} {cx cy : Rb_tree_color}
    {A B C : Tree} {x y par : Base_ptr}
    (hf : Focus m h U (Tree.node cx (Tree.node cy C y B) x A) x par) :
    ∃ m1, Rb_tree_rotate_right x h m = some m1 ∧
      Focus m1 h U (Tree.node cy C y (Tree.node cx B x A)) y par ∧
      m1.M_left h = m.M_left h ∧ m1.M_right h = m.M_right h ∧
      m1.M_color h = m.M_color h := by
  obtain ⟨hh, hc, hr, hnd⟩ := hf
  simp only [Rep] at hr
  obtain ⟨-, hx0, hxc, hxp, ⟨hxl, hy0, hyc, hyp, hC, hB⟩, hA⟩ := hr
  cases U with
  | top =>
    obtain ⟨rfl, hroot⟩ := hc
    cases B with
    | nil =>
      simp only [Rep] at hB
      simp [Ctx.before, Ctx.after, Tree.inorder, List.nodup_append, List.nodup_cons] at hnd
      simp [Rb_tree_rotate_left, Rb_tree_rotate_right, get_right, get_left, get_parent, set_right,
        set_parent, set_left, Focus, Rep, RepCtx, Ctx.before, Ctx.after, Tree.inorder,
        List.nodup_append, List.nodup_cons, *]
      try tauto
    | node cb Bl b Br =>
      simp only [Rep] at hB
      simp [Ctx.before, Ctx.after, Tree.inorder, List.nodup_append, List.nodup_cons] at hnd
      simp [Rb_tree_rotate_left, Rb_tree_rotate_right, get_right, get_left, get_parent, set_right,
        set_parent, set_left, Focus, Rep, RepCtx, Ctx.before, Ctx.after, Tree.inorder,
        List.nodup_append, List.nodup_cons, *]
      try tauto
  | inL c a r up =>
    simp [Ctx.before, Ctx.after, Tree.inorder, List.nodup_append, List.nodup_cons] at hnd
    have hroot : x ≠ m.M_parent h :=
      RepCtx_root_ne hc (by simp) (by simp [Ctx.before, hnd]) (by simp [Ctx.after]; tauto)
    simp only [RepCtx] at hc
    have hsib : x ≠ m.M_right a := Rep_ptr_ne hc.2.2.2.2.1 hx0 (by tauto)
    cases B with
    | nil =>
      simp only [Rep] at hB
      simp [Ctx.before, Ctx.after, Tree.inorder, List.nodup_append, List.nodup_cons] at hnd
      simp [Rb_tree_rotate_left, Rb_tree_rotate_right, get_right, get_left, get_parent, set_right,
        set_parent, set_left, Focus, Rep, RepCtx, Ctx.before, Ctx.after, Tree.inorder,
        List.nodup_append, List.nodup_cons, *]
      try tauto
    | node cb Bl b Br =>
      simp only [Rep] at hB
      simp [Ctx.before, Ctx.after, Tree.inorder, List.nodup_append, List.nodup_cons] at hnd
      simp [Rb_tree_rotate_left, Rb_tree_rotate_right, get_right, get_left, get_parent, set_right,
        set_parent, set_left, Focus, Rep, RepCtx, Ctx.before, Ctx.after, Tree.inorder,
        List.nodup_append, List.nodup_cons, *]
      try tauto
  | inR c l a up =>
    simp [Ctx.before, Ctx.after, Tree.inorder, List.nodup_append, List.nodup_cons] at hnd
    have hroot : x ≠ m.M_parent h :=
      RepCtx_root_ne hc (by simp) (by simp [Ctx.before]; tauto) (by simp [Ctx.after, hnd])
    simp only [RepCtx] at hc
    have hsib : x ≠ m.M_left a := Rep_ptr_ne hc.2.2.2.2.1 hx0 (by tauto)
    cases B with
    | nil =>
      simp only [Rep] at hB
      simp [Ctx.before, Ctx.after, Tree.inorder, List.nodup_append, List.nodup_cons] at hnd
      simp [Rb_tree_rotate_left, Rb_tree_rotate_right, get_right, get_left, get_parent, set_right,
        set_parent, set_left, Focus, Rep, RepCtx, Ctx.before, Ctx.after, Tree.inorder,
        List.nodup_append, List.nodup_cons, *]
      try tauto
    | node cb Bl b Br =>
      simp only [Rep] at hB
      simp [Ctx.before, Ctx.after, Tree.inorder, List.nodup_append, List.nodup_cons] at hnd
      simp [Rb_tree_rotate_left, Rb_tree_rotate_right, get_right, get_left, get_parent, set_right,
        set_parent, set_left, Focus, Rep, RepCtx, Ctx.before, Ctx.after, Tree.inorder,
        List.nodup_append, List.nodup_cons, *]
      try tauto

/-! ## Moving the focus -/

theorem focus_up_left {m : Mem} {h : Base_ptr} {U : Ctx} {c : Rb_tree_color} {l r : Tree}
    {a x par : Base_ptr} (hf : Focus m h (Ctx.inL c a r U) l x par) :
    Focus m h U (Tree.node c l a r) a (m.M_parent a) := by
  obtain ⟨hh, hc, hr, hnd⟩ := hf
  obtain ⟨rfl, h2, h3, rfl, h5, h6⟩ := hc
  refine ⟨hh, h6, ⟨rfl, h2, h3, rfl, hr, h5⟩, ?_⟩
  simpa [Ctx.before, Ctx.after, Tree.inorder] using hnd

theorem focus_up_right {m : Mem} {h : Base_ptr} {U : Ctx} {c : Rb_tree_color} {l r : Tree}
    {a x par : Base_ptr} (hf : Focus m h (Ctx.inR c l a U) r x par) :
    Focus m h U (Tree.node c l a r) a (m.M_parent a) := by
  obtain ⟨hh, hc, hr, hnd⟩ := hf
  obtain ⟨rfl, h2, h3, rfl, h5, h6⟩ := hc
  refine ⟨hh, h6, ⟨rfl, h2, h3, rfl, h5, hr⟩, ?_⟩
  simpa [Ctx.before, Ctx.after, Tree.inorder] using hnd

theorem focus_down_left {m : Mem} {h : Base_ptr} {U : Ctx} {c : Rb_tree_color} {l r : Tree}
    {a p par : Base_ptr} (hf : Focus m h U (Tree.node c l a r) p par) :
    Focus m h (Ctx.inL c a r U) l (m.M_left a) a := by
  obtain ⟨hh, hc, hr, hnd⟩ := hf
  obtain ⟨rfl, h2, h3, rfl, h5, h6⟩ := hr
  refine ⟨hh, ⟨rfl, h2, h3, rfl, h6, hc⟩, h5, ?_⟩
  simpa [Ctx.before, Ctx.after, Tree.inorder] using hnd

theorem focus_down_right {m : Mem} {h : Base_ptr} {U : Ctx} {c : Rb_tree_color} {l r : Tree}
    {a p par : Base_ptr} (hf : Focus m h U (Tree.node c l a r) p par) :
    Focus m h (Ctx.inR c l a U) r (m.M_right a) a := by
  obtain ⟨hh, hc, hr, hnd⟩ := hf
  obtain ⟨rfl, h2, h3, rfl, h5, h6⟩ := hr
  refine ⟨hh, ⟨rfl, h2, h3, rfl, h5, hc⟩, h6, ?_⟩
  simpa [Ctx.before, Ctx.after, Tree.inorder] using hnd

theorem focus_setColor {m : Mem} {h : Base_ptr} {U : Ctx} {c : Rb_tree_color} {l r : Tree}
    {a p par : Base_ptr} (c1 : Rb_tree_color) (hf : Focus m h U (Tree.node c l a r) p par) :
    Focus (m.setColor a c1) h U (Tree.node c1 l a r) p par := by
  obtain ⟨hh, hc, hr, hnd⟩ := hf
  obtain ⟨rfl, h2, h3, h4, h5, h6⟩ := hr
  have hnd1 := hnd
  simp [Ctx.before, Ctx.after, Tree.inorder, List.nodup_append, List.nodup_cons] at hnd1
  refine ⟨hh, ?_, ?_, ?_⟩
  · rw [RepCtx_setColor (by tauto) (by tauto)]
    exact hc
  · simp [Rep, *]
  · simpa [Tree.inorder] using hnd

/-- The pointers of a focused node. -/
theorem focus_node {m : Mem} {h : Base_ptr} {U : Ctx} {c : Rb_tree_color} {l r : Tree}
    {a p par : Base_ptr} (hf : Focus m h U (Tree.node c l a r) p par) :
    p = a ∧ a ≠ 0 ∧ m.M_color a = c ∧ m.M_parent a = par :=
  ⟨hf.2.2.1.1, hf.2.2.1.2.1, hf.2.2.1.2.2.1, hf.2.2.1.2.2.2.1⟩


/-! ## One pass of the insertion loop, case by case -/

theorem insert_body_case1_left {m : Mem} {h : Base_ptr} {U : Ctx} {cg cp : Rb_tree_color}
    {pl pr ul ur : Tree} {x p g u pp par : Base_ptr}
    (hf : Focus m h (Ctx.inL cg g (Tree.node S_red ul u ur) U) (Tree.node cp pl p pr) pp par)
    (hx0 : x ≠ 0) (hxp : m.M_parent x = p) :
    ∃ m1, insert_rebalance_body x h m = some (g, m1) ∧
      Focus m1 h U (Tree.node S_red (Tree.node S_black pl p pr) g (Tree.node S_black ul u ur))
        g (m1.M_parent g) ∧
      m1.M_left h = m.M_left h ∧ m1.M_right h = m.M_right h ∧
      m1.M_color h = m.M_color h := by
  have F1 := focus_up_left (focus_setColor S_black hf)
  have F2 := focus_up_right (focus_setColor S_black (focus_down_right F1))
  have F3 := focus_setColor S_red F2
  obtain ⟨hh, ⟨e1, hg0, hgc, hgl, ⟨hgr, hu0, huc, -⟩, hcU⟩, ⟨e2, hp0, hpc, hpp, -, -⟩, hnd⟩ := hf
  subst e1 e2
  simp [Ctx.before, Ctx.after, Tree.inorder, List.nodup_append, List.nodup_cons] at hnd
  refine ⟨_, ?_, F3, ?_⟩
  · simp [insert_rebalance_body, get_parent, get_left, get_right, set_color, is_red, *]
  · simp [hnd]

theorem insert_body_case1_right {m : Mem} {h : Base_ptr} {U : Ctx} {cg cp : Rb_tree_color}
    {pl pr ul ur : Tree} {x p g u pp par : Base_ptr}
    (hf : Focus m h (Ctx.inR cg (Tree.node S_red ul u ur) g U) (Tree.node cp pl p pr) pp par)
    (hx0 : x ≠ 0) (hxp : m.M_parent x = p) :
    ∃ m1, insert_rebalance_body x h m = some (g, m1) ∧
      Focus m1 h U (Tree.node S_red (Tree.node S_black ul u ur) g (Tree.node S_black pl p pr))
        g (m1.M_parent g) ∧
      m1.M_left h = m.M_left h ∧ m1.M_right h = m.M_right h ∧
      m1.M_color h = m.M_color h := by
  have F1 := focus_up_right (focus_setColor S_black hf)
  have F2 := focus_up_left (focus_setColor S_black (focus_down_left F1))
  have F3 := focus_setColor S_red F2
  obtain ⟨hh, ⟨e1, hg0, hgc, hgr, ⟨hgl, hu0, huc, -⟩, hcU⟩, ⟨e2, hp0, hpc, hpp, -, -⟩, hnd⟩ := hf
  subst e1 e2
  simp [Ctx.before, Ctx.after, Tree.inorder, List.nodup_append, List.nodup_cons] at hnd
  have hne : pp ≠ u := by tauto
  refine ⟨_, ?_, F3, ?_⟩
  · simp [insert_rebalance_body, get_parent, get_left, get_right, set_color, is_red, *]
  · simp [hnd]

theorem is_red_eq_false {m : Mem} {t : Tree} {p par : Base_ptr} (hr : Rep m t p par)
    (hc : t.rootColor = S_black) : is_red m p = false := by
  cases t with
  | nil =>
    simp only [Rep] at hr
    simp [is_red, hr]
  | node c l a r =>
    obtain ⟨rfl, h0, h1, -⟩ := hr
    simp only [Tree.rootColor] at hc
    simp [is_red, h1, hc]

theorem insert_body_zigzig_left {m : Mem} {h : Base_ptr} {U : Ctx} {cg cp cs : Rb_tree_color}
    {l r sib unc : Tree} {x p g pp par : Base_ptr}
    (hf : Focus m h (Ctx.inL cg g unc U) (Tree.node cp (Tree.node cs l x r) p sib) pp par)
    (hunc : unc.rootColor = S_black) :
    ∃ m1, insert_rebalance_body x h m = some (x, m1) ∧
      Focus m1 h (Ctx.inL S_black p (Tree.node S_red sib g unc) U) (Tree.node cs l x r) x p ∧
      m1.M_left h = m.M_left h ∧ m1.M_right h = m.M_right h ∧
      m1.M_color h = m.M_color h := by
  have F1 := focus_up_left (focus_setColor S_black hf)
  have F2 := focus_setColor S_red F1
  obtain ⟨m1, hrot, F3, k1, k2, k3⟩ := rotate_right_spec F2
  have F4 := focus_down_left F3
  have e4 : m1.M_left p = x := F4.2.2.1.1
  rw [e4] at F4
  obtain ⟨hh, ⟨e1, hg0, hgc, hgl, hgr, hcU⟩, ⟨e2, hp0, hpc, hpp, ⟨hpl, hx0, hxc, hxp, -, -⟩, hsib⟩, hnd⟩ := hf
  subst e1 e2
  simp [Ctx.before, Ctx.after, Tree.inorder, List.nodup_append, List.nodup_cons] at hnd
  have hred := is_red_eq_false hgr hunc
  have hxs : x ≠ m.M_right pp := Rep_ptr_ne hsib hx0 (by tauto)
  refine ⟨m1, ?_, F4, ?_⟩
  · simp [insert_rebalance_body, get_parent, get_left, get_right, set_color, *]
  · simp [k1, k2, k3, hnd]

theorem insert_body_zigzig_right {m : Mem} {h : Base_ptr} {U : Ctx} {cg cp cs : Rb_tree_color}
    {l r sib unc : Tree} {x p g pp par : Base_ptr}
    (hf : Focus m h (Ctx.inR cg unc g U) (Tree.node cp sib p (Tree.node cs l x r)) pp par)
    (hunc : unc.rootColor = S_black) :
    ∃ m1, insert_rebalance_body x h m = some (x, m1) ∧
      Focus m1 h (Ctx.inR S_black (Tree.node S_red unc g sib) p U) (Tree.node cs l x r) x p ∧
      m1.M_left h = m.M_left h ∧ m1.M_right h = m.M_right h ∧
      m1.M_color h = m.M_color h := by
  have F1 := focus_up_right (focus_setColor S_black hf)
  have F2 := focus_setColor S_red F1
  obtain ⟨m1, hrot, F3, k1, k2, k3⟩ := rotate_left_spec F2
  have F4 := focus_down_right F3
  have e4 : m1.M_right p = x := F4.2.2.1.1
  rw [e4] at F4
  obtain ⟨hh, ⟨e1, hg0, hgc, hgr, hgl, hcU⟩, ⟨e2, hp0, hpc, hpp, hsib, ⟨hpr, hx0, hxc, hxp, -, -⟩⟩, hnd⟩ := hf
  subst e1 e2
  simp [Ctx.before, Ctx.after, Tree.inorder, List.nodup_append, List.nodup_cons] at hnd
  have hred := is_red_eq_false hgl hunc
  have hxs : x ≠ m.M_left pp := Rep_ptr_ne hsib hx0 (by tauto)
  have hpu : pp ≠ m.M_left par := Rep_ptr_ne hgl hp0 (by tauto)
  refine ⟨m1, ?_, F4, ?_⟩
  · simp [insert_rebalance_body, get_parent, get_left, get_right, set_color, *]
  · simp [k1, k2, k3, hnd]

theorem insert_body_zigzag_left {m : Mem} {h : Base_ptr} {U : Ctx} {cg cp cs : Rb_tree_color}
    {l r sib unc : Tree} {x p g pp par : Base_ptr}
    (hf : Focus m h (Ctx.inL cg g unc U) (Tree.node cp sib p (Tree.node cs l x r)) pp par)
    (hunc : unc.rootColor = S_black) :
    ∃ m1, insert_rebalance_body x h m = some (p, m1) ∧
      Focus m1 h (Ctx.inL S_black x (Tree.node S_red r g unc) U) (Tree.node cp sib p l) p x ∧
      m1.M_left h = m.M_left h ∧ m1.M_right h = m.M_right h ∧
      m1.M_color h = m.M_color h := by
  obtain rfl : pp = p := hf.2.2.1.1
  obtain ⟨m1, hrot1, G1, j1, j2, j3⟩ := rotate_left_spec hf
  have G2 := focus_up_left (focus_setColor S_black G1)
  have G3 := focus_setColor S_red G2
  obtain ⟨m2, hrot2, G4, k1, k2, k3⟩ := rotate_right_spec G3
  have G5 := focus_down_left G4
  have e5 : m2.M_left x = pp := G5.2.2.1.1
  rw [e5] at G5
  have hp1 : m1.M_parent pp = x := G1.2.2.1.2.2.2.2.1.2.2.2.1
  obtain ⟨hh, ⟨e1, hg0, hgc, hgl, hgr, hcU⟩, ⟨e2, hp0, hpc, hpp, hsib, ⟨hpr, hx0, hxc, hxp, -, -⟩⟩, hnd⟩ := hf
  subst e1
  simp [Ctx.before, Ctx.after, Tree.inorder, List.nodup_append, List.nodup_cons] at hnd
  have hred := is_red_eq_false hgr hunc
  refine ⟨m2, ?_, G5, ?_⟩
  · simp [insert_rebalance_body, get_parent, get_left, get_right, set_color, *]
  · simp [k1, k2, k3, j1, j2, j3, hnd]

theorem insert_body_zigzag_right {m : Mem} {h : Base_ptr} {U : Ctx} {cg cp cs : Rb_tree_color}
    {l r sib unc : Tree} {x p g pp par : Base_ptr}
    (hf : Focus m h (Ctx.inR cg unc g U) (Tree.node cp (Tree.node cs l x r) p sib) pp par)
    (hunc : unc.rootColor = S_black) :
    ∃ m1, insert_rebalance_body x h m = some (p, m1) ∧
      Focus m1 h (Ctx.inR S_black (Tree.node S_red unc g l) x U) (Tree.node cp r p sib) p x ∧
      m1.M_left h = m.M_left h ∧ m1.M_right h = m.M_right h ∧
      m1.M_color h = m.M_color h := by
  obtain rfl : pp = p := hf.2.2.1.1
  obtain ⟨m1, hrot1, G1, j1, j2, j3⟩ := rotate_right_spec hf
  have G2 := focus_up_right (focus_setColor S_black G1)
  have G3 := focus_setColor S_red G2
  obtain ⟨m2, hrot2, G4, k1, k2, k3⟩ := rotate_left_spec G3
  have G5 := focus_down_right G4
  have e5 : m2.M_right x = pp := G5.2.2.1.1
  rw [e5] at G5
  have hp1 : m1.M_parent pp = x := G1.2.2.1.2.2.2.2.2.2.2.2.1
  obtain ⟨hh, ⟨e1, hg0, hgc, hgr, hgl, hcU⟩, ⟨e2, hp0, hpc, hpp, ⟨hpl, hx0, hxc, hxp, -, -⟩, hsib⟩, hnd⟩ := hf
  subst e1
  simp [Ctx.before, Ctx.after, Tree.inorder, List.nodup_append, List.nodup_cons] at hnd
  have hred := is_red_eq_false hgl hunc
  have hpu : pp ≠ m.M_left par := Rep_ptr_ne hgl hp0 (by tauto)
  refine ⟨m2, ?_, G5, ?_⟩
  · simp [insert_rebalance_body, get_parent, get_left, get_right, set_color, *]
  · simp [k1, k2, k3, j1, j2, j3, hnd]

/-! ## The red-black invariants of a plugged context -/

@[simp] theorem rootColor_nil : Tree.nil.rootColor = S_black := rfl

@[simp] theorem rootColor_node (c : Rb_tree_color) (l : Tree) (a : Base_ptr) (r : Tree) :
    (Tree.node c l a r).rootColor = c := rfl

@[simp] theorem color_top : Ctx.top.color = S_red := rfl

@[simp] theorem color_inL (c : Rb_tree_color) (a : Base_ptr) (r : Tree) (up : Ctx) :
    (Ctx.inL c a r up).color = c := rfl

@[simp] theorem color_inR (c : Rb_tree_color) (l : Tree) (a : Base_ptr) (up : Ctx) :
    (Ctx.inR c l a up).color = c := rfl

@[simp] theorem blacken_nil : Tree.nil.blacken = Tree.nil := rfl

@[simp] theorem blacken_node (c : Rb_tree_color) (l : Tree) (a : Base_ptr) (r : Tree) :
    (Tree.node c l a r).blacken = Tree.node S_black l a r := rfl

theorem plug_isRB : ∀ (C : Ctx) (s : Tree),
    (C.plug s).IsRB ↔
      CtxOK C s.blackHeight ∧ s.noRedRed ∧ s.balanced ∧ (s.rootColor = S_red → C.color = S_black)
  | Ctx.top, s => by
    cases hc : s.rootColor <;> simp [Ctx.plug, Tree.IsRB, CtxOK, hc]
  | Ctx.inL c a r up, s => by
    rw [Ctx.plug, plug_isRB up]
    cases c <;> cases hc : s.rootColor <;>
      simp [CtxOK, Tree.noRedRed, Tree.balanced, Tree.blackHeight, hc]
        <;> aesop
  | Ctx.inR c l a up, s => by
    rw [Ctx.plug, plug_isRB up]
    cases c <;> cases hc : s.rootColor <;>
      simp [CtxOK, Tree.noRedRed, Tree.balanced, Tree.blackHeight, hc]
        <;> aesop

/-! ## The insertion loop on shapes keeps the invariants -/

theorem CtxOK_congr {C : Ctx} {n k : Nat} (e : n = k) (hc : CtxOK C n) : CtxOK C k :=
  e ▸ hc

theorem insStep_inv {C : Ctx} {s : Tree} (hi : InsInv C s) (hred : C.color = S_red)
    (hne : C ≠ Ctx.top) :
    InsInv (insStep C s).1 (insStep C s).2 ∧ (insStep C s).1.depth < C.depth ∧
      ((insStep C s).1.plug (insStep C s).2).inorder = (C.plug s).inorder := by
  obtain ⟨hs1, hs2, hs3, hs4, hs5⟩ := hi
  cases s with
  | nil => exact absurd rfl hs2
  | node cs l x r =>
    simp only [rootColor_node] at hs1
    subst hs1
    obtain ⟨hs4a, hlR, hrR⟩ := hs4
    obtain ⟨hlC, hrC⟩ := hs4a rfl
    obtain ⟨hlr, hlB, hrB⟩ := hs5
    cases C with
    | top => exact absurd rfl hne
    | inL cp p sib up =>
      simp only [color_inL, color_inR] at hred
      subst hred
      cases up with
      | top => simp [CtxOK] at hs3
      | inL cg g unc U =>
        obtain ⟨hsibR, hsibB, hsibH, hsibC, huncR, huncB, huncH, -, hU⟩ := hs3
        obtain ⟨hsibC, hcg⟩ := hsibC rfl
        simp only [color_inL, color_inR] at hcg
        subst hcg
        cases unc with
        | nil =>
          simp only [insStep]
          simp [Tree.blackHeight] at hU hsibH huncH
          refine ⟨⟨rfl, by simp, ?_, ?_, ?_⟩, ?_, ?_⟩
          · simp [Tree.blackHeight, CtxOK, Tree.noRedRed, Tree.balanced, hsibR, hsibB, hsibC,
              huncR, huncB, hlR, hrR, hlC, hrC, hlB, hrB]
            repeat' constructor
            all_goals first | omega | exact CtxOK_congr (by omega) hU
          · simp [Tree.noRedRed, hsibR, hsibB, hsibC, huncR, huncB, hlR, hrR, hlC, hrC, hlB, hrB]
          · simp [Tree.balanced, Tree.blackHeight, hsibR, hsibB, hsibC, huncR, huncB, hlR, hrR,
              hlC, hrC, hlB, hrB]
            try omega
          · simp [Ctx.depth]
            try omega
          · simp [inorder_plug, Ctx.before, Ctx.after, Tree.inorder]
        | node cu ul u ur =>
          simp only [Tree.noRedRed, Tree.balanced] at huncR huncB
          cases cu with
          | S_red =>
            simp only [insStep]
            simp [Tree.blackHeight] at hU hsibH huncH
            refine ⟨⟨rfl, by simp, ?_, ?_, ?_⟩, ?_, ?_⟩
            · simp [Tree.blackHeight, CtxOK, Tree.noRedRed, Tree.balanced, hsibR, hsibB, hsibC,
                huncR, huncB, hlR, hrR, hlC, hrC, hlB, hrB]
              all_goals first | omega | exact CtxOK_congr (by omega) hU
            · simp [Tree.noRedRed, hsibR, hsibB, hsibC, huncR, huncB, hlR, hrR, hlC, hrC, hlB, hrB]
            · simp [Tree.balanced, Tree.blackHeight, hsibR, hsibB, hsibC, huncR, huncB, hlR, hrR,
                hlC, hrC, hlB, hrB]
              try omega
            · simp [Ctx.depth]
              try omega
            · simp [inorder_plug, Ctx.before, Ctx.after, Tree.inorder]
          | S_black =>
            simp only [insStep]
            simp [Tree.blackHeight] at hU hsibH huncH
            refine ⟨⟨rfl, by simp, ?_, ?_, ?_⟩, ?_, ?_⟩
            · simp [Tree.blackHeight, CtxOK, Tree.noRedRed, Tree.balanced, hsibR, hsibB, hsibC,
                huncR, huncB, hlR, hrR, hlC, hrC, hlB, hrB]
              repeat' constructor
              all_goals first | omega | exact CtxOK_congr (by omega) hU
            · simp [Tree.noRedRed, hsibR, hsibB, hsibC, huncR, huncB, hlR, hrR, hlC, hrC, hlB, hrB]
            · simp [Tree.balanced, Tree.blackHeight, hsibR, hsibB, hsibC, huncR, huncB, hlR, hrR,
                hlC, hrC, hlB, hrB]
              try omega
            · simp [Ctx.depth]
              try omega
            · simp [inorder_plug, Ctx.before, Ctx.after, Tree.inorder]
      | inR cg unc g U =>
        obtain ⟨hsibR, hsibB, hsibH, hsibC, huncR, huncB, huncH, -, hU⟩ := hs3
        obtain ⟨hsibC, hcg⟩ := hsibC rfl
        simp only [color_inL, color_inR] at hcg
        subst hcg
        cases unc with
        | nil =>
          simp only [insStep]
          simp [Tree.blackHeight] at hU hsibH huncH
          refine ⟨⟨rfl, by simp, ?_, ?_, ?_⟩, ?_, ?_⟩
          · simp [Tree.blackHeight, CtxOK, Tree.noRedRed, Tree.balanced, hsibR, hsibB, hsibC,
              huncR, huncB, hlR, hrR, hlC, hrC, hlB, hrB]
            repeat' constructor
            all_goals first | omega | exact CtxOK_congr (by omega) hU
          · simp [Tree.noRedRed, hsibR, hsibB, hsibC, huncR, huncB, hlR, hrR, hlC, hrC, hlB, hrB]
          · simp [Tree.balanced, Tree.blackHeight, hsibR, hsibB, hsibC, huncR, huncB, hlR, hrR,
              hlC, hrC, hlB, hrB]
            try omega
          · simp [Ctx.depth]
            try omega
          · simp [inorder_plug, Ctx.before, Ctx.after, Tree.inorder]
        | node cu ul u ur =>
          simp only [Tree.noRedRed, Tree.balanced] at huncR huncB
          cases cu with
          | S_red =>
            simp only [insStep]
            simp [Tree.blackHeight] at hU hsibH huncH
            refine ⟨⟨rfl, by simp, ?_, ?_, ?_⟩, ?_, ?_⟩
            · simp [Tree.blackHeight, CtxOK, Tree.noRedRed, Tree.balanced, hsibR, hsibB, hsibC,
                huncR, huncB, hlR, hrR, hlC, hrC, hlB, hrB]
              all_goals first | omega | exact CtxOK_congr (by omega) hU
            · simp [Tree.noRedRed, hsibR, hsibB, hsibC, huncR, huncB, hlR, hrR, hlC, hrC, hlB, hrB]
            · simp [Tree.balanced, Tree.blackHeight, hsibR, hsibB, hsibC, huncR, huncB, hlR, hrR,
                hlC, hrC, hlB, hrB]
              try omega
            · simp [Ctx.depth]
              try omega
            · simp [inorder_plug, Ctx.before, Ctx.after, Tree.inorder]
          | S_black =>
            simp only [insStep]
            simp [Tree.blackHeight] at hU hsibH huncH
            refine ⟨⟨rfl, by simp, ?_, ?_, ?_⟩, ?_, ?_⟩
            · simp [Tree.blackHeight, CtxOK, Tree.noRedRed, Tree.balanced, hsibR, hsibB, hsibC,
                huncR, huncB, hlR, hrR, hlC, hrC, hlB, hrB]
              repeat' constructor
              all_goals first | omega | exact CtxOK_congr (by omega) hU
            · simp [Tree.noRedRed, hsibR, hsibB, hsibC, huncR, huncB, hlR, hrR, hlC, hrC, hlB, hrB]
            · simp [Tree.balanced, Tree.blackHeight, hsibR, hsibB, hsibC, huncR, huncB, hlR, hrR,
                hlC, hrC, hlB, hrB]
              try omega
            · simp [Ctx.depth]
              try omega
            · simp [inorder_plug, Ctx.before, Ctx.after, Tree.inorder]
    | inR cp sib p up =>
      simp only [color_inL, color_inR] at hred
      subst hred
      cases up with
      | top => simp [CtxOK] at hs3
      | inL cg g unc U =>
        obtain ⟨hsibR, hsibB, hsibH, hsibC, huncR, huncB, huncH, -, hU⟩ := hs3
        obtain ⟨hsibC, hcg⟩ := hsibC rfl
        simp only [color_inL, color_inR] at hcg
        subst hcg
        cases unc with
        | nil =>
          simp only [insStep]
          simp [Tree.blackHeight] at hU hsibH huncH
          refine ⟨⟨rfl, by simp, ?_, ?_, ?_⟩, ?_, ?_⟩
          · simp [Tree.blackHeight, CtxOK, Tree.noRedRed, Tree.balanced, hsibR, hsibB, hsibC,
              huncR, huncB, hlR, hrR, hlC, hrC, hlB, hrB]
            repeat' constructor
            all_goals first | omega | exact CtxOK_congr (by omega) hU
          · simp [Tree.noRedRed, hsibR, hsibB, hsibC, huncR, huncB, hlR, hrR, hlC, hrC, hlB, hrB]
          · simp [Tree.balanced, Tree.blackHeight, hsibR, hsibB, hsibC, huncR, huncB, hlR, hrR,
              hlC, hrC, hlB, hrB]
            try omega
          · simp [Ctx.depth]
            try omega
          · simp [inorder_plug, Ctx.before, Ctx.after, Tree.inorder]
        | node cu ul u ur =>
          simp only [Tree.noRedRed, Tree.balanced] at huncR huncB
          cases cu with
          | S_red =>
            simp only [insStep]
            simp [Tree.blackHeight] at hU hsibH huncH
            refine ⟨⟨rfl, by simp, ?_, ?_, ?_⟩, ?_, ?_⟩
            · simp [Tree.blackHeight, CtxOK, Tree.noRedRed, Tree.balanced, hsibR, hsibB, hsibC,
                huncR, huncB, hlR, hrR, hlC, hrC, hlB, hrB]
              all_goals first | omega | exact CtxOK_congr (by omega) hU
            · simp [Tree.noRedRed, hsibR, hsibB, hsibC, huncR, huncB, hlR, hrR, hlC, hrC, hlB, hrB]
            · simp [Tree.balanced, Tree.blackHeight, hsibR, hsibB, hsibC, huncR, huncB, hlR, hrR,
                hlC, hrC, hlB, hrB]
              try omega
            · simp [Ctx.depth]
              try omega
            · simp [inorder_plug, Ctx.before, Ctx.after, Tree.inorder]
          | S_black =>
            simp only [insStep]
            simp [Tree.blackHeight] at hU hsibH huncH
            refine ⟨⟨rfl, by simp, ?_, ?_, ?_⟩, ?_, ?_⟩
            · simp [Tree.blackHeight, CtxOK, Tree.noRedRed, Tree.balanced, hsibR, hsibB, hsibC,
                huncR, huncB, hlR, hrR, hlC, hrC, hlB, hrB]
              repeat' constructor
              all_goals first | omega | exact CtxOK_congr (by omega) hU
            · simp [Tree.noRedRed, hsibR, hsibB, hsibC, huncR, huncB, hlR, hrR, hlC, hrC, hlB, hrB]
            · simp [Tree.balanced, Tree.blackHeight, hsibR, hsibB, hsibC, huncR, huncB, hlR, hrR,
                hlC, hrC, hlB, hrB]
              try omega
            · simp [Ctx.depth]
              try omega
            · simp [inorder_plug, Ctx.before, Ctx.after, Tree.inorder]
      | inR cg unc g U =>
        obtain ⟨hsibR, hsibB, hsibH, hsibC, huncR, huncB, huncH, -, hU⟩ := hs3
        obtain ⟨hsibC, hcg⟩ := hsibC rfl
        simp only [color_inL, color_inR] at hcg
        subst hcg
        cases unc with
        | nil =>
          simp only [insStep]
          simp [Tree.blackHeight] at hU hsibH huncH
          refine ⟨⟨rfl, by simp, ?_, ?_, ?_⟩, ?_, ?_⟩
          · simp [Tree.blackHeight, CtxOK, Tree.noRedRed, Tree.balanced, hsibR, hsibB, hsibC,
              huncR, huncB, hlR, hrR, hlC, hrC, hlB, hrB]
            repeat' constructor
            all_goals first | omega | exact CtxOK_congr (by omega) hU
          · simp [Tree.noRedRed, hsibR, hsibB, hsibC, huncR, huncB, hlR, hrR, hlC, hrC, hlB, hrB]
          · simp [Tree.balanced, Tree.blackHeight, hsibR, hsibB, hsibC, huncR, huncB, hlR, hrR,
              hlC, hrC, hlB, hrB]
            try omega
          · simp [Ctx.depth]
            try omega
          · simp [inorder_plug, Ctx.before, Ctx.after, Tree.inorder]
        | node cu ul u ur =>
          simp only [Tree.noRedRed, Tree.balanced] at huncR huncB
          cases cu with
          | S_red =>
            simp only [insStep]
            simp [Tree.blackHeight] at hU hsibH huncH
            refine ⟨⟨rfl, by simp, ?_, ?_, ?_⟩, ?_, ?_⟩
            · simp [Tree.blackHeight, CtxOK, Tree.noRedRed, Tree.balanced, hsibR, hsibB, hsibC,
                huncR, huncB, hlR, hrR, hlC, hrC, hlB, hrB]
              all_goals first | omega | exact CtxOK_congr (by omega) hU
            · simp [Tree.noRedRed, hsibR, hsibB, hsibC, huncR, huncB, hlR, hrR, hlC, hrC, hlB, hrB]
            · simp [Tree.balanced, Tree.blackHeight, hsibR, hsibB, hsibC, huncR, huncB, hlR, hrR,
                hlC, hrC, hlB, hrB]
              try omega
            · simp [Ctx.depth]
              try omega
            · simp [inorder_plug, Ctx.before, Ctx.after, Tree.inorder]
          | S_black =>
            simp only [insStep]
            simp [Tree.blackHeight] at hU hsibH huncH
            refine ⟨⟨rfl, by simp, ?_, ?_, ?_⟩, ?_, ?_⟩
            · simp [Tree.blackHeight, CtxOK, Tree.noRedRed, Tree.balanced, hsibR, hsibB, hsibC,
                huncR, huncB, hlR, hrR, hlC, hrC, hlB, hrB]
              repeat' constructor
              all_goals first | omega | exact CtxOK_congr (by omega) hU
            · simp [Tree.noRedRed, hsibR, hsibB, hsibC, huncR, huncB, hlR, hrR, hlC, hrC, hlB, hrB]
            · simp [Tree.balanced, Tree.blackHeight, hsibR, hsibB, hsibC, huncR, huncB, hlR, hrR,
                hlC, hrC, hlB, hrB]
              try omega
            · simp [Ctx.depth]
              try omega
            · simp [inorder_plug, Ctx.before, Ctx.after, Tree.inorder]

/-! ## One pass of the insertion loop refines the step on shapes -/

theorem focus_facts {m : Mem} {h : Base_ptr} {C : Ctx} {c : Rb_tree_color} {l r : Tree}
    {a x par : Base_ptr} (hf : Focus m h C (Tree.node c l a r) x par) :
    h ≠ 0 ∧ x = a ∧ a ≠ 0 ∧ m.M_parent a = par ∧
      (C = Ctx.top → m.M_parent h = a) ∧
      (C ≠ Ctx.top → a ≠ m.M_parent h ∧ par ≠ 0 ∧ m.M_color par = C.color) := by
  obtain ⟨hh, hc, hr, hnd⟩ := hf
  obtain ⟨rfl, h2, h3, h4, h5, h6⟩ := hr
  refine ⟨hh, rfl, h2, h4, ?_, ?_⟩
  · rintro rfl
    exact hc.2
  · intro hne
    simp [Tree.inorder, List.nodup_append, List.nodup_cons] at hnd
    refine ⟨RepCtx_root_ne hc hne (by tauto) (by tauto), ?_⟩
    cases C with
    | top => exact absurd rfl hne
    | inL c1 a1 r1 up =>
      obtain ⟨rfl, k2, k3, -⟩ := hc
      exact ⟨k2, k3⟩
    | inR c1 l1 a1 up =>
      obtain ⟨rfl, k2, k3, -⟩ := hc
      exact ⟨k2, k3⟩

theorem insert_body_sim {m : Mem} {h : Base_ptr} {C : Ctx} {s : Tree} {x par : Base_ptr}
    (hf : Focus m h C s x par) (hi : InsInv C s) (hred : C.color = S_red)
    (hne : C ≠ Ctx.top) :
    ∃ x1 par1 m1, insert_rebalance_body x h m = some (x1, m1) ∧
      Focus m1 h (insStep C s).1 (insStep C s).2 x1 par1 ∧
      m1.M_left h = m.M_left h ∧ m1.M_right h = m.M_right h ∧
      m1.M_color h = m.M_color h := by
  cases s with
  | nil => exact absurd rfl hi.2.1
  | node cs l x0 r =>
    obtain rfl : x = x0 := hf.2.2.1.1
    have hx0 : x ≠ 0 := hf.2.2.1.2.1
    cases C with
    | top => exact absurd rfl hne
    | inL cp p sib up =>
      have hxp : m.M_parent x = p := hf.2.2.1.2.2.2.1.trans hf.2.1.1
      cases up with
      | top =>
        simp only [color_inL, color_inR] at hred
        subst hred
        simp [InsInv, CtxOK] at hi
      | inL cg g unc U =>
        cases unc with
        | nil =>
          obtain ⟨m1, e1, F1, k⟩ := insert_body_zigzig_left (focus_up_left hf) (by simp)
          exact ⟨_, _, m1, e1, by simpa only [insStep] using F1, k⟩
        | node cu ul u ur =>
          cases cu with
          | S_red =>
            obtain ⟨m1, e1, F1, k⟩ := insert_body_case1_left (focus_up_left hf) hx0 hxp
            exact ⟨_, _, m1, e1, by simpa only [insStep] using F1, k⟩
          | S_black =>
            obtain ⟨m1, e1, F1, k⟩ := insert_body_zigzig_left (focus_up_left hf) (by simp)
            exact ⟨_, _, m1, e1, by simpa only [insStep] using F1, k⟩
      | inR cg unc g U =>
        cases unc with
        | nil =>
          obtain ⟨m1, e1, F1, k⟩ := insert_body_zigzag_right (focus_up_left hf) (by simp)
          exact ⟨_, _, m1, e1, by simpa only [insStep] using F1, k⟩
        | node cu ul u ur =>
          cases cu with
          | S_red =>
            obtain ⟨m1, e1, F1, k⟩ := insert_body_case1_right (focus_up_left hf) hx0 hxp
            exact ⟨_, _, m1, e1, by simpa only [insStep] using F1, k⟩
          | S_black =>
            obtain ⟨m1, e1, F1, k⟩ := insert_body_zigzag_right (focus_up_left hf) (by simp)
            exact ⟨_, _, m1, e1, by simpa only [insStep] using F1, k⟩
    | inR cp sib p up =>
      have hxp : m.M_parent x = p := hf.2.2.1.2.2.2.1.trans hf.2.1.1
      cases up with
      | top =>
        simp only [color_inL, color_inR] at hred
        subst hred
        simp [InsInv, CtxOK] at hi
      | inL cg g unc U =>
        cases unc with
        | nil =>
          obtain ⟨m1, e1, F1, k⟩ := insert_body_zigzag_left (focus_up_right hf) (by simp)
          exact ⟨_, _, m1, e1, by simpa only [insStep] using F1, k⟩
        | node cu ul u ur =>
          cases cu with
          | S_red =>
            obtain ⟨m1, e1, F1, k⟩ := insert_body_case1_left (focus_up_right hf) hx0 hxp
            exact ⟨_, _, m1, e1, by simpa only [insStep] using F1, k⟩
          | S_black =>
            obtain ⟨m1, e1, F1, k⟩ := insert_body_zigzag_left (focus_up_right hf) (by simp)
            exact ⟨_, _, m1, e1, by simpa only [insStep] using F1, k⟩
      | inR cg unc g U =>
        cases unc with
        | nil =>
          obtain ⟨m1, e1, F1, k⟩ := insert_body_zigzig_right (focus_up_right hf) (by simp)
          exact ⟨_, _, m1, e1, by simpa only [insStep] using F1, k⟩
        | node cu ul u ur =>
          cases cu with
          | S_red =>
            obtain ⟨m1, e1, F1, k⟩ := insert_body_case1_right (focus_up_right hf) hx0 hxp
            exact ⟨_, _, m1, e1, by simpa only [insStep] using F1, k⟩
          | S_black =>
            obtain ⟨m1, e1, F1, k⟩ := insert_body_zigzig_right (focus_up_right hf) (by simp)
            exact ⟨_, _, m1, e1, by simpa only [insStep] using F1, k⟩

/-! ## The insertion loop -/

theorem color_cases (c : Rb_tree_color) : c = S_red ∨ c = S_black := by
  cases c <;> simp


theorem insert_loop_sim {h : Base_ptr} (Q : Ctx → Tree → Prop)
    (hQ : ∀ C s, InsInv C s → C.color = S_red → C ≠ Ctx.top → Q C s →
      Q (insStep C s).1 (insStep C s).2) :
    ∀ (fuel : Nat) (C : Ctx) (s : Tree) (x par : Base_ptr) (m : Mem),
      Focus m h C s x par → InsInv C s → Q C s → C.depth < fuel →
      ∃ m1 C1 s1 x1 par1, insert_rebalance_loop fuel x h m = some m1 ∧
        Focus m1 h C1 s1 x1 par1 ∧ InsInv C1 s1 ∧ Q C1 s1 ∧
        (C1 = Ctx.top ∨ C1.color = S_black) ∧
        (C1.plug s1).inorder = (C.plug s).inorder ∧
        m1.M_left h = m.M_left h ∧ m1.M_right h = m.M_right h ∧
        m1.M_color h = m.M_color h := by
  intro fuel
  induction fuel with
  | zero => intro C s x par m _ _ _ hd; exact absurd hd (Nat.not_lt_zero _)
  | succ n ih =>
    intro C s x par m hf hi hq hd
    cases hs : s with
    | nil => exact absurd hs hi.2.1
    | node cs l x0 r =>
      subst hs
      obtain ⟨hh, rfl, hx0, hxp, htop, hnt⟩ := focus_facts hf
      by_cases hC : C = Ctx.top
      · refine ⟨m, C, _, x, par, ?_, hf, hi, hq, Or.inl hC, rfl, rfl, rfl, rfl⟩
        simp [insert_rebalance_loop, get_parent, hh, htop hC]
      · obtain ⟨hroot, hp0, hpc⟩ := hnt hC
        by_cases hred : C.color = S_red
        · obtain ⟨x1, par1, m1, hb, F1, k1, k2, k3⟩ := insert_body_sim hf hi hred hC
          obtain ⟨I1, hdep, hord⟩ := insStep_inv hi hred hC
          obtain ⟨m2, C2, s2, x2, par2, hl, F2, I2, Q2, hex, hord2, j1, j2, j3⟩ :=
            ih _ _ x1 par1 m1 F1 I1 (hQ _ _ hi hred hC hq) (by omega)
          refine ⟨m2, C2, s2, x2, par2, ?_, F2, I2, Q2, hex, hord2.trans hord,
            j1.trans k1, j2.trans k2, j3.trans k3⟩
          simp [insert_rebalance_loop, get_parent, get_color, hh, hx0, hroot, hxp, hp0, hpc,
            hred, hb, hl]
        · have hblk : C.color = S_black := by
            rcases color_cases C.color with e | e
            · exact absurd e hred
            · exact e
          refine ⟨m, C, _, x, par, ?_, hf, hi, hq, Or.inr hblk, rfl, rfl, rfl, rfl⟩
          simp [insert_rebalance_loop, get_parent, get_color, hh, hx0, hroot, hxp, hp0, hpc,
            hblk]

/-! ## Linked trees and focused subtrees -/

theorem focus_of_linked {m : Mem} {h : Base_ptr} {t : Tree} (hl : Linked m h t) :
    Focus m h Ctx.top t (m.M_parent h) h := by
  obtain ⟨hh, hr, hnd⟩ := hl
  exact ⟨hh, ⟨rfl, rfl⟩, hr, by simpa [Ctx.before, Ctx.after] using hnd⟩

theorem linked_of_focus {m : Mem} {h : Base_ptr} : ∀ {C : Ctx} {s : Tree} {x par : Base_ptr},
    Focus m h C s x par → Linked m h (C.plug s)
  | Ctx.top, s, x, par, hf => by
    obtain ⟨hh, ⟨rfl, rfl⟩, hr, hnd⟩ := hf
    exact ⟨hh, hr, by simpa [Ctx.before, Ctx.after] using hnd⟩
  | Ctx.inL c a r up, s, x, par, hf => by
    have key := linked_of_focus (focus_up_left hf)
    exact key
  | Ctx.inR c l a up, s, x, par, hf => by
    have key := linked_of_focus (focus_up_right hf)
    exact key

theorem focus_find {m : Mem} {h p : Base_ptr} : ∀ {t : Tree} {K : Ctx} {x par : Base_ptr},
    Focus m h K t x par → p ∈ t.inorder →
    ∃ C c l r par1, K.plug t = C.plug (Tree.node c l p r) ∧
      Focus m h C (Tree.node c l p r) p par1
  | Tree.nil, _, _, _, _, hp => by simp [Tree.inorder] at hp
  | Tree.node c l a r, K, x, par, hf, hp => by
    simp only [Tree.inorder, List.mem_append, List.mem_cons] at hp
    rcases hp with hp | rfl | hp
    · have key := focus_find (focus_down_left hf) hp
      exact key
    · obtain rfl : x = p := hf.2.2.1.1
      exact ⟨K, c, l, r, par, rfl, hf⟩
    · have key := focus_find (focus_down_right hf) hp
      exact key

theorem linked_find {m : Mem} {h p : Base_ptr} {t : Tree} (hl : Linked m h t)
    (hp : p ∈ t.inorder) :
    ∃ C c l r par, t = C.plug (Tree.node c l p r) ∧ Focus m h C (Tree.node c l p r) p par :=
  focus_find (focus_of_linked hl) hp

theorem Rep_null {m : Mem} {t : Tree} {par : Base_ptr} (hr : Rep m t 0 par) : t = Tree.nil := by
  rcases Rep_ptr hr with ⟨-, e⟩ | ⟨e, -⟩
  · exact e
  · exact absurd rfl e

/-! ## Colouring the root black -/

theorem linked_blacken {m : Mem} {h : Base_ptr} {t : Tree} (hl : Linked m h t)
    (hne : t ≠ Tree.nil) :
    m.M_parent h ≠ 0 ∧ Linked (m.setColor (m.M_parent h) S_black) h t.blacken := by
  cases t with
  | nil => exact absurd rfl hne
  | node c l a r =>
    have hf := focus_setColor S_black (focus_of_linked hl)
    obtain ⟨hh, hr, hnd⟩ := hl
    obtain ⟨e, h0, -⟩ := hr
    rw [e] at hf ⊢
    exact ⟨h0, linked_of_focus hf⟩

theorem blacken_inorder (t : Tree) : t.blacken.inorder = t.inorder := by
  cases t <;> simp [Tree.inorder]

theorem blacken_of_black {t : Tree} (hc : t.rootColor = S_black) : t.blacken = t := by
  cases t with
  | nil => rfl
  | node c l a r =>
    simp only [rootColor_node] at hc
    simp [hc]

theorem plug_ne_nil {C : Ctx} {s : Tree} (hs : s ≠ Tree.nil) : C.plug s ≠ Tree.nil := by
  induction C generalizing s with
  | top => simpa [Ctx.plug] using hs
  | inL c a r up ih => exact ih (by simp)
  | inR c l a up ih => exact ih (by simp)

theorem insInv_exit {C : Ctx} {s : Tree} (hi : InsInv C s)
    (hex : C = Ctx.top ∨ C.color = S_black) : (C.plug s).blacken.IsRB := by
  obtain ⟨h1, h2, h3, h4, h5⟩ := hi
  rcases hex with rfl | hb
  · cases s with
    | nil => exact absurd rfl h2
    | node c l a r =>
      simp only [rootColor_node] at h1
      subst h1
      simp [Tree.noRedRed, Tree.balanced] at h4 h5
      simp [Ctx.plug, Tree.IsRB, Tree.noRedRed, Tree.balanced, h4, h5]
  · have hrb : (C.plug s).IsRB := (plug_isRB C s).2 ⟨h3, h4, h5, fun _ => hb⟩
    rw [blacken_of_black hrb.1]
    exact hrb

/-! ## Linking the new node -/

theorem insertBefore_append {x p : Base_ptr} {A B : List Base_ptr} (hp : p ∉ A) :
    insertBefore x p (A ++ p :: B) = A ++ x :: p :: B := by
  induction A with
  | nil => simp [insertBefore]
  | cons a A ih =>
    simp only [List.mem_cons, not_or] at hp
    simp [insertBefore, Ne.symm hp.1, ih hp.2]

theorem insertAfter_append {x p : Base_ptr} {A B : List Base_ptr} (hp : p ∉ A) :
    insertAfter x p (A ++ p :: B) = A ++ p :: x :: B := by
  induction A with
  | nil => simp [insertAfter]
  | cons a A ih =>
    simp only [List.mem_cons, not_or] at hp
    simp [insertAfter, Ne.symm hp.1, ih hp.2]

theorem getLast?_append_cons_cons (A : List Base_ptr) (x b : Base_ptr) (B : List Base_ptr) :
    (A ++ x :: b :: B).getLast? = (A ++ b :: B).getLast? := by
  simp [List.getLast?_append, List.getLast?_cons_cons]

theorem head?_append_cons_cons (A : List Base_ptr) (x b : Base_ptr) (B : List Base_ptr) :
    (A ++ b :: x :: B).head? = (A ++ b :: B).head? := by
  cases A <;> simp

set_option maxHeartbeats 1000000 in
theorem insert_link_left {m : Mem} {h : Base_ptr} {t : Tree} {x p : Base_ptr}
    (hl : Linked m h t) (hp : p ∈ t.inorder) (hpl : m.M_left p = 0) (hx : Fresh h t x) :
    ∃ m1 C0, insert_link true x p h m = some m1 ∧
      Focus m1 h C0 (Tree.node S_red Tree.nil x Tree.nil) x p ∧ C0.plug Tree.nil = t ∧
      C0.before ++ x :: C0.after = attached true x p h t.inorder ∧
      m1.M_color h = m.M_color h ∧
      (CachesOK m h t.inorder → CachesOK m1 h (C0.before ++ x :: C0.after)) := by
  obtain ⟨C, c, l, r, par, rfl, hf⟩ := linked_find hl hp
  obtain ⟨hx0, hxh, hxt⟩ := hx
  obtain ⟨hh, hc, ⟨-, hp0, hpc, hpp, hrl, hrr⟩, hnd⟩ := hf
  rw [hpl] at hrl
  obtain rfl := Rep_null hrl
  simp [inorder_plug, Tree.inorder] at hxt
  simp [Ctx.before, Ctx.after, Tree.inorder, List.nodup_append, List.nodup_cons] at hnd
  have hph : p ≠ h := by tauto
  have hxp : x ≠ p := by tauto
  have hpx : p ≠ x := Ne.symm hxp
  have hhx : h ≠ x := Ne.symm hxh
  have hhp : h ≠ p := Ne.symm hph
  by_cases hpm : m.M_left h = p
  · refine ⟨(((((m.setParent x p).setLeft x 0).setRight x 0).setColor x S_red).setLeft p x).setLeft
      h x, Ctx.inL c p r C, ?_, ?_, rfl, ?_, ?_, ?_⟩
    · simp [insert_link, set_parent, set_left, set_right, set_color, get_left, hx0, hp0, hph, hh,
        hpm, hhp, hhx]
    · simp [Focus, Rep, RepCtx, Ctx.before, Ctx.after, Tree.inorder, List.nodup_append,
        List.nodup_cons, *]
    · simp only [attached, hph, if_false, if_true, inorder_plug, Tree.inorder, List.nil_append,
        List.append_assoc, List.cons_append, Ctx.before, Ctx.after]
      rw [insertBefore_append (by tauto)]
    · simp [hhx]
    · intro hca
      simp only [CachesOK, inorder_plug, Tree.inorder, List.nil_append, Ctx.before, Ctx.after,
        List.append_assoc, List.cons_append] at hca ⊢
      cases hcb : C.before with
      | nil =>
        rw [hcb] at hca
        simpa [hhx] using hca.2
      | cons b bs =>
        rw [hcb] at hca
        have : b = p := by simpa [hpm] using hca.1.symm
        have hmem : p ∈ C.before := by simp [hcb, this]
        exact absurd hmem (by tauto)
  · refine ⟨((((m.setParent x p).setLeft x 0).setRight x 0).setColor x S_red).setLeft p x,
      Ctx.inL c p r C, ?_, ?_, rfl, ?_, ?_, ?_⟩
    · simp [insert_link, set_parent, set_left, set_right, set_color, get_left, hx0, hp0, hph, hh,
        hpm, Ne.symm hpm, hhp, hhx]
    · simp [Focus, Rep, RepCtx, Ctx.before, Ctx.after, Tree.inorder, List.nodup_append,
        List.nodup_cons, *]
    · simp only [attached, hph, if_false, if_true, inorder_plug, Tree.inorder, List.nil_append,
        List.append_assoc, List.cons_append, Ctx.before, Ctx.after]
      rw [insertBefore_append (by tauto)]
    · simp [hhx]
    · intro hca
      simp only [CachesOK, inorder_plug, Tree.inorder, List.nil_append, Ctx.before, Ctx.after,
        List.append_assoc, List.cons_append] at hca ⊢
      cases hcb : C.before with
      | nil =>
        rw [hcb] at hca
        exact absurd (by simpa using hca.1) hpm
      | cons b bs =>
        rw [hcb] at hca
        rw [getLast?_append_cons_cons (b :: bs) x p (r.inorder ++ C.after)]
        simpa [hhp, hhx] using hca

theorem getLast?_append_cons_ne {A B : List Base_ptr} {p b d : Base_ptr}
    (hd : (A ++ p :: b :: B).Nodup) : (A ++ p :: b :: B).getLast?.getD d ≠ p := by
  have hp : p ∉ b :: B := by
    simp only [List.nodup_append, List.nodup_cons] at hd
    exact hd.2.1.1
  have hne : b :: B ≠ [] := by simp
  have e : (A ++ p :: b :: B).getLast? = some ((b :: B).getLast hne) := by
    rw [List.getLast?_append_of_ne_nil _ (by simp), List.getLast?_cons_cons,
      List.getLast?_eq_getLast _ hne]
  rw [e]
  intro e1
  apply hp
  simp only [Option.getD_some] at e1
  rw [← e1]
  exact List.getLast_mem hne

set_option maxHeartbeats 1000000 in
theorem insert_link_right {m : Mem} {h : Base_ptr} {t : Tree} {x p : Base_ptr}
    (hl : Linked m h t) (hp : p ∈ t.inorder) (hpr : m.M_right p = 0) (hx : Fresh h t x) :
    ∃ m1 C0, insert_link false x p h m = some m1 ∧
      Focus m1 h C0 (Tree.node S_red Tree.nil x Tree.nil) x p ∧ C0.plug Tree.nil = t ∧
      C0.before ++ x :: C0.after = attached false x p h t.inorder ∧
      m1.M_color h = m.M_color h ∧
      (CachesOK m h t.inorder → CachesOK m1 h (C0.before ++ x :: C0.after)) := by
  obtain ⟨C, c, l, r, par, rfl, hf⟩ := linked_find hl hp
  obtain ⟨hx0, hxh, hxt⟩ := hx
  obtain ⟨hh, hc, ⟨-, hp0, hpc, hpp, hrl, hrr⟩, hnd⟩ := hf
  rw [hpr] at hrr
  obtain rfl := Rep_null hrr
  have hnd0 := hnd
  simp [inorder_plug, Tree.inorder] at hxt
  simp [Ctx.before, Ctx.after, Tree.inorder, List.nodup_append, List.nodup_cons] at hnd
  have hph : p ≠ h := by tauto
  have hxp : x ≠ p := by tauto
  have hpx : p ≠ x := Ne.symm hxp
  have hhx : h ≠ x := Ne.symm hxh
  have hhp : h ≠ p := Ne.symm hph
  by_cases hpm : m.M_right h = p
  · refine ⟨(((((m.setParent x p).setLeft x 0).setRight x 0).setColor x S_red).setRight p
      x).setRight h x, Ctx.inR c l p C, ?_, ?_, rfl, ?_, ?_, ?_⟩
    · simp [insert_link, set_parent, set_left, set_right, set_color, get_right, hx0, hp0, hph,
        hh, hpm, hhp, hhx]
    · simp [Focus, Rep, RepCtx, Ctx.before, Ctx.after, Tree.inorder, List.nodup_append,
        List.nodup_cons, *]
      try tauto
    · simp only [attached, hph, if_false, inorder_plug, Tree.inorder, List.nil_append,
        List.append_assoc, List.cons_append, Ctx.before, Ctx.after, List.append_nil]
      rw [← List.append_assoc, ← List.append_assoc, insertAfter_append (by simp; tauto)]
      simp
    · simp [hhx]
    · intro hca
      simp only [CachesOK, inorder_plug, Tree.inorder, List.nil_append, Ctx.before, Ctx.after,
        List.append_assoc, List.cons_append, List.append_nil] at hca hnd0 ⊢
      cases hcb : C.after with
      | nil =>
        rw [hcb] at hca
        rw [← List.append_assoc] at hca ⊢
        rw [head?_append_cons_cons]
        simpa [hhx, hhp, List.getLast?_append, List.getLast?_cons_cons] using hca.1
      | cons b bs =>
        rw [hcb] at hca hnd0
        have h1 := hca.2
        rw [hpm, ← List.append_assoc] at h1
        rw [← List.append_assoc] at hnd0
        exact absurd h1.symm (getLast?_append_cons_ne (List.nodup_cons.1 hnd0).2)
  · refine ⟨((((m.setParent x p).setLeft x 0).setRight x 0).setColor x S_red).setRight p x,
      Ctx.inR c l p C, ?_, ?_, rfl, ?_, ?_, ?_⟩
    · simp [insert_link, set_parent, set_left, set_right, set_color, get_right, hx0, hp0, hph,
        hh, hpm, Ne.symm hpm, hhp, hhx]
    · simp [Focus, Rep, RepCtx, Ctx.before, Ctx.after, Tree.inorder, List.nodup_append,
        List.nodup_cons, *]
      try tauto
    · simp only [attached, hph, if_false, inorder_plug, Tree.inorder, List.nil_append,
        List.append_assoc, List.cons_append, Ctx.before, Ctx.after, List.append_nil]
      rw [← List.append_assoc, ← List.append_assoc, insertAfter_append (by simp; tauto)]
      simp
    · simp [hhx]
    · intro hca
      simp only [CachesOK, inorder_plug, Tree.inorder, List.nil_append, Ctx.before, Ctx.after,
        List.append_assoc, List.cons_append, List.append_nil] at hca ⊢
      cases hcb : C.after with
      | nil =>
        rw [hcb] at hca
        have h1 := hca.2
        simp [List.getLast?_append] at h1
        exact absurd h1 hpm
      | cons b bs =>
        rw [hcb] at hca
        rw [← List.append_assoc] at hca ⊢
        rw [head?_append_cons_cons]
        refine ⟨by simpa [hhx, hhp] using hca.1, ?_⟩
        have h2 := hca.2
        simp only [List.getLast?_append, List.getLast?_cons_cons] at h2 ⊢
        simpa [hhx, hhp] using h2

theorem insert_link_empty {m : Mem} {h x : Base_ptr} (hl : Linked m h Tree.nil)
    (hx : Fresh h Tree.nil x) :
    ∃ m1 C0, insert_link true x h h m = some m1 ∧
      Focus m1 h C0 (Tree.node S_red Tree.nil x Tree.nil) x h ∧ C0.plug Tree.nil = Tree.nil ∧
      C0.before ++ x :: C0.after = attached true x h h Tree.nil.inorder ∧
      m1.M_color h = m.M_color h ∧
      (CachesOK m h Tree.nil.inorder → CachesOK m1 h (C0.before ++ x :: C0.after)) := by
  obtain ⟨hx0, hxh, -⟩ := hx
  obtain ⟨hh, -, -⟩ := hl
  have hhx : h ≠ x := Ne.symm hxh
  refine ⟨((((((m.setParent x h).setLeft x 0).setRight x 0).setColor x S_red).setLeft h
    x).setParent h x).setRight h x, Ctx.top, ?_, ?_, rfl, ?_, ?_, ?_⟩
  · simp [insert_link, set_parent, set_left, set_right, set_color, hx0, hh]
  · simp [Focus, Rep, RepCtx, Ctx.before, Ctx.after, Tree.inorder, hh, hx0, hhx, hxh]
  · simp [attached, Ctx.before, Ctx.after]
  · simp [hhx]
  · intro _
    simp [CachesOK, Ctx.before, Ctx.after]

theorem insert_link_spec {m : Mem} {h : Base_ptr} {t : Tree} {il : Bool} {x p : Base_ptr}
    (hl : Linked m h t) (hp : AttachPos m h t il p) (hx : Fresh h t x) :
    ∃ m1 C0, insert_link il x p h m = some m1 ∧
      Focus m1 h C0 (Tree.node S_red Tree.nil x Tree.nil) x p ∧ C0.plug Tree.nil = t ∧
      C0.before ++ x :: C0.after = attached il x p h t.inorder ∧
      m1.M_color h = m.M_color h ∧
      (CachesOK m h t.inorder → CachesOK m1 h (C0.before ++ x :: C0.after)) := by
  rcases hp with ⟨hp, hslot⟩ | ⟨rfl, rfl, rfl⟩
  · cases il with
    | true => exact insert_link_left hl hp (by simpa using hslot) hx
    | false => exact insert_link_right hl hp (by simpa using hslot) hx
  · exact insert_link_empty hl hx

/-! ## The whole insertion -/

theorem depth_le (C : Ctx) : C.depth ≤ C.before.length + C.after.length := by
  induction C with
  | top => simp [Ctx.depth]
  | inL c a r up ih => simp [Ctx.depth, Ctx.before, Ctx.after]; omega
  | inR c l a up ih => simp [Ctx.depth, Ctx.before, Ctx.after]; omega

theorem linked_root {m : Mem} {h : Base_ptr} {t : Tree} (hl : Linked m h t)
    (hne : t ≠ Tree.nil) : m.M_parent h ≠ 0 ∧ m.M_parent h ≠ h := by
  obtain ⟨hh, hr, hnd⟩ := hl
  rcases Rep_ptr hr with ⟨-, e⟩ | ⟨h0, hmem⟩
  · exact absurd e hne
  · refine ⟨h0, fun e => ?_⟩
    rw [e] at hmem
    exact (List.nodup_cons.1 hnd).1 hmem

theorem insert_spec {h : Base_ptr} (Q : Ctx → Tree → Prop)
    (hQ : ∀ C s, InsInv C s → C.color = S_red → C ≠ Ctx.top → Q C s →
      Q (insStep C s).1 (insStep C s).2)
    {m : Mem} {t : Tree} {il : Bool} {x p : Base_ptr} {fuel : Nat}
    (hl : Linked m h t) (hrb : t.IsRB) (hp : AttachPos m h t il p) (hx : Fresh h t x)
    (hfuel : t.inorder.length < fuel)
    (hQ0 : ∀ C0, C0.plug Tree.nil = t → Q C0 (Tree.node S_red Tree.nil x Tree.nil)) :
    ∃ m1 C1 s1, Rb_tree_insert_and_rebalance fuel il x p h m = some m1 ∧
      Linked m1 h (C1.plug s1).blacken ∧ (C1.plug s1).blacken.IsRB ∧
      (C1.plug s1).blacken.inorder = attached il x p h t.inorder ∧
      m1.M_color h = m.M_color h ∧
      (CachesOK m h t.inorder → CachesOK m1 h (attached il x p h t.inorder)) ∧
      Q C1 s1 ∧ InsInv C1 s1 ∧ (C1 = Ctx.top ∨ C1.color = S_black) := by
  obtain ⟨m1, C0, hlink, F0, hplug, hord0, hcol0, hcache0⟩ := insert_link_spec hl hp hx
  have hI0 : InsInv C0 (Tree.node S_red Tree.nil x Tree.nil) := by
    have h1 := (plug_isRB C0 Tree.nil).1 (hplug ▸ hrb)
    refine ⟨rfl, by simp, ?_, by simp [Tree.noRedRed], by simp [Tree.balanced]⟩
    simpa [Tree.blackHeight] using h1.1
  have hdep : C0.depth < fuel := by
    have h1 := depth_le C0
    have h2 : t.inorder.length = C0.before.length + C0.after.length := by
      rw [← hplug, inorder_plug]
      simp [Tree.inorder]
    omega
  obtain ⟨m2, C1, s1, x1, par1, hloop, F1, I1, Q1, hex, hord1, j1, j2, j3⟩ :=
    insert_loop_sim Q hQ fuel C0 _ x p m1 F0 hI0 (hQ0 C0 hplug) hdep
  have hl1 := linked_of_focus F1
  have hne1 : C1.plug s1 ≠ Tree.nil := plug_ne_nil I1.2.1
  obtain ⟨hr0, hl2⟩ := linked_blacken hl1 hne1
  obtain ⟨-, hrh⟩ := linked_root hl1 hne1
  have hordf : (C1.plug s1).blacken.inorder = attached il x p h t.inorder := by
    rw [blacken_inorder, hord1, inorder_plug, ← hord0]
    simp [Tree.inorder]
  refine ⟨_, C1, s1, ?_, hl2, insInv_exit I1 hex, hordf, ?_, ?_, Q1, I1, hex⟩
  · simp [Rb_tree_insert_and_rebalance, hlink, hloop, get_parent, set_color, hl.1, hr0]
  · simp [Ne.symm hrh, j3, hcol0]
  · intro hc
    have h3 := hcache0 hc
    rw [hord0] at h3
    simpa [CachesOK, j1, j2] using h3

/-! ## Sortedness and root pointers -/

theorem Rep_rootPtr {m : Mem} {t : Tree} {p par : Base_ptr} (hr : Rep m t p par) :
    p = t.rootPtr := by
  cases t with
  | nil => exact hr
  | node c l a r => exact hr.1

theorem sorted_insert {key : Base_ptr → Int} {A B : List Base_ptr} {x : Base_ptr}
    (hs : (A ++ B).Sorted (fun a b => key a ≤ key b))
    (hA : ∀ a ∈ A.getLast?, key a ≤ key x) (hB : ∀ b ∈ B.head?, key x ≤ key b) :
    (A ++ x :: B).Sorted (fun a b => key a ≤ key b) := by
  unfold List.Sorted at hs ⊢
  rw [List.pairwise_append] at hs ⊢
  obtain ⟨h1, h2, h3⟩ := hs
  have hxB : ∀ b ∈ B, key x ≤ key b := by
    cases B with
    | nil => simp
    | cons b0 B1 =>
      intro b hb
      have h0 : key x ≤ key b0 := hB b0 (by simp)
      rcases List.mem_cons.1 hb with rfl | hb
      · exact h0
      · exact le_trans h0 ((List.pairwise_cons.1 h2).1 b hb)
  have hAx : ∀ a ∈ A, key a ≤ key x := by
    rcases A.eq_nil_or_concat with rfl | ⟨A1, a0, hA1⟩
    · simp
    · rw [List.concat_eq_append] at hA1
      subst hA1
      intro a ha
      have h0 : key a0 ≤ key x := hA a0 (by simp)
      rcases List.mem_append.1 ha with ha | ha
      · exact le_trans ((List.pairwise_append.1 h1).2.2 a ha a0 (by simp)) h0
      · simp at ha
        rw [ha]
        exact h0
  refine ⟨h1, List.pairwise_cons.2 ⟨hxB, h2⟩, ?_⟩
  intro a ha b hb
  rcases List.mem_cons.1 hb with rfl | hb
  · exact hAx a ha
  · exact h3 a ha b hb

/-! ## Traversal: minimum, maximum and the two ascents -/

theorem inorder_ne_nil {t : Tree} (hne : t ≠ Tree.nil) : t.inorder ≠ [] := by
  cases t with
  | nil => exact absurd rfl hne
  | node c l a r => simp [Tree.inorder]

theorem getLast?_append_cons_ne_nil (A : List Base_ptr) (p : Base_ptr) {R : List Base_ptr}
    (hR : R ≠ []) : (A ++ p :: R).getLast? = R.getLast? := by
  have e : A ++ p :: R = (A ++ [p]) ++ R := by simp
  rw [e, List.getLast?_append_of_ne_nil _ hR]

theorem S_minimum_spec {m : Mem} : ∀ (t : Tree) (p par : Base_ptr) (fuel : Nat),
    Rep m t p par → t ≠ Tree.nil → t.inorder.length ≤ fuel →
    S_minimum fuel m p = t.inorder.head?
  | Tree.nil, _, _, _, _, hne, _ => absurd rfl hne
  | Tree.node c l a r, p, par, fuel, hr, _, hf => by
    obtain ⟨rfl, h0, -, -, hl, -⟩ := hr
    cases fuel with
    | zero => simp [Tree.inorder] at hf
    | succ n =>
      cases l with
      | nil =>
        simp only [Rep] at hl
        simp [S_minimum, get_left, h0, hl, Tree.inorder]
      | node c1 l1 a1 r1 =>
        have hl0 : m.M_left p ≠ 0 := by
          rw [hl.1]
          exact hl.2.1
        have ih := S_minimum_spec (Tree.node c1 l1 a1 r1) _ _ n hl (by simp)
          (by simp [Tree.inorder] at hf ⊢; omega)
        simp [S_minimum, get_left, h0, hl0, ih, Tree.inorder]

theorem S_maximum_spec {m : Mem} : ∀ (t : Tree) (p par : Base_ptr) (fuel : Nat),
    Rep m t p par → t ≠ Tree.nil → t.inorder.length ≤ fuel →
    S_maximum fuel m p = t.inorder.getLast?
  | Tree.nil, _, _, _, _, hne, _ => absurd rfl hne
  | Tree.node c l a r, p, par, fuel, hr, _, hf => by
    obtain ⟨rfl, h0, -, -, -, hrr⟩ := hr
    cases fuel with
    | zero => simp [Tree.inorder] at hf
    | succ n =>
      cases r with
      | nil =>
        simp only [Rep] at hrr
        simp [S_maximum, get_right, h0, hrr, Tree.inorder]
      | node c1 l1 a1 r1 =>
        have hr0 : m.M_right p ≠ 0 := by
          rw [hrr.1]
          exact hrr.2.1
        have ih := S_maximum_spec (Tree.node c1 l1 a1 r1) _ _ n hrr (by simp)
          (by simp [Tree.inorder] at hf ⊢; omega)
        have hne : (Tree.node c1 l1 a1 r1).inorder ≠ [] := inorder_ne_nil (by simp)
        rw [Tree.inorder, getLast?_append_cons_ne_nil _ _ hne]
        simp [S_maximum, get_right, h0, hr0, ih]

theorem increment_climb_spec {m : Mem} {h : Base_ptr} : ∀ (C : Ctx) (c : Rb_tree_color)
    (l r : Tree) (a x par : Base_ptr) (fuel : Nat),
    Focus m h C (Tree.node c l a r) x par → C.depth + 2 ≤ fuel →
    ∃ x1 y1, increment_climb fuel m x par = some (x1, y1) ∧ x1 ≠ 0 ∧
      (if m.M_right x1 ≠ y1 then y1 else x1) = C.after.head?.getD h
  | Ctx.top, c, l, r, a, x, par, fuel, hf, hfuel => by
    obtain ⟨hh, ⟨rfl, hroot⟩, ⟨rfl, hx0, -, hxp, -, hrr⟩, hnd⟩ := hf
    simp [Ctx.before, Ctx.after, Tree.inorder, List.nodup_append, List.nodup_cons] at hnd
    have hxr : par ≠ m.M_right x := Rep_ptr_ne hrr hh (by tauto)
    obtain ⟨n, rfl⟩ : ∃ n, fuel = n + 2 := ⟨fuel - 2, by simp [Ctx.depth] at hfuel; omega⟩
    by_cases hc : x = m.M_right par
    · refine ⟨par, x, ?_, hh, ?_⟩
      · simp [increment_climb, get_right, get_parent, hh, hx0, ← hc, hroot, hxr]
      · simp [← hc, Ctx.after]
    · refine ⟨x, par, ?_, hx0, ?_⟩
      · simp [increment_climb, get_right, get_parent, hh, hx0, hc]
      · simp [Ne.symm hxr, Ctx.after]
  | Ctx.inL c1 a1 r1 up, c, l, r, a, x, par, fuel, hf, hfuel => by
    obtain ⟨hh, ⟨rfl, ha0, -, hal, har, -⟩, ⟨rfl, hx0, -, hxp, -, hrr⟩, hnd⟩ := hf
    simp [Ctx.before, Ctx.after, Tree.inorder, List.nodup_append, List.nodup_cons] at hnd
    have hxs : x ≠ m.M_right par := Rep_ptr_ne har hx0 (by tauto)
    have hxr : par ≠ m.M_right x := Rep_ptr_ne hrr ha0 (by tauto)
    obtain ⟨n, rfl⟩ : ∃ n, fuel = n + 1 := ⟨fuel - 1, by omega⟩
    refine ⟨x, par, ?_, hx0, ?_⟩
    · simp [increment_climb, get_right, ha0, hxs]
    · simp [Ne.symm hxr, Ctx.after]
  | Ctx.inR c1 l1 a1 up, c, l, r, a, x, par, fuel, hf, hfuel => by
    obtain ⟨n, rfl⟩ : ∃ n, fuel = n + 1 := ⟨fuel - 1, by omega⟩
    have hup := focus_up_right hf
    obtain ⟨x1, y1, e1, e0, e2⟩ := increment_climb_spec up c1 l1 _ a1 a1 _ n hup
      (by simp [Ctx.depth] at hfuel; omega)
    obtain ⟨hh, ⟨rfl, ha0, -, har, -, -⟩, -, -⟩ := hf
    refine ⟨x1, y1, ?_, e0, ?_⟩
    · simp [increment_climb, get_right, get_parent, ha0, har, e1]
    · simpa [Ctx.after] using e2

theorem decrement_climb_spec {m : Mem} {h : Base_ptr} : ∀ (C : Ctx) (c : Rb_tree_color)
    (l r : Tree) (a x par : Base_ptr) (fuel : Nat),
    Focus m h C (Tree.node c l a r) x par → C.before ≠ [] → C.depth + 1 ≤ fuel →
    ∃ x1 y1, decrement_climb fuel m x par = some (x1, y1) ∧ some y1 = C.before.getLast?
  | Ctx.top, c, l, r, a, x, par, fuel, hf, hb, hfuel => by simp [Ctx.before] at hb
  | Ctx.inR c1 l1 a1 up, c, l, r, a, x, par, fuel, hf, hb, hfuel => by
    obtain ⟨hh, ⟨rfl, ha0, -, har, hal, -⟩, ⟨rfl, hx0, -, hxp, -, hrr⟩, hnd⟩ := hf
    simp [Ctx.before, Ctx.after, Tree.inorder, List.nodup_append, List.nodup_cons] at hnd
    have hxs : x ≠ m.M_left par := Rep_ptr_ne hal hx0 (by tauto)
    obtain ⟨n, rfl⟩ : ∃ n, fuel = n + 1 := ⟨fuel - 1, by omega⟩
    refine ⟨x, par, ?_, ?_⟩
    · simp [decrement_climb, get_left, ha0, hxs]
    · simp [Ctx.before, List.getLast?_append]
  | Ctx.inL c1 a1 r1 up, c, l, r, a, x, par, fuel, hf, hb, hfuel => by
    obtain ⟨n, rfl⟩ : ∃ n, fuel = n + 1 := ⟨fuel - 1, by omega⟩
    have hup := focus_up_left hf
    obtain ⟨x1, y1, e1, e2⟩ := decrement_climb_spec up c1 _ r1 a1 a1 _ n hup
      (by simpa [Ctx.before] using hb) (by simp [Ctx.depth] at hfuel; omega)
    obtain ⟨hh, ⟨rfl, ha0, -, hal, -, -⟩, -, -⟩ := hf
    refine ⟨x1, y1, ?_, ?_⟩
    · simp [decrement_climb, get_left, get_parent, ha0, hal, e1]
    · simpa [Ctx.before] using e2

/-! ## Successor and predecessor -/

theorem nodup_split_unique {x : Base_ptr} : ∀ {A A1 B B1 : List Base_ptr},
    (A ++ x :: B).Nodup → A ++ x :: B = A1 ++ x :: B1 → A = A1 ∧ B = B1
  | [], [], B, B1, _, e => by simpa using e
  | [], a1 :: A1, B, B1, hd, e => by
    simp only [List.nil_append, List.cons_append, List.cons.injEq] at e
    obtain ⟨rfl, rfl⟩ := e
    simp at hd
  | a :: A, [], B, B1, hd, e => by
    simp only [List.nil_append, List.cons_append, List.cons.injEq] at e
    obtain ⟨rfl, rfl⟩ := e
    simp at hd
  | a :: A, a1 :: A1, B, B1, hd, e => by
    simp only [List.cons_append, List.cons.injEq] at e
    obtain ⟨rfl, e⟩ := e
    have := nodup_split_unique (List.nodup_cons.1 hd).2 e
    simp [this.1, this.2]

theorem focus_split {m : Mem} {h : Base_ptr} {C : Ctx} {c : Rb_tree_color} {l r : Tree}
    {x p par : Base_ptr} {A B : List Base_ptr}
    (hf : Focus m h C (Tree.node c l x r) p par)
    (hs : (C.plug (Tree.node c l x r)).inorder = A ++ x :: B) :
    A = C.before ++ l.inorder ∧ B = r.inorder ++ C.after := by
  have hnd := (List.nodup_cons.1 hf.2.2.2).2
  have e : C.before ++ (Tree.node c l x r).inorder ++ C.after =
      (C.before ++ l.inorder) ++ x :: (r.inorder ++ C.after) := by
    simp [Tree.inorder]
  rw [e] at hnd
  rw [inorder_plug, e] at hs
  have := nodup_split_unique hnd hs
  exact ⟨this.1.symm, this.2.symm⟩

theorem focus_depth_lt {m : Mem} {h : Base_ptr} {C : Ctx} {c : Rb_tree_color} {l r : Tree}
    {x p par : Base_ptr} (_hf : Focus m h C (Tree.node c l x r) p par) :
    C.depth + 1 ≤ (C.plug (Tree.node c l x r)).inorder.length ∧
      l.inorder.length ≤ (C.plug (Tree.node c l x r)).inorder.length ∧
      r.inorder.length ≤ (C.plug (Tree.node c l x r)).inorder.length := by
  have := depth_le C
  simp [inorder_plug, Tree.inorder]
  omega

theorem increment_spec {m : Mem} {h : Base_ptr} {t : Tree} {x : Base_ptr}
    {A B : List Base_ptr} {fuel : Nat} (hl : Linked m h t) (hs : t.inorder = A ++ x :: B)
    (hfuel : t.inorder.length < fuel) :
    Rb_tree_increment fuel m x = some (B.head?.getD h) := by
  have hx : x ∈ t.inorder := by simp [hs]
  obtain ⟨C, c, l, r, par, rfl, hf⟩ := linked_find hl hx
  obtain ⟨hA, hB⟩ := focus_split hf hs
  obtain ⟨hd1, hd2, hd3⟩ := focus_depth_lt hf
  have hx0 : x ≠ 0 := hf.2.2.1.2.1
  have hxp : m.M_parent x = par := hf.2.2.1.2.2.2.1
  have hrr : Rep m r (m.M_right x) x := hf.2.2.1.2.2.2.2.2
  cases r with
  | nil =>
    simp only [Rep] at hrr
    obtain ⟨x1, y1, e1, e0, e2⟩ :=
      increment_climb_spec C c l Tree.nil x x par fuel hf (by omega)
    simp only [Tree.inorder, List.nil_append] at hB
    subst hB
    rw [← e2]
    simp [Rb_tree_increment, get_right, get_parent, hx0, hrr, hxp, e1, e0]
    by_cases hc : m.M_right x1 = y1 <;> simp [hc]
  | node c1 l1 a1 r1 =>
    have hr0 : m.M_right x ≠ 0 := by
      rw [hrr.1]
      exact hrr.2.1
    have hmin := S_minimum_spec _ _ _ fuel hrr (by simp) (by omega)
    have hne : (Tree.node c1 l1 a1 r1).inorder ≠ [] := inorder_ne_nil (by simp)
    subst hB
    simp [Rb_tree_increment, get_right, hx0, hr0, hmin]
    cases hi : (Tree.node c1 l1 a1 r1).inorder with
    | nil => exact absurd hi hne
    | cons b bs => simp

theorem RepCtx_par {m : Mem} {h : Base_ptr} {C : Ctx} {x par : Base_ptr}
    (hc : RepCtx m h C x par) : par = h ∨ par ∈ C.before ++ C.after := by
  cases C with
  | top => exact Or.inl hc.1
  | inL c a r up => exact Or.inr (by simp [hc.1, Ctx.after])
  | inR c l a up => exact Or.inr (by simp [hc.1, Ctx.before])

theorem focus_not_header_test {m : Mem} {h : Base_ptr} {C : Ctx} {c : Rb_tree_color}
    {l r : Tree} {x p par : Base_ptr} (hf : Focus m h C (Tree.node c l x r) p par)
    (hroot : (C.plug (Tree.node c l x r)).rootColor = S_black) :
    par ≠ 0 ∧ ¬ (c = S_red ∧ m.M_parent par = x) := by
  obtain ⟨hh, hc, ⟨rfl, hx0, -, hxp, -, -⟩, hnd⟩ := hf
  cases C with
  | top =>
    obtain ⟨rfl, -⟩ := hc
    refine ⟨hh, ?_⟩
    simp only [Ctx.plug, rootColor_node] at hroot
    simp [hroot]
  | inL c1 a1 r1 up =>
    obtain ⟨rfl, ha0, -, -, -, hup⟩ := hc
    refine ⟨ha0, ?_⟩
    simp [Ctx.before, Ctx.after, Tree.inorder, List.nodup_append, List.nodup_cons] at hnd
    rintro ⟨-, e⟩
    rcases RepCtx_par hup with e1 | e1
    · rw [e] at e1
      tauto
    · rw [e, List.mem_append] at e1
      tauto
  | inR c1 l1 a1 up =>
    obtain ⟨rfl, ha0, -, -, -, hup⟩ := hc
    refine ⟨ha0, ?_⟩
    simp [Ctx.before, Ctx.after, Tree.inorder, List.nodup_append, List.nodup_cons] at hnd
    rintro ⟨-, e⟩
    rcases RepCtx_par hup with e1 | e1
    · rw [e] at e1
      tauto
    · rw [e, List.mem_append] at e1
      tauto

theorem decrement_spec {m : Mem} {h : Base_ptr} {t : Tree} {x : Base_ptr}
    {A B : List Base_ptr} {fuel : Nat} (hl : Linked m h t) (hroot : t.rootColor = S_black)
    (hs : t.inorder = A ++ x :: B) (hA : A ≠ []) (hfuel : t.inorder.length < fuel) :
    ∃ y, A.getLast? = some y ∧ Rb_tree_decrement fuel m x = some y := by
  have hx : x ∈ t.inorder := by simp [hs]
  obtain ⟨C, c, l, r, par, rfl, hf⟩ := linked_find hl hx
  obtain ⟨hA1, hB1⟩ := focus_split hf hs
  obtain ⟨hd1, hd2, hd3⟩ := focus_depth_lt hf
  obtain ⟨hp0, htest⟩ := focus_not_header_test hf hroot
  have hx0 : x ≠ 0 := hf.2.2.1.2.1
  have hxc : m.M_color x = c := hf.2.2.1.2.2.1
  have hxp : m.M_parent x = par := hf.2.2.1.2.2.2.1
  have hll : Rep m l (m.M_left x) x := hf.2.2.1.2.2.2.2.1
  have hnt : c = S_red → m.M_parent par ≠ x := fun hc e => htest ⟨hc, e⟩
  cases l with
  | nil =>
    simp only [Rep] at hll
    simp only [Tree.inorder, List.append_nil] at hA1
    subst hA1
    obtain ⟨x1, y1, e1, e2⟩ := decrement_climb_spec C c Tree.nil r x x par fuel hf hA (by omega)
    refine ⟨y1, e2.symm, ?_⟩
    by_cases hc : c = S_red
    · have hn := hnt hc
      simp [Rb_tree_decrement, get_color, get_parent, get_left, hx0, hxc, hc, hxp, hp0, hn,
        hll, e1]
    · simp [Rb_tree_decrement, get_color, get_parent, get_left, hx0, hxc, hc, hxp, hll, e1]
  | node c1 l1 a1 r1 =>
    have hl0 : m.M_left x ≠ 0 := by
      rw [hll.1]
      exact hll.2.1
    have hmax := S_maximum_spec _ _ _ fuel hll (by simp) (by omega)
    have hne : (Tree.node c1 l1 a1 r1).inorder ≠ [] := inorder_ne_nil (by simp)
    subst hA1
    obtain ⟨y, hy⟩ : ∃ y, (Tree.node c1 l1 a1 r1).inorder.getLast? = some y := by
      rw [List.getLast?_eq_getLast _ hne]
      exact ⟨_, rfl⟩
    refine ⟨y, by rw [List.getLast?_append_of_ne_nil _ hne, hy], ?_⟩
    by_cases hc : c = S_red
    · have hn := hnt hc
      simp [Rb_tree_decrement, get_color, get_parent, get_left, hx0, hxc, hc, hxp, hp0, hn,
        hl0, hmax, hy]
    · simp [Rb_tree_decrement, get_color, get_parent, get_left, hx0, hxc, hc, hl0, hmax, hy]

theorem decrement_header {m : Mem} {h : Base_ptr} {t : Tree} {fuel : Nat}
    (hl : Linked m h t) (hne : t ≠ Tree.nil) (hred : m.M_color h = S_red) :
    Rb_tree_decrement fuel m h = some (m.M_right h) := by
  obtain ⟨hr0, -⟩ := linked_root hl hne
  obtain ⟨hh, hr, -⟩ := hl
  cases t with
  | nil => exact absurd rfl hne
  | node c l a r =>
    obtain ⟨e, h0, -, hp, -⟩ := hr
    rw [← e] at hp
    simp [Rb_tree_decrement, get_color, get_parent, get_right, hh, hred, hr0, hp]

/-! ## Walking forward and backward -/

theorem walk_increment {m : Mem} {h : Base_ptr} {t : Tree} {fuel : Nat} (hl : Linked m h t)
    (hfuel : t.inorder.length < fuel) : ∀ (B A : List Base_ptr) (x : Base_ptr),
    t.inorder = A ++ x :: B →
    walk (Rb_tree_increment fuel m) (B.length + 1) x = some (x :: B ++ [h])
  | [], A, x, hs => by
    have e := increment_spec hl hs hfuel
    simp [walk, e]
  | y :: B, A, x, hs => by
    have e := increment_spec hl hs hfuel
    have hs1 : t.inorder = (A ++ [x]) ++ y :: B := by simp [hs]
    have ih := walk_increment hl hfuel B (A ++ [x]) y hs1
    simp only [List.length_cons] at ih ⊢
    rw [walk]
    simp [e, ih]

theorem walk_decrement {m : Mem} {h : Base_ptr} {t : Tree} {fuel : Nat} (hl : Linked m h t)
    (hroot : t.rootColor = S_black) (hfuel : t.inorder.length < fuel) :
    ∀ (n : Nat) (A B : List Base_ptr) (x : Base_ptr), A.length = n →
    t.inorder = A ++ x :: B →
    walk (Rb_tree_decrement fuel m) n x = some (x :: A.reverse)
  | 0, A, B, x, hn, _ => by
    have : A = [] := List.length_eq_zero.1 hn
    simp [walk, this]
  | n + 1, A, B, x, hn, hs => by
    rcases A.eq_nil_or_concat with rfl | ⟨A1, y, hA1⟩
    · simp at hn
    · rw [List.concat_eq_append] at hA1
      subst hA1
      obtain ⟨z, hz, e⟩ := decrement_spec hl hroot hs (by simp) hfuel
      have hzy : z = y := by simpa using hz.symm
      subst hzy
      have hs1 : t.inorder = A1 ++ z :: (x :: B) := by simp [hs]
      have ih := walk_decrement hl hroot hfuel n A1 (x :: B) z (by simpa using hn) hs1
      rw [walk]
      simp [e, ih]

/-! ## Reading a tree off the memory -/

theorem readTree_unique {m : Mem} : ∀ (fuel : Nat) (p : Base_ptr) (t1 : Tree),
    readTree fuel m p = some t1 → ∀ (t : Tree) (par : Base_ptr), Rep m t p par → t = t1
  | 0, _, _, hr => by simp [readTree] at hr
  | fuel + 1, p, t1, hr => by
    intro t par hrep
    by_cases hp : p = 0
    · subst hp
      simp [readTree] at hr
      rw [Rep_null hrep, hr]
    · simp only [readTree, hp, if_false] at hr
      cases t with
      | nil => exact absurd hrep hp
      | node c l a r =>
        obtain ⟨rfl, -, hc, -, hl, hrr⟩ := hrep
        cases h1 : readTree fuel m (m.M_left p) with
        | none => simp [h1] at hr
        | some l1 =>
          cases h2 : readTree fuel m (m.M_right p) with
          | none => simp [h1, h2] at hr
          | some r1 =>
            simp [h1, h2] at hr
            rw [← hr, hc, readTree_unique fuel _ l1 h1 l _ hl,
              readTree_unique fuel _ r1 h2 r _ hrr]

theorem linked_unique {m : Mem} {h : Base_ptr} {fuel : Nat} {t1 t : Tree}
    (hr : readTree fuel m (m.M_parent h) = some t1) (hl : Linked m h t) : t = t1 :=
  readTree_unique fuel _ t1 hr t h hl.2.1

/-! ## Erasing a node without a pass of the rebalancing loop -/

set_option maxHeartbeats 1000000 in
theorem erase_unlink_leaf {m : Mem} {h : Base_ptr} {C : Ctx} {c : Rb_tree_color}
    {x par : Base_ptr} {fuel : Nat}
    (hf : Focus m h C (Tree.node c Tree.nil x Tree.nil) x par)
    (hfuel : 0 < fuel) :
    ∃ m1, erase_unlink fuel x h m = some (x, 0, par, m1) ∧
      Focus m1 h C Tree.nil 0 par ∧ m1.M_color = m.M_color ∧
      m1.M_left h = (if m.M_left h = x then par else m.M_left h) ∧
      m1.M_right h = (if m.M_right h = x then par else m.M_right h) := by
  obtain ⟨hh, hC, hr, hnd⟩ := hf
  simp only [Rep] at hr
  obtain ⟨-, hx0, hxc, hxp, hxl, hxr⟩ := hr
  obtain ⟨fuel, rfl⟩ : ∃ k, fuel = k + 1 := ⟨fuel - 1, by omega⟩
  cases C with
  | top =>
    obtain ⟨rfl, hroot⟩ := hC
    simp [Ctx.before, Ctx.after, Tree.inorder, List.nodup_append, List.nodup_cons] at hnd
    by_cases h1 : m.M_left par = x <;> by_cases h2 : m.M_right par = x <;>
      simp [erase_unlink, erase_select, erase_splice,
        erase_replace_child, erase_fix_leftmost, erase_fix_rightmost,
        get_right, get_left, get_parent, get_color, set_right,
        set_parent, set_left, Focus, Rep, RepCtx, Ctx.before, Ctx.after, Tree.inorder,
        List.nodup_append, List.nodup_cons, *]
  | inL cp a r up =>
    simp [Ctx.before, Ctx.after, Tree.inorder, List.nodup_append, List.nodup_cons] at hnd
    have hroot : m.M_parent h ≠ x := Ne.symm
      (RepCtx_root_ne hC (by simp) (by simp [Ctx.before, hnd]) (by simp [Ctx.after]; tauto))
    simp only [RepCtx] at hC
    obtain ⟨rfl, ha0, hac, hal, har, hup⟩ := hC
    by_cases h1 : m.M_left h = x <;> by_cases h2 : m.M_right h = x <;>
      simp [erase_unlink, erase_select, erase_splice,
        erase_replace_child, erase_fix_leftmost, erase_fix_rightmost,
        get_right, get_left, get_parent, get_color, set_right,
        set_parent, set_left, Focus, Rep, RepCtx, Ctx.before, Ctx.after, Tree.inorder,
        List.nodup_append, List.nodup_cons, *]
  | inR cp l a up =>
    simp [Ctx.before, Ctx.after, Tree.inorder, List.nodup_append, List.nodup_cons] at hnd
    have hroot : m.M_parent h ≠ x := Ne.symm
      (RepCtx_root_ne hC (by simp) (by simp [Ctx.before]; tauto) (by simp [Ctx.after, hnd]))
    simp only [RepCtx] at hC
    obtain ⟨rfl, ha0, hac, har, hal, hup⟩ := hC
    have hsib : m.M_left par ≠ x := Ne.symm (Rep_ptr_ne hal hx0 (by tauto))
    by_cases h1 : m.M_left h = x <;> by_cases h2 : m.M_right h = x <;>
      simp [erase_unlink, erase_select, erase_splice,
        erase_replace_child, erase_fix_leftmost, erase_fix_rightmost,
        get_right, get_left, get_parent, get_color, set_right,
        set_parent, set_left, Focus, Rep, RepCtx, Ctx.before, Ctx.after, Tree.inorder,
        List.nodup_append, List.nodup_cons, *]

theorem erase_of_unlink {fuel : Nat} {z h x xp : Base_ptr} {m mu : Mem}
    (hu : erase_unlink fuel z h m = some (z, x, xp, mu)) (hz : z ≠ 0)
    (hc : mu.M_color z = S_red) : Rb_tree_rebalance_for_erase fuel z h m = some (z, mu) := by
  simp [Rb_tree_rebalance_for_erase, hu, get_color, hz, hc]

theorem erase_leaf_spec {m : Mem} {h : Base_ptr} {C : Ctx} {c : Rb_tree_color}
    {x par : Base_ptr} {fuel : Nat}
    (hf : Focus m h C (Tree.node c Tree.nil x Tree.nil) x par)
    (hc : c = S_red ∨ C = Ctx.top) (hfuel : 0 < fuel) :
    ∃ m1, Rb_tree_rebalance_for_erase fuel x h m = some (x, m1) ∧
      Focus m1 h C Tree.nil 0 par ∧ m1.M_color h = m.M_color h ∧
      m1.M_left h = (if m.M_left h = x then par else m.M_left h) ∧
      m1.M_right h = (if m.M_right h = x then par else m.M_right h) := by
  obtain ⟨m1, hu, F1, hcol, hL, hR⟩ := erase_unlink_leaf hf hfuel
  obtain ⟨-, hx0, hxc, -⟩ := focus_node hf
  refine ⟨m1, ?_, F1, by rw [hcol], hL, hR⟩
  by_cases hred : c = S_red
  · exact erase_of_unlink hu hx0 (by rw [hcol, hxc, hred])
  · obtain rfl : C = Ctx.top := by tauto
    obtain ⟨fuel, rfl⟩ : ∃ k, fuel = k + 1 := ⟨fuel - 1, by omega⟩
    have hroot : m1.M_parent h = 0 := F1.2.1.2
    have hcx : m1.M_color x = c := by rw [hcol, hxc]
    simp [Rb_tree_rebalance_for_erase, hu, get_color, get_parent, erase_rebalance_loop, hx0,
      hcx, hred, F1.1, hroot]

set_option maxHeartbeats 1000000 in
theorem erase_unlink_near {m : Mem} {h : Base_ptr} {C : Ctx} {c cl : Rb_tree_color}
    {Ll Lr : Tree} {l x y par : Base_ptr} {fuel : Nat}
    (hf : Focus m h C (Tree.node c (Tree.node cl Ll l Lr) x
      (Tree.node S_red Tree.nil y Tree.nil)) x par) (hfuel : 0 < fuel) :
    ∃ m1, erase_unlink fuel x h m = some (x, 0, y, m1) ∧
      Focus m1 h C (Tree.node c (Tree.node cl Ll l Lr) y Tree.nil) y par ∧
      m1.M_color = upd (upd m.M_color y c) x S_red ∧
      m1.M_left h = m.M_left h ∧ m1.M_right h = m.M_right h := by
  obtain ⟨hh, hC, hr, hnd⟩ := hf
  simp only [Rep] at hr
  obtain ⟨-, hx0, hxc, hxp, ⟨hxl, hl0, hlc, hlp, hLl, hLr⟩, hxr, hy0, hyc, hyp, hyl, hyr⟩ := hr
  obtain ⟨fuel, rfl⟩ : ∃ k, fuel = k + 1 := ⟨fuel - 1, by omega⟩
  cases C with
  | top =>
    obtain ⟨rfl, hroot⟩ := hC
    simp [Ctx.before, Ctx.after, Tree.inorder, List.nodup_append, List.nodup_cons] at hnd
    have hyx : y ≠ x := by tauto
    simp [erase_unlink, erase_select, erase_relink,
      erase_replace_child, S_minimum,
      get_right, get_left, get_parent, get_color, set_right, set_color,
      set_parent, set_left, Focus, Rep, RepCtx, Ctx.before, Ctx.after, Tree.inorder,
      List.nodup_append, List.nodup_cons, *]
  | inL cp a r up =>
    simp [Ctx.before, Ctx.after, Tree.inorder, List.nodup_append, List.nodup_cons] at hnd
    have hyx : y ≠ x := by tauto
    have hroot : m.M_parent h ≠ x := Ne.symm
      (RepCtx_root_ne hC (by simp) (by simp [Ctx.before, hnd]) (by simp [Ctx.after]; tauto))
    simp only [RepCtx] at hC
    obtain ⟨rfl, ha0, hac, hal, har, hup⟩ := hC
    simp [erase_unlink, erase_select, erase_relink,
      erase_replace_child, S_minimum,
      get_right, get_left, get_parent, get_color, set_right, set_color,
      set_parent, set_left, Focus, Rep, RepCtx, Ctx.before, Ctx.after, Tree.inorder,
      List.nodup_append, List.nodup_cons, *]
  | inR cp sib a up =>
    simp [Ctx.before, Ctx.after, Tree.inorder, List.nodup_append, List.nodup_cons] at hnd
    have hyx : y ≠ x := by tauto
    have hroot : m.M_parent h ≠ x := Ne.symm
      (RepCtx_root_ne hC (by simp) (by simp [Ctx.before]; tauto) (by simp [Ctx.after, hnd]))
    simp only [RepCtx] at hC
    obtain ⟨rfl, ha0, hac, har, hal, hup⟩ := hC
    have hsib : m.M_left par ≠ x := Ne.symm (Rep_ptr_ne hal hx0 (by tauto))
    simp [erase_unlink, erase_select, erase_relink,
      erase_replace_child, S_minimum,
      get_right, get_left, get_parent, get_color, set_right, set_color,
      set_parent, set_left, Focus, Rep, RepCtx, Ctx.before, Ctx.after, Tree.inorder,
      List.nodup_append, List.nodup_cons, *]

theorem erase_succ_spec {m : Mem} {h : Base_ptr} {C : Ctx} {c cl : Rb_tree_color}
    {Ll Lr : Tree} {l x y par : Base_ptr} {fuel : Nat}
    (hf : Focus m h C (Tree.node c (Tree.node cl Ll l Lr) x
      (Tree.node S_red Tree.nil y Tree.nil)) x par) (hfuel : 0 < fuel) :
    ∃ m1, Rb_tree_rebalance_for_erase fuel x h m = some (x, m1) ∧
      Focus m1 h C (Tree.node c (Tree.node cl Ll l Lr) y Tree.nil) y par ∧
      m1.M_color h = m.M_color h ∧ m1.M_left h = m.M_left h ∧ m1.M_right h = m.M_right h := by
  obtain ⟨m1, hu, F1, hcol, hL, hR⟩ := erase_unlink_near hf hfuel
  obtain ⟨-, hx0, -, -⟩ := focus_node hf
  obtain ⟨hh, -, -, hnd⟩ := hf
  simp [Tree.inorder, List.nodup_append, List.nodup_cons] at hnd
  have hhx : h ≠ x := by tauto
  have hhy : h ≠ y := by tauto
  refine ⟨m1, erase_of_unlink hu hx0 (by rw [hcol]; simp), F1, ?_, hL, hR⟩
  rw [hcol]
  simp [upd_other _ _ hhx, upd_other _ _ hhy]

/-! ## The shape around the new node after the insertion loop -/

theorem nodeAt_plug {x : Base_ptr} {P : Rb_tree_color → Tree → Tree → Prop} :
    ∀ (C : Ctx) {s : Tree}, Tree.nodeAt x P s → Tree.nodeAt x P (C.plug s)
  | Ctx.top, _, hs => hs
  | Ctx.inL c a r up, s, hs => by
    have key := nodeAt_plug up (s := Tree.node c s a r) (Or.inr (Or.inl hs))
    exact key
  | Ctx.inR c l a up, s, hs => by
    have key := nodeAt_plug up (s := Tree.node c l a s) (Or.inr (Or.inr hs))
    exact key

theorem nodeAt_mono {x : Base_ptr} {P Q : Rb_tree_color → Tree → Tree → Prop}
    (hP : ∀ c l r, P c l r → Q c l r) : ∀ {t : Tree}, Tree.nodeAt x P t → Tree.nodeAt x Q t
  | Tree.nil, ht => ht
  | Tree.node c l a r, ht => by
    rcases ht with ⟨e, hp⟩ | ht | ht
    · exact Or.inl ⟨e, hP _ _ _ hp⟩
    · exact Or.inr (Or.inl (nodeAt_mono hP ht))
    · exact Or.inr (Or.inr (nodeAt_mono hP ht))

theorem nodeAt_mem {x : Base_ptr} {P : Rb_tree_color → Tree → Tree → Prop} :
    ∀ {t : Tree}, Tree.nodeAt x P t → x ∈ t.inorder
  | Tree.nil, ht => ht.elim
  | Tree.node c l a r, ht => by
    rcases ht with ⟨e, -⟩ | ht | ht
    · simp [Tree.inorder, e]
    · simp [Tree.inorder, nodeAt_mem ht]
    · simp [Tree.inorder, nodeAt_mem ht]

theorem nodeAt_plug_inv {x : Base_ptr} {P : Rb_tree_color → Tree → Tree → Prop} :
    ∀ (C : Ctx) {s : Tree}, Tree.nodeAt x P (C.plug s) → x ∉ C.before → x ∉ C.after →
      Tree.nodeAt x P s
  | Ctx.top, _, hs, _, _ => hs
  | Ctx.inL c a r up, s, hs, hb, ha => by
    simp [Ctx.before, Ctx.after] at hb ha
    have key := nodeAt_plug_inv up (s := Tree.node c s a r) hs hb (by tauto)
    rcases key with ⟨e, -⟩ | ht | ht
    · exact absurd e.symm ha.1
    · exact ht
    · exact absurd (nodeAt_mem ht) ha.2.1
  | Ctx.inR c l a up, s, hs, hb, ha => by
    simp [Ctx.before, Ctx.after] at hb ha
    have key := nodeAt_plug_inv up (s := Tree.node c l a s) hs (by tauto) ha
    rcases key with ⟨e, -⟩ | ht | ht
    · exact absurd e.symm hb.2.2
    · exact absurd (nodeAt_mem ht) hb.2.1
    · exact ht

theorem nodeAt_focus {m : Mem} {h x p par : Base_ptr} {P : Rb_tree_color → Tree → Tree → Prop}
    {C : Ctx} {c : Rb_tree_color} {l r : Tree}
    (hf : Focus m h C (Tree.node c l x r) p par)
    (hn : Tree.nodeAt x P (C.plug (Tree.node c l x r))) : P c l r := by
  obtain ⟨-, -, -, hnd⟩ := hf
  simp [Tree.inorder, List.nodup_append, List.nodup_cons] at hnd
  have key := nodeAt_plug_inv C hn (by tauto) (by tauto)
  rcases key with ⟨-, hp⟩ | ht | ht
  · exact hp
  · exact absurd (nodeAt_mem ht) (by tauto)
  · exact absurd (nodeAt_mem ht) (by tauto)

theorem nil_of_black {t : Tree} (hc : t.rootColor = S_black) (hb : t.blackHeight = 0) :
    t = Tree.nil := by
  cases t with
  | nil => rfl
  | node c l a r =>
    simp only [rootColor_node] at hc
    subst hc
    simp [Tree.blackHeight] at hb

theorem insTrack_step {x : Base_ptr} {C : Ctx} {s : Tree} (hi : InsInv C s)
    (hred : C.color = S_red) (hne : C ≠ Ctx.top) (hq : InsTrack x C s) :
    InsTrack x (insStep C s).1 (insStep C s).2 := by
  obtain ⟨hs1, hs2, hs3, hs4, hs5⟩ := hi
  replace hq : Tree.nodeAt x IsRedLeaf s := by
    rcases hq with hq | ⟨hb, -⟩
    · exact hq
    · rw [hred] at hb
      cases hb
  cases s with
  | nil => exact absurd rfl hs2
  | node cs l xx r =>
    simp only [rootColor_node] at hs1
    subst hs1
    cases C with
    | top => exact absurd rfl hne
    | inL cp p sib up =>
      simp only [color_inL, color_inR] at hred
      subst hred
      cases up with
      | top => simp [CtxOK] at hs3
      | inL cg g unc U =>
        obtain ⟨hsibR, hsibB, hsibH, hsibC, huncR, huncB, huncH, -, hU⟩ := hs3
        obtain ⟨hsibC1, hcg⟩ := hsibC rfl
        simp only [color_inL, color_inR] at hcg
        subst hcg
        cases unc with
        | nil =>
          simp only [insStep]
          simp [Tree.blackHeight] at hsibH huncH
          rcases hq with ⟨rfl, -, rfl, rfl⟩ | hq | hq
          · left
            simp [Tree.nodeAt, IsRedLeaf]
          · left
            simp [Tree.nodeAt, IsRedLeaf, hq]
          · left
            simp [Tree.nodeAt, IsRedLeaf, hq]
        | node cu ul u ur =>
          cases cu with
          | S_red =>
            simp only [insStep]
            simp [Tree.blackHeight] at hsibH huncH
            rcases hq with ⟨rfl, -, rfl, rfl⟩ | hq | hq
            · left
              simp [Tree.nodeAt, IsRedLeaf]
            · left
              simp [Tree.nodeAt, IsRedLeaf, hq]
            · left
              simp [Tree.nodeAt, IsRedLeaf, hq]
          | S_black =>
            simp only [insStep]
            simp [Tree.blackHeight] at hsibH huncH
            rcases hq with ⟨rfl, -, rfl, rfl⟩ | hq | hq
            · left
              simp [Tree.nodeAt, IsRedLeaf]
            · left
              simp [Tree.nodeAt, IsRedLeaf, hq]
            · left
              simp [Tree.nodeAt, IsRedLeaf, hq]
      | inR cg unc g U =>
        obtain ⟨hsibR, hsibB, hsibH, hsibC, huncR, huncB, huncH, -, hU⟩ := hs3
        obtain ⟨hsibC1, hcg⟩ := hsibC rfl
        simp only [color_inL, color_inR] at hcg
        subst hcg
        cases unc with
        | nil =>
          simp only [insStep]
          simp [Tree.blackHeight] at hsibH huncH
          rcases hq with ⟨rfl, -, rfl, rfl⟩ | hq | hq
          · right
            have e : sib = Tree.nil := nil_of_black hsibC1 (by simpa [Tree.blackHeight] using hsibH)
            subst e
            refine ⟨rfl, ?_⟩
            simp only [Ctx.plug]
            refine nodeAt_plug U ?_
            simp [Tree.nodeAt, IsRedLeaf, IsNewShape]
          · right
            refine ⟨rfl, ?_⟩
            simp only [Ctx.plug]
            refine nodeAt_plug U ?_
            have hq1 := nodeAt_mono (Q := IsNewShape) (fun _ _ _ hp => Or.inl hp) hq
            simp [Tree.nodeAt, hq1]
          · left
            simp [Tree.nodeAt, IsRedLeaf, hq]
        | node cu ul u ur =>
          cases cu with
          | S_red =>
            simp only [insStep]
            simp [Tree.blackHeight] at hsibH huncH
            rcases hq with ⟨rfl, -, rfl, rfl⟩ | hq | hq
            · left
              simp [Tree.nodeAt, IsRedLeaf]
            · left
              simp [Tree.nodeAt, IsRedLeaf, hq]
            · left
              simp [Tree.nodeAt, IsRedLeaf, hq]
          | S_black =>
            simp only [insStep]
            simp [Tree.blackHeight] at hsibH huncH
            rcases hq with ⟨rfl, -, rfl, rfl⟩ | hq | hq
            · exfalso
              simp [Tree.blackHeight] at hsibH huncH
            · right
              refine ⟨rfl, ?_⟩
              simp only [Ctx.plug]
              refine nodeAt_plug U ?_
              have hq1 := nodeAt_mono (Q := IsNewShape) (fun _ _ _ hp => Or.inl hp) hq
              simp [Tree.nodeAt, hq1]
            · left
              simp [Tree.nodeAt, IsRedLeaf, hq]
    | inR cp sib p up =>
      simp only [color_inL, color_inR] at hred
      subst hred
      cases up with
      | top => simp [CtxOK] at hs3
      | inL cg g unc U =>
        obtain ⟨hsibR, hsibB, hsibH, hsibC, huncR, huncB, huncH, -, hU⟩ := hs3
        obtain ⟨hsibC1, hcg⟩ := hsibC rfl
        simp only [color_inL, color_inR] at hcg
        subst hcg
        cases unc with
        | nil =>
          simp only [insStep]
          simp [Tree.blackHeight] at hsibH huncH
          rcases hq with ⟨rfl, -, rfl, rfl⟩ | hq | hq
          · right
            have e : sib = Tree.nil := nil_of_black hsibC1 (by simpa [Tree.blackHeight] using hsibH)
            subst e
            refine ⟨rfl, ?_⟩
            simp only [Ctx.plug]
            refine nodeAt_plug U ?_
            simp [Tree.nodeAt, IsRedLeaf, IsNewShape]
          · left
            simp [Tree.nodeAt, IsRedLeaf, hq]
          · right
            refine ⟨rfl, ?_⟩
            simp only [Ctx.plug]
            refine nodeAt_plug U ?_
            have hq1 := nodeAt_mono (Q := IsNewShape) (fun _ _ _ hp => Or.inl hp) hq
            simp [Tree.nodeAt, hq1]
        | node cu ul u ur =>
          cases cu with
          | S_red =>
            simp only [insStep]
            simp [Tree.blackHeight] at hsibH huncH
            rcases hq with ⟨rfl, -, rfl, rfl⟩ | hq | hq
            · left
              simp [Tree.nodeAt, IsRedLeaf]
            · left
              simp [Tree.nodeAt, IsRedLeaf, hq]
            · left
              simp [Tree.nodeAt, IsRedLeaf, hq]
          | S_black =>
            simp only [insStep]
            simp [Tree.blackHeight] at hsibH huncH
            rcases hq with ⟨rfl, -, rfl, rfl⟩ | hq | hq
            · exfalso
              simp [Tree.blackHeight] at hsibH huncH
            · left
              simp [Tree.nodeAt, IsRedLeaf, hq]
            · right
              refine ⟨rfl, ?_⟩
              simp only [Ctx.plug]
              refine nodeAt_plug U ?_
              have hq1 := nodeAt_mono (Q := IsNewShape) (fun _ _ _ hp => Or.inl hp) hq
              simp [Tree.nodeAt, hq1]
      | inR cg unc g U =>
        obtain ⟨hsibR, hsibB, hsibH, hsibC, huncR, huncB, huncH, -, hU⟩ := hs3
        obtain ⟨hsibC1, hcg⟩ := hsibC rfl
        simp only [color_inL, color_inR] at hcg
        subst hcg
        cases unc with
        | nil =>
          simp only [insStep]
          simp [Tree.blackHeight] at hsibH huncH
          rcases hq with ⟨rfl, -, rfl, rfl⟩ | hq | hq
          · left
            simp [Tree.nodeAt, IsRedLeaf]
          · left
            simp [Tree.nodeAt, IsRedLeaf, hq]
          · left
            simp [Tree.nodeAt, IsRedLeaf, hq]
        | node cu ul u ur =>
          cases cu with
          | S_red =>
            simp only [insStep]
            simp [Tree.blackHeight] at hsibH huncH
            rcases hq with ⟨rfl, -, rfl, rfl⟩ | hq | hq
            · left
              simp [Tree.nodeAt, IsRedLeaf]
            · left
              simp [Tree.nodeAt, IsRedLeaf, hq]
            · left
              simp [Tree.nodeAt, IsRedLeaf, hq]
          | S_black =>
            simp only [insStep]
            simp [Tree.blackHeight] at hsibH huncH
            rcases hq with ⟨rfl, -, rfl, rfl⟩ | hq | hq
            · left
              simp [Tree.nodeAt, IsRedLeaf]
            · left
              simp [Tree.nodeAt, IsRedLeaf, hq]
            · left
              simp [Tree.nodeAt, IsRedLeaf, hq]

/-! ## Erasing the node that was just inserted -/

theorem blacken_nodeAt {x : Base_ptr} : ∀ {t : Tree}, Tree.nodeAt x IsNewShape t →
    t.blacken = Tree.node S_black Tree.nil x Tree.nil ∨ Tree.nodeAt x IsNewShape t.blacken
  | Tree.nil, hn => hn.elim
  | Tree.node c l a r, hn => by
    simp only [blacken_node, Tree.nodeAt] at hn ⊢
    rcases hn with ⟨rfl, ⟨-, rfl, rfl⟩ | ⟨rfl, hab⟩⟩ | hn | hn
    · exact Or.inl rfl
    · exact Or.inr (Or.inl ⟨rfl, Or.inr ⟨rfl, hab⟩⟩)
    · exact Or.inr (Or.inr (Or.inl hn))
    · exact Or.inr (Or.inr (Or.inr hn))

theorem ctx_par_before {m : Mem} {h x par : Base_ptr} {C : Ctx} (hc : RepCtx m h C x par)
    (hb : C.before = []) : par = C.after.head?.getD h := by
  cases C with
  | top => simp [Ctx.after, hc.1]
  | inL c a r up => simp [Ctx.after, hc.1]
  | inR c l a up => simp [Ctx.before] at hb

theorem ctx_par_after {m : Mem} {h x par : Base_ptr} {C : Ctx} (hc : RepCtx m h C x par)
    (ha : C.after = []) : par = C.before.getLast?.getD h := by
  cases C with
  | top => simp [Ctx.before, hc.1]
  | inL c a r up => simp [Ctx.after] at ha
  | inR c l a up =>
    simp only [Ctx.before, ← List.append_assoc]
    simp [hc.1]

theorem erase_mid {x : Base_ptr} {A B : List Base_ptr} (hx : x ∉ A) :
    (A ++ x :: B).erase x = A ++ B := by
  rw [List.erase_append_right _ hx]
  simp

theorem insertBefore_erase {x p : Base_ptr} : ∀ {L : List Base_ptr}, x ∉ L →
    (insertBefore x p L).erase x = L
  | [], _ => rfl
  | a :: rest, hx => by
    simp only [List.mem_cons, not_or] at hx
    by_cases hap : a = p
    · simp [insertBefore, hap]
    · have hax : ¬ a = x := fun e => hx.1 e.symm
      simp [insertBefore, hap, hax, insertBefore_erase hx.2]

theorem insertAfter_erase {x p : Base_ptr} : ∀ {L : List Base_ptr}, x ∉ L →
    (insertAfter x p L).erase x = L
  | [], _ => rfl
  | a :: rest, hx => by
    simp only [List.mem_cons, not_or] at hx
    have hax : ¬ a = x := fun e => hx.1 e.symm
    by_cases hap : a = p
    · subst hap
      simp [insertAfter, hax]
    · simp [insertAfter, hap, hax, insertAfter_erase hx.2]

theorem attached_erase {il : Bool} {x p h : Base_ptr} {L : List Base_ptr} (hx : x ∉ L)
    (hp : p = h → L = []) : (attached il x p h L).erase x = L := by
  unfold attached
  by_cases hph : p = h
  · simp [hph, hp hph]
  · cases il <;> simp [hph, insertBefore_erase hx, insertAfter_erase hx]

theorem leaf_caches {m m2 : Mem} {h x par : Base_ptr} {C : Ctx} {c : Rb_tree_color}
    (hf : Focus m h C (Tree.node c Tree.nil x Tree.nil) x par)
    (hL : m2.M_left h = (if m.M_left h = x then par else m.M_left h))
    (hR : m2.M_right h = (if m.M_right h = x then par else m.M_right h))
    (hc : CachesOK m h (C.before ++ x :: C.after)) : CachesOK m2 h (C.before ++ C.after) := by
  obtain ⟨hh, hC, -, hnd⟩ := hf
  simp [Tree.inorder, List.nodup_append, List.nodup_cons] at hnd
  obtain ⟨hcl, hcr⟩ := hc
  constructor
  · rw [hL, hcl]
    cases hb : C.before with
    | nil => simp [ctx_par_before hC hb]
    | cons b B =>
      have hbx : ¬ b = x := by
        rintro rfl
        simp [hb] at hnd
      simp [hbx]
  · rw [hR, hcr]
    rcases C.after.eq_nil_or_concat with ha | ⟨A, a, ha⟩
    · simp [ha, ctx_par_after hC ha]
    · rw [List.concat_eq_append] at ha
      have hax : ¬ a = x := by
        rintro rfl
        simp [ha] at hnd
      have e1 : (C.before ++ x :: (A ++ [a])).getLast? = some a := by
        rw [← List.cons_append, ← List.append_assoc]
        exact List.getLast?_concat _
      have e2 : (C.before ++ (A ++ [a])).getLast? = some a := by
        rw [← List.append_assoc]
        exact List.getLast?_concat _
      rw [ha, e1, e2]
      simp [hax]

theorem erase_new_spec {m : Mem} {h x : Base_ptr} {T : Tree} {fuel : Nat}
    (hl : Linked m h T) (hrb : T.IsRB)
    (hs : T = Tree.node S_black Tree.nil x Tree.nil ∨ Tree.nodeAt x IsNewShape T)
    (hfuel : 0 < fuel) :
    ∃ m2 t2, Rb_tree_rebalance_for_erase fuel x h m = some (x, m2) ∧ Linked m2 h t2 ∧
      t2.IsRB ∧ t2.inorder = T.inorder.erase x ∧
      (CachesOK m h T.inorder → CachesOK m2 h t2.inorder) := by
  rcases hs with rfl | hs
  · have F := focus_of_linked hl
    have e := (focus_node F).1
    rw [e] at F
    obtain ⟨m2, hE, F2, -, hL, hR⟩ := erase_leaf_spec F (Or.inr rfl) hfuel
    refine ⟨m2, Tree.nil, hE, linked_of_focus F2, by decide, by simp [Tree.inorder], ?_⟩
    intro hc
    have key := leaf_caches F hL hR (by simpa [Ctx.before, Ctx.after, Tree.inorder] using hc)
    simpa [Ctx.before, Ctx.after, Tree.inorder] using key
  · obtain ⟨C, c, l, r, par, rfl, F⟩ := linked_find hl (nodeAt_mem hs)
    have hsh := nodeAt_focus F hs
    have hrb1 := (plug_isRB C _).1 hrb
    have hnd := F.2.2.2
    rcases hsh with ⟨rfl, rfl, rfl⟩ | ⟨rfl, a, b, rfl, rfl⟩
    · obtain ⟨m2, hE, F2, -, hL, hR⟩ := erase_leaf_spec F (Or.inl rfl) hfuel
      simp [Tree.inorder, List.nodup_append, List.nodup_cons] at hnd
      refine ⟨m2, C.plug Tree.nil, hE, linked_of_focus F2, ?_, ?_, ?_⟩
      · refine (plug_isRB C Tree.nil).2 ⟨?_, trivial, trivial, by simp⟩
        simpa [Tree.blackHeight] using hrb1.1
      · rw [inorder_plug, inorder_plug]
        simp only [Tree.inorder, List.nil_append, List.append_nil, List.append_assoc]
        exact (erase_mid (by tauto)).symm
      · intro hc
        rw [inorder_plug] at hc ⊢
        have key := leaf_caches F hL hR (by simpa [Tree.inorder] using hc)
        simpa [Tree.inorder] using key
    · obtain ⟨m2, hE, F2, -, hL, hR⟩ := erase_succ_spec F hfuel
      simp [Tree.inorder, List.nodup_append, List.nodup_cons] at hnd
      refine ⟨m2, _, hE, linked_of_focus F2, ?_, ?_, ?_⟩
      · refine (plug_isRB C _).2 ⟨?_, ?_, ?_, by simp⟩
        · simpa [Tree.blackHeight] using hrb1.1
        · simp [Tree.noRedRed]
        · simp [Tree.balanced, Tree.blackHeight]
      · rw [inorder_plug, inorder_plug]
        simp only [Tree.inorder, List.nil_append, List.append_nil, List.append_assoc,
          List.cons_append]
        have key := erase_mid (x := x) (A := C.before ++ [a]) (B := b :: C.after)
          (by simp; tauto)
        simpa using key.symm
      · intro hc
        rw [inorder_plug] at hc ⊢
        obtain ⟨hcl, hcr⟩ := hc
        refine ⟨?_, ?_⟩
        · rw [hL, hcl]
          cases C.before <;> simp [Tree.inorder]
        · rw [hR, hcr]
          simp [Tree.inorder, List.getLast?_append, List.getLast?_cons_cons]

/-! ## Type classification -/

theorem traitor_value (Sp Tp : Trait) :
    (traitor Sp Tp).value ≠ 0 ↔ Sp.value ≠ 0 ∨ Tp.value ≠ 0 := by
  by_cases h1 : Sp.value = 0 <;> by_cases h2 : Tp.value = 0 <;> simp [traitor, h1, h2]

theorem traitor_type (Sp Tp : Trait) :
    (traitor Sp Tp).type = TruthTag.__true_type ↔ (traitor Sp Tp).value ≠ 0 := by
  by_cases h1 : Sp.value = 0 <;> by_cases h2 : Tp.value = 0 <;>
    simp [traitor, truth_type, h1, h2]

theorem is_integer_type (T : CppType) :
    (is_integer T).type = TruthTag.__true_type ↔ (is_integer T).value ≠ 0 := by
  cases T <;> simp [is_integer]

theorem is_floating_type (T : CppType) :
    (is_floating T).type = TruthTag.__true_type ↔ (is_floating T).value ≠ 0 := by
  cases T <;> simp [is_floating]

theorem is_pointer_type (T : CppType) :
    (is_pointer T).type = TruthTag.__true_type ↔ (is_pointer T).value ≠ 0 := by
  cases T <;> simp [is_pointer]

/-! ## The loops of `__advance` -/

theorem advance_forward_spec {α : Type} (ops : IterOps α) :
    ∀ (k fuel : Nat) (i : α), k < fuel →
      advance_forward ops fuel i (k : Int) = some (ops.inc^[k] i)
  | 0, fuel + 1, i, _ => by simp [advance_forward]
  | k + 1, fuel + 1, i, hf => by
    have ih := advance_forward_spec ops k fuel (ops.inc i) (by omega)
    have hk : ((k + 1 : Nat) : Int) ≠ 0 := by omega
    rw [advance_forward, if_pos hk]
    have e : ((k + 1 : Nat) : Int) - 1 = (k : Int) := by omega
    rw [e, ih, Function.iterate_succ_apply]

theorem advance_backward_spec {α : Type} (ops : IterOps α) :
    ∀ (k fuel : Nat) (i : α), k < fuel →
      advance_backward ops fuel i (-(k : Int)) = some (ops.dec^[k] i)
  | 0, fuel + 1, i, _ => by simp [advance_backward]
  | k + 1, fuel + 1, i, hf => by
    have ih := advance_backward_spec ops k fuel (ops.dec i) (by omega)
    have hk : -((k + 1 : Nat) : Int) ≠ 0 := by omega
    rw [advance_backward, if_pos hk]
    have e : -((k + 1 : Nat) : Int) + 1 = -(k : Int) := by omega
    rw [e, ih, Function.iterate_succ_apply]

theorem intOps_inc_iterate (k : Nat) (i : Int) : intOps.inc^[k] i = i + k := by
  induction k generalizing i with
  | zero => simp
  | succ k ih =>
    rw [Function.iterate_succ_apply, ih]
    simp only [intOps]
    push_cast
    ring

theorem intOps_dec_iterate (k : Nat) (i : Int) : intOps.dec^[k] i = i - k := by
  induction k generalizing i with
  | zero => simp
  | succ k ih =>
    rw [Function.iterate_succ_apply, ih]
    simp only [intOps]
    push_cast
    ring

/-! ## The pointer returned by the erasure -/

theorem erase_unlink_fst {fuel : Nat} {z h : Base_ptr} {m : Mem}
    {r : Base_ptr × Base_ptr × Base_ptr × Mem} (he : erase_unlink fuel z h m = some r) :
    r.1 = z := by
  unfold erase_unlink at he
  cases hs : erase_select fuel z m with
  | none => simp [hs] at he
  | some yx =>
    obtain ⟨y, x⟩ := yx
    simp only [hs, Option.bind_eq_bind, Option.some_bind] at he
    by_cases hy : y = z
    · subst hy
      simp only [ne_eq, not_true_eq_false, ↓reduceIte] at he
      cases h2 : erase_splice fuel y x h m with
      | none => simp [h2] at he
      | some q =>
        simp [h2] at he
        rw [← he]
    · simp only [ne_eq, hy, not_false_eq_true, ↓reduceIte] at he
      cases h2 : erase_relink z y x h m with
      | none => simp [h2] at he
      | some q =>
        simp [h2] at he
        rw [← he]

theorem erase_fst {fuel : Nat} {z h : Base_ptr} {m : Mem} {r : Base_ptr × Mem}
    (he : Rb_tree_rebalance_for_erase fuel z h m = some r) : r.1 = z := by
  unfold Rb_tree_rebalance_for_erase at he
  cases hu : erase_unlink fuel z h m with
  | none => simp [hu] at he
  | some q =>
    obtain ⟨y, x, xp, m1⟩ := q
    have hy : y = z := erase_unlink_fst hu
    subst hy
    simp only [hu, Option.bind_eq_bind, Option.some_bind] at he
    cases hc : get_color m1 y with
    | none => simp [hc] at he
    | some yc =>
      simp only [hc, Option.some_bind] at he
      by_cases hr : yc = S_red
      · simp [hr] at he
        rw [← he]
      · simp only [ne_eq, hr, not_false_eq_true, ↓reduceIte] at he
        cases hl : erase_rebalance_loop fuel x xp h m1 with
        | none => simp [hl] at he
        | some q2 =>
          obtain ⟨x2, m2⟩ := q2
          simp only [hl, Option.some_bind] at he
          by_cases hx : x2 = 0
          · simp [hx] at he
            rw [← he]
          · simp only [ne_eq, hx, not_false_eq_true, ↓reduceIte] at he
            cases hsc : set_color m2 x2 S_black with
            | none => simp [hsc] at he
            | some m3 =>
              simp [hsc] at he
              rw [← he]

/-! ## What a rotation does to the links -/

/-- The child slot of the parent through which a subtree hangs: what the links of a
context say about the pointer to the hole. -/
theorem RepCtx_slot {m : Mem} {h : Base_ptr} {C : Ctx} {x par : Base_ptr}
    (hc : RepCtx m h C x par) (hnd : (h :: (C.before ++ C.after)).Nodup) :
    (C = Ctx.top → par = h ∧ m.M_parent h = x) ∧
    (∀ c a r up, C = Ctx.inL c a r up →
      par = a ∧ m.M_left a = x ∧ m.M_right a = r.rootPtr ∧ a ≠ h) ∧
    (∀ c l a up, C = Ctx.inR c l a up →
      par = a ∧ m.M_right a = x ∧ m.M_left a = l.rootPtr ∧ a ≠ h) := by
  refine ⟨?_, ?_, ?_⟩
  · rintro rfl
    exact hc
  · rintro c a r up rfl
    obtain ⟨h1, -, -, h4, h5, -⟩ := hc
    simp [Ctx.before, Ctx.after, List.nodup_append, List.nodup_cons] at hnd
    exact ⟨h1, h4, Rep_rootPtr h5, fun e => hnd.1.2.1 e.symm⟩
  · rintro c l a up rfl
    obtain ⟨h1, -, -, h4, h5, -⟩ := hc
    simp [Ctx.before, Ctx.after, List.nodup_append, List.nodup_cons] at hnd
    exact ⟨h1, h4, Rep_rootPtr h5, fun e => hnd.1.2.2.1 e.symm⟩

theorem linked_root_parent {m : Mem} {h : Base_ptr} {t : Tree} (hl : Linked m h t)
    (hne : t ≠ Tree.nil) : m.M_parent (m.M_parent h) = h := by
  obtain ⟨-, hr, -⟩ := hl
  cases t with
  | nil => exact absurd rfl hne
  | node c l a r =>
    obtain ⟨e, -, -, hp, -⟩ := hr
    rw [e]
    exact hp

theorem plug_rootPtr : ∀ {C : Ctx}, C ≠ Ctx.top → ∀ (s s1 : Tree),
    (C.plug s).rootPtr = (C.plug s1).rootPtr
  | Ctx.top, hne, _, _ => absurd rfl hne
  | Ctx.inL c a r up, _, s, s1 => by
    cases up with
    | top => rfl
    | inL c2 a2 r2 up2 =>
      have key := plug_rootPtr (C := Ctx.inL c2 a2 r2 up2) (by simp) (Tree.node c s a r)
        (Tree.node c s1 a r)
      exact key
    | inR c2 l2 a2 up2 =>
      have key := plug_rootPtr (C := Ctx.inR c2 l2 a2 up2) (by simp) (Tree.node c s a r)
        (Tree.node c s1 a r)
      exact key
  | Ctx.inR c l a up, _, s, s1 => by
    cases up with
    | top => rfl
    | inL c2 a2 r2 up2 =>
      have key := plug_rootPtr (C := Ctx.inL c2 a2 r2 up2) (by simp) (Tree.node c l a s)
        (Tree.node c l a s1)
      exact key
    | inR c2 l2 a2 up2 =>
      have key := plug_rootPtr (C := Ctx.inR c2 l2 a2 up2) (by simp) (Tree.node c l a s)
        (Tree.node c l a s1)
      exact key

theorem rotate_left_links {m : Mem} {h x : Base_ptr} {t : Tree} (hl : Linked m h t)
    (hx : x ∈ t.inorder) (hy : m.M_right x ≠ 0) :
    ∃ m1 t1, Rb_tree_rotate_left x h m = some m1 ∧ Linked m1 h t1 ∧ t1.inorder = t.inorder ∧
      m1.M_parent (m.M_right x) = m.M_parent x ∧ m1.M_left (m.M_right x) = x ∧
      m1.M_parent x = m.M_right x ∧ m1.M_right x = m.M_left (m.M_right x) ∧
      (m.M_left (m.M_right x) ≠ 0 → m1.M_parent (m.M_left (m.M_right x)) = x) ∧
      (m1.M_parent h = m.M_right x ↔ m.M_parent h = x) ∧
      (m.M_parent h ≠ x → m1.M_parent h = m.M_parent h ∧
        (m.M_left (m.M_parent x) = x → m1.M_left (m.M_parent x) = m.M_right x ∧
          m1.M_right (m.M_parent x) = m.M_right (m.M_parent x)) ∧
        (m.M_left (m.M_parent x) ≠ x → m1.M_right (m.M_parent x) = m.M_right x ∧
          m1.M_left (m.M_parent x) = m.M_left (m.M_parent x))) := by
  obtain ⟨C, c, l, r, par, rfl, F⟩ := linked_find hl hx
  cases r with
  | nil =>
    obtain ⟨-, -, -, -, -, hr0⟩ := F.2.2.1
    exact absurd hr0 hy
  | node cy T1 y T2 =>
    obtain ⟨m1, he, F1, -⟩ := rotate_left_spec F
    have hord : (C.plug (Tree.node cy (Tree.node c l x T1) y T2)).inorder =
        (C.plug (Tree.node c l x (Tree.node cy T1 y T2))).inorder := by
      rw [inorder_plug, inorder_plug]
      simp [Tree.inorder]
    refine ⟨m1, _, he, linked_of_focus F1, hord, ?_⟩
    have hroot0 := Rep_rootPtr (linked_of_focus F).2.1
    have hroot1 := Rep_rootPtr (linked_of_focus F1).2.1
    have hff := focus_facts F
    have hrp := linked_root_parent (linked_of_focus F) (plug_ne_nil (by simp))
    obtain ⟨hh, hc, hr, hnd⟩ := F
    obtain ⟨-, hc1, hr1, -⟩ := F1
    simp only [Rep] at hr hr1
    obtain ⟨-, hx0, -, hxp, -, hxr, hy0, -, hyp, hB, -⟩ := hr
    obtain ⟨-, -, -, hyp1, ⟨hyl1, -, -, hxp1, -, hB1⟩, -⟩ := hr1
    simp [Tree.inorder, List.nodup_append, List.nodup_cons] at hnd
    have hctx : (h :: (C.before ++ C.after)).Nodup := by
      simp [List.nodup_append, List.nodup_cons]
      tauto
    have hyx : y ≠ x := by tauto
    have hxh : x ≠ h := by tauto
    obtain ⟨s1, s2, s3⟩ := RepCtx_slot hc hctx
    obtain ⟨u1, u2, u3⟩ := RepCtx_slot hc1 hctx
    have hBp : m.M_left y ≠ 0 → m1.M_parent (m.M_left y) = x := by
      intro hb
      cases T1 with
      | nil => exact absurd hB hb
      | node cb Bl b Br =>
        obtain ⟨e, -, -, -, -⟩ := hB
        obtain ⟨-, -, -, hbp, -⟩ := hB1
        rw [e]
        exact hbp
    rw [hxr, hxp]
    refine ⟨hyp1, hyl1, hxp1, (Rep_rootPtr hB1).trans (Rep_rootPtr hB).symm, hBp, ?_⟩
    cases C with
    | top =>
      obtain ⟨rfl, e1⟩ := s1 rfl
      obtain ⟨-, e2⟩ := u1 rfl
      simp [e1, e2]
    | inL c1 a r1 up =>
      obtain ⟨rfl, e1, e2, e3⟩ := s2 _ _ _ _ rfl
      obtain ⟨-, f1, f2, -⟩ := u2 _ _ _ _ rfl
      have hrx : m.M_parent h ≠ x := Ne.symm (hff.2.2.2.2.2 (by simp)).1
      have hsame : m1.M_parent h = m.M_parent h := by
        rw [hroot0, hroot1]
        exact plug_rootPtr (by simp) _ _
      have hry : ¬ m.M_parent h = y := by
        intro e
        rw [← e, hrp] at hyp
        exact hxh hyp.symm
      simp [hrx, hsame, e1, e2, f1, f2]
      exact hry
    | inR c1 l1 a up =>
      obtain ⟨rfl, e1, e2, e3⟩ := s3 _ _ _ _ rfl
      obtain ⟨-, f1, f2, -⟩ := u3 _ _ _ _ rfl
      have hrx : m.M_parent h ≠ x := Ne.symm (hff.2.2.2.2.2 (by simp)).1
      have hsame : m1.M_parent h = m.M_parent h := by
        rw [hroot0, hroot1]
        exact plug_rootPtr (by simp) _ _
      have hry : ¬ m.M_parent h = y := by
        intro e
        rw [← e, hrp] at hyp
        exact hxh hyp.symm
      have hxb : x ∉ (Ctx.inR c1 l1 par up).before := by tauto
      simp only [Ctx.before, List.mem_append, not_or] at hxb
      have hsib : m.M_left par ≠ x := Ne.symm (Rep_ptr_ne hc.2.2.2.2.1 hx0 hxb.2.1)
      rw [e2] at hsib
      simp [hrx, hsame, e1, e2, f1, f2, hsib]
      exact hry

theorem rotate_right_links {m : Mem} {h x : Base_ptr} {t : Tree} (hl : Linked m h t)
    (hx : x ∈ t.inorder) (hy : m.M_left x ≠ 0) :
    ∃ m1 t1, Rb_tree_rotate_right x h m = some m1 ∧ Linked m1 h t1 ∧ t1.inorder = t.inorder ∧
      m1.M_parent (m.M_left x) = m.M_parent x ∧ m1.M_right (m.M_left x) = x ∧
      m1.M_parent x = m.M_left x ∧ m1.M_left x = m.M_right (m.M_left x) ∧
      (m.M_right (m.M_left x) ≠ 0 → m1.M_parent (m.M_right (m.M_left x)) = x) ∧
      (m1.M_parent h = m.M_left x ↔ m.M_parent h = x) ∧
      (m.M_parent h ≠ x → m1.M_parent h = m.M_parent h ∧
        (m.M_left (m.M_parent x) = x → m1.M_left (m.M_parent x) = m.M_left x ∧
          m1.M_right (m.M_parent x) = m.M_right (m.M_parent x)) ∧
        (m.M_left (m.M_parent x) ≠ x → m1.M_right (m.M_parent x) = m.M_left x ∧
          m1.M_left (m.M_parent x) = m.M_left (m.M_parent x))) := by
  obtain ⟨C, c, l, r, par, rfl, F⟩ := linked_find hl hx
  cases l with
  | nil =>
    obtain ⟨-, -, -, -, hl0, -⟩ := F.2.2.1
    exact absurd hl0 hy
  | node cy T1 y T2 =>
    obtain ⟨m1, he, F1, -⟩ := rotate_right_spec F
    have hord : (C.plug (Tree.node cy T1 y (Tree.node c T2 x r))).inorder =
        (C.plug (Tree.node c (Tree.node cy T1 y T2) x r)).inorder := by
      rw [inorder_plug, inorder_plug]
      simp [Tree.inorder]
    refine ⟨m1, _, he, linked_of_focus F1, hord, ?_⟩
    have hroot0 := Rep_rootPtr (linked_of_focus F).2.1
    have hroot1 := Rep_rootPtr (linked_of_focus F1).2.1
    have hff := focus_facts F
    have hrp := linked_root_parent (linked_of_focus F) (plug_ne_nil (by simp))
    obtain ⟨hh, hc, hr, hnd⟩ := F
    obtain ⟨-, hc1, hr1, -⟩ := F1
    simp only [Rep] at hr hr1
    obtain ⟨-, hx0, -, hxp, ⟨hxr, hy0, -, hyp, -, hB⟩, -⟩ := hr
    obtain ⟨-, -, -, hyp1, -, hyl1, -, -, hxp1, hB1, -⟩ := hr1
    simp [Tree.inorder, List.nodup_append, List.nodup_cons] at hnd
    have hctx : (h :: (C.before ++ C.after)).Nodup := by
      simp [List.nodup_append, List.nodup_cons]
      tauto
    have hyx : y ≠ x := by tauto
    have hxh : x ≠ h := by tauto
    obtain ⟨s1, s2, s3⟩ := RepCtx_slot hc hctx
    obtain ⟨u1, u2, u3⟩ := RepCtx_slot hc1 hctx
    have hBp : m.M_right y ≠ 0 → m1.M_parent (m.M_right y) = x := by
      intro hb
      cases T2 with
      | nil => exact absurd hB hb
      | node cb Bl b Br =>
        obtain ⟨e, -, -, -, -⟩ := hB
        obtain ⟨-, -, -, hbp, -⟩ := hB1
        rw [e]
        exact hbp
    rw [hxr, hxp]
    refine ⟨hyp1, hyl1, hxp1, (Rep_rootPtr hB1).trans (Rep_rootPtr hB).symm, hBp, ?_⟩
    cases C with
    | top =>
      obtain ⟨rfl, e1⟩ := s1 rfl
      obtain ⟨-, e2⟩ := u1 rfl
      simp [e1, e2]
    | inL c1 a r1 up =>
      obtain ⟨rfl, e1, e2, e3⟩ := s2 _ _ _ _ rfl
      obtain ⟨-, f1, f2, -⟩ := u2 _ _ _ _ rfl
      have hrx : m.M_parent h ≠ x := Ne.symm (hff.2.2.2.2.2 (by simp)).1
      have hsame : m1.M_parent h = m.M_parent h := by
        rw [hroot0, hroot1]
        exact plug_rootPtr (by simp) _ _
      have hry : ¬ m.M_parent h = y := by
        intro e
        rw [← e, hrp] at hyp
        exact hxh hyp.symm
      simp [hrx, hsame, e1, e2, f1, f2]
      exact hry
    | inR c1 l1 a up =>
      obtain ⟨rfl, e1, e2, e3⟩ := s3 _ _ _ _ rfl
      obtain ⟨-, f1, f2, -⟩ := u3 _ _ _ _ rfl
      have hrx : m.M_parent h ≠ x := Ne.symm (hff.2.2.2.2.2 (by simp)).1
      have hsame : m1.M_parent h = m.M_parent h := by
        rw [hroot0, hroot1]
        exact plug_rootPtr (by simp) _ _
      have hry : ¬ m.M_parent h = y := by
        intro e
        rw [← e, hrp] at hyp
        exact hxh hyp.symm
      have hxb : x ∉ (Ctx.inR c1 l1 par up).before := by tauto
      simp only [Ctx.before, List.mem_append, not_or] at hxb
      have hsib : m.M_left par ≠ x := Ne.symm (Rep_ptr_ne hc.2.2.2.2.1 hx0 hxb.2.1)
      rw [e2] at hsib
      simp [hrx, hsame, e1, e2, f1, f2, hsib]
      exact hry

/-! ## The node found by `S_minimum` and `S_maximum` -/

theorem minimum_links {m : Mem} : ∀ (t : Tree) (p par : Base_ptr),
    Rep m t p par → t ≠ Tree.nil →
    ∃ y k, t.inorder.head? = some y ∧ m.M_left^[k] p = y ∧ m.M_left y = 0
  | Tree.nil, _, _, _, hne => absurd rfl hne
  | Tree.node c l a r, p, par, hr, _ => by
    obtain ⟨rfl, h0, -, -, hl, -⟩ := hr
    cases l with
    | nil =>
      simp only [Rep] at hl
      exact ⟨p, 0, by simp [Tree.inorder], rfl, hl⟩
    | node c1 l1 a1 r1 =>
      obtain ⟨y, k, e1, e2, e3⟩ := minimum_links (Tree.node c1 l1 a1 r1) _ _ hl (by simp)
      refine ⟨y, k + 1, ?_, ?_, e3⟩
      · simp only [Tree.inorder] at e1 ⊢
        simpa [List.head?_append] using e1
      · rw [Function.iterate_succ_apply]
        exact e2

theorem maximum_links {m : Mem} : ∀ (t : Tree) (p par : Base_ptr),
    Rep m t p par → t ≠ Tree.nil →
    ∃ y k, t.inorder.getLast? = some y ∧ m.M_right^[k] p = y ∧ m.M_right y = 0
  | Tree.nil, _, _, _, hne => absurd rfl hne
  | Tree.node c l a r, p, par, hr, _ => by
    obtain ⟨rfl, h0, -, -, -, hrr⟩ := hr
    cases r with
    | nil =>
      simp only [Rep] at hrr
      exact ⟨p, 0, by simp [Tree.inorder], rfl, hrr⟩
    | node c1 l1 a1 r1 =>
      obtain ⟨y, k, e1, e2, e3⟩ := maximum_links (Tree.node c1 l1 a1 r1) _ _ hrr (by simp)
      refine ⟨y, k + 1, ?_, ?_, e3⟩
      · rw [Tree.inorder, getLast?_append_cons_ne_nil _ _ (inorder_ne_nil (by simp))]
        exact e1
      · rw [Function.iterate_succ_apply]
        exact e2

/-! ## Removing a red leftmost leaf -/

theorem minLeaf_inorder {y : Base_ptr} : ∀ {t : Tree}, t.minLeaf y →
    t.inorder = y :: t.removeMin.inorder
  | Tree.nil, hm => hm.elim
  | Tree.node c l a r, hm => by
    by_cases hl : l = Tree.nil
    · subst hl
      simp only [Tree.minLeaf, if_true] at hm
      obtain ⟨rfl, rfl⟩ := hm
      simp [Tree.removeMin, Tree.inorder]
    · simp only [Tree.minLeaf, hl, if_false] at hm
      simp [Tree.removeMin, hl, Tree.inorder, minLeaf_inorder hm]

theorem minLeaf_of_red : ∀ {t : Tree}, t ≠ Tree.nil → t.noRedRed → t.balanced →
    t.minColor = S_red → ∃ y, t.inorder.head? = some y ∧ t.minLeaf y
  | Tree.nil, hne, _, _, _ => absurd rfl hne
  | Tree.node c l a r, _, hn, hb, hc => by
    by_cases hl : l = Tree.nil
    · subst hl
      simp only [Tree.minColor, if_true] at hc
      subst hc
      obtain ⟨hn1, -, -⟩ := hn
      obtain ⟨hb1, -, -⟩ := hb
      have hr : r = Tree.nil := nil_of_black (hn1 rfl).2 (by simpa [Tree.blackHeight] using hb1.symm)
      exact ⟨a, by simp [Tree.inorder], by simp [Tree.minLeaf, hr]⟩
    · simp only [Tree.minColor, hl, if_false] at hc
      obtain ⟨y, e, hm⟩ := minLeaf_of_red hl hn.2.1 hb.2.1 hc
      refine ⟨y, ?_, by simpa [Tree.minLeaf, hl] using hm⟩
      simp only [Tree.inorder]
      rw [List.head?_append_of_ne_nil _ (inorder_ne_nil hl)]
      exact e

theorem removeMin_rb {y : Base_ptr} : ∀ {t : Tree}, t.minLeaf y → t.minColor = S_red →
    t.noRedRed → t.balanced →
    t.removeMin.noRedRed ∧ t.removeMin.balanced ∧ t.removeMin.blackHeight = t.blackHeight ∧
      (t.rootColor = S_black → t.removeMin.rootColor = S_black)
  | Tree.nil, hm, _, _, _ => hm.elim
  | Tree.node c l a r, hm, hc, hn, hb => by
    by_cases hl : l = Tree.nil
    · subst hl
      simp only [Tree.minLeaf, if_true] at hm
      obtain ⟨rfl, rfl⟩ := hm
      simp only [Tree.minColor, if_true] at hc
      subst hc
      simp [Tree.removeMin, Tree.noRedRed, Tree.balanced, Tree.blackHeight]
    · simp only [Tree.minLeaf, hl, if_false] at hm
      simp only [Tree.minColor, hl, if_false] at hc
      obtain ⟨hn1, hn2, hn3⟩ := hn
      obtain ⟨hb1, hb2, hb3⟩ := hb
      obtain ⟨k1, k2, k3, k4⟩ := removeMin_rb hm hc hn2 hb2
      simp only [Tree.removeMin, hl, if_false, Tree.noRedRed, Tree.balanced, Tree.blackHeight,
        rootColor_node, k3]
      refine ⟨⟨fun e => ⟨k4 (hn1 e).1, (hn1 e).2⟩, k1, hn3⟩, ⟨hb1, k2, hb3⟩, trivial, id⟩

theorem Rep_minColor {m : Mem} : ∀ {t : Tree} {p par : Base_ptr}, Rep m t p par →
    t ≠ Tree.nil → ∃ y, t.inorder.head? = some y ∧ m.M_color y = t.minColor
  | Tree.nil, _, _, _, hne => absurd rfl hne
  | Tree.node c l a r, p, par, hr, _ => by
    obtain ⟨-, -, hc, -, hl, -⟩ := hr
    by_cases hnil : l = Tree.nil
    · subst hnil
      exact ⟨a, by simp [Tree.inorder], by simp [Tree.minColor, hc]⟩
    · obtain ⟨y, e, hy⟩ := Rep_minColor hl hnil
      refine ⟨y, ?_, by simpa [Tree.minColor, hnil] using hy⟩
      simp only [Tree.inorder]
      rw [List.head?_append_of_ne_nil _ (inorder_ne_nil hnil)]
      exact e

theorem Rep_removeMin {m : Mem} {y : Base_ptr} : ∀ {L : Tree} {c : Rb_tree_color}
    {a par : Base_ptr} {R : Tree}, Rep m (Tree.node c L a R) a par → L.minLeaf y →
    (Tree.node c L a R).inorder.Nodup →
    y ≠ 0 ∧ y ∈ L.inorder ∧ m.M_left y = 0 ∧ m.M_right y = 0 ∧ m.M_parent y ≠ 0 ∧
      (m.M_parent y = a ∨ m.M_parent y ∈ L.removeMin.inorder) ∧ m.M_left (m.M_parent y) = y ∧
      Rep (m.setLeft (m.M_parent y) 0) (Tree.node c L.removeMin a R) a par
  | Tree.nil, _, _, _, _, _, hm, _ => hm.elim
  | Tree.node cl LL b LR, c, a, par, R, hr, hm, hnd => by
    obtain ⟨-, ha0, hac, hap, hL, hR⟩ := hr
    simp only [Tree.inorder, List.nodup_append, List.nodup_cons, List.mem_append,
      List.mem_cons, not_or] at hnd
    by_cases hnil : LL = Tree.nil
    · subst hnil
      simp only [Tree.minLeaf, if_true] at hm
      obtain ⟨rfl, rfl⟩ := hm
      obtain ⟨hab, hb0, -, hbp, hbl, hbr⟩ := hL
      simp only [Rep] at hbl hbr
      have haR : a ∉ R.inorder := by tauto
      rw [hbp]
      refine ⟨hb0, by simp [Tree.inorder], hbl, hbr, ha0, Or.inl rfl, hab, ?_⟩
      simp [Tree.removeMin, Rep, ha0, hac, hap, haR, hR]
    · simp only [Tree.minLeaf, hnil, if_false] at hm
      have hL1 := hL
      obtain ⟨hab, hb0, -, hbp, -, -⟩ := hL
      rw [hab] at hL1
      have hndL : (Tree.node cl LL b LR).inorder.Nodup := by
        simp only [Tree.inorder, List.nodup_append, List.nodup_cons, List.mem_append,
          List.mem_cons, not_or]
        tauto
      obtain ⟨k1, k2, k3, k4, k5, k6, k7, k8⟩ := Rep_removeMin hL1 hm hndL
      have hsub : ∀ v, v ∈ LL.removeMin.inorder → v ∈ LL.inorder := by
        intro v hv
        rw [minLeaf_inorder hm]
        exact List.mem_cons_of_mem _ hv
      have hypL : m.M_parent y ∈ (Tree.node cl LL b LR).inorder := by
        simp only [Tree.inorder, List.mem_append, List.mem_cons]
        rcases k6 with e | e
        · exact Or.inr (Or.inl e)
        · exact Or.inl (hsub _ e)
      have hypa : m.M_parent y ≠ a := by
        intro e
        rw [e] at hypL
        exact hnd.2.2 hypL (List.mem_cons_self _ _)
      have hypR : m.M_parent y ∉ R.inorder := by
        intro e
        simp only [Tree.inorder, List.mem_append, List.mem_cons] at hypL
        have h3 := hnd.2.2
        rcases hypL with e1 | e1 | e1
        · exact h3 (List.mem_append.2 (Or.inl e1)) (List.mem_cons_of_mem _ e)
        · exact h3 (List.mem_append.2 (Or.inr (List.mem_cons.2 (Or.inl e1))))
            (List.mem_cons_of_mem _ e)
        · exact h3 (List.mem_append.2 (Or.inr (List.mem_cons_of_mem _ e1)))
            (List.mem_cons_of_mem _ e)
      refine ⟨k1, ?_, k3, k4, k5, ?_, k7, ?_⟩
      · simp [Tree.inorder, k2]
      · right
        simp only [Tree.removeMin, hnil, if_false, Tree.inorder, List.mem_append, List.mem_cons]
        rcases k6 with e | e
        · exact Or.inr (Or.inl e)
        · exact Or.inl e
      · simp only [Tree.removeMin, hnil, if_false]
        refine ⟨rfl, ha0, by simpa using hac, by simpa using hap, ?_, ?_⟩
        · rw [Mem.setLeft_M_left, upd_other _ _ (Ne.symm hypa), hab]
          exact k8
        · simp only [Mem.setLeft_M_right]
          exact (Rep_setLeft hypR).2 hR

theorem erase_replace_child_spec {m : Mem} {h z par : Base_ptr} {C : Ctx} (v : Base_ptr)
    (hh : h ≠ 0) (hC : RepCtx m h C z par) (hzp : m.M_parent z = par) (hz0 : z ≠ 0)
    (hnd : (h :: z :: (C.before ++ C.after)).Nodup) :
    ∃ m1, erase_replace_child z v h m = some m1 ∧ RepCtx m1 h C v par ∧
      (∀ a, m1.M_color a = m.M_color a) ∧ (∀ a, a ≠ h → m1.M_parent a = m.M_parent a) ∧
      (∀ a, a ≠ par → m1.M_left a = m.M_left a ∧ m1.M_right a = m.M_right a) ∧
      m1.M_left h = m.M_left h ∧ m1.M_right h = m.M_right h := by
  cases C with
  | top =>
    obtain ⟨rfl, hroot⟩ := hC
    refine ⟨m.setParent par v, ?_, ?_⟩
    · simp [erase_replace_child, get_parent, set_parent, hh, hroot]
    · simp [RepCtx]
      intro a ha
      simp [upd_other _ _ ha]
  | inL cp a r up =>
    simp [Ctx.before, Ctx.after, List.nodup_append, List.nodup_cons] at hnd
    have hroot : m.M_parent h ≠ z := Ne.symm
      (RepCtx_root_ne hC (by simp) (by simp [Ctx.before]; tauto) (by simp [Ctx.after]; tauto))
    simp only [RepCtx] at hC
    obtain ⟨rfl, ha0, hac, hal, har, hup⟩ := hC
    have hha : h ≠ par := by tauto
    refine ⟨m.setLeft par v, ?_, ?_⟩
    · simp [erase_replace_child, get_parent, get_left, set_left, hh, hroot, hz0, hzp, ha0, hal]
    · simp [RepCtx, *]
      intro a ha
      simp [upd_other _ _ ha]
  | inR cp l a up =>
    simp [Ctx.before, Ctx.after, List.nodup_append, List.nodup_cons] at hnd
    have hroot : m.M_parent h ≠ z := Ne.symm
      (RepCtx_root_ne hC (by simp) (by simp [Ctx.before]; tauto) (by simp [Ctx.after]; tauto))
    simp only [RepCtx] at hC
    obtain ⟨rfl, ha0, hac, har, hal, hup⟩ := hC
    have hsib : m.M_left par ≠ z := Ne.symm (Rep_ptr_ne hal hz0 (by tauto))
    have hha : h ≠ par := by tauto
    refine ⟨m.setRight par v, ?_, ?_⟩
    · simp [erase_replace_child, get_parent, get_left, set_right, hh, hroot, hz0, hzp, ha0,
        hsib]
    · simp [RepCtx, *]
      intro a ha
      simp [upd_other _ _ ha]

theorem minLeaf_head {y : Base_ptr} {c : Rb_tree_color} {l r : Tree} {a : Base_ptr}
    (hm : l.minLeaf y) : (Tree.node c l a r).inorder.head? = some y := by
  simp [Tree.inorder, minLeaf_inorder hm]

set_option maxHeartbeats 1000000 in
theorem erase_unlink_far {m : Mem} {h : Base_ptr} {C : Ctx} {c cl cr : Rb_tree_color}
    {Ll Lr Rl Rr : Tree} {l r z y par : Base_ptr} {fuel : Nat}
    (hf : Focus m h C (Tree.node c (Tree.node cl Ll l Lr) z (Tree.node cr Rl r Rr)) z par)
    (hm : Rl.minLeaf y) (hcy : m.M_color y = S_red)
    (hfuel : (Tree.node cr Rl r Rr).inorder.length ≤ fuel) :
    ∃ m1, erase_unlink fuel z h m = some (z, 0, m.M_parent y, m1) ∧
      Focus m1 h C (Tree.node c (Tree.node cl Ll l Lr) y (Tree.node cr Rl.removeMin r Rr)) y par ∧
      m1.M_color = upd (upd m.M_color y c) z S_red ∧
      m1.M_left h = m.M_left h ∧ m1.M_right h = m.M_right h := by
  obtain ⟨hh, hC, hr, hnd⟩ := hf
  obtain ⟨-, hz0, hzc, hzp, hL, hR⟩ := hr
  have hmin : S_minimum fuel m (m.M_right z) = some y :=
    (S_minimum_spec _ _ _ fuel hR (by simp) hfuel).trans (minLeaf_head hm)
  have hndR : (Tree.node cr Rl r Rr).inorder.Nodup := by
    simp only [Tree.inorder, List.nodup_append, List.nodup_cons] at hnd
    simp only [Tree.inorder, List.nodup_append, List.nodup_cons]
    tauto
  have hR1 := hR
  obtain ⟨hzr, hr0, hrc, hrp, hRl, hRr⟩ := hR
  rw [hzr] at hR1 hmin
  obtain ⟨hy0, hyR, hyl, hyr, hyp0, hypm, hypl, K⟩ := Rep_removeMin hR1 hm hndR
  obtain ⟨-, -, -, -, KRl, KRr⟩ := K
  obtain ⟨hzl, hl0, hlc, hlp, hLl, hLr⟩ := hL
  rw [minLeaf_inorder hm] at hyR
  simp only [Tree.inorder, minLeaf_inorder hm] at hnd
  generalize hypd : m.M_parent y = yp at *
  generalize Rl.removeMin = Rl1 at *
  have hN : h :: (C.before ++ (Ll.inorder ++ l :: Lr.inorder ++
        z :: (y :: Rl1.inorder ++ r :: Rr.inorder)) ++ C.after) =
      (h :: (C.before ++ (Ll.inorder ++ l :: Lr.inorder ++ [z, y]))) ++
        (Rl1.inorder ++ (r :: Rr.inorder ++ C.after)) := by simp
  have hN2 : h :: (C.before ++ (Ll.inorder ++ l :: Lr.inorder ++
        z :: (y :: Rl1.inorder ++ r :: Rr.inorder)) ++ C.after) =
      (h :: C.before) ++ ((Ll.inorder ++ l :: Lr.inorder ++
        z :: (y :: Rl1.inorder ++ r :: Rr.inorder)) ++ C.after) := by simp
  have hout : ∀ v ∈ Rl1.inorder,
      v ∉ h :: (C.before ++ (Ll.inorder ++ l :: Lr.inorder ++ [z, y])) ∧
      v ∉ r :: Rr.inorder ++ C.after := by
    rw [hN] at hnd
    obtain ⟨-, hd1, hd2⟩ := List.nodup_append.1 hnd
    obtain ⟨-, -, hd3⟩ := List.nodup_append.1 hd1
    intro v hv
    exact ⟨fun e => hd2 e (List.mem_append.2 (Or.inl hv)), fun e => hd3 hv e⟩
  have hctx : ∀ v ∈ C.before ++ C.after,
      v ∉ Ll.inorder ++ l :: Lr.inorder ++ z :: (y :: Rl1.inorder ++ r :: Rr.inorder) := by
    rw [hN2] at hnd
    obtain ⟨-, hd1, hd2⟩ := List.nodup_append.1 hnd
    obtain ⟨-, -, hd3⟩ := List.nodup_append.1 hd1
    intro v hv e
    rcases List.mem_append.1 hv with hv | hv
    · exact hd2 (List.mem_cons_of_mem _ hv) (List.mem_append.2 (Or.inl e))
    · exact hd3 e hv
  simp [List.nodup_append, List.nodup_cons] at hnd
  have hypf : yp ≠ h ∧ yp ∉ C.before ∧ yp ∉ Ll.inorder ∧ yp ≠ l ∧ yp ∉ Lr.inorder ∧ yp ≠ z ∧
      yp ≠ y ∧ yp ∉ Rr.inorder ∧ yp ∉ C.after := by
    rcases hypm with rfl | hv
    · tauto
    · have := hout yp hv
      simp at this
      tauto
  obtain ⟨p1, p2, p3, p4, p5, p6, p7, p8, p9⟩ := hypf
  have hparf : par ∉ Ll.inorder ∧ par ≠ l ∧ par ∉ Lr.inorder ∧ par ≠ z ∧ par ≠ y ∧
      par ∉ Rl1.inorder ∧ par ≠ r ∧ par ∉ Rr.inorder := by
    rcases RepCtx_par hC with rfl | hv
    · tauto
    · have := hctx par hv
      simp at this
      tauto
  obtain ⟨q1, q2, q3, q4, q5, q6, q7, q8⟩ := hparf
  have hpyp : par ≠ yp := by
    rcases hypm with rfl | hv
    · exact q7
    · exact fun e => q6 (e ▸ hv)
  have hne : h ≠ l ∧ h ≠ z ∧ h ≠ y ∧ h ≠ r ∧ l ≠ z ∧ l ≠ y ∧ l ≠ r ∧ z ≠ y ∧ z ≠ r ∧ y ≠ r := by
    tauto
  obtain ⟨hhl, hhz, hhy, hhr, hlz, hly, hlr, hzy, hzr1, hyr1⟩ := hne
  have hyz : y ≠ z := Ne.symm hzy
  have hyl1 : y ≠ l := Ne.symm hly
  have hrz : r ≠ z := Ne.symm hzr1
  have hzh : z ≠ h := Ne.symm hhz
  have hyh : y ≠ h := Ne.symm hhy
  have hlh : l ≠ h := Ne.symm hhl
  have hrh : r ≠ h := Ne.symm hhr
  have hmemf : l ∉ C.before ∧ l ∉ C.after ∧ y ∉ C.before ∧ y ∉ C.after ∧ r ∉ C.before ∧
      r ∉ C.after ∧ z ∉ C.before ∧ z ∉ C.after ∧ h ∉ C.before ∧ h ∉ C.after ∧
      C.before.Nodup ∧ C.after.Nodup ∧ C.before.Disjoint C.after := by
    tauto
  obtain ⟨e1, e2, e3, e4, e5, e6, e7, e8, e9, e10, e11, e12, e13⟩ := hmemf
  obtain ⟨fuel, rfl⟩ : ∃ k, fuel = k + 1 := ⟨fuel - 1, by
    simp [Tree.inorder] at hfuel
    omega⟩
  obtain ⟨M5, hM5⟩ : ∃ M5, M5 =
      ((((m.setParent l y).setLeft y l).setLeft yp 0).setRight y r).setParent r y := ⟨_, rfl⟩
  have hC5 : RepCtx M5 h C z par := by
    rw [hM5]
    simp [RepCtx_setParent e5 e6 (Ne.symm hrh), RepCtx_setRight e3 e4, RepCtx_setLeft p2 p9,
      RepCtx_setLeft e3 e4, RepCtx_setParent e1 e2 (Ne.symm hlh), hC]
  have hzp5 : M5.M_parent z = par := by
    rw [hM5]
    simp [hzp, upd_other _ _ hrz.symm, upd_other _ _ hlz.symm]
  have hnd5 : (h :: z :: (C.before ++ C.after)).Nodup := by
    simp [List.nodup_append, List.nodup_cons, *]
  obtain ⟨M6, hrep, hC6, fcol, fpar, flr, fhl, fhr⟩ :=
    erase_replace_child_spec y hh hC5 hzp5 hz0 hnd5
  subst hM5
  have hcz : M6.M_color z = c := by rw [fcol]; simpa using hzc
  have hcy6 : M6.M_color y = S_red := by rw [fcol]; simpa using hcy
  have hpz6 : M6.M_parent z = par := by rw [fpar z hzh]; exact hzp5
  refine ⟨((M6.setParent y par).setColor y c).setColor z S_red, ?_, ?_, ?_⟩
  · simp [erase_unlink, erase_select, erase_relink, hmin, hrep, hcz, hcy6, hpz6,
      get_right, get_left, get_parent, get_color, set_right, set_color,
      set_parent, set_left, hz0, hy0, hl0, hr0, hyp0, hzl, hzr, hyr, hyz, hyr1, hypd, hzp,
      hyl1, hly, hlz, hlr, hrz, hzr1, hzy, p4, p6, p7, Ne.symm p4, Ne.symm p6, Ne.symm p7]
  · have hin : (h ∉ Ll.inorder ∧ z ∉ Ll.inorder ∧ y ∉ Ll.inorder ∧ l ∉ Ll.inorder ∧
          r ∉ Ll.inorder) ∧
        (h ∉ Lr.inorder ∧ z ∉ Lr.inorder ∧ y ∉ Lr.inorder ∧ l ∉ Lr.inorder ∧ r ∉ Lr.inorder) ∧
        (h ∉ Rr.inorder ∧ z ∉ Rr.inorder ∧ y ∉ Rr.inorder ∧ l ∉ Rr.inorder ∧ r ∉ Rr.inorder) ∧
        (h ∉ Rl1.inorder ∧ z ∉ Rl1.inorder ∧ y ∉ Rl1.inorder ∧ l ∉ Rl1.inorder ∧
          r ∉ Rl1.inorder) := by
      tauto
    obtain ⟨i1, i2, i3, i4⟩ := hin
    have hframe : ∀ S : Tree, (h ∉ S.inorder ∧ z ∉ S.inorder ∧ y ∉ S.inorder ∧ l ∉ S.inorder ∧
        r ∉ S.inorder) → par ∉ S.inorder →
        ∀ v ∈ S.inorder, SameCell (m.setLeft yp 0)
          (((M6.setParent y par).setColor y c).setColor z S_red) v := by
      intro S ⟨s1, s2, s3, s4, s5⟩ s6 v hv
      have n1 : v ≠ h := ne_of_mem_of_notMem hv s1
      have n2 : v ≠ z := ne_of_mem_of_notMem hv s2
      have n3 : v ≠ y := ne_of_mem_of_notMem hv s3
      have n4 : v ≠ l := ne_of_mem_of_notMem hv s4
      have n5 : v ≠ r := ne_of_mem_of_notMem hv s5
      have n6 : v ≠ par := ne_of_mem_of_notMem hv s6
      obtain ⟨f1, f2⟩ := flr v n6
      refine ⟨?_, ?_, ?_, ?_⟩
      · simp [fcol, n2, n3]
      · simp [fpar v n1, n3, n4, n5]
      · simp [f1, upd, n3]
      · simp [f2, n3]
    have hS : ∀ (S : Tree) (p q : Base_ptr), Rep m S p q → yp ∉ S.inorder →
        (h ∉ S.inorder ∧ z ∉ S.inorder ∧ y ∉ S.inorder ∧ l ∉ S.inorder ∧ r ∉ S.inorder) →
        par ∉ S.inorder → Rep (((M6.setParent y par).setColor y c).setColor z S_red) S p q :=
      fun S p q hr hyp hs hp => Rep_congr (hframe S hs hp) ((Rep_setLeft hyp).2 hr)
    obtain ⟨fyl, fyr⟩ := flr y (Ne.symm q5)
    obtain ⟨fll, flr1⟩ := flr l (Ne.symm q2)
    obtain ⟨frl, frr⟩ := flr r (Ne.symm q7)
    refine ⟨hh, ?_, ?_, ?_⟩
    · simp [RepCtx_setColor e7 e8, RepCtx_setColor e3 e4, RepCtx_setParent e3 e4 hhy, hC6]
    · simp only [Rep]
      refine ⟨trivial, hy0, ?_, ?_, ⟨?_, hl0, ?_, ?_, ?_, ?_⟩, ⟨?_, hr0, ?_, ?_, ?_, ?_⟩⟩
      · simp [hyz]
      · simp
      · simp [fyl, Ne.symm p7]
      · simp [fcol, hlz, hly, hlc]
      · simp [fpar l hlh, hly, hlr]
      · have e : (((M6.setParent y par).setColor y c).setColor z S_red).M_left l = m.M_left l := by
          simp [fll, hly, Ne.symm p4]
        rw [e]
        exact hS _ _ _ hLl p3 i1 q1
      · have e : (((M6.setParent y par).setColor y c).setColor z S_red).M_right l =
            m.M_right l := by
          simp [flr1, hly]
        rw [e]
        exact hS _ _ _ hLr p5 i2 q3
      · simp [fyr]
      · simp [fcol, hrz, Ne.symm hyr1, hrc]
      · simp [fpar r hrh, Ne.symm hyr1]
      · have e : (((M6.setParent y par).setColor y c).setColor z S_red).M_left r =
            (m.setLeft yp 0).M_left r := by
          simp [frl, upd, Ne.symm hyr1]
        rw [e]
        exact Rep_congr (hframe Rl1 i4 q6) KRl
      · have e : (((M6.setParent y par).setColor y c).setColor z S_red).M_right r =
            m.M_right r := by
          simp [frr, Ne.symm hyr1]
        rw [e]
        exact hS _ _ _ hRr p8 i3 q8
    · simp [Tree.inorder, List.nodup_append, List.nodup_cons]
      tauto
  · have hcol6 : M6.M_color = m.M_color := funext fun a => by rw [fcol]; simp
    refine ⟨?_, ?_, ?_⟩
    · simp [hcol6]
    · simp [fhl, hhy, Ne.symm p1]
    · simp [fhr, hhy]

/-- The erasure of a node `z` with two children whose in-order successor `y` is a red
leaf: the unlinking part puts `y` in the place of `z` with the colour of `z`, and `z`
is left red. -/
theorem erase_unlink_two {m : Mem} {h : Base_ptr} {C : Ctx} {c cl : Rb_tree_color}
    {Ll Lr R : Tree} {l z y par : Base_ptr} {fuel : Nat}
    (hf : Focus m h C (Tree.node c (Tree.node cl Ll l Lr) z R) z par)
    (hm : R.minLeaf y) (hcy : m.M_color y = S_red) (hfuel : R.inorder.length ≤ fuel) :
    ∃ xp m1, erase_unlink fuel z h m = some (z, 0, xp, m1) ∧
      Focus m1 h C (Tree.node c (Tree.node cl Ll l Lr) y R.removeMin) y par ∧
      m1.M_color = upd (upd m.M_color y c) z S_red ∧
      m1.M_left h = m.M_left h ∧ m1.M_right h = m.M_right h := by
  cases R with
  | nil => exact hm.elim
  | node cr Rl r Rr =>
    by_cases hnil : Rl = Tree.nil
    · subst hnil
      simp only [Tree.minLeaf, if_true] at hm
      obtain ⟨rfl, rfl⟩ := hm
      have hcr : cr = S_red := by
        obtain ⟨-, -, hr, -⟩ := hf
        obtain ⟨-, -, -, -, -, -, -, hc, -⟩ := hr
        rw [← hc, hcy]
      subst hcr
      have hf0 : 0 < fuel := by
        simp [Tree.inorder] at hfuel
        omega
      obtain ⟨m1, hu, F1, hrest⟩ := erase_unlink_near hf hf0
      exact ⟨_, m1, hu, by simpa [Tree.removeMin] using F1, hrest⟩
    · simp only [Tree.minLeaf, hnil, if_false] at hm
      obtain ⟨m1, hu, F1, hrest⟩ := erase_unlink_far hf hm hcy hfuel
      exact ⟨_, m1, hu, by simpa [Tree.removeMin, hnil] using F1, hrest⟩

/-! ## A rotation undone by the opposite rotation -/

theorem Mem.ext_fields {m m1 : Mem} (h1 : m1.M_color = m.M_color) (h2 : m1.M_parent = m.M_parent)
    (h3 : m1.M_left = m.M_left) (h4 : m1.M_right = m.M_right) : m1 = m := by
  cases m
  cases m1
  simp only [Mem.mk.injEq]
  exact ⟨h1, h2, h3, h4⟩

theorem rootPtr_mem : ∀ (t : Tree), t.rootPtr = 0 ∨ t.rootPtr ∈ t.inorder
  | Tree.nil => Or.inl rfl
  | Tree.node _ _ _ _ => Or.inr (by simp [Tree.rootPtr, Tree.inorder])

set_option maxHeartbeats 1000000 in
theorem rotate_left_right_local {m : Mem} {h x y p : Base_ptr}
    (hh : h ≠ 0) (hx0 : x ≠ 0) (hy0 : y ≠ 0) (hp0 : p ≠ 0)
    (hxr : m.M_right x = y) (hyp : m.M_parent y = x) (hxp : m.M_parent x = p)
    (hyx : y ≠ x) (hxh : x ≠ h) (hyh : y ≠ h)
    (hb : m.M_left y ≠ 0 → m.M_parent (m.M_left y) = y ∧ m.M_left y ≠ x ∧ m.M_left y ≠ y ∧
      m.M_left y ≠ h)
    (hslot : (m.M_parent h = x) ∨
      (m.M_parent h ≠ x ∧ m.M_parent h ≠ y ∧ p ≠ x ∧ p ≠ y ∧ p ≠ h ∧
        ((m.M_left p = x ∧ m.M_right p ≠ x ∧ m.M_right p ≠ y) ∨
          (m.M_left p ≠ x ∧ m.M_left p ≠ y ∧ m.M_right p = x)))) :
    ∃ m1, Rb_tree_rotate_left x h m = some m1 ∧ m1.M_color = m.M_color ∧
      Rb_tree_rotate_right y h m1 = some m := by
  have hxy : x ≠ y := Ne.symm hyx
  have hhx : h ≠ x := Ne.symm hxh
  have hhy : h ≠ y := Ne.symm hyh
  have hb1 : m.M_left y = 0 ∨ (m.M_left y ≠ 0 ∧ m.M_parent (m.M_left y) = y ∧
      m.M_left y ≠ x ∧ m.M_left y ≠ y ∧ m.M_left y ≠ h) := by
    by_cases hb0 : m.M_left y = 0
    · exact Or.inl hb0
    · exact Or.inr ⟨hb0, hb hb0⟩
  rcases hslot with hr | ⟨hr, hry, hpx, hpy, hph, ⟨hl, hr2, hr3⟩ | ⟨hl, hl3, hr2⟩⟩
  · rcases hb1 with hb0 | ⟨hb0, hbp, hbx, hby, hbh⟩
    ·
      have f0 := Ne.symm hx0
      have f1 := Ne.symm hy0
      have f2 := Ne.symm hp0
      have f3 := Ne.symm hh
      have e1 : Rb_tree_rotate_left x h m = some ((((((m.setRight x 0).setParent y p).setParent h y).setLeft y x).setParent x y)) := by
        simp only [Rb_tree_rotate_left, get_right, get_left, get_parent, set_right,
        set_parent, set_left, Option.bind_eq_bind, Option.some_bind, Option.pure_def,
        Mem.setRight_M_parent, Mem.setParent_M_parent, Mem.setLeft_M_parent,
        Mem.setRight_M_left, Mem.setParent_M_left, Mem.setLeft_M_left,
        Mem.setRight_M_right, Mem.setParent_M_right, Mem.setLeft_M_right,
        upd, if_true, if_false, ne_eq, not_true_eq_false, not_false_eq_true,
        Option.some.injEq, *]
      refine ⟨_, e1, rfl, ?_⟩
      clear e1
      simp only [Rb_tree_rotate_right, get_right, get_left, get_parent, set_right,
        set_parent, set_left, Option.bind_eq_bind, Option.some_bind, Option.pure_def,
        Mem.setRight_M_parent, Mem.setParent_M_parent, Mem.setLeft_M_parent,
        Mem.setRight_M_left, Mem.setParent_M_left, Mem.setLeft_M_left,
        Mem.setRight_M_right, Mem.setParent_M_right, Mem.setLeft_M_right,
        upd, if_true, if_false, ne_eq, not_true_eq_false, not_false_eq_true,
        Option.some.injEq, *]
      apply Mem.ext_fields
      · simp only [Mem.setRight_M_color, Mem.setParent_M_color, Mem.setLeft_M_color]
      all_goals
        funext a
        simp only [Mem.setRight_M_parent, Mem.setParent_M_parent, Mem.setLeft_M_parent,
          Mem.setRight_M_left, Mem.setParent_M_left, Mem.setLeft_M_left,
          Mem.setRight_M_right, Mem.setParent_M_right, Mem.setLeft_M_right, upd]
        split_ifs <;> simp_all
    ·
      have f0 := Ne.symm hx0
      have f1 := Ne.symm hy0
      have f2 := Ne.symm hp0
      have f3 := Ne.symm hh
      have f4 := Ne.symm hb0
      have f5 := Ne.symm hbx
      have f6 := Ne.symm hby
      have f7 := Ne.symm hbh
      have e1 : Rb_tree_rotate_left x h m = some (((((((m.setRight x (m.M_left y)).setParent (m.M_left y) x).setParent y p).setParent h y).setLeft y x).setParent x y)) := by
        simp only [Rb_tree_rotate_left, get_right, get_left, get_parent, set_right,
        set_parent, set_left, Option.bind_eq_bind, Option.some_bind, Option.pure_def,
        Mem.setRight_M_parent, Mem.setParent_M_parent, Mem.setLeft_M_parent,
        Mem.setRight_M_left, Mem.setParent_M_left, Mem.setLeft_M_left,
        Mem.setRight_M_right, Mem.setParent_M_right, Mem.setLeft_M_right,
        upd, if_true, if_false, ne_eq, not_true_eq_false, not_false_eq_true,
        Option.some.injEq, *]
      refine ⟨_, e1, rfl, ?_⟩
      clear e1
      simp only [Rb_tree_rotate_right, get_right, get_left, get_parent, set_right,
        set_parent, set_left, Option.bind_eq_bind, Option.some_bind, Option.pure_def,
        Mem.setRight_M_parent, Mem.setParent_M_parent, Mem.setLeft_M_parent,
        Mem.setRight_M_left, Mem.setParent_M_left, Mem.setLeft_M_left,
        Mem.setRight_M_right, Mem.setParent_M_right, Mem.setLeft_M_right,
        upd, if_true, if_false, ne_eq, not_true_eq_false, not_false_eq_true,
        Option.some.injEq, *]
      apply Mem.ext_fields
      · simp only [Mem.setRight_M_color, Mem.setParent_M_color, Mem.setLeft_M_color]
      all_goals
        funext a
        simp only [Mem.setRight_M_parent, Mem.setParent_M_parent, Mem.setLeft_M_parent,
          Mem.setRight_M_left, Mem.setParent_M_left, Mem.setLeft_M_left,
          Mem.setRight_M_right, Mem.setParent_M_right, Mem.setLeft_M_right, upd]
        split_ifs <;> simp_all
  · rcases hb1 with hb0 | ⟨hb0, hbp, hbx, hby, hbh⟩
    ·
      have f0 := Ne.symm hx0
      have f1 := Ne.symm hy0
      have f2 := Ne.symm hp0
      have f3 := Ne.symm hh
      have f4 := Ne.symm hr
      have f5 := Ne.symm hry
      have f6 := Ne.symm hpx
      have f7 := Ne.symm hpy
      have f8 := Ne.symm hph
      have f9 := Ne.symm hr2
      have f10 := Ne.symm hr3
      have e1 : Rb_tree_rotate_left x h m = some ((((((m.setRight x 0).setParent y p).setLeft p y).setLeft y x).setParent x y)) := by
        simp only [Rb_tree_rotate_left, get_right, get_left, get_parent, set_right,
        set_parent, set_left, Option.bind_eq_bind, Option.some_bind, Option.pure_def,
        Mem.setRight_M_parent, Mem.setParent_M_parent, Mem.setLeft_M_parent,
        Mem.setRight_M_left, Mem.setParent_M_left, Mem.setLeft_M_left,
        Mem.setRight_M_right, Mem.setParent_M_right, Mem.setLeft_M_right,
        upd, if_true, if_false, ne_eq, not_true_eq_false, not_false_eq_true,
        Option.some.injEq, *]
      refine ⟨_, e1, rfl, ?_⟩
      clear e1
      simp only [Rb_tree_rotate_right, get_right, get_left, get_parent, set_right,
        set_parent, set_left, Option.bind_eq_bind, Option.some_bind, Option.pure_def,
        Mem.setRight_M_parent, Mem.setParent_M_parent, Mem.setLeft_M_parent,
        Mem.setRight_M_left, Mem.setParent_M_left, Mem.setLeft_M_left,
        Mem.setRight_M_right, Mem.setParent_M_right, Mem.setLeft_M_right,
        upd, if_true, if_false, ne_eq, not_true_eq_false, not_false_eq_true,
        Option.some.injEq, *]
      apply Mem.ext_fields
      · simp only [Mem.setRight_M_color, Mem.setParent_M_color, Mem.setLeft_M_color]
      all_goals
        funext a
        simp only [Mem.setRight_M_parent, Mem.setParent_M_parent, Mem.setLeft_M_parent,
          Mem.setRight_M_left, Mem.setParent_M_left, Mem.setLeft_M_left,
          Mem.setRight_M_right, Mem.setParent_M_right, Mem.setLeft_M_right, upd]
        split_ifs <;> simp_all
    ·
      have f0 := Ne.symm hx0
      have f1 := Ne.symm hy0
      have f2 := Ne.symm hp0
      have f3 := Ne.symm hh
      have f4 := Ne.symm hb0
      have f5 := Ne.symm hbx
      have f6 := Ne.symm hby
      have f7 := Ne.symm hbh
      have f8 := Ne.symm hr
      have f9 := Ne.symm hry
      have f10 := Ne.symm hpx
      have f11 := Ne.symm hpy
      have f12 := Ne.symm hph
      have f13 := Ne.symm hr2
      have f14 := Ne.symm hr3
      have e1 : Rb_tree_rotate_left x h m = some (((((((m.setRight x (m.M_left y)).setParent (m.M_left y) x).setParent y p).setLeft p y).setLeft y x).setParent x y)) := by
        simp only [Rb_tree_rotate_left, get_right, get_left, get_parent, set_right,
        set_parent, set_left, Option.bind_eq_bind, Option.some_bind, Option.pure_def,
        Mem.setRight_M_parent, Mem.setParent_M_parent, Mem.setLeft_M_parent,
        Mem.setRight_M_left, Mem.setParent_M_left, Mem.setLeft_M_left,
        Mem.setRight_M_right, Mem.setParent_M_right, Mem.setLeft_M_right,
        upd, if_true, if_false, ne_eq, not_true_eq_false, not_false_eq_true,
        Option.some.injEq, *]
      refine ⟨_, e1, rfl, ?_⟩
      clear e1
      simp only [Rb_tree_rotate_right, get_right, get_left, get_parent, set_right,
        set_parent, set_left, Option.bind_eq_bind, Option.some_bind, Option.pure_def,
        Mem.setRight_M_parent, Mem.setParent_M_parent, Mem.setLeft_M_parent,
        Mem.setRight_M_left, Mem.setParent_M_left, Mem.setLeft_M_left,
        Mem.setRight_M_right, Mem.setParent_M_right, Mem.setLeft_M_right,
        upd, if_true, if_false, ne_eq, not_true_eq_false, not_false_eq_true,
        Option.some.injEq, *]
      apply Mem.ext_fields
      · simp only [Mem.setRight_M_color, Mem.setParent_M_color, Mem.setLeft_M_color]
      all_goals
        funext a
        simp only [Mem.setRight_M_parent, Mem.setParent_M_parent, Mem.setLeft_M_parent,
          Mem.setRight_M_left, Mem.setParent_M_left, Mem.setLeft_M_left,
          Mem.setRight_M_right, Mem.setParent_M_right, Mem.setLeft_M_right, upd]
        split_ifs <;> simp_all
  · rcases hb1 with hb0 | ⟨hb0, hbp, hbx, hby, hbh⟩
    ·
      have f0 := Ne.symm hx0
      have f1 := Ne.symm hy0
      have f2 := Ne.symm hp0
      have f3 := Ne.symm hh
      have f4 := Ne.symm hr
      have f5 := Ne.symm hry
      have f6 := Ne.symm hpx
      have f7 := Ne.symm hpy
      have f8 := Ne.symm hph
      have f9 := Ne.symm hl
      have f10 := Ne.symm hl3
      have e1 : Rb_tree_rotate_left x h m = some ((((((m.setRight x 0).setParent y p).setRight p y).setLeft y x).setParent x y)) := by
        simp only [Rb_tree_rotate_left, get_right, get_left, get_parent, set_right,
        set_parent, set_left, Option.bind_eq_bind, Option.some_bind, Option.pure_def,
        Mem.setRight_M_parent, Mem.setParent_M_parent, Mem.setLeft_M_parent,
        Mem.setRight_M_left, Mem.setParent_M_left, Mem.setLeft_M_left,
        Mem.setRight_M_right, Mem.setParent_M_right, Mem.setLeft_M_right,
        upd, if_true, if_false, ne_eq, not_true_eq_false, not_false_eq_true,
        Option.some.injEq, *]
      refine ⟨_, e1, rfl, ?_⟩
      clear e1
      simp only [Rb_tree_rotate_right, get_right, get_left, get_parent, set_right,
        set_parent, set_left, Option.bind_eq_bind, Option.some_bind, Option.pure_def,
        Mem.setRight_M_parent, Mem.setParent_M_parent, Mem.setLeft_M_parent,
        Mem.setRight_M_left, Mem.setParent_M_left, Mem.setLeft_M_left,
        Mem.setRight_M_right, Mem.setParent_M_right, Mem.setLeft_M_right,
        upd, if_true, if_false, ne_eq, not_true_eq_false, not_false_eq_true,
        Option.some.injEq, *]
      apply Mem.ext_fields
      · simp only [Mem.setRight_M_color, Mem.setParent_M_color, Mem.setLeft_M_color]
      all_goals
        funext a
        simp only [Mem.setRight_M_parent, Mem.setParent_M_parent, Mem.setLeft_M_parent,
          Mem.setRight_M_left, Mem.setParent_M_left, Mem.setLeft_M_left,
          Mem.setRight_M_right, Mem.setParent_M_right, Mem.setLeft_M_right, upd]
        split_ifs <;> simp_all
    ·
      have f0 := Ne.symm hx0
      have f1 := Ne.symm hy0
      have f2 := Ne.symm hp0
      have f3 := Ne.symm hh
      have f4 := Ne.symm hb0
      have f5 := Ne.symm hbx
      have f6 := Ne.symm hby
      have f7 := Ne.symm hbh
      have f8 := Ne.symm hr
      have f9 := Ne.symm hry
      have f10 := Ne.symm hpx
      have f11 := Ne.symm hpy
      have f12 := Ne.symm hph
      have f13 := Ne.symm hl
      have f14 := Ne.symm hl3
      have e1 : Rb_tree_rotate_left x h m = some (((((((m.setRight x (m.M_left y)).setParent (m.M_left y) x).setParent y p).setRight p y).setLeft y x).setParent x y)) := by
        simp only [Rb_tree_rotate_left, get_right, get_left, get_parent, set_right,
        set_parent, set_left, Option.bind_eq_bind, Option.some_bind, Option.pure_def,
        Mem.setRight_M_parent, Mem.setParent_M_parent, Mem.setLeft_M_parent,
        Mem.setRight_M_left, Mem.setParent_M_left, Mem.setLeft_M_left,
        Mem.setRight_M_right, Mem.setParent_M_right, Mem.setLeft_M_right,
        upd, if_true, if_false, ne_eq, not_true_eq_false, not_false_eq_true,
        Option.some.injEq, *]
      refine ⟨_, e1, rfl, ?_⟩
      clear e1
      simp only [Rb_tree_rotate_right, get_right, get_left, get_parent, set_right,
        set_parent, set_left, Option.bind_eq_bind, Option.some_bind, Option.pure_def,
        Mem.setRight_M_parent, Mem.setParent_M_parent, Mem.setLeft_M_parent,
        Mem.setRight_M_left, Mem.setParent_M_left, Mem.setLeft_M_left,
        Mem.setRight_M_right, Mem.setParent_M_right, Mem.setLeft_M_right,
        upd, if_true, if_false, ne_eq, not_true_eq_false, not_false_eq_true,
        Option.some.injEq, *]
      apply Mem.ext_fields
      · simp only [Mem.setRight_M_color, Mem.setParent_M_color, Mem.setLeft_M_color]
      all_goals
        funext a
        simp only [Mem.setRight_M_parent, Mem.setParent_M_parent, Mem.setLeft_M_parent,
          Mem.setRight_M_left, Mem.setParent_M_left, Mem.setLeft_M_left,
          Mem.setRight_M_right, Mem.setParent_M_right, Mem.setLeft_M_right, upd]
        split_ifs <;> simp_all

set_option maxHeartbeats 1000000 in
theorem rotate_right_left_local {m : Mem} {h x y p : Base_ptr}
    (hh : h ≠ 0) (hx0 : x ≠ 0) (hy0 : y ≠ 0) (hp0 : p ≠ 0)
    (hxr : m.M_left x = y) (hyp : m.M_parent y = x) (hxp : m.M_parent x = p)
    (hyx : y ≠ x) (hxh : x ≠ h) (hyh : y ≠ h)
    (hb : m.M_right y ≠ 0 → m.M_parent (m.M_right y) = y ∧ m.M_right y ≠ x ∧ m.M_right y ≠ y ∧
      m.M_right y ≠ h)
    (hslot : (m.M_parent h = x) ∨
      (m.M_parent h ≠ x ∧ m.M_parent h ≠ y ∧ p ≠ x ∧ p ≠ y ∧ p ≠ h ∧
        ((m.M_left p = x ∧ m.M_right p ≠ x ∧ m.M_right p ≠ y) ∨
          (m.M_left p ≠ x ∧ m.M_left p ≠ y ∧ m.M_right p = x)))) :
    ∃ m1, Rb_tree_rotate_right x h m = some m1 ∧ m1.M_color = m.M_color ∧
      Rb_tree_rotate_left y h m1 = some m := by
  have hxy : x ≠ y := Ne.symm hyx
  have hhx : h ≠ x := Ne.symm hxh
  have hhy : h ≠ y := Ne.symm hyh
  have hb1 : m.M_right y = 0 ∨ (m.M_right y ≠ 0 ∧ m.M_parent (m.M_right y) = y ∧
      m.M_right y ≠ x ∧ m.M_right y ≠ y ∧ m.M_right y ≠ h) := by
    by_cases hb0 : m.M_right y = 0
    · exact Or.inl hb0
    · exact Or.inr ⟨hb0, hb hb0⟩
  rcases hslot with hr | ⟨hr, hry, hpx, hpy, hph, ⟨hl, hr2, hr3⟩ | ⟨hl, hl3, hr2⟩⟩
  · rcases hb1 with hb0 | ⟨hb0, hbp, hbx, hby, hbh⟩
    ·
      have f0 := Ne.symm hx0
      have f1 := Ne.symm hy0
      have f2 := Ne.symm hp0
      have f3 := Ne.symm hh
      have e1 : Rb_tree_rotate_right x h m = some ((((((m.setLeft x 0).setParent y p).setParent h y).setRight y x).setParent x y)) := by
        simp only [Rb_tree_rotate_right, get_right, get_left, get_parent, set_right,
        set_parent, set_left, Option.bind_eq_bind, Option.some_bind, Option.pure_def,
        Mem.setRight_M_parent, Mem.setParent_M_parent, Mem.setLeft_M_parent,
        Mem.setRight_M_left, Mem.setParent_M_left, Mem.setLeft_M_left,
        Mem.setRight_M_right, Mem.setParent_M_right, Mem.setLeft_M_right,
        upd, if_true, if_false, ne_eq, not_true_eq_false, not_false_eq_true,
        Option.some.injEq, *]
      refine ⟨_, e1, rfl, ?_⟩
      clear e1
      simp only [Rb_tree_rotate_left, get_right, get_left, get_parent, set_right,
        set_parent, set_left, Option.bind_eq_bind, Option.some_bind, Option.pure_def,
        Mem.setRight_M_parent, Mem.setParent_M_parent, Mem.setLeft_M_parent,
        Mem.setRight_M_left, Mem.setParent_M_left, Mem.setLeft_M_left,
        Mem.setRight_M_right, Mem.setParent_M_right, Mem.setLeft_M_right,
        upd, if_true, if_false, ne_eq, not_true_eq_false, not_false_eq_true,
        Option.some.injEq, *]
      apply Mem.ext_fields
      · simp only [Mem.setRight_M_color, Mem.setParent_M_color, Mem.setLeft_M_color]
      all_goals
        funext a
        simp only [Mem.setRight_M_parent, Mem.setParent_M_parent, Mem.setLeft_M_parent,
          Mem.setRight_M_left, Mem.setParent_M_left, Mem.setLeft_M_left,
          Mem.setRight_M_right, Mem.setParent_M_right, Mem.setLeft_M_right, upd]
        split_ifs <;> simp_all
    ·
      have f0 := Ne.symm hx0
      have f1 := Ne.symm hy0
      have f2 := Ne.symm hp0
      have f3 := Ne.symm hh
      have f4 := Ne.symm hb0
      have f5 := Ne.symm hbx
      have f6 := Ne.symm hby
      have f7 := Ne.symm hbh
      have e1 : Rb_tree_rotate_right x h m = some (((((((m.setLeft x (m.M_right y)).setParent (m.M_right y) x).setParent y p).setParent h y).setRight y x).setParent x y)) := by
        simp only [Rb_tree_rotate_right, get_right, get_left, get_parent, set_right,
        set_parent, set_left, Option.bind_eq_bind, Option.some_bind, Option.pure_def,
        Mem.setRight_M_parent, Mem.setParent_M_parent, Mem.setLeft_M_parent,
        Mem.setRight_M_left, Mem.setParent_M_left, Mem.setLeft_M_left,
        Mem.setRight_M_right, Mem.setParent_M_right, Mem.setLeft_M_right,
        upd, if_true, if_false, ne_eq, not_true_eq_false, not_false_eq_true,
        Option.some.injEq, *]
      refine ⟨_, e1, rfl, ?_⟩
      clear e1
      simp only [Rb_tree_rotate_left, get_right, get_left, get_parent, set_right,
        set_parent, set_left, Option.bind_eq_bind, Option.some_bind, Option.pure_def,
        Mem.setRight_M_parent, Mem.setParent_M_parent, Mem.setLeft_M_parent,
        Mem.setRight_M_left, Mem.setParent_M_left, Mem.setLeft_M_left,
        Mem.setRight_M_right, Mem.setParent_M_right, Mem.setLeft_M_right,
        upd, if_true, if_false, ne_eq, not_true_eq_false, not_false_eq_true,
        Option.some.injEq, *]
      apply Mem.ext_fields
      · simp only [Mem.setRight_M_color, Mem.setParent_M_color, Mem.setLeft_M_color]
      all_goals
        funext a
        simp only [Mem.setRight_M_parent, Mem.setParent_M_parent, Mem.setLeft_M_parent,
          Mem.setRight_M_left, Mem.setParent_M_left, Mem.setLeft_M_left,
          Mem.setRight_M_right, Mem.setParent_M_right, Mem.setLeft_M_right, upd]
        split_ifs <;> simp_all
  · rcases hb1 with hb0 | ⟨hb0, hbp, hbx, hby, hbh⟩
    ·
      have f0 := Ne.symm hx0
      have f1 := Ne.symm hy0
      have f2 := Ne.symm hp0
      have f3 := Ne.symm hh
      have f4 := Ne.symm hr
      have f5 := Ne.symm hry
      have f6 := Ne.symm hpx
      have f7 := Ne.symm hpy
      have f8 := Ne.symm hph
      have f9 := Ne.symm hr2
      have f10 := Ne.symm hr3
      have e1 : Rb_tree_rotate_right x h m = some ((((((m.setLeft x 0).setParent y p).setLeft p y).setRight y x).setParent x y)) := by
        simp only [Rb_tree_rotate_right, get_right, get_left, get_parent, set_right,
        set_parent, set_left, Option.bind_eq_bind, Option.some_bind, Option.pure_def,
        Mem.setRight_M_parent, Mem.setParent_M_parent, Mem.setLeft_M_parent,
        Mem.setRight_M_left, Mem.setParent_M_left, Mem.setLeft_M_left,
        Mem.setRight_M_right, Mem.setParent_M_right, Mem.setLeft_M_right,
        upd, if_true, if_false, ne_eq, not_true_eq_false, not_false_eq_true,
        Option.some.injEq, *]
      refine ⟨_, e1, rfl, ?_⟩
      clear e1
      simp only [Rb_tree_rotate_left, get_right, get_left, get_parent, set_right,
        set_parent, set_left, Option.bind_eq_bind, Option.some_bind, Option.pure_def,
        Mem.setRight_M_parent, Mem.setParent_M_parent, Mem.setLeft_M_parent,
        Mem.setRight_M_left, Mem.setParent_M_left, Mem.setLeft_M_left,
        Mem.setRight_M_right, Mem.setParent_M_right, Mem.setLeft_M_right,
        upd, if_true, if_false, ne_eq, not_true_eq_false, not_false_eq_true,
        Option.some.injEq, *]
      apply Mem.ext_fields
      · simp only [Mem.setRight_M_color, Mem.setParent_M_color, Mem.setLeft_M_color]
      all_goals
        funext a
        simp only [Mem.setRight_M_parent, Mem.setParent_M_parent, Mem.setLeft_M_parent,
          Mem.setRight_M_left, Mem.setParent_M_left, Mem.setLeft_M_left,
          Mem.setRight_M_right, Mem.setParent_M_right, Mem.setLeft_M_right, upd]
        split_ifs <;> simp_all
    ·
      have f0 := Ne.symm hx0
      have f1 := Ne.symm hy0
      have f2 := Ne.symm hp0
      have f3 := Ne.symm hh
      have f4 := Ne.symm hb0
      have f5 := Ne.symm hbx
      have f6 := Ne.symm hby
      have f7 := Ne.symm hbh
      have f8 := Ne.symm hr
      have f9 := Ne.symm hry
      have f10 := Ne.symm hpx
      have f11 := Ne.symm hpy
      have f12 := Ne.symm hph
      have f13 := Ne.symm hr2
      have f14 := Ne.symm hr3
      have e1 : Rb_tree_rotate_right x h m = some (((((((m.setLeft x (m.M_right y)).setParent (m.M_right y) x).setParent y p).setLeft p y).setRight y x).setParent x y)) := by
        simp only [Rb_tree_rotate_right, get_right, get_left, get_parent, set_right,
        set_parent, set_left, Option.bind_eq_bind, Option.some_bind, Option.pure_def,
        Mem.setRight_M_parent, Mem.setParent_M_parent, Mem.setLeft_M_parent,
        Mem.setRight_M_left, Mem.setParent_M_left, Mem.setLeft_M_left,
        Mem.setRight_M_right, Mem.setParent_M_right, Mem.setLeft_M_right,
        upd, if_true, if_false, ne_eq, not_true_eq_false, not_false_eq_true,
        Option.some.injEq, *]
      refine ⟨_, e1, rfl, ?_⟩
      clear e1
      simp only [Rb_tree_rotate_left, get_right, get_left, get_parent, set_right,
        set_parent, set_left, Option.bind_eq_bind, Option.some_bind, Option.pure_def,
        Mem.setRight_M_parent, Mem.setParent_M_parent, Mem.setLeft_M_parent,
        Mem.setRight_M_left, Mem.setParent_M_left, Mem.setLeft_M_left,
        Mem.setRight_M_right, Mem.setParent_M_right, Mem.setLeft_M_right,
        upd, if_true, if_false, ne_eq, not_true_eq_false, not_false_eq_true,
        Option.some.injEq, *]
      apply Mem.ext_fields
      · simp only [Mem.setRight_M_color, Mem.setParent_M_color, Mem.setLeft_M_color]
      all_goals
        funext a
        simp only [Mem.setRight_M_parent, Mem.setParent_M_parent, Mem.setLeft_M_parent,
          Mem.setRight_M_left, Mem.setParent_M_left, Mem.setLeft_M_left,
          Mem.setRight_M_right, Mem.setParent_M_right, Mem.setLeft_M_right, upd]
        split_ifs <;> simp_all
  · rcases hb1 with hb0 | ⟨hb0, hbp, hbx, hby, hbh⟩
    ·
      have f0 := Ne.symm hx0
      have f1 := Ne.symm hy0
      have f2 := Ne.symm hp0
      have f3 := Ne.symm hh
      have f4 := Ne.symm hr
      have f5 := Ne.symm hry
      have f6 := Ne.symm hpx
      have f7 := Ne.symm hpy
      have f8 := Ne.symm hph
      have f9 := Ne.symm hl
      have f10 := Ne.symm hl3
      have e1 : Rb_tree_rotate_right x h m = some ((((((m.setLeft x 0).setParent y p).setRight p y).setRight y x).setParent x y)) := by
        simp only [Rb_tree_rotate_right, get_right, get_left, get_parent, set_right,
        set_parent, set_left, Option.bind_eq_bind, Option.some_bind, Option.pure_def,
        Mem.setRight_M_parent, Mem.setParent_M_parent, Mem.setLeft_M_parent,
        Mem.setRight_M_left, Mem.setParent_M_left, Mem.setLeft_M_left,
        Mem.setRight_M_right, Mem.setParent_M_right, Mem.setLeft_M_right,
        upd, if_true, if_false, ne_eq, not_true_eq_false, not_false_eq_true,
        Option.some.injEq, *]
      refine ⟨_, e1, rfl, ?_⟩
      clear e1
      simp only [Rb_tree_rotate_left, get_right, get_left, get_parent, set_right,
        set_parent, set_left, Option.bind_eq_bind, Option.some_bind, Option.pure_def,
        Mem.setRight_M_parent, Mem.setParent_M_parent, Mem.setLeft_M_parent,
        Mem.setRight_M_left, Mem.setParent_M_left, Mem.setLeft_M_left,
        Mem.setRight_M_right, Mem.setParent_M_right, Mem.setLeft_M_right,
        upd, if_true, if_false, ne_eq, not_true_eq_false, not_false_eq_true,
        Option.some.injEq, *]
      apply Mem.ext_fields
      · simp only [Mem.setRight_M_color, Mem.setParent_M_color, Mem.setLeft_M_color]
      all_goals
        funext a
        simp only [Mem.setRight_M_parent, Mem.setParent_M_parent, Mem.setLeft_M_parent,
          Mem.setRight_M_left, Mem.setParent_M_left, Mem.setLeft_M_left,
          Mem.setRight_M_right, Mem.setParent_M_right, Mem.setLeft_M_right, upd]
        split_ifs <;> simp_all
    ·
      have f0 := Ne.symm hx0
      have f1 := Ne.symm hy0
      have f2 := Ne.symm hp0
      have f3 := Ne.symm hh
      have f4 := Ne.symm hb0
      have f5 := Ne.symm hbx
      have f6 := Ne.symm hby
      have f7 := Ne.symm hbh
      have f8 := Ne.symm hr
      have f9 := Ne.symm hry
      have f10 := Ne.symm hpx
      have f11 := Ne.symm hpy
      have f12 := Ne.symm hph
      have f13 := Ne.symm hl
      have f14 := Ne.symm hl3
      have e1 : Rb_tree_rotate_right x h m = some (((((((m.setLeft x (m.M_right y)).setParent (m.M_right y) x).setParent y p).setRight p y).setRight y x).setParent x y)) := by
        simp only [Rb_tree_rotate_right, get_right, get_left, get_parent, set_right,
        set_parent, set_left, Option.bind_eq_bind, Option.some_bind, Option.pure_def,
        Mem.setRight_M_parent, Mem.setParent_M_parent, Mem.setLeft_M_parent,
        Mem.setRight_M_left, Mem.setParent_M_left, Mem.setLeft_M_left,
        Mem.setRight_M_right, Mem.setParent_M_right, Mem.setLeft_M_right,
        upd, if_true, if_false, ne_eq, not_true_eq_false, not_false_eq_true,
        Option.some.injEq, *]
      refine ⟨_, e1, rfl, ?_⟩
      clear e1
      simp only [Rb_tree_rotate_left, get_right, get_left, get_parent, set_right,
        set_parent, set_left, Option.bind_eq_bind, Option.some_bind, Option.pure_def,
        Mem.setRight_M_parent, Mem.setParent_M_parent, Mem.setLeft_M_parent,
        Mem.setRight_M_left, Mem.setParent_M_left, Mem.setLeft_M_left,
        Mem.setRight_M_right, Mem.setParent_M_right, Mem.setLeft_M_right,
        upd, if_true, if_false, ne_eq, not_true_eq_false, not_false_eq_true,
        Option.some.injEq, *]
      apply Mem.ext_fields
      · simp only [Mem.setRight_M_color, Mem.setParent_M_color, Mem.setLeft_M_color]
      all_goals
        funext a
        simp only [Mem.setRight_M_parent, Mem.setParent_M_parent, Mem.setLeft_M_parent,
          Mem.setRight_M_left, Mem.setParent_M_left, Mem.setLeft_M_left,
          Mem.setRight_M_right, Mem.setParent_M_right, Mem.setLeft_M_right, upd]
        split_ifs <;> simp_all

theorem rotate_left_right_inverse {m : Mem} {h x : Base_ptr} {t : Tree} (hl : Linked m h t)
    (hx : x ∈ t.inorder) (hy : m.M_right x ≠ 0) :
    ∃ m1, Rb_tree_rotate_left x h m = some m1 ∧ m1.M_color = m.M_color ∧
      Rb_tree_rotate_right (m.M_right x) h m1 = some m := by
  obtain ⟨C, c, l, r, par, rfl, F⟩ := linked_find hl hx
  cases r with
  | nil =>
    obtain ⟨-, -, -, -, -, hr0⟩ := F.2.2.1
    exact absurd hr0 hy
  | node cy T1 y T2 =>
    have hff := focus_facts F
    have hrp := linked_root_parent (linked_of_focus F) (plug_ne_nil (by simp))
    obtain ⟨hh, hc, hr, hnd⟩ := F
    simp only [Rep] at hr
    obtain ⟨-, hx0, -, hxp, -, hxr, hy0, -, hyp, hB, -⟩ := hr
    simp [Tree.inorder, List.nodup_append, List.nodup_cons] at hnd
    have hctx : (h :: (C.before ++ C.after)).Nodup := by
      simp [List.nodup_append, List.nodup_cons]
      tauto
    have hyx : y ≠ x := by tauto
    have hxh : x ≠ h := by tauto
    have hyh : y ≠ h := by tauto
    obtain ⟨s1, s2, s3⟩ := RepCtx_slot hc hctx
    rw [hxr]
    have hBr := Rep_rootPtr hB
    obtain ⟨hxT, hyT, hhT, hxb, hxa, hyb, hya⟩ : x ∉ T1.inorder ∧ y ∉ T1.inorder ∧
        h ∉ T1.inorder ∧ x ∉ C.before ∧ x ∉ C.after ∧ y ∉ C.before ∧ y ∉ C.after := by
      tauto
    have hb : m.M_left y ≠ 0 → m.M_parent (m.M_left y) = y ∧ m.M_left y ≠ x ∧
        m.M_left y ≠ y ∧ m.M_left y ≠ h := by
      intro hb0
      have hmem : m.M_left y ∈ T1.inorder := by
        rcases rootPtr_mem T1 with e | e
        · exact absurd (hBr.trans e) hb0
        · rw [hBr]
          exact e
      have hpar : m.M_parent (m.M_left y) = y := by
        cases T1 with
        | nil => exact absurd hB hb0
        | node cb Bl b Br =>
          obtain ⟨e, -, -, hp, -⟩ := hB
          rw [e]
          exact hp
      exact ⟨hpar, fun e => hxT (e ▸ hmem), fun e => hyT (e ▸ hmem), fun e => hhT (e ▸ hmem)⟩
    have hry : m.M_parent h ≠ y := by
      intro e
      rw [← e, hrp] at hyp
      exact hxh hyp.symm
    cases C with
    | top =>
      obtain ⟨rfl, e1⟩ := s1 rfl
      exact rotate_left_right_local hh hx0 hy0 hh hxr hyp hxp hyx hxh hyh hb (Or.inl e1)
    | inL c1 a r1 up =>
      obtain ⟨rfl, e1, e2, e3⟩ := s2 _ _ _ _ rfl
      obtain ⟨hrx, hp0, -⟩ := hff.2.2.2.2.2 (by simp)
      simp only [Ctx.after, List.mem_append, List.mem_cons, not_or] at hxa hya
      have hsx : m.M_right par ≠ x := by
        rw [e2]
        rcases rootPtr_mem r1 with e | e
        · rw [e]
          exact Ne.symm hx0
        · exact fun e4 => hxa.1.2 (e4 ▸ e)
      have hsy : m.M_right par ≠ y := by
        rw [e2]
        rcases rootPtr_mem r1 with e | e
        · rw [e]
          exact Ne.symm hy0
        · exact fun e4 => hya.1.2 (e4 ▸ e)
      exact rotate_left_right_local hh hx0 hy0 hp0 hxr hyp hxp hyx hxh hyh hb
        (Or.inr ⟨Ne.symm hrx, hry, Ne.symm hxa.1.1, Ne.symm hya.1.1, e3, Or.inl ⟨e1, hsx, hsy⟩⟩)
    | inR c1 l1 a up =>
      obtain ⟨rfl, e1, e2, e3⟩ := s3 _ _ _ _ rfl
      obtain ⟨hrx, hp0, -⟩ := hff.2.2.2.2.2 (by simp)
      simp only [Ctx.before, List.mem_append, List.mem_cons, List.mem_singleton, not_or,
        List.not_mem_nil, or_false] at hxb hyb
      have hsx : m.M_left par ≠ x := by
        rw [e2]
        rcases rootPtr_mem l1 with e | e
        · rw [e]
          exact Ne.symm hx0
        · exact fun e4 => hxb.2.1 (e4 ▸ e)
      have hsy : m.M_left par ≠ y := by
        rw [e2]
        rcases rootPtr_mem l1 with e | e
        · rw [e]
          exact Ne.symm hy0
        · exact fun e4 => hyb.2.1 (e4 ▸ e)
      exact rotate_left_right_local hh hx0 hy0 hp0 hxr hyp hxp hyx hxh hyh hb
        (Or.inr ⟨Ne.symm hrx, hry, Ne.symm hxb.2.2, Ne.symm hyb.2.2, e3, Or.inr ⟨hsx, hsy, e1⟩⟩)

theorem rotate_right_left_inverse {m : Mem} {h x : Base_ptr} {t : Tree} (hl : Linked m h t)
    (hx : x ∈ t.inorder) (hy : m.M_left x ≠ 0) :
    ∃ m1, Rb_tree_rotate_right x h m = some m1 ∧ m1.M_color = m.M_color ∧
      Rb_tree_rotate_left (m.M_left x) h m1 = some m := by
  obtain ⟨C, c, l, r, par, rfl, F⟩ := linked_find hl hx
  cases l with
  | nil =>
    obtain ⟨-, -, -, -, hr0, -⟩ := F.2.2.1
    exact absurd hr0 hy
  | node cy T1 y T2 =>
    have hff := focus_facts F
    have hrp := linked_root_parent (linked_of_focus F) (plug_ne_nil (by simp))
    obtain ⟨hh, hc, hr, hnd⟩ := F
    simp only [Rep] at hr
    obtain ⟨-, hx0, -, hxp, ⟨hxr, hy0, -, hyp, -, hB⟩, -⟩ := hr
    simp [Tree.inorder, List.nodup_append, List.nodup_cons] at hnd
    have hctx : (h :: (C.before ++ C.after)).Nodup := by
      simp [List.nodup_append, List.nodup_cons]
      tauto
    have hyx : y ≠ x := by tauto
    have hxh : x ≠ h := by tauto
    have hyh : y ≠ h := by tauto
    obtain ⟨s1, s2, s3⟩ := RepCtx_slot hc hctx
    rw [hxr]
    have hBr := Rep_rootPtr hB
    obtain ⟨hxT, hyT, hhT, hxb, hxa, hyb, hya⟩ : x ∉ T2.inorder ∧ y ∉ T2.inorder ∧
        h ∉ T2.inorder ∧ x ∉ C.before ∧ x ∉ C.after ∧ y ∉ C.before ∧ y ∉ C.after := by
      tauto
    have hb : m.M_right y ≠ 0 → m.M_parent (m.M_right y) = y ∧ m.M_right y ≠ x ∧
        m.M_right y ≠ y ∧ m.M_right y ≠ h := by
      intro hb0
      have hmem : m.M_right y ∈ T2.inorder := by
        rcases rootPtr_mem T2 with e | e
        · exact absurd (hBr.trans e) hb0
        · rw [hBr]
          exact e
      have hpar : m.M_parent (m.M_right y) = y := by
        cases T2 with
        | nil => exact absurd hB hb0
        | node cb Bl b Br =>
          obtain ⟨e, -, -, hp, -⟩ := hB
          rw [e]
          exact hp
      exact ⟨hpar, fun e => hxT (e ▸ hmem), fun e => hyT (e ▸ hmem), fun e => hhT (e ▸ hmem)⟩
    have hry : m.M_parent h ≠ y := by
      intro e
      rw [← e, hrp] at hyp
      exact hxh hyp.symm
    cases C with
    | top =>
      obtain ⟨rfl, e1⟩ := s1 rfl
      exact rotate_right_left_local hh hx0 hy0 hh hxr hyp hxp hyx hxh hyh hb (Or.inl e1)
    | inL c1 a r1 up =>
      obtain ⟨rfl, e1, e2, e3⟩ := s2 _ _ _ _ rfl
      obtain ⟨hrx, hp0, -⟩ := hff.2.2.2.2.2 (by simp)
      simp only [Ctx.after, List.mem_append, List.mem_cons, not_or] at hxa hya
      have hsx : m.M_right par ≠ x := by
        rw [e2]
        rcases rootPtr_mem r1 with e | e
        · rw [e]
          exact Ne.symm hx0
        · exact fun e4 => hxa.1.2 (e4 ▸ e)
      have hsy : m.M_right par ≠ y := by
        rw [e2]
        rcases rootPtr_mem r1 with e | e
        · rw [e]
          exact Ne.symm hy0
        · exact fun e4 => hya.1.2 (e4 ▸ e)
      exact rotate_right_left_local hh hx0 hy0 hp0 hxr hyp hxp hyx hxh hyh hb
        (Or.inr ⟨Ne.symm hrx, hry, Ne.symm hxa.1.1, Ne.symm hya.1.1, e3, Or.inl ⟨e1, hsx, hsy⟩⟩)
    | inR c1 l1 a up =>
      obtain ⟨rfl, e1, e2, e3⟩ := s3 _ _ _ _ rfl
      obtain ⟨hrx, hp0, -⟩ := hff.2.2.2.2.2 (by simp)
      simp only [Ctx.before, List.mem_append, List.mem_cons, List.mem_singleton, not_or,
        List.not_mem_nil, or_false] at hxb hyb
      have hsx : m.M_left par ≠ x := by
        rw [e2]
        rcases rootPtr_mem l1 with e | e
        · rw [e]
          exact Ne.symm hx0
        · exact fun e4 => hxb.2.1 (e4 ▸ e)
      have hsy : m.M_left par ≠ y := by
        rw [e2]
        rcases rootPtr_mem l1 with e | e
        · rw [e]
          exact Ne.symm hy0
        · exact fun e4 => hyb.2.1 (e4 ▸ e)
      exact rotate_right_left_local hh hx0 hy0 hp0 hxr hyp hxp hyx hxh hyh hb
        (Or.inr ⟨Ne.symm hrx, hry, Ne.symm hxb.2.2, Ne.symm hyb.2.2, e3, Or.inr ⟨hsx, hsy, e1⟩⟩)

/-! ## Counting the increments between two positions -/

theorem distance_loop_spec {α : Type} [DecidableEq α] (ops : IterOps α) (last : α) :
    ∀ (k fuel : Nat) (first : α) (n : Int), k < fuel → ops.inc^[k] first = last →
      (∀ j, j < k → ops.inc^[j] first ≠ last) →
      distance_loop ops fuel first last n = some (n + k)
  | 0, fuel + 1, first, n, _, hr, _ => by
    have e : first = last := by simpa using hr
    simp [distance_loop, e]
  | k + 1, fuel + 1, first, n, hf, hr, hm => by
    have hne : first ≠ last := by simpa using hm 0 (by omega)
    have ih := distance_loop_spec ops last k fuel (ops.inc first) (n + 1) (by omega)
      (by simpa [Function.iterate_succ_apply] using hr)
      (fun j hj => by simpa [Function.iterate_succ_apply] using hm (j + 1) (by omega))
    rw [distance_loop, if_pos hne, ih]
    congr 1
    push_cast
    ring

/-! ## Every pass of the insertion loop is safe -/

theorem rotate_left_some {x h : Base_ptr} {m m1 : Mem}
    (he : Rb_tree_rotate_left x h m = some m1) : x ≠ 0 ∧ m.M_right x ≠ 0 := by
  by_cases hx : x = 0
  · simp [Rb_tree_rotate_left, get_right, hx] at he
  · by_cases hy : m.M_right x = 0
    · simp [Rb_tree_rotate_left, get_right, get_left, hx, hy] at he
    · exact ⟨hx, hy⟩

theorem rotate_right_some {x h : Base_ptr} {m m1 : Mem}
    (he : Rb_tree_rotate_right x h m = some m1) : x ≠ 0 ∧ m.M_left x ≠ 0 := by
  by_cases hx : x = 0
  · simp [Rb_tree_rotate_right, get_left, hx] at he
  · by_cases hy : m.M_left x = 0
    · simp [Rb_tree_rotate_right, get_right, get_left, hx, hy] at he
    · exact ⟨hx, hy⟩

theorem rotations_of_body {x h : Base_ptr} {m : Mem} {r : Base_ptr × Mem}
    (hb : insert_rebalance_body x h m = some r) :
    ∃ calls, insert_rebalance_rotations x h m = some calls ∧
      ∀ c ∈ calls, RotationHasChild c := by
  simp only [insert_rebalance_body, Option.bind_eq_bind, Option.bind_eq_some] at hb
  obtain ⟨xp, e1, xpp, e2, xppl, e3, hb⟩ := hb
  simp only [insert_rebalance_rotations, Option.bind_eq_bind, e1, e2, e3, Option.some_bind]
  by_cases c1 : xp = xppl
  · rw [if_pos c1] at hb ⊢
    simp only [Option.bind_eq_some] at hb
    obtain ⟨y, e4, hb⟩ := hb
    simp only [e4, Option.some_bind]
    by_cases c2 : is_red m y = true
    · rw [if_pos c2] at hb ⊢
      simp only [Option.bind_eq_some] at hb
      obtain ⟨xp1, e5, m1, e6, m2, e7, m3, e8, -⟩ := hb
      rw [e1] at e5
      cases e5
      exact ⟨[], by simp [e6, e7, e8], by simp⟩
    · rw [if_neg c2] at hb ⊢
      simp only [Option.bind_eq_some] at hb
      obtain ⟨xp1, e5, xpr, e6, hb⟩ := hb
      rw [e1] at e5
      cases e5
      simp only [e6, Option.some_bind]
      by_cases c3 : x = xpr
      · rw [if_pos c3] at hb ⊢
        simp only [Option.bind_eq_some, Option.some_bind] at hb
        obtain ⟨m1, e7, xp2, e8, m2, e9, m3, e10, m4, e11, -⟩ := hb
        refine ⟨[(true, xp, m), (false, xpp, m3)], by simp [e7, e8, e9, e10, e11], ?_⟩
        intro c hc
        simp only [List.mem_cons, List.mem_singleton, List.not_mem_nil, or_false] at hc
        rcases hc with rfl | rfl
        · simpa [RotationHasChild] using rotate_left_some e7
        · simpa [RotationHasChild] using rotate_right_some e11
      · rw [if_neg c3] at hb ⊢
        simp only [Option.bind_eq_some, Option.some_bind] at hb
        obtain ⟨xp2, e8, m2, e9, m3, e10, m4, e11, -⟩ := hb
        rw [e1] at e8
        cases e8
        refine ⟨[(false, xpp, m3)], by simp [e9, e10, e11], ?_⟩
        intro c hc
        simp only [List.mem_cons, List.mem_singleton, List.not_mem_nil, or_false] at hc
        subst hc
        simpa [RotationHasChild] using rotate_right_some e11
  · rw [if_neg c1] at hb ⊢
    simp only [e3, Option.some_bind] at hb
    by_cases c2 : is_red m xppl = true
    · rw [if_pos c2] at hb ⊢
      simp only [Option.bind_eq_some] at hb
      obtain ⟨xp1, e5, m1, e6, m2, e7, m3, e8, -⟩ := hb
      rw [e1] at e5
      cases e5
      exact ⟨[], by simp [e6, e7, e8], by simp⟩
    · rw [if_neg c2] at hb ⊢
      simp only [Option.bind_eq_some] at hb
      obtain ⟨xp1, e5, xpr, e6, hb⟩ := hb
      rw [e1] at e5
      cases e5
      simp only [e6, Option.some_bind]
      by_cases c3 : x = xpr
      · rw [if_pos c3] at hb ⊢
        simp only [Option.bind_eq_some, Option.some_bind] at hb
        obtain ⟨m1, e7, xp2, e8, m2, e9, m3, e10, m4, e11, -⟩ := hb
        refine ⟨[(false, xp, m), (true, xpp, m3)], by simp [e7, e8, e9, e10, e11], ?_⟩
        intro c hc
        simp only [List.mem_cons, List.mem_singleton, List.not_mem_nil, or_false] at hc
        rcases hc with rfl | rfl
        · simpa [RotationHasChild] using rotate_right_some e7
        · simpa [RotationHasChild] using rotate_left_some e11
      · rw [if_neg c3] at hb ⊢
        simp only [Option.bind_eq_some, Option.some_bind] at hb
        obtain ⟨xp2, e8, m2, e9, m3, e10, m4, e11, -⟩ := hb
        rw [e1] at e8
        cases e8
        refine ⟨[(true, xpp, m3)], by simp [e9, e10, e11], ?_⟩
        intro c hc
        simp only [List.mem_cons, List.mem_singleton, List.not_mem_nil, or_false] at hc
        subst hc
        simpa [RotationHasChild] using rotate_left_some e11

theorem insert_trace_sim {h : Base_ptr} :
    ∀ (fuel : Nat) (C : Ctx) (s : Tree) (x par : Base_ptr) (m : Mem),
      Focus m h C s x par → InsInv C s → C.depth < fuel →
      ∃ tr, insert_rebalance_trace fuel x h m = some tr ∧
        ∀ st ∈ tr, ∃ C1 s1 par1, Focus st.2 h C1 s1 st.1 par1 ∧ InsInv C1 s1 ∧
          C1.color = S_red ∧ C1 ≠ Ctx.top ∧
          (C1.plug s1).inorder = (C.plug s).inorder ∧ st.2.M_color h = m.M_color h := by
  intro fuel
  induction fuel with
  | zero => intro C s x par m _ _ hd; exact absurd hd (Nat.not_lt_zero _)
  | succ n ih =>
    intro C s x par m hf hi hd
    cases hs : s with
    | nil => exact absurd hs hi.2.1
    | node cs l x0 r =>
      subst hs
      obtain ⟨hh, rfl, hx0, hxp, htop, hnt⟩ := focus_facts hf
      by_cases hC : C = Ctx.top
      · refine ⟨[], ?_, by simp⟩
        simp [insert_rebalance_trace, get_parent, hh, htop hC]
      · obtain ⟨hroot, hp0, hpc⟩ := hnt hC
        by_cases hred : C.color = S_red
        · obtain ⟨x1, par1, m1, hb, F1, k1, k2, k3⟩ := insert_body_sim hf hi hred hC
          obtain ⟨I1, hdep, hord⟩ := insStep_inv hi hred hC
          obtain ⟨tr, htr, hall⟩ := ih _ _ x1 par1 m1 F1 I1 (by omega)
          refine ⟨(x, m) :: tr, ?_, ?_⟩
          · simp [insert_rebalance_trace, get_parent, get_color, hh, hx0, hroot, hxp, hp0, hpc,
              hred, hb, htr]
          · intro st hst
            rcases List.mem_cons.1 hst with rfl | hst
            · exact ⟨C, _, par, hf, hi, hred, hC, rfl, rfl⟩
            · obtain ⟨C1, s1, p1, G1, J1, r1, n1, o1, c1⟩ := hall st hst
              exact ⟨C1, s1, p1, G1, J1, r1, n1, o1.trans hord, c1.trans k3⟩
        · have hblk : C.color = S_black := by
            rcases color_cases C.color with e | e
            · exact absurd e hred
            · exact e
          refine ⟨[], ?_, by simp⟩
          simp [insert_rebalance_trace, get_parent, get_color, hh, hx0, hroot, hxp, hp0, hpc,
            hblk]

theorem body_state_facts {m : Mem} {h : Base_ptr} {C : Ctx} {s : Tree} {x par : Base_ptr}
    (hf : Focus m h C s x par) (hi : InsInv C s) (hred : C.color = S_red)
    (hC : C ≠ Ctx.top) :
    m.M_parent x ∈ (C.plug s).inorder ∧ m.M_parent x ≠ m.M_parent h ∧
      m.M_color (m.M_parent x) = S_red ∧
      m.M_parent (m.M_parent x) ∈ (C.plug s).inorder ∧
      m.M_parent (m.M_parent x) ≠ 0 ∧ m.M_parent (m.M_parent x) ≠ h ∧
      m.M_parent x ≠ 0 ∧ m.M_parent x ≠ h := by
  cases s with
  | nil => exact absurd rfl hi.2.1
  | node cs l x0 r =>
    obtain ⟨hh, rfl, hx0, hxp, -, hnt⟩ := focus_facts hf
    obtain ⟨-, hp0, hpc⟩ := hnt hC
    have hhn : h ∉ (C.plug (Tree.node cs l x r)).inorder := by
      rw [inorder_plug]
      exact (List.nodup_cons.1 hf.2.2.2).1
    rw [hxp]
    have key : par ∈ (C.plug (Tree.node cs l x r)).inorder ∧ par ≠ m.M_parent h ∧
        m.M_parent par ∈ (C.plug (Tree.node cs l x r)).inorder ∧ m.M_parent par ≠ 0 := by
      cases C with
      | top => exact absurd rfl hC
      | inL cp p sib up =>
        obtain ⟨-, -, -, -, -, hnu⟩ := focus_facts (focus_up_left hf)
        have hc := hf.2.1
        cases up with
        | top =>
          simp only [color_inL, color_inR] at hred
          subst hred
          simp [InsInv, CtxOK] at hi
        | inL cg g unc U =>
          obtain ⟨hr1, -, -⟩ := hnu (by simp)
          obtain ⟨rfl, -, -, -, -, e1, hg0, -⟩ := hc
          rw [e1]
          exact ⟨by simp [inorder_plug, Ctx.after], hr1, by simp [inorder_plug, Ctx.after], hg0⟩
        | inR cg unc g U =>
          obtain ⟨hr1, -, -⟩ := hnu (by simp)
          obtain ⟨rfl, -, -, -, -, e1, hg0, -⟩ := hc
          rw [e1]
          exact ⟨by simp [inorder_plug, Ctx.after], hr1,
            by simp [inorder_plug, Ctx.before, Ctx.after], hg0⟩
      | inR cp sib p up =>
        obtain ⟨-, -, -, -, -, hnu⟩ := focus_facts (focus_up_right hf)
        have hc := hf.2.1
        cases up with
        | top =>
          simp only [color_inL, color_inR] at hred
          subst hred
          simp [InsInv, CtxOK] at hi
        | inL cg g unc U =>
          obtain ⟨hr1, -, -⟩ := hnu (by simp)
          obtain ⟨rfl, -, -, -, -, e1, hg0, -⟩ := hc
          rw [e1]
          exact ⟨by simp [inorder_plug, Ctx.before], hr1,
            by simp [inorder_plug, Ctx.before, Ctx.after], hg0⟩
        | inR cg unc g U =>
          obtain ⟨hr1, -, -⟩ := hnu (by simp)
          obtain ⟨rfl, -, -, -, -, e1, hg0, -⟩ := hc
          rw [e1]
          exact ⟨by simp [inorder_plug, Ctx.before], hr1, by simp [inorder_plug, Ctx.before], hg0⟩
    obtain ⟨k1, k2, k3, k4⟩ := key
    exact ⟨k1, k2, hpc.trans hred, k3, k4, fun e => hhn (e ▸ k3), hp0, fun e => hhn (e ▸ k1)⟩

theorem insert_trace_chain {h : Base_ptr} :
    ∀ (fuel : Nat) (x : Base_ptr) (m : Mem) (tr : List (Base_ptr × Mem)),
      insert_rebalance_trace fuel x h m = some tr →
      ∃ m1, insert_rebalance_loop fuel x h m = some m1 ∧
        (∀ st ∈ tr.head?, st = (x, m)) ∧
        List.Chain' (fun a b => insert_rebalance_body a.1 h a.2 = some b) tr ∧
        ((tr = [] ∧ m1 = m) ∨
          ∃ st r, tr.getLast? = some st ∧ insert_rebalance_body st.1 h st.2 = some r ∧
            r.2 = m1) := by
  intro fuel
  induction fuel with
  | zero =>
    intro x m tr ht
    simp [insert_rebalance_trace] at ht
  | succ n ih =>
    intro x m tr ht
    simp only [insert_rebalance_trace, Option.bind_eq_bind, Option.bind_eq_some] at ht
    obtain ⟨root, e1, ht⟩ := ht
    by_cases c1 : x = root
    · rw [if_pos c1] at ht
      cases ht
      exact ⟨m, by simp [insert_rebalance_loop, e1, c1], by simp, List.chain'_nil,
        Or.inl ⟨rfl, rfl⟩⟩
    · rw [if_neg c1] at ht
      simp only [Option.bind_eq_some] at ht
      obtain ⟨xp, e2, c, e3, ht⟩ := ht
      by_cases c2 : c = S_red
      · rw [if_pos c2] at ht
        simp only [Option.bind_eq_some] at ht
        obtain ⟨⟨x1, m1⟩, e4, rest, e5, ht⟩ := ht
        cases ht
        obtain ⟨m2, f1, f2, f3, f4⟩ := ih x1 m1 rest e5
        refine ⟨m2, by simp [insert_rebalance_loop, e1, c1, e2, e3, c2, e4, f1], by simp,
          ?_, Or.inr ?_⟩
        · rw [List.chain'_cons']
          refine ⟨fun y hy => ?_, f3⟩
          rw [f2 y hy]
          exact e4
        · rcases f4 with ⟨rfl, rfl⟩ | ⟨st, r, g1, g2, g3⟩
          · exact ⟨(x, m), (x1, m2), rfl, e4, rfl⟩
          · refine ⟨st, r, ?_, g2, g3⟩
            rw [List.getLast?_cons, g1]
            rfl
      · rw [if_neg c2] at ht
        cases ht
        exact ⟨m, by simp [insert_rebalance_loop, e1, c1, e2, e3, c2], by simp,
          List.chain'_nil, Or.inl ⟨rfl, rfl⟩⟩

/-! ## The claims about `Rb_tree_insert_and_rebalance` -/

/-- C1: for every valid red-black tree under the header (links consistent and acyclic,
root black, no red node with a red child, uniform black count), every valid attach
position and every fresh node `x`, `Rb_tree_insert_and_rebalance` returns (for every
fuel above the number of nodes) and leaves a linked tree that again has a black root, no
red node with a red child and a uniform black count. -/
theorem C1_insert_preserves_invariants (m : Mem) (h : Base_ptr) (t : Tree) (insert_left : Bool)
    (x p : Base_ptr) (fuel : Nat) (hl : Linked m h t) (hrb : t.IsRB)
    (hp : AttachPos m h t insert_left p) (hx : Fresh h t x)
    (hfuel : t.inorder.length < fuel) :
    ∃ m1 t1, Rb_tree_insert_and_rebalance fuel insert_left x p h m = some m1 ∧
      Linked m1 h t1 ∧ t1.rootColor = S_black ∧ t1.noRedRed ∧ t1.balanced := by
  obtain ⟨m1, C1, s1, he, hl1, hrb1, -⟩ :=
    insert_spec (fun _ _ => True) (fun _ _ _ _ _ _ => trivial) hl hrb hp hx hfuel
      (fun _ _ => trivial)
  exact ⟨m1, _, he, hl1, hrb1⟩

/-- Witness of C1: inserting node 3 as the left child of the red node 5 in the tree
10(black) with red children 5 and 15. -/
theorem C1_insert_preserves_invariants_witness :
    Linked memThree 100 treeThree ∧ treeThree.IsRB ∧ AttachPos memThree 100 treeThree true 5 ∧
      Fresh 100 treeThree 3 ∧ treeThree.inorder.length < 4 ∧
      ∃ m1 t1, Rb_tree_insert_and_rebalance 4 true 3 5 100 memThree = some m1 ∧
        Linked m1 100 t1 ∧ t1.rootColor = S_black ∧ t1.noRedRed ∧ t1.balanced :=
  have h1 : Linked memThree 100 treeThree := by decide
  have h2 : treeThree.IsRB := by decide
  have h3 : AttachPos memThree 100 treeThree true 5 := Or.inl ⟨by decide, by decide⟩
  have h4 : Fresh 100 treeThree 3 := ⟨by decide, by decide, by decide⟩
  have h5 : treeThree.inorder.length < 4 := by decide
  ⟨h1, h2, h3, h4, h5, C1_insert_preserves_invariants memThree 100 treeThree true 3 5 4 h1 h2 h3 h4 h5⟩

/-- C3: the in-order sequence after `Rb_tree_insert_and_rebalance` is the old one with
`x` put immediately before `p` (left attach), immediately after `p` (right attach), or
`x` alone when `p` is the header; no node is reordered or dropped.  Consequently, for
every key assignment under which the old sequence is non-decreasing and `x` fits
between its new neighbours, the new sequence is non-decreasing. -/
theorem C3_insert_inorder (m : Mem) (h : Base_ptr) (t : Tree) (insert_left : Bool)
    (x p : Base_ptr) (fuel : Nat) (hl : Linked m h t) (hrb : t.IsRB)
    (hp : AttachPos m h t insert_left p) (hx : Fresh h t x)
    (hfuel : t.inorder.length < fuel) :
    ∃ m1 t1, Rb_tree_insert_and_rebalance fuel insert_left x p h m = some m1 ∧
      Linked m1 h t1 ∧ t1.inorder = attached insert_left x p h t.inorder ∧
      ∀ key : Base_ptr → Int, t.inorder.Sorted (fun a b => key a ≤ key b) →
        (∀ A B, t1.inorder = A ++ x :: B →
          (∀ a ∈ A.getLast?, key a ≤ key x) ∧ (∀ b ∈ B.head?, key x ≤ key b)) →
        t1.inorder.Sorted (fun a b => key a ≤ key b) := by
  obtain ⟨m1, C1, s1, he, hl1, -, hord, -⟩ :=
    insert_spec (fun _ _ => True) (fun _ _ _ _ _ _ => trivial) hl hrb hp hx hfuel
      (fun _ _ => trivial)
  refine ⟨m1, _, he, hl1, hord, ?_⟩
  intro key hs hfit
  obtain ⟨m0, C0, -, -, hplug, hord0, -⟩ := insert_link_spec hl hp hx
  have hold : t.inorder = C0.before ++ C0.after := by
    rw [← hplug, inorder_plug]
    simp [Tree.inorder]
  have hnew : (C1.plug s1).blacken.inorder = C0.before ++ x :: C0.after := by
    rw [hord, hord0]
  obtain ⟨hA, hB⟩ := hfit _ _ hnew
  rw [hnew]
  rw [hold] at hs
  exact sorted_insert hs hA hB

/-- Witness of C3: after the keys 10, 5, 15, 3 the node 7 is attached to the right of 5;
the in-order sequence becomes 3, 5, 7, 10, 15. -/
theorem C3_insert_inorder_witness :
    Linked memFour 100 treeFour ∧ treeFour.IsRB ∧ AttachPos memFour 100 treeFour false 5 ∧
      Fresh 100 treeFour 7 ∧ treeFour.inorder.length < 5 ∧
      attached false 7 5 100 treeFour.inorder = [3, 5, 7, 10, 15] ∧
      ∃ m1 t1, Rb_tree_insert_and_rebalance 5 false 7 5 100 memFour = some m1 ∧
        Linked m1 100 t1 ∧ t1.inorder = attached false 7 5 100 treeFour.inorder ∧
        ∀ key : Base_ptr → Int, treeFour.inorder.Sorted (fun a b => key a ≤ key b) →
          (∀ A B, t1.inorder = A ++ 7 :: B →
            (∀ a ∈ A.getLast?, key a ≤ key 7) ∧ (∀ b ∈ B.head?, key 7 ≤ key b)) →
          t1.inorder.Sorted (fun a b => key a ≤ key b) :=
  have h1 : Linked memFour 100 treeFour := by decide
  have h2 : treeFour.IsRB := by decide
  have h3 : AttachPos memFour 100 treeFour false 5 := Or.inl ⟨by decide, by decide⟩
  have h4 : Fresh 100 treeFour 7 := ⟨by decide, by decide, by decide⟩
  have h5 : treeFour.inorder.length < 5 := by decide
  ⟨h1, h2, h3, h4, h5, by decide,
    C3_insert_inorder memFour 100 treeFour false 7 5 5 h1 h2 h3 h4 h5⟩

/-- C9: when the header caches are correct before the call (`header.M_left` the first
and `header.M_right` the last node in in-order, both the header for an empty tree),
they are correct after `Rb_tree_insert_and_rebalance` for the new in-order sequence,
and `header.M_parent` is the root of the new tree. -/
theorem C9_insert_header_caches (m : Mem) (h : Base_ptr) (t : Tree) (insert_left : Bool)
    (x p : Base_ptr) (fuel : Nat) (hl : Linked m h t) (hrb : t.IsRB)
    (hc : CachesOK m h t.inorder)
    (hp : AttachPos m h t insert_left p) (hx : Fresh h t x)
    (hfuel : t.inorder.length < fuel) :
    ∃ m1 t1, Rb_tree_insert_and_rebalance fuel insert_left x p h m = some m1 ∧
      Linked m1 h t1 ∧ t1.inorder = attached insert_left x p h t.inorder ∧
      m1.M_left h = t1.inorder.head?.getD h ∧ m1.M_right h = t1.inorder.getLast?.getD h ∧
      m1.M_parent h = t1.rootPtr ∧ t1 ≠ Tree.nil := by
  obtain ⟨m1, C1, s1, he, hl1, -, hord, -, hca, -, hI, -⟩ :=
    insert_spec (fun _ _ => True) (fun _ _ _ _ _ _ => trivial) hl hrb hp hx hfuel
      (fun _ _ => trivial)
  have hc1 := hca hc
  rw [← hord] at hc1
  refine ⟨m1, _, he, hl1, hord, hc1.1, hc1.2, Rep_rootPtr hl1.2.1, ?_⟩
  intro e
  have hne := plug_ne_nil (C := C1) hI.2.1
  cases hps : C1.plug s1 with
  | nil => exact hne hps
  | node c l a r =>
    rw [hps] at e
    simp at e

/-- Witness of C9: node 1 is attached to the left of the leftmost node 3 of the tree
left by the keys 10, 5, 15, 3. -/
theorem C9_insert_header_caches_witness :
    Linked memFour 100 treeFour ∧ treeFour.IsRB ∧ CachesOK memFour 100 treeFour.inorder ∧
      AttachPos memFour 100 treeFour true 3 ∧ Fresh 100 treeFour 1 ∧
      treeFour.inorder.length < 5 ∧
      ∃ m1 t1, Rb_tree_insert_and_rebalance 5 true 1 3 100 memFour = some m1 ∧
        Linked m1 100 t1 ∧ t1.inorder = attached true 1 3 100 treeFour.inorder ∧
        m1.M_left 100 = t1.inorder.head?.getD 100 ∧
        m1.M_right 100 = t1.inorder.getLast?.getD 100 ∧
        m1.M_parent 100 = t1.rootPtr ∧ t1 ≠ Tree.nil :=
  have h1 : Linked memFour 100 treeFour := by decide
  have h2 : treeFour.IsRB := by decide
  have h3 : CachesOK memFour 100 treeFour.inorder := ⟨by decide, by decide⟩
  have h4 : AttachPos memFour 100 treeFour true 3 := Or.inl ⟨by decide, by decide⟩
  have h5 : Fresh 100 treeFour 1 := ⟨by decide, by decide, by decide⟩
  have h6 : treeFour.inorder.length < 5 := by decide
  ⟨h1, h2, h3, h4, h5, h6,
    C9_insert_header_caches memFour 100 treeFour true 1 3 5 h1 h2 h3 h4 h5 h6⟩

/-! ## The claims about `Rb_tree_increment` and `Rb_tree_decrement` -/

/-- C5: in a linked tree, for a node `x` with in-order sequence `A ++ x :: B`,
`Rb_tree_increment(x)` returns the next node of the sequence when there is one, and the
header when `x` is the last node (in particular when `x` is `header.M_right` and the
caches are correct; the case of the root being the last node is included). -/
theorem C5_increment_successor (m : Mem) (h : Base_ptr) (t : Tree) (x : Base_ptr)
    (A B : List Base_ptr) (fuel : Nat) (hl : Linked m h t) (hs : t.inorder = A ++ x :: B)
    (hfuel : t.inorder.length < fuel) :
    (∀ y B1, B = y :: B1 → Rb_tree_increment fuel m x = some y) ∧
      (B = [] → Rb_tree_increment fuel m x = some h) ∧
      (CachesOK m h t.inorder → x = m.M_right h → Rb_tree_increment fuel m x = some h) := by
  have e := increment_spec hl hs hfuel
  refine ⟨?_, ?_, ?_⟩
  · rintro y B1 rfl
    simpa using e
  · rintro rfl
    simpa using e
  · intro hc hx
    cases B with
    | nil => simpa using e
    | cons b B1 =>
      have hnd : (A ++ x :: b :: B1).Nodup := hs ▸ (List.nodup_cons.1 hl.2.2).2
      have h2 := hc.2
      rw [hs, ← hx] at h2
      exact absurd h2.symm (getLast?_append_cons_ne hnd)

/-- Witness of C5: node 5 of the tree left by the keys 10, 5, 15, 3, whose in-order
sequence is 3, 5, 10, 15. -/
theorem C5_increment_successor_witness :
    Linked memFour 100 treeFour ∧ treeFour.inorder = [3] ++ 5 :: [10, 15] ∧
      treeFour.inorder.length < 5 ∧
      (∀ y B1, [10, 15] = y :: B1 → Rb_tree_increment 5 memFour 5 = some y) ∧
      (([10, 15] : List Base_ptr) = [] → Rb_tree_increment 5 memFour 5 = some 100) ∧
      (CachesOK memFour 100 treeFour.inorder → 5 = memFour.M_right 100 →
        Rb_tree_increment 5 memFour 5 = some 100) :=
  have h1 : Linked memFour 100 treeFour := by decide
  have h2 : treeFour.inorder = [3] ++ 5 :: [10, 15] := by decide
  have h3 : treeFour.inorder.length < 5 := by decide
  ⟨h1, h2, h3, C5_increment_successor memFour 100 treeFour 5 [3] [10, 15] 5 h1 h2 h3⟩

/-- C6: in a valid non-empty tree (linked, red-black, header red, caches correct),
`Rb_tree_decrement(header)` returns the last node of the in-order sequence, and for
every node `x` that is not the first one `Rb_tree_decrement(x)` returns the node right
before `x` in the in-order sequence. -/
theorem C6_decrement_predecessor (m : Mem) (h : Base_ptr) (t : Tree) (fuel : Nat)
    (hl : Linked m h t) (hrb : t.IsRB) (hne : t ≠ Tree.nil) (hred : m.M_color h = S_red)
    (hc : CachesOK m h t.inorder) (hfuel : t.inorder.length < fuel) :
    (∃ y, t.inorder.getLast? = some y ∧ Rb_tree_decrement fuel m h = some y) ∧
      ∀ x A B, t.inorder = A ++ x :: B → A ≠ [] →
        ∃ y, A.getLast? = some y ∧ Rb_tree_decrement fuel m x = some y := by
  refine ⟨?_, ?_⟩
  · have hnil := inorder_ne_nil hne
    refine ⟨t.inorder.getLast hnil, List.getLast?_eq_getLast _ hnil, ?_⟩
    rw [decrement_header hl hne hred, hc.2, List.getLast?_eq_getLast _ hnil]
    rfl
  · intro x A B hs hA
    exact decrement_spec hl hrb.1 hs hA hfuel

/-- Witness of C6: the tree left by the keys 10, 5, 15, 3. -/
theorem C6_decrement_predecessor_witness :
    Linked memFour 100 treeFour ∧ treeFour.IsRB ∧ treeFour ≠ Tree.nil ∧
      memFour.M_color 100 = S_red ∧ CachesOK memFour 100 treeFour.inorder ∧
      treeFour.inorder.length < 5 ∧
      (∃ y, treeFour.inorder.getLast? = some y ∧ Rb_tree_decrement 5 memFour 100 = some y) ∧
      ∀ x A B, treeFour.inorder = A ++ x :: B → A ≠ [] →
        ∃ y, A.getLast? = some y ∧ Rb_tree_decrement 5 memFour x = some y :=
  have h1 : Linked memFour 100 treeFour := by decide
  have h2 : treeFour.IsRB := by decide
  have h3 : treeFour ≠ Tree.nil := by decide
  have h4 : memFour.M_color 100 = S_red := by decide
  have h5 : CachesOK memFour 100 treeFour.inorder := ⟨by decide, by decide⟩
  have h6 : treeFour.inorder.length < 5 := by decide
  ⟨h1, h2, h3, h4, h5, h6, C6_decrement_predecessor memFour 100 treeFour 5 h1 h2 h3 h4 h5 h6⟩

/-- C7: in a valid non-empty tree with `n` nodes, walking `n` steps forward with
`Rb_tree_increment` from `header.M_left` visits the in-order sequence and then the
header, and walking `n` steps backward with `Rb_tree_decrement` from the header visits
exactly the reverse of that; decrement undoes increment at every node, and increment
undoes decrement at the header and at every node but the first. -/
theorem C7_increment_decrement_inverse (m : Mem) (h : Base_ptr) (t : Tree) (fuel : Nat)
    (hl : Linked m h t) (hrb : t.IsRB) (hne : t ≠ Tree.nil) (hred : m.M_color h = S_red)
    (hc : CachesOK m h t.inorder) (hfuel : t.inorder.length < fuel) :
    walk (Rb_tree_increment fuel m) t.inorder.length (m.M_left h) = some (t.inorder ++ [h]) ∧
      walk (Rb_tree_decrement fuel m) t.inorder.length h = some (t.inorder ++ [h]).reverse ∧
      (∀ x ∈ t.inorder,
        (Rb_tree_increment fuel m x).bind (Rb_tree_decrement fuel m) = some x) ∧
      (∀ x, (x = h ∨ x ∈ t.inorder) → t.inorder.head? ≠ some x →
        (Rb_tree_decrement fuel m x).bind (Rb_tree_increment fuel m) = some x) := by
  have hnil := inorder_ne_nil hne
  have hdh : Rb_tree_decrement fuel m h = some (t.inorder.getLast hnil) := by
    rw [decrement_header hl hne hred, hc.2, List.getLast?_eq_getLast _ hnil]
    rfl
  have hlast : t.inorder = t.inorder.dropLast ++ t.inorder.getLast hnil :: [] :=
    (List.dropLast_append_getLast hnil).symm
  have hinc_last : Rb_tree_increment fuel m (t.inorder.getLast hnil) = some h := by
    simpa using increment_spec hl hlast hfuel
  refine ⟨?_, ?_, ?_, ?_⟩
  · cases hi : t.inorder with
    | nil => exact absurd hi hnil
    | cons a L =>
      have h1 := hc.1
      rw [hi] at h1
      simp only [List.head?_cons, Option.getD_some] at h1
      rw [h1]
      have := walk_increment hl hfuel L [] a (by simpa using hi)
      simpa using this
  · have hw := walk_decrement hl hrb.1 hfuel t.inorder.dropLast.length t.inorder.dropLast []
      (t.inorder.getLast hnil) rfl hlast
    have hlen : t.inorder.length = t.inorder.dropLast.length + 1 := by
      conv_lhs => rw [hlast]
      simp
    rw [hlen, walk]
    simp only [hdh, hw, Option.bind_eq_bind, Option.some_bind]
    conv_rhs => rw [hlast]
    simp
  · intro x hx
    obtain ⟨A, B, hs⟩ := List.append_of_mem hx
    have e := increment_spec hl hs hfuel
    cases B with
    | nil =>
      have hxl : t.inorder.getLast hnil = x := by
        simp [hs]
      simp [e, hdh, hxl]
    | cons y B1 =>
      have hs1 : t.inorder = (A ++ [x]) ++ y :: B1 := by simp [hs]
      obtain ⟨z, hz, e1⟩ := decrement_spec hl hrb.1 hs1 (by simp) hfuel
      have hzx : z = x := by simpa using hz.symm
      simp [e, e1, hzx]
  · intro x hx hfirst
    rcases hx with rfl | hx
    · simp [hdh, hinc_last]
    · obtain ⟨A, B, hs⟩ := List.append_of_mem hx
      have hA : A ≠ [] := by
        rintro rfl
        apply hfirst
        simp [hs]
      obtain ⟨z, hz, e1⟩ := decrement_spec hl hrb.1 hs hA hfuel
      rcases A.eq_nil_or_concat with rfl | ⟨A1, y, hA1⟩
      · exact absurd rfl hA
      · rw [List.concat_eq_append] at hA1
        subst hA1
        have hzy : z = y := by simpa using hz.symm
        subst hzy
        have hs1 : t.inorder = A1 ++ z :: (x :: B) := by simp [hs]
        have e2 := increment_spec hl hs1 hfuel
        simp [e1, e2]

/-- Witness of C7: the tree left by the keys 10, 5, 15, 3. -/
theorem C7_increment_decrement_inverse_witness :
    Linked memFour 100 treeFour ∧ treeFour.IsRB ∧ treeFour ≠ Tree.nil ∧
      memFour.M_color 100 = S_red ∧ CachesOK memFour 100 treeFour.inorder ∧
      treeFour.inorder.length < 5 ∧
      walk (Rb_tree_increment 5 memFour) treeFour.inorder.length (memFour.M_left 100) =
        some (treeFour.inorder ++ [100]) ∧
      walk (Rb_tree_decrement 5 memFour) treeFour.inorder.length 100 =
        some (treeFour.inorder ++ [100]).reverse ∧
      (∀ x ∈ treeFour.inorder,
        (Rb_tree_increment 5 memFour x).bind (Rb_tree_decrement 5 memFour) = some x) ∧
      (∀ x, (x = 100 ∨ x ∈ treeFour.inorder) → treeFour.inorder.head? ≠ some x →
        (Rb_tree_decrement 5 memFour x).bind (Rb_tree_increment 5 memFour) = some x) :=
  have h1 : Linked memFour 100 treeFour := by decide
  have h2 : treeFour.IsRB := by decide
  have h3 : treeFour ≠ Tree.nil := by decide
  have h4 : memFour.M_color 100 = S_red := by decide
  have h5 : CachesOK memFour 100 treeFour.inorder := ⟨by decide, by decide⟩
  have h6 : treeFour.inorder.length < 5 := by decide
  ⟨h1, h2, h3, h4, h5, h6,
    C7_increment_decrement_inverse memFour 100 treeFour 5 h1 h2 h3 h4 h5 h6⟩

/-! ## The claims about `Rb_tree_rebalance_for_erase` that the code breaks

Case 2 of the erase loop sets `x_parent = x->M_parent->M_parent` after `x = x_parent`,
so `x_parent` becomes the grandparent of the new `x` instead of its parent.  When the
loop runs again after a Case 2 pass it works on the wrong nodes. -/

/-- C2 fails on the code.  The tree built by inserting 10, 9, 8, 7, 6, 5, 4, 2, 1, 3 is
a valid red-black tree with correct caches; `Rb_tree_rebalance_for_erase(7)` returns,
and the only tree the memory then holds has the red node 1 below the red node 2 and
unequal black counts (and the header has been coloured black).  On the tree built by
inserting 1, ..., 10 in ascending order, erasing the smallest node 1 follows a null
pointer: there is no result for any fuel. -/
theorem C2_erase_breaks_invariants :
    (insertKeys 12 100 [10, 9, 8, 7, 6, 5, 4, 2, 1, 3]).map
        (fun m => m.cells [100, 1, 2, 3, 4, 5, 6, 7, 8, 9, 10]) =
      some (memA.cells [100, 1, 2, 3, 4, 5, 6, 7, 8, 9, 10]) ∧
    Linked memA 100 treeA ∧ treeA.IsRB ∧ CachesOK memA 100 treeA.inorder ∧
    memA.M_color 100 = S_red ∧ 7 ∈ treeA.inorder ∧
    (∃ m1, Rb_tree_rebalance_for_erase 12 7 100 memA = some (7, m1) ∧
      Linked m1 100 treeA_erased ∧ (∀ t, Linked m1 100 t → t = treeA_erased) ∧
      ¬ treeA_erased.noRedRed ∧ ¬ treeA_erased.balanced ∧ m1.M_color 100 = S_black) ∧
    (insertKeys 12 100 [1, 2, 3, 4, 5, 6, 7, 8, 9, 10]).map
        (fun m => m.cells [100, 1, 2, 3, 4, 5, 6, 7, 8, 9, 10]) =
      some (memB.cells [100, 1, 2, 3, 4, 5, 6, 7, 8, 9, 10]) ∧
    Linked memB 100 treeB ∧ treeB.IsRB ∧ CachesOK memB 100 treeB.inorder ∧
    ∀ fuel, Rb_tree_rebalance_for_erase fuel 1 100 memB = none := by
  have key : (Rb_tree_rebalance_for_erase 12 7 100 memA).map
      (fun r => (r.1, readTree 12 r.2 (r.2.M_parent 100), r.2.M_color 100,
        decide (Linked r.2 100 treeA_erased))) =
      some (7, some treeA_erased, S_black, true) := by decide
  refine ⟨by decide, by decide, by decide, ⟨by decide, by decide⟩, by decide, by decide, ?_,
    by decide, by decide, by decide, ⟨by decide, by decide⟩, ?_⟩
  · cases he : Rb_tree_rebalance_for_erase 12 7 100 memA with
    | none => simp [he] at key
    | some r =>
      obtain ⟨y, m1⟩ := r
      simp only [he, Option.map_some', Option.some.injEq, Prod.mk.injEq,
        decide_eq_true_eq] at key
      obtain ⟨rfl, hrt, hcol, hlk⟩ := key
      exact ⟨m1, rfl, hlk, fun t ht => linked_unique hrt ht, by decide, by decide, hcol⟩
  · intro fuel
    rcases fuel with _ | _ | n <;> rfl

/-- C4 fails on the code.  The tree built by inserting 10, 9, 8, 7, 6, 5, 4, 3, 1, 2 is a
valid red-black tree with correct caches and in-order sequence 1, ..., 10;
`Rb_tree_rebalance_for_erase(7)` returns, but afterwards `header.M_parent` is node 1
whose parent link is node 8 and whose right link is the header: the memory holds no
linked tree at all, and what is reachable from the root reads 1, header, 10 instead of
1, 2, 3, 4, 5, 6, 8, 9, 10. -/
theorem C4_erase_breaks_inorder :
    (insertKeys 12 100 [10, 9, 8, 7, 6, 5, 4, 3, 1, 2]).map
        (fun m => m.cells [100, 1, 2, 3, 4, 5, 6, 7, 8, 9, 10]) =
      some (memC.cells [100, 1, 2, 3, 4, 5, 6, 7, 8, 9, 10]) ∧
    Linked memC 100 treeC ∧ treeC.IsRB ∧ CachesOK memC 100 treeC.inorder ∧
    memC.M_color 100 = S_red ∧ treeC.inorder = [1, 2, 3, 4, 5, 6, 7, 8, 9, 10] ∧
    ∃ m1, Rb_tree_rebalance_for_erase 12 7 100 memC = some (7, m1) ∧
      m1.M_parent 100 = 1 ∧ m1.M_parent 1 = 8 ∧ m1.M_left 1 = 0 ∧ m1.M_right 1 = 100 ∧
      (readTree 12 m1 (m1.M_parent 100)).map Tree.inorder = some [1, 100, 10] ∧
      ∀ t, ¬ Linked m1 100 t := by
  have key : (Rb_tree_rebalance_for_erase 12 7 100 memC).map
      (fun r => (r.1, r.2.M_parent 100, r.2.M_parent 1, r.2.M_left 1, r.2.M_right 1)) =
      some (7, 1, 8, 0, 100) := by decide
  have key2 : (Rb_tree_rebalance_for_erase 12 7 100 memC).map
      (fun r => (readTree 12 r.2 (r.2.M_parent 100)).map Tree.inorder) =
      some (some [1, 100, 10]) := by decide
  refine ⟨by decide, by decide, by decide, ⟨by decide, by decide⟩, by decide, by decide, ?_⟩
  cases he : Rb_tree_rebalance_for_erase 12 7 100 memC with
  | none => simp [he] at key
  | some r =>
    obtain ⟨y, m1⟩ := r
    simp only [he, Option.map_some', Option.some.injEq, Prod.mk.injEq] at key key2
    obtain ⟨rfl, h1, h2, h3, h4⟩ := key
    refine ⟨m1, rfl, h1, h2, h3, h4, key2, ?_⟩
    intro t ht
    obtain ⟨-, hr, -⟩ := ht
    rw [h1] at hr
    cases t with
    | nil => simp [Rep] at hr
    | node c l a r =>
      obtain ⟨ha, -, -, hp, -⟩ := hr
      rw [← ha, h2] at hp
      exact absurd hp (by decide)

/-- C10 fails on the code.  The tree built by inserting 10, 2, 1, 4, 3, 6, 5, 8, 7, 9 is
a valid red-black tree with correct caches; after `Rb_tree_rebalance_for_erase(1)`
(erasing the minimum) `header.M_right` is the null pointer, not the maximum node 10 of
the remaining nodes, and `header.M_parent` is node 10 whose parent link is node 4. -/
theorem C10_erase_breaks_caches :
    (insertKeys 12 100 [10, 2, 1, 4, 3, 6, 5, 8, 7, 9]).map
        (fun m => m.cells [100, 1, 2, 3, 4, 5, 6, 7, 8, 9, 10]) =
      some (memD.cells [100, 1, 2, 3, 4, 5, 6, 7, 8, 9, 10]) ∧
    Linked memD 100 treeD ∧ treeD.IsRB ∧ CachesOK memD 100 treeD.inorder ∧
    memD.M_color 100 = S_red ∧ treeD.inorder = [1, 2, 3, 4, 5, 6, 7, 8, 9, 10] ∧
    ∃ m1, Rb_tree_rebalance_for_erase 12 1 100 memD = some (1, m1) ∧
      m1.M_right 100 = 0 ∧ m1.M_parent 100 = 10 ∧ m1.M_parent 10 = 4 ∧
      ¬ CachesOK m1 100 [2, 3, 4, 5, 6, 7, 8, 9, 10] := by
  have key : (Rb_tree_rebalance_for_erase 12 1 100 memD).map
      (fun r => (r.1, r.2.M_right 100, r.2.M_parent 100, r.2.M_parent 10)) =
      some (1, 0, 10, 4) := by decide
  refine ⟨by decide, by decide, by decide, ⟨by decide, by decide⟩, by decide, by decide, ?_⟩
  cases he : Rb_tree_rebalance_for_erase 12 1 100 memD with
  | none => simp [he] at key
  | some r =>
    obtain ⟨y, m1⟩ := r
    simp only [he, Option.map_some', Option.some.injEq, Prod.mk.injEq] at key
    obtain ⟨rfl, h1, h2, h3⟩ := key
    refine ⟨m1, rfl, h1, h2, h3, ?_⟩
    rintro ⟨-, hc⟩
    rw [h1] at hc
    exact absurd hc (by decide)

/-! ## The round trip of an insertion and the erasure of the new node -/

/-- C8: round trip.  For a linked red-black tree with correct header caches (possibly
empty), a valid attach position and a fresh node `x`, the call of
`Rb_tree_insert_and_rebalance` returns, the call of `Rb_tree_rebalance_for_erase(x, header)`
that follows returns `x`, and the tree left is a linked red-black tree with exactly the
original in-order sequence (so `x` is no longer in it and the node count is the old
one) and the original `header.M_left` and `header.M_right`. -/
theorem C8_insert_erase_roundtrip (m : Mem) (h : Base_ptr) (t : Tree) (insert_left : Bool)
    (x p : Base_ptr) (fuel : Nat) (hl : Linked m h t) (hrb : t.IsRB)
    (hc : CachesOK m h t.inorder)
    (hp : AttachPos m h t insert_left p) (hx : Fresh h t x)
    (hfuel : t.inorder.length < fuel) :
    ∃ m1 m2 t2, Rb_tree_insert_and_rebalance fuel insert_left x p h m = some m1 ∧
      Rb_tree_rebalance_for_erase fuel x h m1 = some (x, m2) ∧
      Linked m2 h t2 ∧ t2.IsRB ∧ t2.inorder = t.inorder ∧ x ∉ t2.inorder ∧
      t2.inorder.length = t.inorder.length ∧
      m2.M_left h = m.M_left h ∧ m2.M_right h = m.M_right h := by
  obtain ⟨m1, C1, s1, he, hl1, hrb1, hord, -, hca, hQ, -, -⟩ :=
    insert_spec (InsTrack x) (fun C s hi hr hn hq => insTrack_step hi hr hn hq) hl hrb hp hx
      hfuel (fun C0 _ => Or.inl (Or.inl ⟨rfl, rfl, rfl, rfl⟩))
  have hsh : Tree.nodeAt x IsNewShape (C1.plug s1) := by
    rcases hQ with hq | ⟨-, hq⟩
    · exact nodeAt_plug C1 (nodeAt_mono (fun _ _ _ hr => Or.inl hr) hq)
    · exact hq
  have hf0 : 0 < fuel := by omega
  obtain ⟨m2, t2, hE, hl2, hrb2, hord2, hca2⟩ :=
    erase_new_spec hl1 hrb1 (blacken_nodeAt hsh) hf0
  have hph : p = h → t.inorder = [] := by
    rintro rfl
    rcases hp with ⟨hm, -⟩ | ⟨-, -, rfl⟩
    · exact absurd hm (List.nodup_cons.1 hl.2.2).1
    · rfl
  have e2 : t2.inorder = t.inorder := by
    rw [hord2, hord]
    exact attached_erase hx.2.2 hph
  have hc2 := hca2 (by rw [hord]; exact hca hc)
  rw [e2] at hc2
  refine ⟨m1, m2, t2, he, hE, hl2, hrb2, e2, by rw [e2]; exact hx.2.2, by rw [e2], ?_, ?_⟩
  · rw [hc2.1, hc.1]
  · rw [hc2.2, hc.2]

/-- Witness of C8: node 4 is attached to the right of the red leaf 3 of the tree left by
the keys 10, 5, 15, 3 (the insertion rotates twice and leaves 4 black above 3 and 5),
and is then erased. -/
theorem C8_insert_erase_roundtrip_witness :
    Linked memFour 100 treeFour ∧ treeFour.IsRB ∧ CachesOK memFour 100 treeFour.inorder ∧
      AttachPos memFour 100 treeFour false 3 ∧ Fresh 100 treeFour 4 ∧
      treeFour.inorder.length < 5 ∧
      ∃ m1 m2 t2, Rb_tree_insert_and_rebalance 5 false 4 3 100 memFour = some m1 ∧
        Rb_tree_rebalance_for_erase 5 4 100 m1 = some (4, m2) ∧
        Linked m2 100 t2 ∧ t2.IsRB ∧ t2.inorder = treeFour.inorder ∧ 4 ∉ t2.inorder ∧
        t2.inorder.length = treeFour.inorder.length ∧
        m2.M_left 100 = memFour.M_left 100 ∧ m2.M_right 100 = memFour.M_right 100 :=
  have h1 : Linked memFour 100 treeFour := by decide
  have h2 : treeFour.IsRB := by decide
  have h3 : CachesOK memFour 100 treeFour.inorder := ⟨by decide, by decide⟩
  have h4 : AttachPos memFour 100 treeFour false 3 := Or.inl ⟨by decide, by decide⟩
  have h5 : Fresh 100 treeFour 4 := ⟨by decide, by decide, by decide⟩
  have h6 : treeFour.inorder.length < 5 := by decide
  ⟨h1, h2, h3, h4, h5, h6,
    C8_insert_erase_roundtrip memFour 100 treeFour false 4 3 5 h1 h2 h3 h4 h5 h6⟩

/-! ## The first node of a tree -/

/-- C15 as stated fails for `insert_left = false`: on the empty tree the
constructor leaves (root absent, both caches the header), attaching node 1 to the header
as a right child never sets the root; the call follows the null root pointer and has no
result, for any fuel. -/
theorem C15_insert_right_of_header_fails :
    (memEmpty 100).M_parent 100 = 0 ∧ (memEmpty 100).M_left 100 = 100 ∧
    (memEmpty 100).M_right 100 = 100 ∧
    ¬ ∃ fuel m1, Rb_tree_insert_and_rebalance fuel false 1 100 100 (memEmpty 100) = some m1 := by
  refine ⟨by decide, by decide, by decide, ?_⟩
  rintro ⟨fuel, m1, he⟩
  have hn : Rb_tree_insert_and_rebalance fuel false 1 100 100 (memEmpty 100) = none := by
    rcases fuel with _ | n <;> rfl
  rw [hn] at he
  cases he

/-- C15, amended: with `insert_left = true` the call
`Rb_tree_insert_and_rebalance(true, x, &header, header)` returns and makes `x` the root
(`header.M_parent == x`, `x` black, `x->M_parent == header`) and both caches
(`header.M_left == x`, `header.M_right == x`).  The call overwrites the three links of
the header, so this holds on every empty tree (root absent, both caches the header),
whatever else the memory holds. -/
theorem C15_insert_first_node (m : Mem) (h x : Base_ptr) (fuel : Nat) (hh : h ≠ 0)
    (hx0 : x ≠ 0) (hxh : x ≠ h) (hfuel : 0 < fuel) :
    ∃ m1, Rb_tree_insert_and_rebalance fuel true x h h m = some m1 ∧
      m1.M_parent h = x ∧ m1.M_color x = S_black ∧ m1.M_parent x = h ∧
      m1.M_left h = x ∧ m1.M_right h = x := by
  obtain ⟨fuel, rfl⟩ : ∃ k, fuel = k + 1 := ⟨fuel - 1, by omega⟩
  have hhx : h ≠ x := Ne.symm hxh
  simp [Rb_tree_insert_and_rebalance, insert_link, insert_rebalance_loop, set_parent,
    set_left, set_right, set_color, get_parent, hh, hx0, hxh, hhx]

/-- Witness of C15 (amended): node 1 becomes the first node of the empty tree with the
header at address 100. -/
theorem C15_insert_first_node_witness :
    (100 : Base_ptr) ≠ 0 ∧ (1 : Base_ptr) ≠ 0 ∧ (1 : Base_ptr) ≠ 100 ∧
    (memEmpty 100).M_parent 100 = 0 ∧ (memEmpty 100).M_left 100 = 100 ∧
    (memEmpty 100).M_right 100 = 100 ∧ 0 < 1 ∧
    ∃ m1, Rb_tree_insert_and_rebalance 1 true 1 100 100 (memEmpty 100) = some m1 ∧
      m1.M_parent 100 = 1 ∧ m1.M_color 1 = S_black ∧ m1.M_parent 1 = 100 ∧
      m1.M_left 100 = 1 ∧ m1.M_right 100 = 1 :=
  ⟨by decide, by decide, by decide, by decide, by decide, by decide, by decide,
    C15_insert_first_node (memEmpty 100) 100 1 1 (by decide) (by decide) (by decide)
      (by decide)⟩

/-! ## More claims about `Rb_tree_rebalance_for_erase` that the code breaks -/

/-- C11 fails on the code.  Whenever `Rb_tree_rebalance_for_erase(z, header)` returns,
it returns `z`; but it does not always return: on the valid red-black tree built by
inserting 10, 9, ..., 1 in descending order, erasing the root 7 (a node with two
children, whose successor 8 is relinked into its place) follows a null pointer in the
rebalancing loop, so there is no result for any fuel. -/
theorem C11_erase_does_not_return :
    (∀ fuel z h m r, Rb_tree_rebalance_for_erase fuel z h m = some r → r.1 = z) ∧
    (insertKeys 12 100 [10, 9, 8, 7, 6, 5, 4, 3, 2, 1]).map
        (fun m => m.cells [100, 1, 2, 3, 4, 5, 6, 7, 8, 9, 10]) =
      some (memE.cells [100, 1, 2, 3, 4, 5, 6, 7, 8, 9, 10]) ∧
    Linked memE 100 treeE ∧ treeE.IsRB ∧ CachesOK memE 100 treeE.inorder ∧
    memE.M_color 100 = S_red ∧ 7 ∈ treeE.inorder ∧
    ¬ ∃ fuel r, Rb_tree_rebalance_for_erase fuel 7 100 memE = some r := by
  refine ⟨fun fuel z h m r he => erase_fst he, by decide, by decide, by decide,
    ⟨by decide, by decide⟩, by decide, by decide, ?_⟩
  rintro ⟨fuel, r, he⟩
  have hn : Rb_tree_rebalance_for_erase fuel 7 100 memE = none := by
    rcases fuel with _ | _ | _ | n <;> rfl
  rw [hn] at he
  cases he

/-- C16 fails on the code.  Case 2 of the erase loop returns as new `x_parent` the
parent of the parent of the new `x`.  On the tree built by inserting 1, ..., 10,
erasing node 1 leaves `x = 0` below `x_parent = 2`; the first pass of the loop is
Case 2 (the sibling 3 is black without children) and recolours 3 red, and it continues
with `x = 2` and `x_parent = 100`, the header, although the parent of node 2 is node 4
and node 2 is not the root. -/
theorem C16_erase_case2_skips_a_level :
    (∀ w xp m r, erase_case2 w xp m = some r →
      r.1 = xp ∧ r.2.1 = r.2.2.M_parent (r.2.2.M_parent xp)) ∧
    Linked memB 100 treeB ∧ treeB.IsRB ∧ 1 ∈ treeB.inorder ∧
    ∃ m0 m1, erase_unlink 12 1 100 memB = some (1, 0, 2, m0) ∧
      m0.M_right 2 = 3 ∧ m0.M_color 3 = S_black ∧ m0.M_left 3 = 0 ∧ m0.M_right 3 = 0 ∧
      erase_rebalance_body 0 2 100 m0 = some (false, 2, 100, m1) ∧
      m1.M_color 3 = S_red ∧ m1.M_parent 2 = 4 ∧ m1.M_parent 100 = 4 := by
  refine ⟨?_, by decide, by decide, by decide, ?_⟩
  · intro w xp m r he
    unfold erase_case2 at he
    cases h1 : set_color m w S_red with
    | none => simp [h1] at he
    | some m1 =>
      simp only [h1, Option.bind_eq_bind, Option.some_bind] at he
      cases h2 : get_parent m1 xp with
      | none => simp [h2] at he
      | some p1 =>
        simp only [h2, Option.some_bind] at he
        cases h3 : get_parent m1 p1 with
        | none => simp [h3] at he
        | some p2 =>
          simp only [h3, Option.some_bind, Option.some.injEq] at he
          subst he
          have e2 : m1.M_parent xp = p1 := by
            unfold get_parent at h2
            split at h2
            · cases h2
            · exact Option.some.inj h2
          have e3 : m1.M_parent p1 = p2 := by
            unfold get_parent at h3
            split at h3
            · cases h3
            · exact Option.some.inj h3
          simp [e2, e3]
  · have key1 : (erase_unlink 12 1 100 memB).map (fun r =>
        (r.1, r.2.1, r.2.2.1, r.2.2.2.M_right 2, r.2.2.2.M_color 3)) =
        some (1, 0, 2, 3, S_black) := by decide
    have key2 : (erase_unlink 12 1 100 memB).map (fun r =>
        (r.2.2.2.M_left 3, r.2.2.2.M_right 3)) = some (0, 0) := by decide
    have key3 : (erase_unlink 12 1 100 memB).bind (fun r =>
        (erase_rebalance_body r.2.1 r.2.2.1 100 r.2.2.2).map (fun q =>
          (q.1, q.2.1, q.2.2.1))) = some (false, 2, 100) := by decide
    have key4 : (erase_unlink 12 1 100 memB).bind (fun r =>
        (erase_rebalance_body r.2.1 r.2.2.1 100 r.2.2.2).map (fun q =>
          (q.2.2.2.M_color 3, q.2.2.2.M_parent 2, q.2.2.2.M_parent 100))) =
        some (S_red, 4, 4) := by decide
    cases h1 : erase_unlink 12 1 100 memB with
    | none => simp [h1] at key1
    | some r =>
      obtain ⟨y, x, xp, m0⟩ := r
      simp only [h1, Option.map_some', Option.some_bind, Option.some.injEq,
        Prod.mk.injEq] at key1 key2 key3 key4
      obtain ⟨rfl, rfl, rfl, k1, k2⟩ := key1
      obtain ⟨k3, k4⟩ := key2
      cases h2 : erase_rebalance_body 0 2 100 m0 with
      | none => simp [h2] at key3
      | some q =>
        obtain ⟨b, x1, xp1, m1⟩ := q
        simp only [h2, Option.map_some', Option.some.injEq, Prod.mk.injEq] at key3 key4
        obtain ⟨rfl, rfl, rfl⟩ := key3
        obtain ⟨k5, k6, k7⟩ := key4
        exact ⟨m0, m1, rfl, k1, k2, k3, k4, h2, k5, k6, k7⟩

/-! ## The header test of `Rb_tree_decrement` -/

/-- C17: in a linked non-empty tree with a black root and a red header, the header is
the only node `n` (header included) that is red and has `n->M_parent->M_parent == n`;
the test of the first branch of `Rb_tree_decrement` evaluates to true exactly at the
header, and `Rb_tree_decrement` takes its first branch (returning `header.M_right`)
there. -/
theorem C17_header_signature (m : Mem) (h : Base_ptr) (t : Tree) (n : Base_ptr)
    (hl : Linked m h t) (hne : t ≠ Tree.nil) (hroot : t.rootColor = S_black)
    (hred : m.M_color h = S_red) (hn : n = h ∨ n ∈ t.inorder) :
    ((m.M_color n = S_red ∧ m.M_parent (m.M_parent n) = n) ↔ n = h) ∧
    decrement_first_branch m n = some (decide (n = h)) ∧
    (∀ fuel, Rb_tree_decrement fuel m n =
      (decrement_first_branch m n).bind fun b =>
        if b then get_right m n
        else (get_left m n).bind fun l =>
          if l ≠ 0 then S_maximum fuel m l
          else (get_parent m n).bind fun y =>
            (decrement_climb fuel m n y).bind fun r => some r.2) := by
  have hiff : (m.M_color n = S_red ∧ m.M_parent (m.M_parent n) = n) ↔ n = h := by
    constructor
    · rintro ⟨hc, hp⟩
      rcases hn with rfl | hn
      · rfl
      · exfalso
        obtain ⟨C, c, l, r, par, rfl, F⟩ := linked_find hl hn
        obtain ⟨-, hnot⟩ := focus_not_header_test F hroot
        obtain ⟨-, -, hcol, hpar⟩ := focus_node F
        rw [hpar] at hp
        exact hnot ⟨hcol ▸ hc, hp⟩
    · rintro rfl
      obtain ⟨hr0, -⟩ := linked_root hl hne
      obtain ⟨hh, hr, -⟩ := hl
      cases t with
      | nil => exact absurd rfl hne
      | node c l a r =>
        obtain ⟨e, -, -, hp, -⟩ := hr
        rw [← e] at hp
        exact ⟨hred, by rw [hp]⟩
  have hn0 : n ≠ 0 := by
    rcases hn with rfl | hn
    · exact hl.1
    · obtain ⟨C, c, l, r, par, rfl, F⟩ := linked_find hl hn
      exact (focus_node F).2.1
  have hp0 : m.M_color n = S_red → m.M_parent n ≠ 0 := by
    intro hc
    rcases hn with rfl | hn
    · exact (linked_root hl hne).1
    · obtain ⟨C, c, l, r, par, rfl, F⟩ := linked_find hl hn
      obtain ⟨hpar0, -⟩ := focus_not_header_test F hroot
      rw [(focus_node F).2.2.2]
      exact hpar0
  refine ⟨hiff, ?_, ?_⟩
  · by_cases hc : m.M_color n = S_red
    · simp only [decrement_first_branch, get_color, get_parent, hn0, hp0 hc, hc, if_false,
        if_true, Option.bind_eq_bind, Option.some_bind]
      congr 1
      simp only [decide_eq_decide]
      rw [← hiff]
      simp [hc]
    · have hnh : n ≠ h := fun e => hc (e ▸ hred)
      simp [decrement_first_branch, get_color, hn0, hc, hnh]
  · intro fuel
    unfold Rb_tree_decrement decrement_first_branch
    cases get_color m n with
    | none => rfl
    | some c =>
      simp only [Option.bind_eq_bind, Option.some_bind]
      by_cases hc : c = S_red
      · simp only [hc, if_true]
        cases get_parent m n with
        | none => rfl
        | some xp =>
          simp only [Option.some_bind]
          cases get_parent m xp with
          | none => rfl
          | some xpp => rfl
      · simp only [hc, if_false]
        rfl

/-- Witness of C17: node 3, the red leaf of the tree left by the keys 10, 5, 15, 3. -/
theorem C17_header_signature_witness :
    Linked memFour 100 treeFour ∧ treeFour ≠ Tree.nil ∧ treeFour.rootColor = S_black ∧
    memFour.M_color 100 = S_red ∧ ((3 : Base_ptr) = 100 ∨ 3 ∈ treeFour.inorder) ∧
    ((memFour.M_color 3 = S_red ∧ memFour.M_parent (memFour.M_parent 3) = 3) ↔
      (3 : Base_ptr) = 100) ∧
    decrement_first_branch memFour 3 = some (decide ((3 : Base_ptr) = 100)) ∧
    (∀ fuel, Rb_tree_decrement fuel memFour 3 =
      (decrement_first_branch memFour 3).bind fun b =>
        if b then get_right memFour 3
        else (get_left memFour 3).bind fun l =>
          if l ≠ 0 then S_maximum fuel memFour l
          else (get_parent memFour 3).bind fun y =>
            (decrement_climb fuel memFour 3 y).bind fun r => some r.2) :=
  have h1 : Linked memFour 100 treeFour := by decide
  have h2 : treeFour ≠ Tree.nil := by decide
  have h3 : treeFour.rootColor = S_black := by decide
  have h4 : memFour.M_color 100 = S_red := by decide
  have h5 : (3 : Base_ptr) = 100 ∨ 3 ∈ treeFour.inorder := Or.inr (by decide)
  ⟨h1, h2, h3, h4, h5, C17_header_signature memFour 100 treeFour 3 h1 h2 h3 h4 h5⟩

/-! ## The claims about the type classification -/

/-- C12 fails on the code.  `is_integer` has no specialization for `wchar_t` and none
for `char16_t`, both among the types of the test: for them the primary template gives
`value = 0`, where the standard `is_integral` answers true.  On the thirteen other
types of the test the predicate agrees with the standard answer. -/
theorem C12_is_integer_misses_wide_chars :
    CppType.wchar_t ∈ is_integral_test_types ∧ CppType.char16_t ∈ is_integral_test_types ∧
    (is_integer CppType.wchar_t).value = 0 ∧ std_is_integral CppType.wchar_t = true ∧
    (is_integer CppType.char16_t).value = 0 ∧ std_is_integral CppType.char16_t = true ∧
    ∀ T ∈ is_integral_test_types, T ≠ CppType.wchar_t → T ≠ CppType.char16_t →
      ((is_integer T).value ≠ 0 ↔ std_is_integral T = true) := by
  decide

/-- C13: for every type `T`, `is_arithmetic<T>::value` is true exactly when
`is_integer<T>::value` or `is_floating<T>::value` is, `is_scalar<T>::value` is true
exactly when `is_arithmetic<T>::value` or `is_pointer<T>::value` is,
`is_pointer<U*>::value` is 1 for every pointee `U`, and for each of the five templates
the member `type` is `__true_type` exactly when `value` is true. -/
theorem C13_arithmetic_scalar (T : CppType) :
    ((is_arithmetic T).value ≠ 0 ↔ (is_integer T).value ≠ 0 ∨ (is_floating T).value ≠ 0) ∧
    ((is_scalar T).value ≠ 0 ↔ (is_arithmetic T).value ≠ 0 ∨ (is_pointer T).value ≠ 0) ∧
    (∀ U, (is_pointer (CppType.pointer U)).value = 1) ∧
    ((is_integer T).type = TruthTag.__true_type ↔ (is_integer T).value ≠ 0) ∧
    ((is_floating T).type = TruthTag.__true_type ↔ (is_floating T).value ≠ 0) ∧
    ((is_pointer T).type = TruthTag.__true_type ↔ (is_pointer T).value ≠ 0) ∧
    ((is_arithmetic T).type = TruthTag.__true_type ↔ (is_arithmetic T).value ≠ 0) ∧
    ((is_scalar T).type = TruthTag.__true_type ↔ (is_scalar T).value ≠ 0) :=
  ⟨traitor_value _ _, traitor_value _ _, fun _ => rfl, is_integer_type T, is_floating_type T,
    is_pointer_type T, traitor_type _ _, traitor_type _ _⟩

/-! ## The claims about the iterator functions -/

/-- C14: for a bidirectional iterator, `advance(i, n)` returns (for every fuel above
the absolute value of `n`) and leaves `i` at the position reached by exactly `n`
increments when `n ≥ 0`, by exactly `-n` decrements when `n < 0`, and unchanged when
`n = 0`; when positions are integers the result is `i + n`. -/
theorem C14_advance_bidirectional {α : Type} (ops : IterOps α) (constant_p : Bool)
    (fuel : Nat) (i : α) (n : Int) (j : Int) (hfuel : n.natAbs < fuel) :
    (0 ≤ n → advance ops iterator_tag.bidirectional_iterator_tag constant_p fuel i n =
      some (ops.inc^[n.toNat] i)) ∧
    (n < 0 → advance ops iterator_tag.bidirectional_iterator_tag constant_p fuel i n =
      some (ops.dec^[(-n).toNat] i)) ∧
    (n = 0 → advance ops iterator_tag.bidirectional_iterator_tag constant_p fuel i n =
      some i) ∧
    advance intOps iterator_tag.bidirectional_iterator_tag constant_p fuel j n =
      some (j + n) := by
  have hpos : 0 ≤ n → ∀ (β : Type) (o : IterOps β) (b : β),
      advance o iterator_tag.bidirectional_iterator_tag constant_p fuel b n =
        some (o.inc^[n.toNat] b) := by
    intro hn β o b
    obtain ⟨k, rfl⟩ := Int.eq_ofNat_of_zero_le hn
    simp only [Int.natAbs_ofNat] at hfuel
    simp only [advance, __advance_bidirectional, Int.toNat_ofNat]
    rcases k with _ | k
    · rw [if_neg (by simp)]
      exact advance_backward_spec o 0 fuel b hfuel
    · rw [if_pos (by omega)]
      exact advance_forward_spec o (k + 1) fuel b hfuel
  have hneg : n < 0 → ∀ (β : Type) (o : IterOps β) (b : β),
      advance o iterator_tag.bidirectional_iterator_tag constant_p fuel b n =
        some (o.dec^[(-n).toNat] b) := by
    intro hn β o b
    obtain ⟨k, hk⟩ := Int.eq_ofNat_of_zero_le (show 0 ≤ -n by omega)
    have e : n = -(k : Int) := by omega
    subst e
    simp only [Int.natAbs_neg, Int.natAbs_ofNat] at hfuel
    simp only [advance, __advance_bidirectional, neg_neg, Int.toNat_ofNat]
    rw [if_neg (by omega)]
    exact advance_backward_spec o k fuel b hfuel
  refine ⟨fun hn => hpos hn α ops i, fun hn => hneg hn α ops i, ?_, ?_⟩
  · rintro rfl
    simpa using hpos le_rfl α ops i
  · rcases lt_or_le n 0 with hn | hn
    · rw [hneg hn, intOps_dec_iterate]
      congr 1
      omega
    · rw [hpos hn, intOps_inc_iterate]
      congr 1
      omega

/-- Witness of C14: three steps back from position 5. -/
theorem C14_advance_bidirectional_witness :
    ((-3 : Int)).natAbs < 4 ∧
    ((0 : Int) ≤ -3 → advance intOps iterator_tag.bidirectional_iterator_tag false 4 5 (-3) =
      some (intOps.inc^[(-3 : Int).toNat] 5)) ∧
    ((-3 : Int) < 0 → advance intOps iterator_tag.bidirectional_iterator_tag false 4 5 (-3) =
      some (intOps.dec^[(-(-3 : Int)).toNat] 5)) ∧
    ((-3 : Int) = 0 → advance intOps iterator_tag.bidirectional_iterator_tag false 4 5 (-3) =
      some 5) ∧
    advance intOps iterator_tag.bidirectional_iterator_tag false 4 7 (-3) = some (7 + -3) :=
  ⟨by decide, C14_advance_bidirectional intOps false 4 5 (-3) 7 (by decide)⟩

/-! ## The claims about the rotations and about `S_minimum`, `S_maximum` -/

/-- C18: in a linked tree, for a node `x` with a right child `y`,
`Rb_tree_rotate_left(x, root)` returns and leaves a linked tree with the same in-order
sequence in which `y->M_parent` is the old parent of `x`, `y->M_left` is `x`,
`x->M_parent` is `y`, `x->M_right` is the old left child of `y` whose parent link (when
it exists) is `x`, the root reference is `y` exactly when `x` was the root, and
otherwise the old parent of `x` points to `y` through the slot that held `x`, its other
slot and the root reference being unchanged; `Rb_tree_rotate_right` does the mirror
image for a node with a left child. -/
theorem C18_rotations (m : Mem) (h : Base_ptr) (t : Tree) (x : Base_ptr)
    (hl : Linked m h t) (hx : x ∈ t.inorder) :
    (m.M_right x ≠ 0 →
      ∃ m1 t1, Rb_tree_rotate_left x h m = some m1 ∧ Linked m1 h t1 ∧
        t1.inorder = t.inorder ∧
        m1.M_parent (m.M_right x) = m.M_parent x ∧ m1.M_left (m.M_right x) = x ∧
        m1.M_parent x = m.M_right x ∧ m1.M_right x = m.M_left (m.M_right x) ∧
        (m.M_left (m.M_right x) ≠ 0 → m1.M_parent (m.M_left (m.M_right x)) = x) ∧
        (m1.M_parent h = m.M_right x ↔ m.M_parent h = x) ∧
        (m.M_parent h ≠ x → m1.M_parent h = m.M_parent h ∧
          (m.M_left (m.M_parent x) = x → m1.M_left (m.M_parent x) = m.M_right x ∧
            m1.M_right (m.M_parent x) = m.M_right (m.M_parent x)) ∧
          (m.M_left (m.M_parent x) ≠ x → m1.M_right (m.M_parent x) = m.M_right x ∧
            m1.M_left (m.M_parent x) = m.M_left (m.M_parent x)))) ∧
    (m.M_left x ≠ 0 →
      ∃ m1 t1, Rb_tree_rotate_right x h m = some m1 ∧ Linked m1 h t1 ∧
        t1.inorder = t.inorder ∧
        m1.M_parent (m.M_left x) = m.M_parent x ∧ m1.M_right (m.M_left x) = x ∧
        m1.M_parent x = m.M_left x ∧ m1.M_left x = m.M_right (m.M_left x) ∧
        (m.M_right (m.M_left x) ≠ 0 → m1.M_parent (m.M_right (m.M_left x)) = x) ∧
        (m1.M_parent h = m.M_left x ↔ m.M_parent h = x) ∧
        (m.M_parent h ≠ x → m1.M_parent h = m.M_parent h ∧
          (m.M_left (m.M_parent x) = x → m1.M_left (m.M_parent x) = m.M_left x ∧
            m1.M_right (m.M_parent x) = m.M_right (m.M_parent x)) ∧
          (m.M_left (m.M_parent x) ≠ x → m1.M_right (m.M_parent x) = m.M_left x ∧
            m1.M_left (m.M_parent x) = m.M_left (m.M_parent x)))) :=
  ⟨fun hy => rotate_left_links hl hx hy, fun hy => rotate_right_links hl hx hy⟩

/-- Witness of C18: node 5 of the tree left by the keys 10, 5, 15, 3, 7, which has the
left child 3 and the right child 7 and hangs in the left slot of the root 10. -/
theorem C18_rotations_witness :
    Linked memFive 100 treeFive ∧ (5 : Base_ptr) ∈ treeFive.inorder ∧
    memFive.M_right 5 ≠ 0 ∧ memFive.M_left 5 ≠ 0 ∧
    (memFive.M_right 5 ≠ 0 →
      ∃ m1 t1, Rb_tree_rotate_left 5 100 memFive = some m1 ∧ Linked m1 100 t1 ∧
        t1.inorder = treeFive.inorder ∧
        m1.M_parent (memFive.M_right 5) = memFive.M_parent 5 ∧ m1.M_left (memFive.M_right 5) = (5 : Base_ptr) ∧
        m1.M_parent 5 = memFive.M_right 5 ∧ m1.M_right 5 = memFive.M_left (memFive.M_right 5) ∧
        (memFive.M_left (memFive.M_right 5) ≠ 0 → m1.M_parent (memFive.M_left (memFive.M_right 5)) = 5) ∧
        (m1.M_parent 100 = memFive.M_right 5 ↔ memFive.M_parent 100 = 5) ∧
        (memFive.M_parent 100 ≠ (5 : Base_ptr) → m1.M_parent 100 = memFive.M_parent 100 ∧
          (memFive.M_left (memFive.M_parent 5) = (5 : Base_ptr) → m1.M_left (memFive.M_parent 5) = memFive.M_right 5 ∧
            m1.M_right (memFive.M_parent 5) = memFive.M_right (memFive.M_parent 5)) ∧
          (memFive.M_left (memFive.M_parent 5) ≠ (5 : Base_ptr) → m1.M_right (memFive.M_parent 5) = memFive.M_right 5 ∧
            m1.M_left (memFive.M_parent 5) = memFive.M_left (memFive.M_parent 5)))) ∧
    (memFive.M_left 5 ≠ 0 →
      ∃ m1 t1, Rb_tree_rotate_right 5 100 memFive = some m1 ∧ Linked m1 100 t1 ∧
        t1.inorder = treeFive.inorder ∧
        m1.M_parent (memFive.M_left 5) = memFive.M_parent 5 ∧ m1.M_right (memFive.M_left 5) = (5 : Base_ptr) ∧
        m1.M_parent 5 = memFive.M_left 5 ∧ m1.M_left 5 = memFive.M_right (memFive.M_left 5) ∧
        (memFive.M_right (memFive.M_left 5) ≠ 0 → m1.M_parent (memFive.M_right (memFive.M_left 5)) = 5) ∧
        (m1.M_parent 100 = memFive.M_left 5 ↔ memFive.M_parent 100 = 5) ∧
        (memFive.M_parent 100 ≠ (5 : Base_ptr) → m1.M_parent 100 = memFive.M_parent 100 ∧
          (memFive.M_left (memFive.M_parent 5) = (5 : Base_ptr) → m1.M_left (memFive.M_parent 5) = memFive.M_left 5 ∧
            m1.M_right (memFive.M_parent 5) = memFive.M_right (memFive.M_parent 5)) ∧
          (memFive.M_left (memFive.M_parent 5) ≠ (5 : Base_ptr) → m1.M_right (memFive.M_parent 5) = memFive.M_left 5 ∧
            m1.M_left (memFive.M_parent 5) = memFive.M_left (memFive.M_parent 5)))) :=
  have h1 : Linked memFive 100 treeFive := by decide
  have h2 : (5 : Base_ptr) ∈ treeFive.inorder := by decide
  ⟨h1, h2, by decide, by decide, C18_rotations memFive 100 treeFive 5 h1 h2⟩

/-- C20: for a node `x` of a linked tree, with the subtree rooted at `x` cut out as
`t = C.plug (node c l x r)`: `S_minimum(x)` returns (for every fuel from the number of
nodes on) the first node of the in-order sequence of that subtree, which is reached
from `x` by left links only and has no left child; `S_maximum(x)` returns the last
node of that sequence, reached by right links only and without a right child; and each
returns `x` itself when `x` has no child on that side. -/
theorem C20_minimum_maximum (m : Mem) (h : Base_ptr) (t : Tree) (x : Base_ptr) (fuel : Nat)
    (hl : Linked m h t) (hx : x ∈ t.inorder) (hfuel : t.inorder.length ≤ fuel) :
    ∃ (C : Ctx) (c : Rb_tree_color) (l r : Tree), t = C.plug (Tree.node c l x r) ∧
      (∃ y k, S_minimum fuel m x = some y ∧ (Tree.node c l x r).inorder.head? = some y ∧
        m.M_left^[k] x = y ∧ m.M_left y = 0) ∧
      (∃ y k, S_maximum fuel m x = some y ∧ (Tree.node c l x r).inorder.getLast? = some y ∧
        m.M_right^[k] x = y ∧ m.M_right y = 0) ∧
      (m.M_left x = 0 → S_minimum fuel m x = some x) ∧
      (m.M_right x = 0 → S_maximum fuel m x = some x) := by
  obtain ⟨C, c, l, r, par, rfl, F⟩ := linked_find hl hx
  have hr := F.2.2.1
  have hlen : (Tree.node c l x r).inorder.length ≤ fuel := by
    rw [inorder_plug] at hfuel
    simp only [List.length_append] at hfuel
    omega
  have emin := S_minimum_spec _ _ _ fuel hr (by simp) hlen
  have emax := S_maximum_spec _ _ _ fuel hr (by simp) hlen
  obtain ⟨y1, k1, a1, a2, a3⟩ := minimum_links _ _ _ hr (by simp)
  obtain ⟨y2, k2, b1, b2, b3⟩ := maximum_links _ _ _ hr (by simp)
  refine ⟨C, c, l, r, rfl, ⟨y1, k1, emin.trans a1, a1, a2, a3⟩,
    ⟨y2, k2, emax.trans b1, b1, b2, b3⟩, ?_, ?_⟩
  · intro h0
    obtain ⟨-, -, -, -, hrl, -⟩ := hr
    rw [h0] at hrl
    rw [emin, Rep_null hrl]
    simp [Tree.inorder]
  · intro h0
    obtain ⟨-, -, -, -, -, hrr⟩ := hr
    rw [h0] at hrr
    rw [emax, Rep_null hrr]
    simp [Tree.inorder]

/-- Witness of C20: the root 10 of the tree left by the keys 10, 5, 15, 3. -/
theorem C20_minimum_maximum_witness :
    Linked memFour 100 treeFour ∧ (10 : Base_ptr) ∈ treeFour.inorder ∧
    treeFour.inorder.length ≤ 4 ∧
    ∃ (C : Ctx) (c : Rb_tree_color) (l r : Tree), treeFour = C.plug (Tree.node c l 10 r) ∧
      (∃ y k, S_minimum 4 memFour 10 = some y ∧ (Tree.node c l 10 r).inorder.head? = some y ∧
        memFour.M_left^[k] 10 = y ∧ memFour.M_left y = 0) ∧
      (∃ y k, S_maximum 4 memFour 10 = some y ∧
        (Tree.node c l 10 r).inorder.getLast? = some y ∧
        memFour.M_right^[k] 10 = y ∧ memFour.M_right y = 0) ∧
      (memFour.M_left 10 = 0 → S_minimum 4 memFour 10 = some 10) ∧
      (memFour.M_right 10 = 0 → S_maximum 4 memFour 10 = some 10) :=
  have h1 : Linked memFour 100 treeFour := by decide
  have h2 : (10 : Base_ptr) ∈ treeFour.inorder := by decide
  have h3 : treeFour.inorder.length ≤ 4 := by decide
  ⟨h1, h2, h3, C20_minimum_maximum memFour 100 treeFour 10 4 h1 h2 h3⟩

/-! ## Erasing where the spliced position is red -/

/-- C19: in a linked red-black tree, let `z` be a node such that `z` is red when it has
at most one child, and the in-order successor of `z` is red when it has two.  Then
`Rb_tree_rebalance_for_erase(z, header)` returns `z` and the memory it leaves is the one
the unlinking part (lines 445-524) leaves, in which the spliced node is red: the guard
of line 526 fails, so no pass of the rebalancing loop and no rotation takes place.  The
tree left is a linked red-black tree whose in-order sequence is the old one without `z`;
no colour changes when `z` has at most one child, and when it has two the only change
is that `z` and its successor swap their colours. -/
theorem C19_erase_red_splice (m : Mem) (h : Base_ptr) (t : Tree) (z : Base_ptr) (fuel : Nat)
    (hl : Linked m h t) (hrb : t.IsRB) (hz : z ∈ t.inorder)
    (hone : m.M_left z = 0 ∨ m.M_right z = 0 → m.M_color z = S_red)
    (htwo : m.M_left z ≠ 0 → m.M_right z ≠ 0 →
      ∃ A s B, t.inorder = A ++ z :: s :: B ∧ m.M_color s = S_red)
    (hfuel : t.inorder.length ≤ fuel) :
    ∃ x xp m1 t1, erase_unlink fuel z h m = some (z, x, xp, m1) ∧ m1.M_color z = S_red ∧
      Rb_tree_rebalance_for_erase fuel z h m = some (z, m1) ∧
      Linked m1 h t1 ∧ t1.IsRB ∧ t1.inorder = t.inorder.erase z ∧
      (m.M_left z = 0 ∨ m.M_right z = 0 → ∀ a, m1.M_color a = m.M_color a) ∧
      (m.M_left z ≠ 0 → m.M_right z ≠ 0 → ∀ A s B, t.inorder = A ++ z :: s :: B →
        m1.M_color s = m.M_color z ∧ m1.M_color z = m.M_color s ∧
        ∀ a, a ≠ z → a ≠ s → m1.M_color a = m.M_color a) := by
  obtain ⟨C, c, L, R, par, rfl, F⟩ := linked_find hl hz
  obtain ⟨hctx, hnr, hbal, hcol⟩ := (plug_isRB C _).1 hrb
  obtain ⟨-, hz0, hzc, hzp⟩ := focus_node F
  obtain ⟨-, -, -, -, hRL, hRR⟩ := F.2.2.1
  obtain ⟨hnr0, hnrL, hnrR⟩ := hnr
  obtain ⟨hbal0, hbalL, hbalR⟩ := hbal
  have hnd := (List.nodup_cons.1 F.2.2.2).2
  have hre : C.before ++ (Tree.node c L z R).inorder ++ C.after =
      (C.before ++ L.inorder) ++ z :: (R.inorder ++ C.after) := by
    simp [Tree.inorder]
  rw [hre] at hnd
  have hzA : z ∉ C.before ++ L.inorder := fun hm =>
    (List.nodup_append.1 hnd).2.2 hm (List.mem_cons_self _ _)
  have hzB : z ∉ R.inorder ++ C.after := (List.nodup_cons.1 (List.nodup_append.1 hnd).2.1).1
  have hlen : (C.plug (Tree.node c L z R)).inorder.length =
      C.before.length + (L.inorder.length + (R.inorder.length + 1)) + C.after.length := by
    rw [inorder_plug]
    simp [Tree.inorder]
    omega
  have hf0 : 0 < fuel := by omega
  have hfR : R.inorder.length ≤ fuel := by omega
  by_cases hL : L = Tree.nil
  · subst hL
    have hzl : m.M_left z = 0 := hRL
    obtain rfl : c = S_red := by rw [← hzc]; exact hone (Or.inl hzl)
    obtain rfl : R = Tree.nil :=
      nil_of_black (hnr0 rfl).2 (by simpa [Tree.blackHeight] using hbal0.symm)
    obtain ⟨m1, hu, F1, hcolr, -, -⟩ := erase_unlink_leaf F hf0
    have hcz : m1.M_color z = S_red := by rw [hcolr, hzc]
    refine ⟨0, par, m1, C.plug Tree.nil, hu, hcz, erase_of_unlink hu hz0 hcz,
      linked_of_focus F1, ?_, ?_, fun _ a => by rw [hcolr], fun h1 => absurd hzl h1⟩
    · refine (plug_isRB C Tree.nil).2 ⟨?_, trivial, trivial, by simp⟩
      simpa [Tree.blackHeight] using hctx
    · rw [inorder_plug, inorder_plug]
      simp only [Tree.inorder, List.nil_append, List.append_nil, List.append_assoc]
      exact (erase_mid (by simpa [Tree.inorder] using hzA)).symm
  · by_cases hR : R = Tree.nil
    · subst hR
      have hzr : m.M_right z = 0 := hRR
      obtain rfl : c = S_red := by rw [← hzc]; exact hone (Or.inr hzr)
      exact absurd (nil_of_black (hnr0 rfl).1 (by simpa [Tree.blackHeight] using hbal0)) hL
    · cases L with
      | nil => exact absurd rfl hL
      | node cl Ll l Lr =>
        have hzl : m.M_left z ≠ 0 := by
          rw [hRL.1]
          exact hRL.2.1
        have hzr : m.M_right z ≠ 0 := by
          rcases Rep_ptr hRR with ⟨-, e⟩ | ⟨e, -⟩
          · exact absurd e hR
          · exact e
        obtain ⟨y, hy, hyc⟩ := Rep_minColor hRR hR
        have hsucc : ∀ A s B, (C.plug (Tree.node c (Tree.node cl Ll l Lr) z R)).inorder =
            A ++ z :: s :: B → s = y := by
          intro A s B hs
          obtain ⟨-, e⟩ := focus_split F hs
          cases hRi : R.inorder with
          | nil => simp [hRi] at hy
          | cons y1 rest =>
            rw [hRi] at e hy
            simp only [List.head?_cons, Option.some.injEq] at hy
            simp only [List.cons_append, List.cons.injEq] at e
            rw [← hy]
            exact e.1
        obtain ⟨A, s, B, hs, hsc⟩ := htwo hzl hzr
        obtain rfl := hsucc A s B hs
        have hmc : R.minColor = S_red := by rw [← hyc, hsc]
        obtain ⟨y1, hy1, hml⟩ := minLeaf_of_red hR hnrR hbalR hmc
        obtain rfl : y1 = s := by
          rw [hy] at hy1
          exact (Option.some.inj hy1).symm
        obtain ⟨xp, m1, hu, F1, hcolr, -, -⟩ := erase_unlink_two F hml hsc hfR
        obtain ⟨k1, k2, k3, k4⟩ := removeMin_rb hml hmc hnrR hbalR
        have hzy : z ≠ y1 := by
          have hmem : y1 ∈ R.inorder := by
            rw [minLeaf_inorder hml]
            exact List.mem_cons_self _ _
          intro e
          rw [← e] at hmem
          exact hzB (List.mem_append.2 (Or.inl hmem))
        have hcz : m1.M_color z = S_red := by rw [hcolr]; simp
        refine ⟨0, xp, m1, _, hu, hcz, erase_of_unlink hu hz0 hcz, linked_of_focus F1,
          ?_, ?_, fun h1 => ?_, fun _ _ A1 s1 B1 hs1 => ?_⟩
        · refine (plug_isRB C _).2 ⟨?_, ⟨fun e => ⟨(hnr0 e).1, k4 (hnr0 e).2⟩, hnrL, k1⟩,
            ⟨hbal0.trans k3.symm, hbalL, k2⟩, by simpa using hcol⟩
          simpa [Tree.blackHeight] using hctx
        · rw [inorder_plug, inorder_plug]
          simp only [Tree.inorder, minLeaf_inorder hml, List.append_assoc, List.cons_append]
          have key := erase_mid (x := z) (A := C.before ++ (Ll.inorder ++ l :: Lr.inorder))
            (B := y1 :: (R.removeMin.inorder ++ C.after))
            (by simpa [Tree.inorder] using hzA)
          simpa using key.symm
        · rcases h1 with e | e
          · exact absurd e hzl
          · exact absurd e hzr
        · obtain rfl := hsucc A1 s1 B1 hs1
          rw [hcolr]
          refine ⟨?_, ?_, ?_⟩
          · simp [upd_other _ _ (Ne.symm hzy), hzc]
          · simp [hsc]
          · intro a ha1 ha2
            simp [upd_other _ _ ha1, upd_other _ _ ha2]

/-- Witness of C19: in the tree built by inserting 10, 2, 1, 4, 3, 6, 5, 8, 7, 9 the red
node 8 has the children 7 and 10, and its successor 9 is the red left child of 10. -/
theorem C19_erase_red_splice_witness :
    Linked memD 100 treeD ∧ treeD.IsRB ∧ (8 : Base_ptr) ∈ treeD.inorder ∧
    memD.M_left 8 ≠ 0 ∧ memD.M_right 8 ≠ 0 ∧
    (memD.M_left 8 = 0 ∨ memD.M_right 8 = 0 → memD.M_color 8 = S_red) ∧
    (memD.M_left 8 ≠ 0 → memD.M_right 8 ≠ 0 →
      ∃ A s B, treeD.inorder = A ++ 8 :: s :: B ∧ memD.M_color s = S_red) ∧
    treeD.inorder.length ≤ 12 ∧
    ∃ x xp m1 t1, erase_unlink 12 8 100 memD = some (8, x, xp, m1) ∧ m1.M_color 8 = S_red ∧
      Rb_tree_rebalance_for_erase 12 8 100 memD = some (8, m1) ∧
      Linked m1 100 t1 ∧ t1.IsRB ∧ t1.inorder = treeD.inorder.erase 8 ∧
      (memD.M_left 8 = 0 ∨ memD.M_right 8 = 0 → ∀ a, m1.M_color a = memD.M_color a) ∧
      (memD.M_left 8 ≠ 0 → memD.M_right 8 ≠ 0 → ∀ A s B, treeD.inorder = A ++ 8 :: s :: B →
        m1.M_color s = memD.M_color 8 ∧ m1.M_color 8 = memD.M_color s ∧
        ∀ a, a ≠ 8 → a ≠ s → m1.M_color a = memD.M_color a) :=
  have h1 : Linked memD 100 treeD := by decide
  have h2 : treeD.IsRB := by decide
  have h3 : (8 : Base_ptr) ∈ treeD.inorder := by decide
  have h4 : memD.M_left 8 = 0 ∨ memD.M_right 8 = 0 → memD.M_color 8 = S_red := by decide
  have h5 : memD.M_left 8 ≠ 0 → memD.M_right 8 ≠ 0 →
      ∃ A s B, treeD.inorder = A ++ 8 :: s :: B ∧ memD.M_color s = S_red :=
    fun _ _ => ⟨[1, 2, 3, 4, 5, 6, 7], 9, [10], by decide, by decide⟩
  have h6 : treeD.inorder.length ≤ 12 := by decide
  ⟨h1, h2, h3, by decide, by decide, h4, h5, h6,
    C19_erase_red_splice memD 100 treeD 8 12 h1 h2 h3 h4 h5 h6⟩

/-! ## The claim about the safety of the insertion loop -/

/-- C21: for every valid red-black tree, every valid attach position and every fresh
node, the rebalancing loop of `Rb_tree_insert_and_rebalance` returns (for every fuel
above the number of nodes) without following an absent link.  The states `tr` in which
the loop body is entered start at `x` in the memory left by the linking part, each next
one is what the body returns from the one before, and the loop returns the memory the
body returns from the last one.  In every such state the memory holds a linked tree
with the nodes of the old tree and `x`; the parent of `x` is a red node of that tree
other than the root; the grandparent `xpp` is a node of that tree, so it is not null
and not the header; the body returns, and each rotation it calls is given a node that
has the child it rotates around; and the colour of the header is the one it had before
the call.  On return of the loop and of the function the colour of the header is still
that colour, and the parent link of the root is the header. -/
theorem C21_insert_loop_safe (m : Mem) (h : Base_ptr) (t : Tree) (insert_left : Bool)
    (x p : Base_ptr) (fuel : Nat) (hl : Linked m h t) (hrb : t.IsRB)
    (hp : AttachPos m h t insert_left p) (hx : Fresh h t x)
    (hfuel : t.inorder.length < fuel) :
    ∃ m0 tr m1 m2, insert_link insert_left x p h m = some m0 ∧
      insert_rebalance_trace fuel x h m0 = some tr ∧
      insert_rebalance_loop fuel x h m0 = some m1 ∧
      Rb_tree_insert_and_rebalance fuel insert_left x p h m = some m2 ∧
      (∀ st ∈ tr.head?, st = (x, m0)) ∧
      List.Chain' (fun a b => insert_rebalance_body a.1 h a.2 = some b) tr ∧
      ((tr = [] ∧ m1 = m0) ∨
        ∃ st r, tr.getLast? = some st ∧ insert_rebalance_body st.1 h st.2 = some r ∧
          r.2 = m1) ∧
      (∀ st ∈ tr, ∃ t1, Linked st.2 h t1 ∧
        t1.inorder = attached insert_left x p h t.inorder ∧
        st.2.M_parent st.1 ∈ t1.inorder ∧ st.2.M_parent st.1 ≠ st.2.M_parent h ∧
        st.2.M_color (st.2.M_parent st.1) = S_red ∧
        st.2.M_parent (st.2.M_parent st.1) ∈ t1.inorder ∧
        st.2.M_parent (st.2.M_parent st.1) ≠ 0 ∧ st.2.M_parent (st.2.M_parent st.1) ≠ h ∧
        st.2.M_color h = m.M_color h ∧
        ∃ r calls, insert_rebalance_body st.1 h st.2 = some r ∧
          insert_rebalance_rotations st.1 h st.2 = some calls ∧
          ∀ c ∈ calls, RotationHasChild c) ∧
      m1.M_color h = m.M_color h ∧ m1.M_parent (m1.M_parent h) = h ∧
      m2.M_color h = m.M_color h ∧ m2.M_parent (m2.M_parent h) = h := by
  obtain ⟨m0, C0, hlink, F0, hplug, hord0, hcol0, -⟩ := insert_link_spec hl hp hx
  have hI0 : InsInv C0 (Tree.node S_red Tree.nil x Tree.nil) := by
    have h1 := (plug_isRB C0 Tree.nil).1 (hplug ▸ hrb)
    refine ⟨rfl, by simp, ?_, by simp [Tree.noRedRed], by simp [Tree.balanced]⟩
    simpa [Tree.blackHeight] using h1.1
  have hdep : C0.depth < fuel := by
    have h1 := depth_le C0
    have h2 : t.inorder.length = C0.before.length + C0.after.length := by
      rw [← hplug, inorder_plug]
      simp [Tree.inorder]
    omega
  obtain ⟨m1, C1, s1, x1, par1, hloop, F1, I1, -, hex, hord1, -, -, j3⟩ :=
    insert_loop_sim (fun _ _ => True) (fun _ _ _ _ _ _ => trivial) fuel C0 _ x p m0 F0 hI0
      trivial hdep
  obtain ⟨tr, htr, hall⟩ := insert_trace_sim fuel C0 _ x p m0 F0 hI0 hdep
  have hl1 := linked_of_focus F1
  have hne1 : C1.plug s1 ≠ Tree.nil := plug_ne_nil I1.2.1
  obtain ⟨hr0, hl2⟩ := linked_blacken hl1 hne1
  obtain ⟨-, hrh⟩ := linked_root hl1 hne1
  have he : Rb_tree_insert_and_rebalance fuel insert_left x p h m =
      some (m1.setColor (m1.M_parent h) S_black) := by
    simp [Rb_tree_insert_and_rebalance, hlink, hloop, get_parent, set_color, hl.1, hr0]
  have hne2 : (C1.plug s1).blacken ≠ Tree.nil := by
    cases hq : C1.plug s1 with
    | nil => exact absurd hq hne1
    | node c l a r => simp
  have hord : (C0.plug (Tree.node S_red Tree.nil x Tree.nil)).inorder =
      attached insert_left x p h t.inorder := by
    rw [inorder_plug, ← hord0]
    simp [Tree.inorder]
  obtain ⟨m1c, hloopc, hhead, hchain, hlast⟩ := insert_trace_chain fuel x m0 tr htr
  obtain rfl : m1c = m1 := Option.some.inj (hloopc.symm.trans hloop)
  refine ⟨m0, tr, m1c, _, hlink, htr, hloop, he, hhead, hchain, hlast, ?_, j3.trans hcol0,
    linked_root_parent hl1 hne1, ?_, linked_root_parent hl2 hne2⟩
  · intro st hst
    obtain ⟨C2, s2, par2, F2, I2, hred, hnt, ho, hc⟩ := hall st hst
    obtain ⟨k1, k2, k3, k4, k5, k6, -, -⟩ := body_state_facts F2 I2 hred hnt
    obtain ⟨x3, par3, m3, hb, -⟩ := insert_body_sim F2 I2 hred hnt
    obtain ⟨calls, hcalls, hch⟩ := rotations_of_body hb
    exact ⟨_, linked_of_focus F2, ho.trans hord, k1, k2, k3, k4, k5, k6, hc.trans hcol0,
      _, calls, hb, hcalls, hch⟩
  · simp [Ne.symm hrh, j3, hcol0]

/-- Witness of C21: node 1 is attached to the left of the red node 3 of the tree left
by the keys 10, 5, 15, 3; the loop body is entered with grandparent 5 and rotates
right around it. -/
theorem C21_insert_loop_safe_witness :
    Linked memFour 100 treeFour ∧ treeFour.IsRB ∧ AttachPos memFour 100 treeFour true 3 ∧
      Fresh 100 treeFour 1 ∧ treeFour.inorder.length < 5 ∧
      ∃ m0 tr m1 m2, insert_link true 1 3 100 memFour = some m0 ∧
        insert_rebalance_trace 5 1 100 m0 = some tr ∧
        insert_rebalance_loop 5 1 100 m0 = some m1 ∧
        Rb_tree_insert_and_rebalance 5 true 1 3 100 memFour = some m2 ∧
        (∀ st ∈ tr.head?, st = (1, m0)) ∧
        List.Chain' (fun a b => insert_rebalance_body a.1 100 a.2 = some b) tr ∧
        ((tr = [] ∧ m1 = m0) ∨
          ∃ st r, tr.getLast? = some st ∧ insert_rebalance_body st.1 100 st.2 = some r ∧
            r.2 = m1) ∧
        (∀ st ∈ tr, ∃ t1, Linked st.2 100 t1 ∧
          t1.inorder = attached true 1 3 100 treeFour.inorder ∧
          st.2.M_parent st.1 ∈ t1.inorder ∧ st.2.M_parent st.1 ≠ st.2.M_parent 100 ∧
          st.2.M_color (st.2.M_parent st.1) = S_red ∧
          st.2.M_parent (st.2.M_parent st.1) ∈ t1.inorder ∧
          st.2.M_parent (st.2.M_parent st.1) ≠ 0 ∧
          st.2.M_parent (st.2.M_parent st.1) ≠ 100 ∧
          st.2.M_color 100 = memFour.M_color 100 ∧
          ∃ r calls, insert_rebalance_body st.1 100 st.2 = some r ∧
            insert_rebalance_rotations st.1 100 st.2 = some calls ∧
            ∀ c ∈ calls, RotationHasChild c) ∧
        m1.M_color 100 = memFour.M_color 100 ∧ m1.M_parent (m1.M_parent 100) = 100 ∧
        m2.M_color 100 = memFour.M_color 100 ∧ m2.M_parent (m2.M_parent 100) = 100 :=
  have h1 : Linked memFour 100 treeFour := by decide
  have h2 : treeFour.IsRB := by decide
  have h3 : AttachPos memFour 100 treeFour true 3 := Or.inl ⟨by decide, by decide⟩
  have h4 : Fresh 100 treeFour 1 := ⟨by decide, by decide, by decide⟩
  have h5 : treeFour.inorder.length < 5 := by decide
  ⟨h1, h2, h3, h4, h5, C21_insert_loop_safe memFour 100 treeFour true 1 3 5 h1 h2 h3 h4 h5⟩

/-! ## The claim that the rotations undo each other -/

/-- C22: in a linked tree, for a node `x` with a right child `y`,
`Rb_tree_rotate_left(x, root)` followed by `Rb_tree_rotate_right(y, root)` returns and
leaves the memory it started from: every parent, left and right link, the root
reference `header.M_parent` among them, has its original value; symmetrically for a node
`x` with a left child `y`, `Rb_tree_rotate_right(x, root)` followed by
`Rb_tree_rotate_left(y, root)`.  Neither rotation changes the colour of any node. -/
theorem C22_rotations_inverse (m : Mem) (h : Base_ptr) (t : Tree) (x : Base_ptr)
    (hl : Linked m h t) (hx : x ∈ t.inorder) :
    (m.M_right x ≠ 0 →
      ∃ m1 m2, Rb_tree_rotate_left x h m = some m1 ∧
        Rb_tree_rotate_right (m.M_right x) h m1 = some m2 ∧
        m2.M_parent = m.M_parent ∧ m2.M_left = m.M_left ∧ m2.M_right = m.M_right ∧
        m1.M_color = m.M_color ∧ m2.M_color = m1.M_color ∧ m2 = m) ∧
    (m.M_left x ≠ 0 →
      ∃ m1 m2, Rb_tree_rotate_right x h m = some m1 ∧
        Rb_tree_rotate_left (m.M_left x) h m1 = some m2 ∧
        m2.M_parent = m.M_parent ∧ m2.M_left = m.M_left ∧ m2.M_right = m.M_right ∧
        m1.M_color = m.M_color ∧ m2.M_color = m1.M_color ∧ m2 = m) := by
  constructor
  · intro hy
    obtain ⟨m1, e1, ec, e2⟩ := rotate_left_right_inverse hl hx hy
    exact ⟨m1, m, e1, e2, rfl, rfl, rfl, ec, ec.symm, rfl⟩
  · intro hy
    obtain ⟨m1, e1, ec, e2⟩ := rotate_right_left_inverse hl hx hy
    exact ⟨m1, m, e1, e2, rfl, rfl, rfl, ec, ec.symm, rfl⟩

/-- Witness of C22: node 5 of the tree left by the keys 10, 5, 15, 3, 7, which has the
left child 3 and the right child 7. -/
theorem C22_rotations_inverse_witness :
    Linked memFive 100 treeFive ∧ 5 ∈ treeFive.inorder ∧ memFive.M_right 5 ≠ 0 ∧
      memFive.M_left 5 ≠ 0 ∧
      (memFive.M_right 5 ≠ 0 →
        ∃ m1 m2, Rb_tree_rotate_left 5 100 memFive = some m1 ∧
          Rb_tree_rotate_right (memFive.M_right 5) 100 m1 = some m2 ∧
          m2.M_parent = memFive.M_parent ∧ m2.M_left = memFive.M_left ∧
          m2.M_right = memFive.M_right ∧
          m1.M_color = memFive.M_color ∧ m2.M_color = m1.M_color ∧ m2 = memFive) ∧
      (memFive.M_left 5 ≠ 0 →
        ∃ m1 m2, Rb_tree_rotate_right 5 100 memFive = some m1 ∧
          Rb_tree_rotate_left (memFive.M_left 5) 100 m1 = some m2 ∧
          m2.M_parent = memFive.M_parent ∧ m2.M_left = memFive.M_left ∧
          m2.M_right = memFive.M_right ∧
          m1.M_color = memFive.M_color ∧ m2.M_color = m1.M_color ∧ m2 = memFive) :=
  have h1 : Linked memFive 100 treeFive := by decide
  have h2 : 5 ∈ treeFive.inorder := by decide
  ⟨h1, h2, by decide, by decide, C22_rotations_inverse memFive 100 treeFive 5 h1 h2⟩

/-! ## The claim about the distance between input iterators -/

/-- C23 (the claim as stated fails): on a ring of three positions `__advance(i, 3)`
performs three increments from position 0 and comes back to position 0, and
`__distance(0, 0)` returns 0 for every fuel, not 3: the loop of `__distance` stops at
the first position equal to `last`. -/
theorem C23_distance_on_a_ring :
    (0 : Int) ≤ 3 ∧ __advance_input ringOps 4 0 3 = some (ringOps.inc^[3] 0) ∧
      __advance_input ringOps 4 0 3 = some 0 ∧
      (∀ fuel : Nat, __distance_input ringOps (fuel + 1) 0 0 = some 0) ∧
      ¬ (∃ fuel : Nat, __distance_input ringOps fuel 0 0 = some 3) := by
  have hd : ∀ fuel : Nat, __distance_input ringOps (fuel + 1) 0 0 = some 0 := by
    intro fuel
    simp [__distance_input, distance_loop]
  refine ⟨by decide, by decide, by decide, hd, ?_⟩
  rintro ⟨fuel, hf⟩
  cases fuel with
  | zero => simp [__distance_input, distance_loop] at hf
  | succ n =>
    rw [hd n] at hf
    simp at hf

/-- C23 (amended): for input iterators `first` and `last` such that `last` is reached
from `first` by `k` increments and by no fewer, `__distance(first, last)` returns `k`
(for every fuel above `k`) and `__advance(first, k)` leaves `first` equal to `last`.
For every `i` and `n ≥ 0`, `__advance(i, n)` returns the position reached by exactly `n`
increments; `__distance(i, result)` is `n` when no fewer than `n` increments lead from
`i` to the result, and in general it is the least number of increments that do. -/
theorem C23_distance_advance_input {α : Type} [DecidableEq α] (ops : IterOps α)
    (fuel k : Nat) (first last i : α) (n : Int)
    (hreach : ops.inc^[k] first = last) (hmin : ∀ j, j < k → ops.inc^[j] first ≠ last)
    (hk : k < fuel) (hn : 0 ≤ n) (hnf : n.toNat < fuel) :
    __distance_input ops fuel first last = some (k : Int) ∧
    __advance_input ops fuel first (k : Int) = some last ∧
    __advance_input ops fuel i n = some (ops.inc^[n.toNat] i) ∧
    ((∀ j, j < n.toNat → ops.inc^[j] i ≠ ops.inc^[n.toNat] i) →
      __distance_input ops fuel i (ops.inc^[n.toNat] i) = some n) ∧
    ∃ j : Nat, j ≤ n.toNat ∧
      __distance_input ops fuel i (ops.inc^[n.toNat] i) = some (j : Int) ∧
      ops.inc^[j] i = ops.inc^[n.toNat] i ∧
      ∀ j1, j1 < j → ops.inc^[j1] i ≠ ops.inc^[n.toNat] i := by
  obtain ⟨q, rfl⟩ := Int.eq_ofNat_of_zero_le hn
  simp only [Int.toNat_ofNat] at hnf ⊢
  refine ⟨?_, ?_, advance_forward_spec ops q fuel i hnf, fun hm => ?_, ?_⟩
  · simpa [__distance_input] using distance_loop_spec ops last k fuel first 0 hk hreach hmin
  · rw [← hreach]
    exact advance_forward_spec ops k fuel first hk
  · simpa [__distance_input] using distance_loop_spec ops _ q fuel i 0 hnf rfl hm
  · classical
    have hex : ∃ j, ops.inc^[j] i = ops.inc^[q] i := ⟨q, rfl⟩
    have hle : Nat.find hex ≤ q := Nat.find_min' hex rfl
    refine ⟨Nat.find hex, hle, ?_, Nat.find_spec hex, fun j1 hj1 => Nat.find_min hex hj1⟩
    simpa [__distance_input] using distance_loop_spec ops _ (Nat.find hex) fuel i 0
      (by omega) (Nat.find_spec hex) (fun j1 hj1 => Nat.find_min hex hj1)

/-- Witness of C23: on integer positions, from 2 to 5 in three increments, and four
increments from 7. -/
theorem C23_distance_advance_input_witness :
    intOps.inc^[3] 2 = 5 ∧ (∀ j, j < 3 → intOps.inc^[j] 2 ≠ 5) ∧ 3 < 6 ∧ (0 : Int) ≤ 4 ∧
      (4 : Int).toNat < 6 ∧
      __distance_input intOps 6 2 5 = some ((3 : Nat) : Int) ∧
      __advance_input intOps 6 2 ((3 : Nat) : Int) = some 5 ∧
      __advance_input intOps 6 7 4 = some (intOps.inc^[(4 : Int).toNat] 7) ∧
      ((∀ j, j < (4 : Int).toNat → intOps.inc^[j] 7 ≠ intOps.inc^[(4 : Int).toNat] 7) →
        __distance_input intOps 6 7 (intOps.inc^[(4 : Int).toNat] 7) = some 4) ∧
      ∃ j : Nat, j ≤ (4 : Int).toNat ∧
        __distance_input intOps 6 7 (intOps.inc^[(4 : Int).toNat] 7) = some (j : Int) ∧
        intOps.inc^[j] 7 = intOps.inc^[(4 : Int).toNat] 7 ∧
        ∀ j1, j1 < j → intOps.inc^[j1] 7 ≠ intOps.inc^[(4 : Int).toNat] 7 :=
  have h1 : intOps.inc^[3] 2 = 5 := by decide
  have h2 : ∀ j, j < 3 → intOps.inc^[j] 2 ≠ 5 := by decide
  have h3 : 3 < 6 := by decide
  have h4 : (0 : Int) ≤ 4 := by decide
  have h5 : (4 : Int).toNat < 6 := by decide
  ⟨h1, h2, h3, h4, h5, C23_distance_advance_input intOps 6 3 2 5 7 4 h1 h2 h3 h4 h5⟩

end ft
